import Mathlib

/-!
# RISC-V simulator: codec, instruction table, assembler, disassembler, cache, interpreter,
breakpoints, hazards

A shallow embedding of the C++ sources (`BitUtils.h`, `Instruction.cpp`,
`InstructionSet.cpp`, `Parser.cpp`, `LabelSet.cpp`, `Assembler.cpp`,
`DeAssembler.cpp`, `Memory.cpp`, `CacheBlock.cpp`, `AddressDecoder.h`,
`CacheConfig.cpp`, `Cache.cpp`, `CacheSimulator.cpp`, `CallFrame.h`,
`ShadowCallStack.cpp`, `BreakPointInfo.cpp`, `Simulator.cpp`,
`InteractiveSimulator.cpp`, `HazardDetector.cpp`) followed by theorems about it.

Conventions of the embedding.
* A `uint32_t` is a `Nat` kept below `2^32` (every operation that can leave the
  range is followed by `% 2^32`); a C++ `int` is an `Int` in the 32-bit range.
* `toU32` is the conversion `int -> uint32_t`, `toI32` the conversion
  `uint32_t -> int` (two's complement).
* `>>` on an `int` is the arithmetic shift, `Int.shiftRight`.
* An `int64_t` is an `Int`; `toU64` and `toI64` are the conversions to and from its bit
  pattern, and arithmetic that leaves the range wraps around.
-/

namespace RiscvSim

/-! ## Machine integers -/

/-- Conversion of a C++ `int` to `uint32_t` (reduction modulo `2^32`). -/
def toU32 (x : Int) : Nat := (x % 4294967296).toNat

/-- Conversion of a `uint32_t` to a C++ `int` (two's complement). -/
def toI32 (n : Nat) : Int :=
  if n % 4294967296 < 2147483648 then (n % 4294967296 : Nat) else (n % 4294967296 : Nat) - 4294967296

/-! ## BitUtils.h -/

namespace BitUtils

/-- `BitUtils::extract`: `(value >> start) & ((1u << length) - 1)`. -/
def extract (value start length : Nat) : Nat :=
  (value >>> start) &&& ((1 <<< length) % 4294967296 - 1)

/-- `BitUtils::pack`: `(value & ((1u << length) - 1)) << start`, on 32 bits. -/
def pack (value start length : Nat) : Nat :=
  ((value &&& ((1 <<< length) % 4294967296 - 1)) <<< start) % 4294967296

/-- `BitUtils::log2`: counts how often `x` can be halved before reaching `1`.
The loop runs at most 32 times on a `uint32_t`, which is the fuel given. -/
def log2Loop : Nat → Nat → Nat → Nat
  | 0, _, count => count
  | fuel + 1, x, count => if x > 1 then log2Loop fuel (x >>> 1) (count + 1) else count

/-- `BitUtils::log2`. -/
def log2 (x : Nat) : Nat := log2Loop 32 x 0

end BitUtils

open BitUtils

/-! ## Instruction.h / Instruction.cpp -/

/-- `enum class InstrFormat`. -/
inductive InstrFormat where
  | R | I | S | B | U | J
  deriving DecidableEq, Repr

/-- `class Instruction`: one record of the instruction table. -/
structure Instruction where
  mnemonic : String
  format : InstrFormat
  opcode : Int
  funct3 : Int
  funct7 : Int
  deriving DecidableEq, Repr

/-- `Instruction::isLoadInstruction`. -/
def isLoadInstruction (mnemonic : String) : Bool :=
  decide (mnemonic ∈ ["lb", "lh", "lw", "lbu", "lhu", "ld", "lwu"])

/-- `Instruction::isShiftInstruction`. -/
def isShiftInstruction (mnemonic : String) : Bool :=
  decide (mnemonic ∈ ["sll", "srl", "sra", "slli", "srli", "srai",
    "sllw", "srlw", "sraw", "slliw", "srliw", "sraiw"])

/-- The four out-parameters of `decodeRegistersAndImmediate`. -/
structure Operands where
  rd : Int
  rs1 : Int
  rs2 : Int
  imm : Int
  deriving DecidableEq, Repr

/-- `Instruction::decodeRegistersAndImmediate`. -/
def Instruction.decodeRegistersAndImmediate (self : Instruction) (code : Nat) : Operands :=
  match self.format with
  | .R =>
    { rd := toI32 (extract code 7 5), rs1 := toI32 (extract code 15 5),
      rs2 := toI32 (extract code 20 5), imm := 0 }
  | .I =>
    let rd := toI32 (extract code 7 5)
    let rs1 := toI32 (extract code 15 5)
    let funct3 := toI32 (extract code 12 3)
    let imm : Int :=
      if funct3 = 0b001 ∨ funct3 = 0b101 then
        toI32 (extract code 20 5)
      else
        (toI32 code) >>> (20 : Nat)
    { rd := rd, rs1 := rs1, rs2 := 0, imm := imm }
  | .S =>
    let rs1 := toI32 (extract code 15 5)
    let rs2 := toI32 (extract code 20 5)
    let imm := toI32 (((extract code 25 7 <<< 5) % 4294967296) ||| extract code 7 5)
    let imm := if toU32 imm &&& (1 <<< 11) ≠ 0 then toI32 (toU32 imm ||| 0xFFFFF000) else imm
    { rd := 0, rs1 := rs1, rs2 := rs2, imm := imm }
  | .B =>
    let rs1 := toI32 (extract code 15 5)
    let rs2 := toI32 (extract code 20 5)
    let imm := toI32 (((extract code 31 1 <<< 12) % 4294967296) |||
      ((extract code 7 1 <<< 11) % 4294967296) |||
      ((extract code 25 6 <<< 5) % 4294967296) |||
      ((extract code 8 4 <<< 1) % 4294967296))
    let imm := if toU32 imm &&& (1 <<< 12) ≠ 0 then toI32 (toU32 imm ||| 0xFFFFE000) else imm
    { rd := 0, rs1 := rs1, rs2 := rs2, imm := imm }
  | .U =>
    { rd := toI32 (extract code 7 5), rs1 := 0, rs2 := 0, imm := toI32 (extract code 12 20) }
  | .J =>
    let rd := toI32 (extract code 7 5)
    let imm := toI32 (((extract code 31 1 <<< 20) % 4294967296) |||
      ((extract code 12 8 <<< 12) % 4294967296) |||
      ((extract code 20 1 <<< 11) % 4294967296) |||
      ((extract code 21 10 <<< 1) % 4294967296))
    let imm := if toU32 imm &&& (1 <<< 20) ≠ 0 then toI32 (toU32 imm ||| 0xFFF00000) else imm
    { rd := rd, rs1 := 0, rs2 := 0, imm := imm }

/-- `Instruction::getMachineCode`. -/
def Instruction.getMachineCode (self : Instruction) (rd rs1 rs2 imm : Int) : Nat :=
  match self.format with
  | .R =>
    0 ||| pack (toU32 self.funct7) 25 7 ||| pack (toU32 rs2) 20 5 ||| pack (toU32 rs1) 15 5
      ||| pack (toU32 self.funct3) 12 3 ||| pack (toU32 rd) 7 5 ||| pack (toU32 self.opcode) 0 7
  | .I =>
    let code := 0 ||| pack (toU32 rs1) 15 5 ||| pack (toU32 self.funct3) 12 3
      ||| pack (toU32 rd) 7 5 ||| pack (toU32 self.opcode) 0 7
    if isShiftInstruction self.mnemonic then
      let shamt := toU32 imm &&& 0x1F
      code ||| pack shamt 20 5 ||| pack (toU32 self.funct7) 25 7
    else if self.mnemonic = "ebreak" ∨ self.mnemonic = "ecall" then
      code ||| pack (toU32 imm) 20 12
    else
      code ||| pack (toU32 imm) 20 12
  | .S =>
    0 ||| pack (toU32 (imm >>> (5 : Nat))) 25 7 ||| pack (toU32 rs2) 20 5 ||| pack (toU32 rs1) 15 5
      ||| pack (toU32 self.funct3) 12 3 ||| pack (toU32 imm) 7 5 ||| pack (toU32 self.opcode) 0 7
  | .B =>
    0 ||| pack (toU32 (imm >>> (12 : Nat))) 31 1 ||| pack (toU32 (imm >>> (5 : Nat))) 25 6
      ||| pack (toU32 rs2) 20 5 ||| pack (toU32 rs1) 15 5 ||| pack (toU32 self.funct3) 12 3
      ||| pack (toU32 (imm >>> (1 : Nat))) 8 4 ||| pack (toU32 (imm >>> (11 : Nat))) 7 1
      ||| pack (toU32 self.opcode) 0 7
  | .U =>
    0 ||| ((toU32 imm <<< 12) % 4294967296) ||| pack (toU32 rd) 7 5
      ||| pack (toU32 self.opcode) 0 7
  | .J =>
    let uimm := toU32 imm
    0 ||| pack (uimm >>> 20) 31 1 ||| pack (uimm >>> 1) 21 10 ||| pack (uimm >>> 11) 20 1
      ||| pack (uimm >>> 12) 12 8 ||| pack (toU32 rd) 7 5 ||| pack (toU32 self.opcode) 0 7

/-! ## InstructionSet.h / InstructionSet.cpp -/

/-- `enum class ISAMode`. -/
inductive ISAMode where
  | RV32I | RV32IM | RV64I | RV64IM
  deriving DecidableEq, Repr

/-- The base list every `InstructionSet` starts with. -/
def baseInstructions : List Instruction := [
  ⟨"add", .R, 0b0110011, 0b000, 0b0000000⟩,
  ⟨"sub", .R, 0b0110011, 0b000, 0b0100000⟩,
  ⟨"and", .R, 0b0110011, 0b111, 0b0000000⟩,
  ⟨"or", .R, 0b0110011, 0b110, 0b0000000⟩,
  ⟨"xor", .R, 0b0110011, 0b100, 0b0000000⟩,
  ⟨"sll", .R, 0b0110011, 0b001, 0b0000000⟩,
  ⟨"srl", .R, 0b0110011, 0b101, 0b0000000⟩,
  ⟨"sra", .R, 0b0110011, 0b101, 0b0100000⟩,
  ⟨"addi", .I, 0b0010011, 0b000, 0⟩,
  ⟨"andi", .I, 0b0010011, 0b111, 0⟩,
  ⟨"ori", .I, 0b0010011, 0b110, 0⟩,
  ⟨"xori", .I, 0b0010011, 0b100, 0⟩,
  ⟨"slli", .I, 0b0010011, 0b001, 0b0000000⟩,
  ⟨"srai", .I, 0b0010011, 0b101, 0b0100000⟩,
  ⟨"srli", .I, 0b0010011, 0b101, 0b0000000⟩,
  ⟨"ld", .I, 0b0000011, 0b011, 0⟩,
  ⟨"lw", .I, 0b0000011, 0b010, 0⟩,
  ⟨"lh", .I, 0b0000011, 0b001, 0⟩,
  ⟨"lb", .I, 0b0000011, 0b000, 0⟩,
  ⟨"lhu", .I, 0b0000011, 0b101, 0⟩,
  ⟨"lbu", .I, 0b0000011, 0b100, 0⟩,
  ⟨"jalr", .I, 0b1100111, 0b000, 0⟩,
  ⟨"ecall", .I, 0b1110011, 0b000, 0x000⟩,
  ⟨"ebreak", .I, 0b1110011, 0b000, 0x001⟩,
  ⟨"sb", .S, 0b0100011, 0b000, 0⟩,
  ⟨"sh", .S, 0b0100011, 0b001, 0⟩,
  ⟨"sw", .S, 0b0100011, 0b010, 0⟩,
  ⟨"beq", .B, 0b1100011, 0b000, 0⟩,
  ⟨"bne", .B, 0b1100011, 0b001, 0⟩,
  ⟨"blt", .B, 0b1100011, 0b100, 0⟩,
  ⟨"bge", .B, 0b1100011, 0b101, 0⟩,
  ⟨"bltu", .B, 0b1100011, 0b110, 0⟩,
  ⟨"bgeu", .B, 0b1100011, 0b111, 0⟩,
  ⟨"lui", .U, 0b0110111, 0, 0⟩,
  ⟨"auipc", .U, 0b0010111, 0, 0⟩,
  ⟨"jal", .J, 0b1101111, 0, 0⟩]

/-- The block appended under `mode == RV32IM || mode == RV64I || mode == RV64IM`. -/
def mulDivInstructions : List Instruction := [
  ⟨"mul", .R, 0b0110011, 0b000, 0b0000001⟩,
  ⟨"mulh", .R, 0b0110011, 0b001, 0b0000001⟩,
  ⟨"mulhsu", .R, 0b0110011, 0b010, 0b0000001⟩,
  ⟨"mulhu", .R, 0b0110011, 0b011, 0b0000001⟩,
  ⟨"div", .R, 0b0110011, 0b100, 0b0000001⟩,
  ⟨"divu", .R, 0b0110011, 0b101, 0b0000001⟩,
  ⟨"rem", .R, 0b0110011, 0b110, 0b0000001⟩,
  ⟨"remu", .R, 0b0110011, 0b111, 0b0000001⟩]

/-- The block appended under `mode == RV64I || mode == RV64IM`. -/
def rv64Instructions : List Instruction := [
  ⟨"addw", .R, 0b0111011, 0b000, 0b0000000⟩,
  ⟨"subw", .R, 0b0111011, 0b000, 0b0100000⟩,
  ⟨"sllw", .R, 0b0111011, 0b001, 0b0000000⟩,
  ⟨"srlw", .R, 0b0111011, 0b101, 0b0000000⟩,
  ⟨"sraw", .R, 0b0111011, 0b101, 0b0100000⟩,
  ⟨"addiw", .I, 0b0011011, 0b000, 0⟩,
  ⟨"slliw", .I, 0b0011011, 0b001, 0b0000000⟩,
  ⟨"srliw", .I, 0b0011011, 0b101, 0b0000000⟩,
  ⟨"sraiw", .I, 0b0011011, 0b101, 0b0100000⟩,
  ⟨"ld", .I, 0b0000011, 0b011, 0⟩,
  ⟨"sd", .S, 0b0100011, 0b011, 0⟩,
  ⟨"lwu", .I, 0b0000011, 0b110, 0⟩]

/-- The block appended under `mode == RV64IM`. -/
def rv64MulDivInstructions : List Instruction := [
  ⟨"mulw", .R, 0b0111011, 0b000, 0b0000001⟩,
  ⟨"divw", .R, 0b0111011, 0b100, 0b0000001⟩,
  ⟨"divuw", .R, 0b0111011, 0b101, 0b0000001⟩,
  ⟨"remw", .R, 0b0111011, 0b110, 0b0000001⟩,
  ⟨"remuw", .R, 0b0111011, 0b111, 0b0000001⟩]

/-- The `instructionList` built by the constructor `InstructionSet::InstructionSet(mode)`. -/
def instructionList (mode : ISAMode) : List Instruction :=
  baseInstructions
    ++ (if mode = .RV32IM ∨ mode = .RV64I ∨ mode = .RV64IM then mulDivInstructions else [])
    ++ (if mode = .RV64I ∨ mode = .RV64IM then rv64Instructions else [])
    ++ (if mode = .RV64IM then rv64MulDivInstructions else [])

/-- The `mnemonicMap` filled by `mnemonicMap[instr.mnemonic] = instr` over the list: for
a mnemonic the record stored is the last one of the list carrying it. -/
def mnemonicMapFind : List Instruction → String → Option Instruction
  | [], _ => none
  | instr :: rest, name =>
    match mnemonicMapFind rest name with
    | some later => some later
    | none => if instr.mnemonic = name then some instr else none

/-- `InstructionSet::getByMnemonic`; `none` is the null pointer. -/
def getByMnemonic (mode : ISAMode) (name : String) : Option Instruction :=
  mnemonicMapFind (instructionList mode) name

/-- The loop of `InstructionSet::getByEncoded` over the list, with the three fields
already extracted from the word. -/
def getByEncodedLoop (opcode funct3 funct7 : Nat) : List Instruction → Option Instruction
  | [] => none
  | instr :: rest =>
    if instr.opcode ≠ (opcode : Int) then getByEncodedLoop opcode funct3 funct7 rest
    else
      match instr.format with
      | .R =>
        if instr.funct3 = (funct3 : Int) ∧ instr.funct7 = (funct7 : Int) then some instr
        else getByEncodedLoop opcode funct3 funct7 rest
      | .I =>
        if instr.funct3 = (funct3 : Int) then
          if isShiftInstruction instr.mnemonic then
            if instr.funct7 = (funct7 : Int) then some instr
            else getByEncodedLoop opcode funct3 funct7 rest
          else some instr
        else getByEncodedLoop opcode funct3 funct7 rest
      | .S =>
        if instr.funct3 = (funct3 : Int) then some instr
        else getByEncodedLoop opcode funct3 funct7 rest
      | .B =>
        if instr.funct3 = (funct3 : Int) then some instr
        else getByEncodedLoop opcode funct3 funct7 rest
      | .U => some instr
      | .J => some instr

/-- `InstructionSet::getByEncoded`; the three fields are narrowed to `uint8_t`. -/
def getByEncoded (mode : ISAMode) (code : Nat) : Option Instruction :=
  getByEncodedLoop (extract code 0 7 % 256) (extract code 12 3 % 256) (extract code 25 7 % 256)
    (instructionList mode)

/-! ## The bit layout in the words of the specification -/

/-- Follows the specification: `imm[hi:lo]`, the bits `lo..hi` of the 32-bit immediate. -/
def immBits (imm : Int) (hi lo : Nat) : Nat := toU32 imm / 2 ^ lo % 2 ^ (hi - lo + 1)

/-- Follows the specification: `a|b|c`, the concatenation of bit fields, most significant
first; every field is given as (value, width). -/
def concatFields (fields : List (Nat × Nat)) : Nat :=
  fields.foldl (fun acc f => acc * 2 ^ f.2 + f.1) 0

/-- Follows the specification (section 4.3): the layout of the word per format. -/
def specLayout (self : Instruction) (rd rs1 rs2 imm : Int) : Nat :=
  let opcode := (self.opcode.toNat, 7)
  let funct3 := (self.funct3.toNat, 3)
  let funct7 := (self.funct7.toNat, 7)
  match self.format with
  | .R => concatFields [funct7, (rs2.toNat, 5), (rs1.toNat, 5), funct3, (rd.toNat, 5), opcode]
  | .I =>
    if isShiftInstruction self.mnemonic then
      concatFields [funct7, (immBits imm 4 0, 5), (rs1.toNat, 5), funct3, (rd.toNat, 5), opcode]
    else
      concatFields [(immBits imm 11 0, 12), (rs1.toNat, 5), funct3, (rd.toNat, 5), opcode]
  | .S =>
    concatFields [(immBits imm 11 5, 7), (rs2.toNat, 5), (rs1.toNat, 5), funct3,
      (immBits imm 4 0, 5), opcode]
  | .B =>
    concatFields [(immBits imm 12 12, 1), (immBits imm 10 5, 6), (rs2.toNat, 5), (rs1.toNat, 5),
      funct3, (immBits imm 4 1, 4), (immBits imm 11 11, 1), opcode]
  | .U => concatFields [(immBits imm 19 0, 20), (rd.toNat, 5), opcode]
  | .J =>
    concatFields [(immBits imm 20 20, 1), (immBits imm 10 1, 10), (immBits imm 11 11, 1),
      (immBits imm 19 12, 8), (rd.toNat, 5), opcode]

/-- A record whose opcode, funct3 and funct7 fit their 7, 3 and 7 bits. -/
def Instruction.fieldsFit (self : Instruction) : Prop :=
  0 ≤ self.opcode ∧ self.opcode < 128 ∧ 0 ≤ self.funct3 ∧ self.funct3 < 8 ∧
    0 ≤ self.funct7 ∧ self.funct7 < 128

instance (self : Instruction) : Decidable self.fieldsFit := by
  unfold Instruction.fieldsFit; infer_instance

/-! ## Strings

A `std::string` is a `String`; the functions below work on its list of characters. -/

/-- `std::string::find(char)`: the position of the first occurrence, `none` for `npos`. -/
def findChar (c : Char) : List Char → Option Nat
  | [] => none
  | x :: xs => if x = c then some 0 else (findChar c xs).map (· + 1)

/-- `std::string::substr(pos, len)`. -/
def substr (s : List Char) (pos len : Nat) : List Char := (s.drop pos).take len

/-- The characters `" \t"` that `Parser::trim` strips. -/
def isBlank (c : Char) : Bool := c = ' ' || c = '\t'

/-- `std::isspace` in the C locale, the whitespace `operator>>` and `std::stoi` skip. -/
def isSpace (c : Char) : Bool :=
  c = ' ' || c = '\t' || c = '\n' || c = '\x0b' || c = '\x0c' || c = '\r'

/-- `find_first_not_of`: the position of the first character outside the set. -/
def findFirstNotOf (p : Char → Bool) : List Char → Option Nat
  | [] => none
  | x :: xs => if p x then (findFirstNotOf p xs).map (· + 1) else some 0

/-- `find_last_not_of`: the position of the last character outside the set. -/
def findLastNotOf (p : Char → Bool) : List Char → Option Nat
  | [] => none
  | x :: xs =>
    match findLastNotOf p xs with
    | some k => some (k + 1)
    | none => if p x then none else some 0

/-! ## Parser.cpp -/

/-- `Parser::trim` on characters. -/
def trimChars (str : List Char) : List Char :=
  match findFirstNotOf isBlank str, findLastNotOf isBlank str with
  | some first, some last => substr str first (last - first + 1)
  | _, _ => []

/-- `Parser::trim`. -/
def Parser.trim (str : String) : String := ⟨trimChars str.data⟩

/-- `Parser::cleanLine` on characters: cut at the first `#`, then trim. -/
def cleanLineChars (line : List Char) : List Char :=
  let noComment :=
    match findChar '#' line with
    | some commentPos => substr line 0 commentPos
    | none => line
  trimChars noComment

/-- `Parser::cleanLine`. -/
def Parser.cleanLine (line : String) : String := ⟨cleanLineChars line.data⟩

/-- The `std::getline(ss, item, delimiter)` loop of `Parser::split`: `cur` holds the
characters of the item being read, in reverse. A read that extracts nothing at the end of
the input fails and ends the loop. -/
def splitLoop (delimiter : Char) : List Char → List Char → List (List Char)
  | cur, [] => if cur.isEmpty then [] else [cur.reverse]
  | cur, c :: cs =>
    if c = delimiter then cur.reverse :: splitLoop delimiter [] cs
    else splitLoop delimiter (c :: cur) cs

/-- `Parser::split`: the items between delimiters, each trimmed. -/
def Parser.split (str : String) (delimiter : Char) : List String :=
  (splitLoop delimiter [] str.data).map (fun item => ⟨trimChars item⟩)

/-! ## std::stoi and operator<< for numbers -/

/-- What a call `std::stoi(s, nullptr, 0)` does: return a value or throw. -/
inductive StoiResult where
  | ok (value : Int)
  | invalidArgument
  | outOfRange
  deriving DecidableEq, Repr

/-- The value of a digit character in bases up to 16, `none` for any other character. -/
def digitValue (c : Char) : Option Nat :=
  if '0' ≤ c ∧ c ≤ '9' then some (c.toNat - '0'.toNat)
  else if 'a' ≤ c ∧ c ≤ 'f' then some (c.toNat - 'a'.toNat + 10)
  else if 'A' ≤ c ∧ c ≤ 'F' then some (c.toNat - 'A'.toNat + 10)
  else none

/-- The digit loop of `strtol`: consume digits of the base, return the value and the number
of digits consumed. -/
def parseDigits (base : Nat) : List Char → Nat → Nat → Nat × Nat
  | [], acc, count => (acc, count)
  | c :: cs, acc, count =>
    match digitValue c with
    | some d => if d < base then parseDigits base cs (acc * base + d) (count + 1) else (acc, count)
    | none => (acc, count)

/-- `std::stoi(s, nullptr, 0)`: skip whitespace, read a sign, detect the base (`0x` before a
hexadecimal digit, a leading `0` for octal, decimal otherwise), read the digits and ignore
what follows them; no digit is `std::invalid_argument`, a value outside `int` is
`std::out_of_range`. -/
def stoi (s : List Char) : StoiResult :=
  let s := s.dropWhile isSpace
  let signed : Bool × List Char :=
    match s with
    | '-' :: r => (true, r)
    | '+' :: r => (false, r)
    | _ => (false, s)
  let based : Nat × List Char :=
    match signed.2 with
    | '0' :: x :: d :: r =>
      if (x = 'x' ∨ x = 'X') ∧ (digitValue d).isSome then (16, d :: r) else (8, signed.2)
    | '0' :: _ => (8, signed.2)
    | _ => (10, signed.2)
  let parsed := parseDigits based.1 based.2 0 0
  if parsed.2 = 0 then .invalidArgument
  else
    let value : Int := if signed.1 then -(parsed.1 : Int) else (parsed.1 : Int)
    if value < -2147483648 ∨ value > 2147483647 then .outOfRange else .ok value

/-- `os << n` for an `int` in decimal. -/
def intToChars (n : Int) : List Char :=
  if n < 0 then '-' :: Nat.toDigits 10 n.natAbs else Nat.toDigits 10 n.toNat

/-- `os << std::hex << n` for an `int`: the digits of its 32-bit pattern, in lower case. -/
def hexToChars (n : Int) : List Char := Nat.toDigits 16 (toU32 n)

/-! ## LabelSet.h / LabelSet.cpp

A `std::unordered_map` is an association list with one entry per key; `m[k] = v` replaces
the entry of `k` or appends one. The iteration order of the C++ container is unspecified;
the list order stands for it where `getProgramCounter` iterates. -/

/-- `m[k] = v` on an association list. -/
def mapInsert {α β : Type} [DecidableEq α] (k : α) (v : β) : List (α × β) → List (α × β)
  | [] => [(k, v)]
  | e :: rest => if e.1 = k then (k, v) :: rest else e :: mapInsert k v rest

/-- `m.find(k)` on an association list. -/
def mapFind {α β : Type} [DecidableEq α] (k : α) : List (α × β) → Option β
  | [] => none
  | e :: rest => if e.1 = k then some e.2 else mapFind k rest

/-- `class LabelSet`. -/
structure LabelSet where
  addressToLabels : List (Int × String) := []
  labeltoAddress : List (String × Int) := []
  labelDefinitions : List (Int × Bool) := []
  deriving DecidableEq, Repr

/-- `LabelSet::setLabel`. -/
def LabelSet.setLabel (self : LabelSet) (programCounter : Int) (label : String)
    (labelDef : Bool) : LabelSet :=
  { addressToLabels := mapInsert programCounter label self.addressToLabels
    labeltoAddress := mapInsert label programCounter self.labeltoAddress
    labelDefinitions :=
      if labelDef then mapInsert programCounter true self.labelDefinitions
      else self.labelDefinitions }

/-- `LabelSet::getLabel`. -/
def LabelSet.getLabel (self : LabelSet) (programCounter : Int) (labelDef : Bool) : String :=
  match mapFind programCounter self.addressToLabels with
  | some label =>
    if !labelDef || (labelDef && (mapFind programCounter self.labelDefinitions == some true)) then
      label
    else ""
  | none => ""

/-- The loop of `LabelSet::getProgramCounter` over `addressToLabels`. -/
def getProgramCounterLoop (label : String) : List (Int × String) → Int
  | [] => -1
  | pair :: rest => if pair.2 = label then pair.1 else getProgramCounterLoop label rest

/-- `LabelSet::getProgramCounter`. -/
def LabelSet.getProgramCounter (self : LabelSet) (label : String) : Int :=
  getProgramCounterLoop label self.addressToLabels

/-- `LabelSet::isPresent(std::string)`. -/
def LabelSet.isPresentLabel (self : LabelSet) (label : String) : Bool :=
  (mapFind label self.labeltoAddress).isSome

/-- `LabelSet::isPresent(int)`. -/
def LabelSet.isPresentPC (self : LabelSet) (programCounter : Int) : Bool :=
  (mapFind programCounter self.addressToLabels).isSome

/-! ## InstructionInstance.h -/

/-- `class InstructionInstance`; the pointer to the record is the record itself. -/
structure InstructionInstance where
  instruction : Instruction
  rd : Int
  rs1 : Int
  rs2 : Int
  imm : Int
  originalCode : String
  pc : Nat
  deriving DecidableEq, Repr

/-! ## Assembler.h / Assembler.cpp

What the assembler prints on its output stream is not part of the embedding. A call can end
in three ways: it returns, a `std::out_of_range` thrown by `std::stoi` leaves it (only
`std::invalid_argument` is caught), or it reads `operands[k]` past the end of the vector,
which the language leaves undefined. -/

/-- The ways a call can fail to return: an exception that leaves it, or undefined
behaviour. -/
inductive Fault where
  | outOfRange
  | undefinedBehavior
  | invalidArgument
  deriving DecidableEq, Repr

instance {ε α : Type} [DecidableEq ε] [DecidableEq α] : DecidableEq (Except ε α) :=
  fun a b =>
    match a, b with
    | .ok x, .ok y =>
      if h : x = y then isTrue (by rw [h]) else isFalse (fun e => h (by cases e; rfl))
    | .error x, .error y =>
      if h : x = y then isTrue (by rw [h]) else isFalse (fun e => h (by cases e; rfl))
    | .ok _, .error _ => isFalse (fun e => by cases e)
    | .error _, .ok _ => isFalse (fun e => by cases e)

/-- The `registerMap` of `Assembler::parseRegister`. -/
def registerMap : List (String × Int) := [
  ("x0", 0), ("x1", 1), ("x2", 2), ("x3", 3), ("x4", 4), ("x5", 5), ("x6", 6), ("x7", 7),
  ("x8", 8), ("x9", 9), ("x10", 10), ("x11", 11), ("x12", 12), ("x13", 13), ("x14", 14),
  ("x15", 15), ("x16", 16), ("x17", 17), ("x18", 18), ("x19", 19), ("x20", 20), ("x21", 21),
  ("x22", 22), ("x23", 23), ("x24", 24), ("x25", 25), ("x26", 26), ("x27", 27), ("x28", 28),
  ("x29", 29), ("x30", 30), ("x31", 31),
  ("zero", 0), ("ra", 1), ("sp", 2), ("gp", 3), ("tp", 4), ("t0", 5), ("t1", 6), ("t2", 7),
  ("s0", 8), ("fp", 8), ("s1", 9), ("a0", 10), ("a1", 11), ("a2", 12), ("a3", 13), ("a4", 14),
  ("a5", 15), ("a6", 16), ("a7", 17), ("s2", 18), ("s3", 19), ("s4", 20), ("s5", 21),
  ("s6", 22), ("s7", 23), ("s8", 24), ("s9", 25), ("s10", 26), ("s11", 27), ("t3", 28),
  ("t4", 29), ("t5", 30), ("t6", 31)]

/-- `Assembler::parseRegister`: the register number, `-1` for an unknown name. -/
def parseRegister (token : String) : Int :=
  match mapFind token registerMap with
  | some n => n
  | none => -1

/-- `Assembler::parseImmediate`: a known label gives `label pc - pc`; otherwise `std::stoi`,
whose `std::invalid_argument` is caught and turned into `0`. -/
def parseImmediate (labelSet : LabelSet) (token : String) (pc : Int) : Except Fault Int :=
  let trimmedToken := Parser.trim token
  if labelSet.isPresentLabel trimmedToken then
    .ok (labelSet.getProgramCounter trimmedToken - pc)
  else
    match stoi trimmedToken.data with
    | .ok value => .ok value
    | .invalidArgument => .ok 0
    | .outOfRange => .error .outOfRange

/-- `Assembler::parseMemoryOperand`: `none` when the function returns `false`, otherwise
the immediate and the register. -/
def parseMemoryOperand (labelSet : LabelSet) (operand : String) (pc : Int) :
    Except Fault (Option (Int × Int)) :=
  match findChar '(' operand.data, findChar ')' operand.data with
  | some openParen, some closeParen =>
    if closeParen ≤ openParen + 1 then .ok none
    else
      let immPart : String := ⟨substr operand.data 0 openParen⟩
      let regPart : String := ⟨substr operand.data (openParen + 1) (closeParen - openParen - 1)⟩
      match parseImmediate labelSet immPart pc with
      | .error f => .error f
      | .ok imm => .ok (some (imm, parseRegister regPart))
  | _, _ => .ok none

/-- The state the first pass builds. -/
structure CollectState where
  labelSet : LabelSet
  instructionsOnly : List String
  sourceLineToPC : List (Nat × Nat)
  currentInstructionIndex : Nat
  deriving DecidableEq, Repr

/-- One iteration of the loop of `Assembler::collectLabels`, for the line numbered
`originalLineNum` (0-based). -/
def collectLabelsStep (st : CollectState) (originalLineNum : Nat) (line : String) :
    CollectState :=
  let trimmed := cleanLineChars line.data
  if trimmed.isEmpty || trimmed.head? == some '#' || trimmed.head? == some ';' then st
  else
    let pc := (0 + st.currentInstructionIndex * 4) % 4294967296
    let labelled : LabelSet × List Char :=
      match findChar ':' trimmed with
      | some colonPos =>
        (st.labelSet.setLabel (toI32 pc) ⟨substr trimmed 0 colonPos⟩ true,
          cleanLineChars (trimmed.drop (colonPos + 1)))
      | none => (st.labelSet, trimmed)
    if !labelled.2.isEmpty then
      { labelSet := labelled.1
        instructionsOnly := st.instructionsOnly ++ [⟨labelled.2⟩]
        sourceLineToPC := mapInsert (originalLineNum + 1) pc st.sourceLineToPC
        currentInstructionIndex := st.currentInstructionIndex + 1 }
    else { st with labelSet := labelled.1 }

/-- The loop of `Assembler::collectLabels`. -/
def collectLabelsLoop : CollectState → Nat → List String → CollectState
  | st, _, [] => st
  | st, n, line :: rest => collectLabelsLoop (collectLabelsStep st n line) (n + 1) rest

/-- `Assembler::collectLabels`, run on the state `reset()` leaves. -/
def collectLabels (lines : List String) : CollectState :=
  collectLabelsLoop
    { labelSet := {}, instructionsOnly := [], sourceLineToPC := [], currentInstructionIndex := 0 }
    0 lines

/-- `ss >> mnemonic` followed by `std::getline(ss, rest)` on a line: the first word, and the
rest of the line up to a newline. When the word ends the line the stream is at its end and
`getline` leaves `rest` empty. -/
def readMnemonic (line : List Char) : String × String :=
  let afterSpace := line.dropWhile isSpace
  let word := afterSpace.takeWhile (fun c => !isSpace c)
  let remainder := afterSpace.dropWhile (fun c => !isSpace c)
  (⟨word⟩, ⟨remainder.takeWhile (fun c => c ≠ '\n')⟩)

/-- `operands[k]`: reading past the end of the vector is undefined. -/
def operandAt (operands : List String) (k : Nat) : Except Fault String :=
  match operands.get? k with
  | some s => .ok s
  | none => .error .undefinedBehavior

/-- The body of the second-pass loop of `Assembler::assemble` for one instruction line at
`pc`: `none` when the loop returns early (unknown mnemonic or `invalidInstruction`),
otherwise the instance that is pushed; its machine word is `getMachineCode` of its fields. -/
def assembleLine (mode : ISAMode) (labelSet : LabelSet) (line : String) (pc : Nat) :
    Except Fault (Option InstructionInstance) :=
  let parsed := readMnemonic line.data
  let mnemonic := parsed.1
  match getByMnemonic mode mnemonic with
  | none => .ok none
  | some instr =>
    let operands := Parser.split parsed.2 ','
    let ipc : Int := toI32 pc
    let done (rd rs1 rs2 imm : Int) : Except Fault (Option InstructionInstance) :=
      .ok (some { instruction := instr, rd := rd, rs1 := rs1, rs2 := rs2, imm := imm,
                  originalCode := line, pc := pc })
    match instr.format with
    | .R =>
      match operandAt operands 0, operandAt operands 1, operandAt operands 2 with
      | .ok o0, .ok o1, .ok o2 =>
        if operands.length ≠ 3 then .ok none
        else done (parseRegister o0) (parseRegister o1) (parseRegister o2) 0
      | _, _, _ => .error .undefinedBehavior
    | .I =>
      if instr.mnemonic = "ecall" ∨ instr.mnemonic = "ebreak" then
        let imm : Int := if instr.mnemonic = "ecall" then 0 else 1
        if !operands.isEmpty then .ok none else done 0 0 0 imm
      else
        match operandAt operands 0 with
        | .error f => .error f
        | .ok o0 =>
          let rd := parseRegister o0
          if operands.length = 2 then
            if isLoadInstruction instr.mnemonic || instr.mnemonic = "jalr" then
              match operandAt operands 1 with
              | .error f => .error f
              | .ok o1 =>
                match parseMemoryOperand labelSet o1 ipc with
                | .error f => .error f
                | .ok none => .ok none
                | .ok (some (imm, rs1)) => done rd rs1 0 imm
            else done rd 0 0 0
          else if operands.length = 3 then
            match operandAt operands 1, operandAt operands 2 with
            | .ok o1, .ok o2 =>
              match parseImmediate labelSet o2 ipc with
              | .error f => .error f
              | .ok imm => done rd (parseRegister o1) 0 imm
            | _, _ => .error .undefinedBehavior
          else .ok none
    | .S =>
      if operands.length ≠ 2 then .ok none
      else
        match operandAt operands 0, operandAt operands 1 with
        | .ok o0, .ok o1 =>
          match parseMemoryOperand labelSet o1 ipc with
          | .error f => .error f
          | .ok none => .ok none
          | .ok (some (imm, rs1)) => done 0 rs1 (parseRegister o0) imm
        | _, _ => .error .undefinedBehavior
    | .B =>
      if operands.length ≠ 3 then .ok none
      else
        match operandAt operands 0, operandAt operands 1, operandAt operands 2 with
        | .ok o0, .ok o1, .ok o2 =>
          match parseImmediate labelSet o2 ipc with
          | .error f => .error f
          | .ok imm => done 0 (parseRegister o0) (parseRegister o1) imm
        | _, _, _ => .error .undefinedBehavior
    | .U =>
      if operands.length ≠ 2 then .ok none
      else
        match operandAt operands 0, operandAt operands 1 with
        | .ok o0, .ok o1 =>
          match parseImmediate labelSet o1 ipc with
          | .error f => .error f
          | .ok imm => done (parseRegister o0) 0 0 imm
        | _, _ => .error .undefinedBehavior
    | .J =>
      if operands.length ≠ 2 then .ok none
      else
        match operandAt operands 0, operandAt operands 1 with
        | .ok o0, .ok o1 =>
          match parseImmediate labelSet o1 ipc with
          | .error f => .error f
          | .ok imm => done (parseRegister o0) 0 0 imm
        | _, _ => .error .undefinedBehavior

/-- The members of `class Assembler` that `assemble` fills. -/
structure Assembler where
  machineCodes : List Nat
  labelSet : LabelSet
  instructions : List InstructionInstance
  sourceLineToPC : List (Nat × Nat)
  deriving DecidableEq, Repr

/-- The machine word pushed together with an instance. -/
def InstructionInstance.machineCode (inst : InstructionInstance) : Nat :=
  inst.instruction.getMachineCode inst.rd inst.rs1 inst.rs2 inst.imm

/-- The second-pass loop of `Assembler::assemble` over `instructionsOnly`, from line number
`currentLine`. -/
def assembleLoop (mode : ISAMode) (labelSet : LabelSet) :
    List String → Nat → Assembler → Except Fault Assembler
  | [], _, st => .ok st
  | line :: rest, currentLine, st =>
    match assembleLine mode labelSet line ((0 + currentLine * 4) % 4294967296) with
    | .error f => .error f
    | .ok none => .ok st
    | .ok (some inst) =>
      assembleLoop mode labelSet rest (currentLine + 1)
        { st with instructions := st.instructions ++ [inst]
                  machineCodes := st.machineCodes ++ [inst.machineCode] }

/-- `Assembler::assemble`: the state of the assembler when the call returns; the vector it
returns is the field `machineCodes`. -/
def assemble (mode : ISAMode) (lines : List String) : Except Fault Assembler :=
  let collected := collectLabels lines
  assembleLoop mode collected.labelSet collected.instructionsOnly 0
    { machineCodes := [], labelSet := collected.labelSet, instructions := [],
      sourceLineToPC := collected.sourceLineToPC }

/-! ## DeAssembler.h / DeAssembler.cpp -/

/-- `DeAssembler::formatOperands`. -/
def formatOperands (labelSet : LabelSet) (instr : Instruction) (rd rs1 rs2 imm : Int)
    (pc : Nat) : String :=
  let targetAddr : Nat := toU32 ((pc : Int) + imm)
  let x (r : Int) : List Char := 'x' :: intToChars r
  let sep : List Char := [',', ' ']
  match instr.format with
  | .R => ⟨x rd ++ sep ++ x rs1 ++ sep ++ x rs2⟩
  | .I =>
    if instr.mnemonic = "ecall" ∨ instr.mnemonic = "ebreak" then ""
    else if isLoadInstruction instr.mnemonic || instr.mnemonic = "jalr" then
      ⟨x rd ++ sep ++ intToChars imm ++ ['('] ++ x rs1 ++ [')']⟩
    else ⟨x rd ++ sep ++ x rs1 ++ sep ++ intToChars imm⟩
  | .S => ⟨x rs2 ++ sep ++ intToChars imm ++ ['('] ++ x rs1 ++ [')']⟩
  | .B =>
    ⟨x rs1 ++ sep ++ x rs2 ++ sep ++
      (if labelSet.isPresentPC (toI32 targetAddr) then
        (labelSet.getLabel (toI32 targetAddr) false).data
      else intToChars imm)⟩
  | .U => ⟨x rd ++ sep ++ ['0', 'x'] ++ hexToChars imm⟩
  | .J =>
    ⟨x rd ++ sep ++
      (if labelSet.isPresentPC (toI32 targetAddr) then
        (labelSet.getLabel (toI32 targetAddr) false).data
      else intToChars imm)⟩

/-- The body of the loop of `DeAssembler::disassemble` for the word at index `i`: the lines
it appends. -/
def disassembleWord (mode : ISAMode) (labelSet : LabelSet) (i : Nat) (code : Nat) :
    List String :=
  let pc := (0 + i * 4) % 4294967296
  let labelLine : List String :=
    if labelSet.isPresentPC (toI32 pc) then [labelSet.getLabel (toI32 pc) true ++ ":"] else []
  match getByEncoded mode code with
  | none => labelLine
  | some found =>
    let ops := found.decodeRegistersAndImmediate code
    let instr : Option Instruction :=
      if found.mnemonic = "ecall" ∧ ops.imm = 0x001 then getByMnemonic mode "ebreak"
      else some found
    match instr with
    | none => labelLine
    | some instr =>
      labelLine ++
        [instr.mnemonic ++ " " ++ formatOperands labelSet instr ops.rd ops.rs1 ops.rs2 ops.imm pc]

/-- The loop of `DeAssembler::disassemble` from index `i`. -/
def disassembleLoop (mode : ISAMode) (labelSet : LabelSet) : Nat → List Nat → List String
  | _, [] => []
  | i, code :: rest =>
    disassembleWord mode labelSet i code ++ disassembleLoop mode labelSet (i + 1) rest

/-- `DeAssembler::disassemble`, the disassembler holding `labelSet`. -/
def disassemble (mode : ISAMode) (labelSet : LabelSet) (machineCodes : List Nat) :
    List String :=
  disassembleLoop mode labelSet 0 machineCodes

/-! ## TestRunner.cpp -/

/-- `TestRunner::runTest`: assemble, hand the label set to the disassembler, disassemble,
and compare with the source line by line. -/
def runTest (asmLines : List String) (mode : ISAMode) : Except Fault Bool :=
  match assemble mode asmLines with
  | .error f => .error f
  | .ok assembler =>
    let disassembled := disassemble mode assembler.labelSet assembler.machineCodes
    if asmLines.length ≠ disassembled.length then .ok false
    else .ok (decide (asmLines = disassembled))

/-- The record `ecall` of every table. -/
def ecallRecord : Instruction := ⟨"ecall", .I, 0b1110011, 0b000, 0x000⟩

/-- The record `ebreak` of every table. -/
def ebreakRecord : Instruction := ⟨"ebreak", .I, 0b1110011, 0b000, 0x001⟩

/-! ## Memory.h / Memory.cpp

The `std::unordered_map<uint32_t, int8_t>` of `class Memory` is a function from addresses
to bytes: an absent key reads as the byte 0, which is what `getByte` returns for it. A byte
is kept as its bit pattern in `Fin 256`; `toI8` gives the `int8_t` it stands for. -/

/-- Conversion of a bit pattern to `int8_t`. -/
def toI8 (n : Nat) : Int := if n % 256 < 128 then (n % 256 : Nat) else (n % 256 : Nat) - 256

/-- Conversion of a bit pattern to `int16_t`. -/
def toI16 (n : Nat) : Int :=
  if n % 65536 < 32768 then (n % 65536 : Nat) else (n % 65536 : Nat) - 65536

/-- Conversion of an integer to `uint8_t`. -/
def toU8 (x : Int) : Nat := (x % 256).toNat

/-- Conversion of an integer to `uint64_t`. -/
def toU64 (x : Int) : Nat := (x % 18446744073709551616).toNat

/-- The byte with the low eight bits of `n`. -/
def byteOfNat (n : Nat) : Fin 256 := ⟨n % 256, Nat.mod_lt _ (by decide)⟩

/-- `enum class MemSize`. -/
inductive MemSize where
  | Byte | HalfWord | Word | DoubleWord
  deriving DecidableEq, Repr

/-- The value `static_cast<int>(size)`. -/
def MemSize.toNat : MemSize → Nat
  | .Byte => 1
  | .HalfWord => 2
  | .Word => 4
  | .DoubleWord => 8

/-- `class Memory`: the byte stored at each address (0 where nothing was stored). -/
structure Memory where
  memory : Nat → Fin 256

/-- The memory after `clear()`, or freshly constructed. -/
def Memory.empty : Memory := ⟨fun _ => 0⟩

/-- `Memory::getByte`. -/
def Memory.getByte (self : Memory) (address : Nat) : Int := toI8 (self.memory address).val

/-- `memory[address] = byte`. -/
def Memory.setByte (self : Memory) (address : Nat) (byte : Fin 256) : Memory :=
  ⟨fun a => if a = address then byte else self.memory a⟩

/-- The loop of `Memory::read` after `i` rounds. From round 4 on, which only a `DoubleWord`
reaches, the source shifts a `uint32_t` by 32 bits or more, which is undefined; here such a
round adds no bit to the value. The theorems do not depend on it: they read a `DoubleWord`
only where all its bytes are 0. -/
def Memory.readLoop (self : Memory) (address : Nat) : Nat → Nat
  | 0 => 0
  | i + 1 =>
    self.readLoop address i |||
      ((toU8 (self.getByte ((address + i) % 4294967296)) <<< (8 * i)) % 4294967296)

/-- `Memory::read`, returning an `int32_t`. -/
def Memory.read (self : Memory) (address : Nat) (size : MemSize) (isUnsigned : Bool) : Int :=
  let val := self.readLoop address size.toNat
  if !isUnsigned then
    if size = .HalfWord then toI16 val
    else if size = .Byte then toI8 val
    else toI32 val
  else toI32 val

/-- The loop of `Memory::write` after `i` rounds. From round 4 on, which only a `DoubleWord`
reaches, the source shifts a `uint32_t` by 32 bits or more, which is undefined; here such a
round stores the byte 0. The theorems depend on the addresses a `DoubleWord` write stores
to, not on the bytes of these rounds. -/
def Memory.writeLoop (self : Memory) (address value : Nat) : Nat → Memory
  | 0 => self
  | i + 1 =>
    (self.writeLoop address value i).setByte ((address + i) % 4294967296)
      (byteOfNat ((value >>> (8 * i)) &&& 0xFF))

/-- `Memory::write`. -/
def Memory.write (self : Memory) (address : Nat) (size : MemSize) (value : Nat) : Memory :=
  self.writeLoop address value size.toNat

/-! ## CacheConfig.h / CacheConfig.cpp -/

/-- `enum class ReplacementPolicy`. -/
inductive ReplacementPolicy where
  | FIFO | LRU | RANDOM
  deriving DecidableEq, Repr

/-- `enum class WritePolicy`. -/
inductive WritePolicy where
  | WB | WT
  deriving DecidableEq, Repr

/-- `class CacheConfig`; the three sizes are non-negative `int`s. -/
structure CacheConfig where
  cacheSize : Nat
  blockSize : Nat
  associativity : Nat
  replacementPolicy : ReplacementPolicy
  writePolicy : WritePolicy
  deriving DecidableEq, Repr

/-- `CacheConfig::getOffsetBits`. -/
def CacheConfig.getOffsetBits (self : CacheConfig) : Nat := BitUtils.log2 self.blockSize

/-- `CacheConfig::getIndexBits`. -/
def CacheConfig.getIndexBits (self : CacheConfig) : Nat :=
  if self.associativity = 0 then 0
  else BitUtils.log2 ((self.cacheSize / self.blockSize) / self.associativity)

/-! ## AddressDecoder.h

The decoder takes the address as an `int`: shifts are arithmetic, and `&` acts on the
32-bit patterns. -/

/-- `class AddressDecoder`. -/
structure AddressDecoder where
  offsetBits : Nat
  indexBits : Nat
  deriving DecidableEq, Repr

/-- `AddressDecoder::getTag` on the `int` made from the address. -/
def AddressDecoder.getTag (self : AddressDecoder) (address : Nat) : Int :=
  (toI32 address) >>> (self.indexBits + self.offsetBits)

/-- `AddressDecoder::getIndex` on the `int` made from the address. -/
def AddressDecoder.getIndex (self : AddressDecoder) (address : Nat) : Int :=
  toI32 (toU32 ((toI32 address) >>> self.offsetBits) &&&
    toU32 (toI32 ((1 <<< self.indexBits) % 4294967296) - 1))

/-! ## CacheBlock.h / CacheBlock.cpp -/

/-- `class CacheBlock`. -/
structure CacheBlock where
  valid : Bool := false
  dirty : Bool := false
  tag : Nat := 0
  lastUsed : Nat := 0
  insertionTime : Nat := 0
  data : List (Fin 256) := []
  index : Nat := 0
  deriving DecidableEq, Repr

/-- The loop of `CacheBlock::writeData` after `i` rounds. -/
def writeDataLoop (data : List (Fin 256)) (offset value : Nat) : Nat → List (Fin 256)
  | 0 => data
  | i + 1 =>
    (writeDataLoop data offset value i).set (offset + i) (byteOfNat ((value >>> (8 * i)) &&& 0xFF))

/-- `CacheBlock::writeData`. -/
def CacheBlock.writeData (self : CacheBlock) (address : Nat) (size : MemSize) (value : Nat)
    (blockSize : Nat) : CacheBlock :=
  let offset := address % blockSize
  if offset + size.toNat > self.data.length then self
  else { self with data := writeDataLoop self.data offset value size.toNat, valid := true }

/-- The loop of `CacheBlock::readData` after `i` rounds. -/
def readDataLoop (data : List (Fin 256)) (offset : Nat) : Nat → Nat
  | 0 => 0
  | i + 1 =>
    match data.get? (offset + i) with
    | some byte => readDataLoop data offset i ||| ((byte.val <<< (8 * i)) % 4294967296)
    | none => readDataLoop data offset i

/-- `CacheBlock::readData`, returning a `uint32_t`. -/
def CacheBlock.readData (self : CacheBlock) (address : Nat) (size : MemSize)
    (isUnsigned : Bool) (blockSize : Nat) : Nat :=
  let offset := address % blockSize
  let result := readDataLoop self.data offset size.toNat
  if !isUnsigned && decide (size.toNat < 4) then
    let signedVal := toI32 ((result <<< ((4 - size.toNat) * 8)) % 4294967296)
    toU32 (signedVal >>> ((4 - size.toNat) * 8))
  else result

/-- `CacheBlock::getBlockAddress`: computed on 64 bits, returned as `uint32_t`. -/
def CacheBlock.getBlockAddress (self : CacheBlock) (config : CacheConfig) : Nat :=
  ((((self.tag <<< config.getIndexBits) % 18446744073709551616 ||| self.index)
      <<< config.getOffsetBits) % 18446744073709551616) % 4294967296

/-- The loop of `CacheBlock::writeBackToMemory` over the bytes from position `i` on. -/
def writeBackLoop (baseAddress : Nat) : List (Fin 256) → Nat → Memory → Memory
  | [], _, memory => memory
  | byte :: rest, i, memory =>
    writeBackLoop baseAddress rest (i + 1)
      (memory.write ((baseAddress + i) % 4294967296) .Byte byte.val)

/-- `CacheBlock::writeBackToMemory`. -/
def CacheBlock.writeBackToMemory (self : CacheBlock) (memory : Memory) (baseAddress : Nat) :
    Memory :=
  if !self.valid then memory else writeBackLoop baseAddress self.data 0 memory

/-! ## Cache.h / Cache.cpp

Of the log stream the embedding keeps whether the pointer `logStream` is set: every access
calls `logAccess`, which dereferences the pointer when it is null. What is written to the
stream is not part of the embedding. The counters `accesses`, `hits` and `misses`
are `int`s that only grow; they are natural numbers here. The memory the cache points to is
a field of the state. `std::rand()` is not modelled: an access takes the value the call
would return as an argument, so that every behaviour of the generator is covered. -/

/-- `class Cache`. -/
structure Cache where
  memory : Memory
  config : CacheConfig
  addrDecoder : AddressDecoder
  numSets : Nat
  sets : List (List CacheBlock)
  accesses : Nat
  hits : Nat
  misses : Nat
  /-- Whether `logStream` points to a stream (`logStream != nullptr`). -/
  logStream : Bool

/-- `Cache::invalidate`. -/
def Cache.invalidate (self : Cache) : Cache :=
  { self with
    sets := self.sets.map (fun set =>
      set.map (fun block => { block with valid := false, dirty := false, tag := 0, lastUsed := 0 }))
    accesses := 0, hits := 0, misses := 0 }

/-- The constructor `Cache::Cache()`, pointing at no memory yet; `logStream` is
initialised to `nullptr`. -/
def Cache.new (memory : Memory) : Cache :=
  { memory := memory
    config := ⟨0, 0, 0, .FIFO, .WB⟩
    addrDecoder := ⟨0, 0⟩
    numSets := 0, sets := [], accesses := 0, hits := 0, misses := 0, logStream := false }

/-- `Cache::setLogStream`. -/
def Cache.setLogStream (self : Cache) : Cache :=
  { self with logStream := true }

/-- `Cache::logAccess`. With a stream that is `good()` the line is written; otherwise the
`else` branch calls `logStream->bad()`, which is undefined when `logStream` is null and only
prints to `std::cerr` when it is not. -/
def Cache.logAccess (self : Cache) : Except Fault Unit :=
  if self.logStream then .ok () else .error .undefinedBehavior

/-- `std::vector::resize(n)` with value-initialised new elements. -/
def resizeList {α : Type} (dflt : α) (l : List α) (n : Nat) : List α :=
  l.take n ++ List.replicate (n - l.length) dflt

/-- The pair `(numSets, numWays)` that `Cache::enable` computes from the configuration. -/
def enableShape (config : CacheConfig) : Nat × Nat :=
  let numBlocks := config.cacheSize / config.blockSize
  if config.associativity = 0 then (1, numBlocks)
  else if config.associativity = 1 then (numBlocks, 1)
  else (numBlocks / config.associativity, config.associativity)

/-- `Cache::enable`; a zero block or cache size throws `std::invalid_argument`. -/
def Cache.enable (self : Cache) (config : CacheConfig) (mem : Memory) : Except Fault Cache :=
  let self := self.invalidate
  let self := { self with config := config }
  if config.blockSize = 0 ∨ config.cacheSize = 0 then .error .invalidArgument
  else
    let shape := enableShape config
    let sets := (resizeList [] self.sets shape.1).map (fun set => resizeList {} set shape.2)
    .ok { self with
      numSets := shape.1
      sets := sets
      addrDecoder := ⟨config.getOffsetBits, config.getIndexBits⟩
      memory := mem }

/-- `Cache::findBlockInSet`: the position of the first valid block with the tag. -/
def findBlockInSet (tag : Nat) : List CacheBlock → Option Nat
  | [] => none
  | block :: rest =>
    if block.valid && decide (block.tag = tag) then some 0
    else (findBlockInSet tag rest).map (· + 1)

/-- The search of `Cache::replaceBlock` for the first invalid block. -/
def findInvalidBlock : List CacheBlock → Option Nat
  | [] => none
  | block :: rest => if !block.valid then some 0 else (findInvalidBlock rest).map (· + 1)

/-- The loops of `Cache::selectBlockToEvict` for LRU and FIFO over the blocks from position
`i` on: `key` is `lastUsed` or `insertionTime`, `oldest` the smallest key met so far. -/
def selectOldestLoop (key : CacheBlock → Nat) :
    List CacheBlock → Nat → Nat → Option Nat → Option Nat
  | [], _, _, victim => victim
  | block :: rest, i, oldest, victim =>
    if key block < oldest then selectOldestLoop key rest (i + 1) (key block) (some i)
    else selectOldestLoop key rest (i + 1) oldest victim

/-- `Cache::selectBlockToEvict`: the position of the victim; `none` is the null pointer the
loops leave when no block qualifies. `rand` is the value of `std::rand()`. -/
def selectBlockToEvict (config : CacheConfig) (set : List CacheBlock) (rand : Nat) :
    Except Fault (Option Nat) :=
  match config.replacementPolicy with
  | .LRU => .ok (selectOldestLoop (fun b => b.lastUsed) set 0 18446744073709551615 none)
  | .FIFO => .ok (selectOldestLoop (fun b => b.insertionTime) set 0 18446744073709551615 none)
  | .RANDOM => if set.length = 0 then .error .undefinedBehavior else .ok (some (rand % set.length))

/-- `Cache::writeBlockToMemory`. -/
def Cache.writeBlockToMemory (self : Cache) (block : CacheBlock) : Memory :=
  block.writeBackToMemory self.memory (block.getBlockAddress self.config)

/-- Step 5 of `Cache::replaceBlock`: the bytes loaded from memory for positions `0..n-1`. -/
def loadBlockData (memory : Memory) (blockAddr : Nat) (n : Nat) : List (Fin 256) :=
  (List.range n).map (fun i => byteOfNat (toU8 (memory.read ((blockAddr + i) % 4294967296) .Byte false)))

/-- `Cache::replaceBlock`: the state after the call and the position, in the set
`setIndex`, of the block returned. Dereferencing a null victim is undefined. The eviction of
a valid victim is logged, and so is every replacement. -/
def Cache.replaceBlock (self : Cache) (set : List CacheBlock) (setIndex : Nat) (tag : Nat)
    (address : Nat) (isWrite : Bool) (rand : Nat) : Except Fault (Cache × Nat) :=
  let chosen : Except Fault (Nat × Memory) :=
    match findInvalidBlock set with
    | some v => .ok (v, self.memory)
    | none =>
      match selectBlockToEvict self.config set rand with
      | .error f => .error f
      | .ok none => .error .undefinedBehavior
      | .ok (some v) =>
        match set.get? v with
        | none => .error .undefinedBehavior
        | some victim =>
          if victim.dirty && decide (self.config.writePolicy = .WB) then
            match self.logAccess with
            | .error f => .error f
            | .ok _ => .ok (v, self.writeBlockToMemory victim)
          else if victim.valid then
            match self.logAccess with
            | .error f => .error f
            | .ok _ => .ok (v, self.memory)
          else .ok (v, self.memory)
  match chosen with
  | .error f => .error f
  | .ok (v, memory) =>
    match set.get? v with
    | none => .error .undefinedBehavior
    | some victim =>
      let blockAddr := address &&& toU32 (~~~((self.config.blockSize : Int) - 1))
      let block : CacheBlock :=
        { victim with
          valid := true
          tag := tag
          index := setIndex
          dirty := isWrite && decide (self.config.writePolicy = .WB)
          lastUsed := self.accesses
          insertionTime := self.accesses
          data := loadBlockData memory blockAddr self.config.blockSize }
      match self.logAccess with
      | .error f => .error f
      | .ok _ =>
        .ok ({ self with memory := memory, sets := self.sets.set setIndex (set.set v block) }, v)

/-- `Cache::access`: the value returned and the state after the call. Indexing `sets` past
its end is undefined. Every path that returns has called `logAccess`. -/
def Cache.access (self : Cache) (address : Nat) (size : MemSize) (isUnsigned isWrite : Bool)
    (value : Nat) (rand : Nat) : Except Fault (Nat × Cache) :=
  let index := toU32 (self.addrDecoder.getIndex address)
  let tag := toU64 (self.addrDecoder.getTag address)
  match self.sets.get? index with
  | none => .error .undefinedBehavior
  | some set =>
    let self := { self with accesses := self.accesses + 1 }
    match findBlockInSet tag set with
    | some k =>
      match set.get? k with
      | none => .error .undefinedBehavior
      | some found =>
        let self := { self with hits := self.hits + 1 }
        let block := { found with lastUsed := self.accesses }
        if isWrite then
          -- handleWriteHit
          let block := block.writeData address size value self.config.blockSize
          if self.config.writePolicy = .WB then
            let set := set.set k { block with dirty := true }
            match self.logAccess with
            | .error f => .error f
            | .ok _ => .ok (address, { self with sets := self.sets.set index set })
          else
            let memory := self.memory.write address size value
            let set := set.set k { block with dirty := false }
            match self.logAccess with
            | .error f => .error f
            | .ok _ =>
              .ok (address, { self with memory := memory, sets := self.sets.set index set })
        else
          match self.logAccess with
          | .error f => .error f
          | .ok _ =>
            .ok (block.readData address size isUnsigned self.config.blockSize,
              { self with sets := self.sets.set index (set.set k block) })
    | none =>
      let self := { self with misses := self.misses + 1 }
      -- handleMiss
      if isWrite && decide (self.config.writePolicy = .WT) then
        match self.logAccess with
        | .error f => .error f
        | .ok _ => .ok (address, { self with memory := self.memory.write address size value })
      else
        match self.replaceBlock set index tag address isWrite rand with
        | .error f => .error f
        | .ok (self, v) =>
          match (self.sets.get? index).bind (fun s => s.get? v) with
          | none => .error .undefinedBehavior
          | some block =>
            if isWrite then
              let written := block.writeData address size value self.config.blockSize
              let block := { written with dirty := true }
              let set := (self.sets.getD index []).set v block
              match self.logAccess with
              | .error f => .error f
              | .ok _ => .ok (address, { self with sets := self.sets.set index set })
            else
              match self.logAccess with
              | .error f => .error f
              | .ok _ => .ok (block.readData address size isUnsigned self.config.blockSize, self)

/-- `Cache::read`. -/
def Cache.read (self : Cache) (address : Nat) (size : MemSize) (isUnsigned : Bool)
    (rand : Nat) : Except Fault (Nat × Cache) :=
  self.access address size isUnsigned false 0 rand

/-- `Cache::write`. -/
def Cache.write (self : Cache) (address : Nat) (size : MemSize) (value : Nat) (rand : Nat) :
    Except Fault Cache :=
  match self.access address size false true value rand with
  | .error f => .error f
  | .ok (_, cache) => .ok cache

/-! ## The load/store stream -/

/-- One load or store of the stream that reaches the cache. -/
inductive MemOp where
  | load (address : Nat) (size : MemSize) (isUnsigned : Bool)
  | store (address : Nat) (size : MemSize) (value : Nat)
  deriving DecidableEq, Repr

/-- The stream applied through the cache with `Cache::read` / `Cache::write`: the values the
loads return, in order. Each operation comes with the value `std::rand()` would give. -/
def runThroughCache : Cache → List (MemOp × Nat) → Except Fault (List Nat)
  | _, [] => .ok []
  | cache, (.load address size isUnsigned, rand) :: rest =>
    match cache.read address size isUnsigned rand with
    | .error f => .error f
    | .ok (value, cache) =>
      match runThroughCache cache rest with
      | .error f => .error f
      | .ok values => .ok (value :: values)
  | cache, (.store address size value, rand) :: rest =>
    match cache.write address size value rand with
    | .error f => .error f
    | .ok cache => runThroughCache cache rest

/-- The same stream applied directly with `Memory::read` / `Memory::write`. -/
def runOnMemory : Memory → List MemOp → List Int
  | _, [] => []
  | memory, .load address size isUnsigned :: rest =>
    memory.read address size isUnsigned :: runOnMemory memory rest
  | memory, .store address size value :: rest =>
    runOnMemory (memory.write address size value) rest

/-- The address of an operation of the stream. -/
def MemOp.address : MemOp → Nat
  | .load address _ _ => address
  | .store address _ _ => address

/-- The size of an operation of the stream. -/
def MemOp.size : MemOp → MemSize
  | .load _ size _ => size
  | .store _ size _ => size

/-- An access of the stream: a `uint32_t` address, size 1, 2 or 4, and all its bytes in one
block of `blockSize` bytes. -/
def MemOp.inBlock (blockSize : Nat) (op : MemOp) : Prop :=
  op.address < 4294967296 ∧ op.size ≠ .DoubleWord ∧
    op.address % blockSize + op.size.toNat ≤ blockSize

instance (blockSize : Nat) (op : MemOp) : Decidable (op.inBlock blockSize) := by
  unfold MemOp.inBlock; infer_instance

/-- The block in way `k` of set `s`, if there is one. -/
def blockAt (sets : List (List CacheBlock)) (s k : Nat) : Option CacheBlock :=
  (sets.get? s).bind (fun set => set.get? k)

/-! ## The cache against a reference memory

The definitions below are not code of the repository: they state what the blocks of a
cache and the memory behind it have to do with a reference memory that received every write
directly. -/

/-- The set index `Cache::access` computes for an address, with `ob` offset bits and `ib`
index bits. -/
def indexOf (ob ib address : Nat) : Nat :=
  toU32 ((AddressDecoder.mk ob ib).getIndex address)

/-- The tag `Cache::access` computes for an address. -/
def tagOf (ob ib address : Nat) : Nat :=
  toU64 ((AddressDecoder.mk ob ib).getTag address)

/-- The blocks `B` (by set and way) and the memory `mem` behind the cache agree with the
reference memory `m`: a valid block sits in the set of its index, holds a whole block and a
tag some address has, and carries time stamps up to the access counter `n`; no set holds a
tag twice; a valid block holds the bytes of `m`, and so does `mem` unless the block is dirty
under write-back; where no block holds an address, `mem` has the byte of `m`. -/
structure CacheInv (ob ib : Nat) (wp : WritePolicy) (n : Nat)
    (B : Nat → Nat → Option CacheBlock) (mem m : Memory) : Prop where
  wf : ∀ s k b, B s k = some b → b.valid = true →
    b.index = s ∧ b.data.length = 2 ^ ob ∧ b.lastUsed ≤ n ∧ b.insertionTime ≤ n ∧
      ∃ a, a < 4294967296 ∧ indexOf ob ib a = s ∧ tagOf ob ib a = b.tag
  uniq : ∀ s k k2 b b2, B s k = some b → B s k2 = some b2 → b.valid = true →
    b2.valid = true → b.tag = b2.tag → k = k2
  hit : ∀ a k b, a < 4294967296 → B (indexOf ob ib a) k = some b → b.valid = true →
    b.tag = tagOf ob ib a →
    b.data.get? (a % 2 ^ ob) = some (m.memory a) ∧
      ((b.dirty = false ∨ wp = .WT) → mem.memory a = m.memory a)
  miss : ∀ a, a < 4294967296 →
    (∀ k b, B (indexOf ob ib a) k = some b → b.valid = true → b.tag ≠ tagOf ob ib a) →
    mem.memory a = m.memory a

/-- The state `c` of a cache configured with `cfg` stands for the reference memory `m`. -/
structure CacheRel (cfg : CacheConfig) (ob ib : Nat) (c : Cache) (m : Memory) : Prop where
  config : c.config = cfg
  dec : c.addrDecoder = ⟨ob, ib⟩
  len : 2 ^ ib ≤ c.sets.length
  ways : ∀ s set, c.sets.get? s = some set → set ≠ []
  inv : CacheInv ob ib cfg.writePolicy c.accesses (blockAt c.sets) c.memory m

/-- What is left of `std::stoi` once sign and base are known. -/
def stoiFinish (negative : Bool) (parsed : Nat × Nat) : StoiResult :=
  if parsed.2 = 0 then .invalidArgument
  else
    let value : Int := if negative then -(parsed.1 : Int) else (parsed.1 : Int)
    if value < -2147483648 ∨ value > 2147483647 then .outOfRange else .ok value

/-- A character that may stand inside an operand: no white space and none of the
characters `,` `#` `:` `;` `(` `)` the parser gives a meaning to. -/
def isTokenChar (c : Char) : Bool :=
  !(c = ' ' || c = '\t' || c = '\n' || c = '\x0b' || c = '\x0c' || c = '\r' || c = ',' ||
    c = '#' || c = ':' || c = ';' || c = '(' || c = ')')

/-- The operands of a line: the tokens separated by a comma and a blank. -/
def opsChars : List (List Char) → List Char
  | [] => []
  | [t] => t
  | t :: ts => t ++ ',' :: ' ' :: opsChars ts

/-- A character of an operand: a token character or a parenthesis. -/
def isOperandChar (c : Char) : Bool := isTokenChar c || c = '(' || c = ')'

/-- What the assembler needs of a label set to read back the labels the disassembler prints
with it: a label printed for an address is made of token characters, is known by name, and
stands for that address. -/
structure LabelSet.Readable (labels : LabelSet) : Prop where
  byAddress : ∀ (pc : Int) (name : String), mapFind pc labels.addressToLabels = some name →
    labels.isPresentLabel name = true ∧ labels.getProgramCounter name = pc ∧
      name.data ≠ [] ∧ ∀ c, c ∈ name.data → isTokenChar c = true

/-! ## Programs in the form the disassembler prints

Not code of the repository: the source programs for which the text round trip is stated. -/

/-- One instruction of a source program: the record and the values of its operands. -/
structure SourceInstr where
  instr : Instruction
  rd : Int
  rs1 : Int
  rs2 : Int
  imm : Int
  deriving DecidableEq, Repr

/-- The line `DeAssembler::disassemble` prints for the instruction at `pc`. -/
def SourceInstr.line (labelSet : LabelSet) (s : SourceInstr) (pc : Nat) : String :=
  s.instr.mnemonic ++ " " ++ formatOperands labelSet s.instr s.rd s.rs1 s.rs2 s.imm pc

/-- A register number. -/
def isRegister (r : Int) : Prop := 0 ≤ r ∧ r < 32

instance (r : Int) : Decidable (isRegister r) := by unfold isRegister; infer_instance

/-- The operand values an instruction can carry: register numbers 0..31 in the fields of
its format and zero in the others, and an immediate in the range of its field: twelve
signed bits in format I and S, of which a shift takes the amounts 0..31, an even signed
offset in format B and J, twenty bits in format U, 0 for `ecall` and 1 for `ebreak`. -/
def SourceInstr.inRange (s : SourceInstr) : Prop :=
  match s.instr.format with
  | .R => isRegister s.rd ∧ isRegister s.rs1 ∧ isRegister s.rs2 ∧ s.imm = 0
  | .I =>
    if s.instr.mnemonic = "ecall" then s.rd = 0 ∧ s.rs1 = 0 ∧ s.rs2 = 0 ∧ s.imm = 0
    else if s.instr.mnemonic = "ebreak" then s.rd = 0 ∧ s.rs1 = 0 ∧ s.rs2 = 0 ∧ s.imm = 1
    else isRegister s.rd ∧ isRegister s.rs1 ∧ s.rs2 = 0 ∧
      (-2048 ≤ s.imm ∧ s.imm ≤ 2047) ∧
      (isShiftInstruction s.instr.mnemonic = true → 0 ≤ s.imm ∧ s.imm < 32)
  | .S => s.rd = 0 ∧ isRegister s.rs1 ∧ isRegister s.rs2 ∧ -2048 ≤ s.imm ∧ s.imm ≤ 2047
  | .B =>
    s.rd = 0 ∧ isRegister s.rs1 ∧ isRegister s.rs2 ∧ -4096 ≤ s.imm ∧ s.imm ≤ 4094 ∧
      s.imm % 2 = 0
  | .U => isRegister s.rd ∧ s.rs1 = 0 ∧ s.rs2 = 0 ∧ 0 ≤ s.imm ∧ s.imm < 1048576
  | .J =>
    isRegister s.rd ∧ s.rs1 = 0 ∧ s.rs2 = 0 ∧ -1048576 ≤ s.imm ∧ s.imm ≤ 1048574 ∧
      s.imm % 2 = 0

instance (s : SourceInstr) : Decidable s.inRange := by
  unfold SourceInstr.inRange
  cases s.instr.format <;> infer_instance

/-- The instruction is not one whose word the decoder mis-reads.
`decodeRegistersAndImmediate` takes every I-format word with funct3 001 or 101 for a shift
and returns five bits of immediate; for `lh` and `lhu`, the instructions with such a funct3
that are no shifts, this is the offset only when the offset is in 0..31. -/
def SourceInstr.missesDecoderDefect (s : SourceInstr) : Prop :=
  s.instr.format = .I → isShiftInstruction s.instr.mnemonic = false →
    s.instr.funct3 = 1 ∨ s.instr.funct3 = 5 → 0 ≤ s.imm ∧ s.imm < 32

instance (s : SourceInstr) : Decidable s.missesDecoderDefect := by
  unfold SourceInstr.missesDecoderDefect
  infer_instance

/-- What the proofs use of `inRange` and `missesDecoderDefect`, from which it follows
(`readsBack_of_inRange`): the operand values an instruction encodes and the decoder
returns. -/
def SourceInstr.readsBack (s : SourceInstr) : Prop :=
  match s.instr.format with
  | .R => isRegister s.rd ∧ isRegister s.rs1 ∧ isRegister s.rs2 ∧ s.imm = 0
  | .I =>
    if s.instr.mnemonic = "ecall" then s.rd = 0 ∧ s.rs1 = 0 ∧ s.rs2 = 0 ∧ s.imm = 0
    else if s.instr.mnemonic = "ebreak" then s.rd = 0 ∧ s.rs1 = 0 ∧ s.rs2 = 0 ∧ s.imm = 1
    else isRegister s.rd ∧ isRegister s.rs1 ∧ s.rs2 = 0 ∧
      (if s.instr.funct3 = 1 ∨ s.instr.funct3 = 5 then 0 ≤ s.imm ∧ s.imm < 32
        else -2048 ≤ s.imm ∧ s.imm ≤ 2047)
  | .S => s.rd = 0 ∧ isRegister s.rs1 ∧ isRegister s.rs2 ∧ -2048 ≤ s.imm ∧ s.imm ≤ 2047
  | .B =>
    s.rd = 0 ∧ isRegister s.rs1 ∧ isRegister s.rs2 ∧ -4096 ≤ s.imm ∧ s.imm ≤ 4094 ∧
      s.imm % 2 = 0
  | .U => isRegister s.rd ∧ s.rs1 = 0 ∧ s.rs2 = 0 ∧ 0 ≤ s.imm ∧ s.imm < 1048576
  | .J =>
    isRegister s.rd ∧ s.rs1 = 0 ∧ s.rs2 = 0 ∧ -1048576 ≤ s.imm ∧ s.imm ≤ 1048574 ∧
      s.imm % 2 = 0

instance (s : SourceInstr) : Decidable s.readsBack := by
  unfold SourceInstr.readsBack
  cases s.instr.format <;> infer_instance

/-- The operands `formatOperands` prints for an instruction, one by one. -/
def SourceInstr.tokens (labelSet : LabelSet) (s : SourceInstr) (pc : Nat) :
    List (List Char) :=
  let targetAddr : Nat := toU32 ((pc : Int) + s.imm)
  let x (r : Int) : List Char := 'x' :: intToChars r
  let target : List Char :=
    if labelSet.isPresentPC (toI32 targetAddr) then
      (labelSet.getLabel (toI32 targetAddr) false).data
    else intToChars s.imm
  match s.instr.format with
  | .R => [x s.rd, x s.rs1, x s.rs2]
  | .I =>
    if s.instr.mnemonic = "ecall" ∨ s.instr.mnemonic = "ebreak" then []
    else if isLoadInstruction s.instr.mnemonic || s.instr.mnemonic = "jalr" then
      [x s.rd, intToChars s.imm ++ ['('] ++ x s.rs1 ++ [')']]
    else [x s.rd, x s.rs1, intToChars s.imm]
  | .S => [x s.rs2, intToChars s.imm ++ ['('] ++ x s.rs1 ++ [')']]
  | .B => [x s.rs1, x s.rs2, target]
  | .U => [x s.rd, '0' :: 'x' :: hexToChars s.imm]
  | .J => [x s.rd, target]

/-- The numeral among the operands `formatOperands` prints for an instruction, if there is
one: the immediate or offset, in hexadecimal for format U, and for a branch or jump the
offset when no label is defined at the target. -/
def SourceInstr.numeral (labelSet : LabelSet) (s : SourceInstr) (pc : Nat) :
    Option (List Char) :=
  let targetAddr : Nat := toU32 ((pc : Int) + s.imm)
  let target : Option (List Char) :=
    if labelSet.isPresentPC (toI32 targetAddr) then none else some (intToChars s.imm)
  match s.instr.format with
  | .R => none
  | .I =>
    if s.instr.mnemonic = "ecall" ∨ s.instr.mnemonic = "ebreak" then none
    else some (intToChars s.imm)
  | .S => some (intToChars s.imm)
  | .B => target
  | .U => some ('0' :: 'x' :: hexToChars s.imm)
  | .J => target

/-- No label is spelled like the numeral printed for the instruction: `parseImmediate`
looks an operand up among the labels before it reads it as a number. -/
def SourceInstr.numeralIsNoLabel (labelSet : LabelSet) (s : SourceInstr) (pc : Nat) : Bool :=
  match s.numeral labelSet pc with
  | none => true
  | some t => !labelSet.isPresentLabel ⟨t⟩

/-- No label is spelled like a numeral printed for an instruction of the program. -/
def numeralsAreNoLabels (labelSet : LabelSet) :
    List (Option String × SourceInstr) → Nat → Bool
  | [], _ => true
  | (_, s) :: rest, i =>
    s.numeralIsNoLabel labelSet ((0 + i * 4) % 4294967296) &&
      numeralsAreNoLabels labelSet rest (i + 1)

/-- A label the round trip is stated for: a non-empty word of token characters. -/
def isLabelName (name : String) : Prop :=
  name.data ≠ [] ∧ name.data.all isTokenChar = true

instance (name : String) : Decidable (isLabelName name) := by
  unfold isLabelName
  infer_instance

/-- The label set the assembler builds for a program given as its instructions in order,
each with the label defined before it, if any: the instruction at index `i` is at 4·i. -/
def programLabels : List (Option String × SourceInstr) → Nat → LabelSet → LabelSet
  | [], _, labelSet => labelSet
  | (some name, _) :: rest, i, labelSet =>
    programLabels rest (i + 1) (labelSet.setLabel (toI32 ((0 + i * 4) % 4294967296)) name true)
  | (none, _) :: rest, i, labelSet => programLabels rest (i + 1) labelSet

/-- The text of a program as the disassembler holding `labelSet` prints it: for each
instruction the line `name:` of its label, if it has one, and the line of the
instruction. -/
def programText (labelSet : LabelSet) : List (Option String × SourceInstr) → Nat → List String
  | [], _ => []
  | (label, s) :: rest, i =>
    (match label with
      | some name => [name ++ ":"]
      | none => []) ++
      s.line labelSet ((0 + i * 4) % 4294967296) :: programText labelSet rest (i + 1)

/-- The addresses and names of the labels of a program, in order. -/
def labelPairs : List (Option String × SourceInstr) → Nat → List (Int × String)
  | [], _ => []
  | (some name, _) :: rest, i =>
    (toI32 ((0 + i * 4) % 4294967296), name) :: labelPairs rest (i + 1)
  | (none, _) :: rest, i => labelPairs rest (i + 1)

/-- The instruction lines of a program as the first pass of the assembler keeps them. -/
def programLines (labelSet : LabelSet) : List (Option String × SourceInstr) → Nat → List String
  | [], _ => []
  | (_, s) :: rest, i =>
    ⟨cleanLineChars (s.line labelSet ((0 + i * 4) % 4294967296)).data⟩ ::
      programLines labelSet rest (i + 1)

/-- The machine words of a program. -/
def programCodes (prog : List (Option String × SourceInstr)) : List Nat :=
  prog.map (fun p => p.2.instr.getMachineCode p.2.rd p.2.rs1 p.2.rs2 p.2.imm)

/-- The programs the text round trip is stated for: at most 2^28 instructions of the table
of the mode, each with operand values in range and none that the decoder mis-reads; the
labels, at most one before an instruction, are label names and differ from one another,
and none is spelled like a numeral printed for an instruction. -/
structure CanonicalProgram (mode : ISAMode) (prog : List (Option String × SourceInstr)) :
    Prop where
  short : prog.length ≤ 268435456
  instrs : ∀ p, p ∈ prog → p.2.instr ∈ instructionList mode ∧ p.2.inRange
  decoded : ∀ p, p ∈ prog → p.2.missesDecoderDefect
  labels : ∀ p, p ∈ prog → ∀ name, p.1 = some name → isLabelName name
  distinct : (prog.filterMap Prod.fst).Nodup
  numerals : numeralsAreNoLabels (programLabels prog 0 {}) prog 0 = true

/-- `src` is `text` up to what `Parser::cleanLine` removes: a comment, the blanks at both
ends of a line, and the lines left empty. -/
inductive CleansTo : List String → List String → Prop where
  | nil : CleansTo [] []
  | skip (line : String) (src text : List String) :
    cleanLineChars line.data = [] → CleansTo src text → CleansTo (line :: src) text
  | keep (line printed : String) (src text : List String) :
    cleanLineChars line.data = cleanLineChars printed.data → CleansTo src text →
    CleansTo (line :: src) (printed :: text)

/-- The source with what `Parser::cleanLine` removes taken away: every line cleaned, and
the lines left empty dropped. -/
def cleanedLines (src : List String) : List String :=
  (src.map Parser.cleanLine).filter (fun line => !line.data.isEmpty)

/-! ## The lines of a source text, as the first pass of the assembler sorts them -/

/-- The test `trimmed.empty() || trimmed[0] == '#' || trimmed[0] == ';'` of
`Assembler::collectLabels` on a line. -/
def isIgnoredLine (line : String) : Bool :=
  let trimmed := cleanLineChars line.data
  trimmed.isEmpty || trimmed.head? == some '#' || trimmed.head? == some ';'

/-- What `Assembler::collectLabels` keeps of a line as the text of an instruction: the
cleaned line, after the label definition if there is one. -/
def instructionText (line : String) : List Char :=
  let trimmed := cleanLineChars line.data
  match findChar ':' trimmed with
  | some colonPos => cleanLineChars (trimmed.drop (colonPos + 1))
  | none => trimmed

/-- The line makes `Assembler::collectLabels` push an instruction. -/
def producesInstruction (line : String) : Bool :=
  !isIgnoredLine line && !(instructionText line).isEmpty

/-- The label `Assembler::collectLabels` passes to `setLabel` on a line, if any. -/
def definesLabel (line : String) : Option String :=
  if isIgnoredLine line then none
  else
    match findChar ':' (cleanLineChars line.data) with
    | some colonPos => some ⟨substr (cleanLineChars line.data) 0 colonPos⟩
    | none => none

/-! ## Conversions of the interpreter's integers

`int` and `int64_t` arithmetic that leaves the range of the type wraps around (two's
complement), as do the conversions between integer types. -/

/-- Conversion of a bit pattern to `int64_t`. -/
def toI64 (n : Nat) : Int :=
  if n % 18446744073709551616 < 9223372036854775808 then (n % 18446744073709551616 : Nat)
  else (n % 18446744073709551616 : Nat) - 18446744073709551616

/-- Conversion of a bit pattern to `__int128_t`. -/
def toI128 (n : Nat) : Int :=
  if n % 2 ^ 128 < 2 ^ 127 then (n % 2 ^ 128 : Nat) else (n % 2 ^ 128 : Nat) - 2 ^ 128

/-- Conversion of an integer to `int`. -/
def wrapI32 (x : Int) : Int := toI32 (toU32 x)

/-- Conversion of an integer to `int64_t`. -/
def wrapI64 (x : Int) : Int := toI64 (toU64 x)

/-- `a & b` on `int64_t`. -/
def and64 (a b : Int) : Int := toI64 (toU64 a &&& toU64 b)

/-- `a | b` on `int64_t`. -/
def or64 (a b : Int) : Int := toI64 (toU64 a ||| toU64 b)

/-- `a ^ b` on `int64_t`. -/
def xor64 (a b : Int) : Int := toI64 (toU64 a ^^^ toU64 b)

/-! ## CallFrame.h / ShadowCallStack.h / ShadowCallStack.cpp

The vector of frames is a list whose last element is `back()`. -/

/-- `class CallFrame`. -/
structure CallFrame where
  functionName : String
  sourceLine : Int
  returnAddress : Nat
  deriving DecidableEq, Repr

/-- `class ShadowCallStack`. -/
structure ShadowCallStack where
  shadowCallStack : List CallFrame
  currCallFrame : CallFrame
  deriving DecidableEq, Repr

/-- An assignment to a member of `shadowCallStack.back()`. -/
def modifyBack {α : Type} (f : α → α) : List α → List α
  | [] => []
  | [x] => [f x]
  | x :: rest => x :: modifyBack f rest

/-- `ShadowCallStack::reset`. -/
def ShadowCallStack.reset (self : ShadowCallStack) : ShadowCallStack :=
  { self with shadowCallStack := [] }

/-- `ShadowCallStack::updateTopFrameSourceLine`. -/
def ShadowCallStack.updateTopFrameSourceLine (self : ShadowCallStack) (sourceLine : Int) :
    ShadowCallStack :=
  { self with
    shadowCallStack := modifyBack (fun f => { f with sourceLine := sourceLine })
      self.shadowCallStack }

/-- `ShadowCallStack::updateTopFrameReturnAddress`; the `int` becomes the `uint32_t` of
`setReturnAddress`. -/
def ShadowCallStack.updateTopFrameReturnAddress (self : ShadowCallStack) (pc : Int) :
    ShadowCallStack :=
  { self with
    shadowCallStack := modifyBack (fun f => { f with returnAddress := toU32 pc })
      self.shadowCallStack }

/-- The loop of `ShadowCallStack::pushFrame` over the line map: the line of the first entry
with the PC, or -1. -/
def pushFrameSourceLine (pc : Int) : List (Nat × Nat) → Int
  | [] => -1
  | (sLine, mappedPC) :: rest =>
    if toI32 mappedPC = pc then (sLine : Int) else pushFrameSourceLine pc rest

/-- `ShadowCallStack::pushFrame`. -/
def ShadowCallStack.pushFrame (self : ShadowCallStack) (assembler : Assembler) (pc : Int) :
    ShadowCallStack :=
  let sourceLine := pushFrameSourceLine pc assembler.sourceLineToPC
  let funcName : String :=
    if assembler.labelSet.isPresentPC pc then assembler.labelSet.getLabel pc true else ""
  let funcName : String := if pc = 0 ∧ funcName = "" then "* main *" else funcName
  let frame : CallFrame := ⟨funcName, sourceLine, toU32 pc⟩
  { shadowCallStack := self.shadowCallStack ++ [frame], currCallFrame := frame }

/-- `ShadowCallStack::popFrameIfMatchingReturnAddress`: with two frames or more the top
frame is popped, whether the return address matches or not. -/
def ShadowCallStack.popFrameIfMatchingReturnAddress (self : ShadowCallStack) (rd : Int) :
    ShadowCallStack :=
  if self.shadowCallStack.length ≥ 2 then
    match self.shadowCallStack.get? (self.shadowCallStack.length - 2) with
    | some secondLast =>
      let shadowReturnAddr : Int := toI32 secondLast.returnAddress
      if shadowReturnAddr = rd then { self with shadowCallStack := self.shadowCallStack.dropLast }
      else { self with shadowCallStack := self.shadowCallStack.dropLast }
    | none => self
  else self

/-! ## Assembler.cpp: the line of a PC -/

/-- The loop of `Assembler::getCurrentSourceLine`: the line of the last entry with the
PC. -/
def getCurrentSourceLineLoop (pc : Int) : List (Nat × Nat) → Int → Int
  | [], sourceLine => sourceLine
  | (sLine, mappedPC) :: rest, sourceLine =>
    getCurrentSourceLineLoop pc rest (if toI32 mappedPC = pc then (sLine : Int) else sourceLine)

/-- `Assembler::getCurrentSourceLine`. -/
def Assembler.getCurrentSourceLine (self : Assembler) (pc : Int) : Int :=
  getCurrentSourceLineLoop pc self.sourceLineToPC 0

/-! ## BreakPointInfo.h / BreakPointInfo.cpp -/

/-- `BreakPointInfo::getBreakpointAssemblyLine` on the `breakpointMap`. -/
def getBreakpointAssemblyLine (breakpointMap : List (Int × Int)) (pc : Int) : Int :=
  match mapFind pc breakpointMap with
  | some line => line
  | none => 0

/-! ## CacheSimulator.h / CacheSimulator.cpp

Of the log file the embedding keeps whether it could be opened, as an argument of
`setProgramName`; the program name is not part of it. -/

/-- `class CacheSimulator`. -/
structure CacheSimulator where
  cache : Cache
  config : CacheConfig
  enabled : Bool

/-- `CacheSimulator::read`. -/
def CacheSimulator.read (self : CacheSimulator) (address : Nat) (size : MemSize)
    (isUnsigned : Bool) (rand : Nat) : Except Fault (Nat × CacheSimulator) :=
  if !self.enabled then .ok (address, self)
  else
    match self.cache.read address size isUnsigned rand with
    | .error f => .error f
    | .ok (value, cache) => .ok (value, { self with cache := cache })

/-- `CacheSimulator::write`. -/
def CacheSimulator.write (self : CacheSimulator) (address : Nat) (size : MemSize)
    (value : Nat) (rand : Nat) : Except Fault CacheSimulator :=
  if !self.enabled then .ok self
  else
    match self.cache.write address size value rand with
    | .error f => .error f
    | .ok cache => .ok { self with cache := cache }

/-- `CacheSimulator::setProgramName`: nothing when the simulation is not enabled;
otherwise the log file is opened, and the cache gets it as its log stream if it is open.
`opens` is whether `logFile.is_open()` holds after the call of `open`. -/
def CacheSimulator.setProgramName (self : CacheSimulator) (opens : Bool) : CacheSimulator :=
  if !self.enabled then self
  else if opens then { self with cache := self.cache.setLogStream }
  else self

/-- `CacheSimulator::invalidate`. -/
def CacheSimulator.invalidate (self : CacheSimulator) : CacheSimulator :=
  { self with cache := self.cache.invalidate }

/-! ## Simulator.h / Simulator.cpp

What the interpreter prints is not part of the embedding. The register file `regs[32]` is
a function on `Fin 32`; an index outside `0..31` is undefined behaviour. The cache points at
the memory of the simulator: the field `memory` of the state is that one memory, a cache
operation runs on the cache with this memory in it and the memory it leaves is stored back.
A memory access takes the value `std::rand()` would return, as in `Cache::access`; `step`
makes at most one access. The double-word accesses of `ld` and `sd` shift a 32-bit value by
32 bits or more in `Memory::read` and `Memory::write`, which C++ leaves undefined; in the
embedding the bits shifted out are lost, as in `Memory.readLoop` and `Memory.writeLoop`. -/

/-- `class Simulator`. -/
structure Simulator where
  assembler : Assembler
  resumedFromBreakpoint : Bool
  breakpointInfo : List (Int × Int)
  cacheSim : CacheSimulator
  memory : Memory
  program : List InstructionInstance
  pc : Int
  shadowCallStack : ShadowCallStack
  running : Bool
  pauseRequested : Bool
  regs : Fin 32 → Int

/-- The read `regs[r]`. -/
def Simulator.reg (self : Simulator) (r : Int) : Except Fault Int :=
  if h : 0 ≤ r ∧ r < 32 then .ok (self.regs ⟨r.toNat, by omega⟩)
  else .error .undefinedBehavior

/-- `Simulator::initializeRegisters`. -/
def Simulator.initializeRegisters (self : Simulator) : Simulator :=
  { self with regs := fun _ => 0 }

/-- `Simulator::setRegValue`; `value` is the `int` of the parameter. -/
def Simulator.setRegValue (self : Simulator) (regNum : Int) (value : Int) :
    Except Fault Simulator :=
  if regNum = 0 then .ok self
  else if h : 0 ≤ regNum ∧ regNum < 32 then
    .ok { self with
      regs := fun i => if i = ⟨regNum.toNat, by omega⟩ then value else self.regs i }
  else .error .undefinedBehavior

/-- `Simulator::resetRegsMemStack`. -/
def Simulator.resetRegsMemStack (self : Simulator) : Simulator :=
  { self.initializeRegisters with
    pc := 0
    memory := Memory.empty
    shadowCallStack := self.shadowCallStack.reset
    cacheSim := self.cacheSim.invalidate }

/-- `Simulator::reset`. -/
def Simulator.reset (self : Simulator) : Simulator :=
  { self.resetRegsMemStack with program := [], breakpointInfo := [] }

/-- `Simulator::load`. -/
def Simulator.load (self : Simulator) (instructions : List InstructionInstance) : Simulator :=
  { self.reset with program := instructions }

/-- `Simulator::readMemory`, returning an `int`. -/
def Simulator.readMemory (self : Simulator) (addr : Nat) (size : MemSize) (isUnsigned : Bool)
    (rand : Nat) : Except Fault (Int × Simulator) :=
  if self.cacheSim.enabled then
    let cacheSim :=
      { self.cacheSim with cache := { self.cacheSim.cache with memory := self.memory } }
    match cacheSim.read addr size isUnsigned rand with
    | .error f => .error f
    | .ok (value, cacheSim) =>
      .ok (toI32 value, { self with cacheSim := cacheSim, memory := cacheSim.cache.memory })
  else .ok (self.memory.read addr size isUnsigned, self)

/-- `Simulator::writeMemory`. -/
def Simulator.writeMemory (self : Simulator) (addr : Nat) (size : MemSize) (val : Nat)
    (rand : Nat) : Except Fault Simulator :=
  if self.cacheSim.enabled then
    let cacheSim :=
      { self.cacheSim with cache := { self.cacheSim.cache with memory := self.memory } }
    match cacheSim.write addr size val rand with
    | .error f => .error f
    | .ok cacheSim => .ok { self with cacheSim := cacheSim, memory := cacheSim.cache.memory }
  else .ok { self with memory := self.memory.write addr size val }

/-- The value `4 * (int)program.size()`. -/
def Simulator.programEnd (self : Simulator) : Int :=
  wrapI32 (4 * wrapI32 (self.program.length : Int))

/-- The list of mnemonics of `writesToRegister` in `Simulator::execute`. -/
def writesToRegister (name : String) : Bool :=
  name = "add" || name = "sub" || name = "and" || name = "or" || name = "xor" ||
  name = "sll" || name = "srl" || name = "sra" ||
  name = "addi" || name = "andi" || name = "ori" || name = "xori" ||
  name = "slli" || name = "srli" || name = "srai" ||
  name = "lw" || name = "lh" || name = "lb" || name = "lhu" || name = "lbu" ||
  name = "lui" || name = "auipc" ||
  name = "mul" ||
  name = "mulh" || name = "mulhsu" || name = "mulhu" ||
  name = "div" || name = "divu" || name = "rem" || name = "remu" ||
  name = "addw" || name = "subw" || name = "sllw" || name = "srlw" || name = "sraw" ||
  name = "addiw" || name = "slliw" || name = "srliw" || name = "sraiw" ||
  name = "ld" || name = "lwu" ||
  name = "mulw" || name = "divw" || name = "divuw" || name = "remw" || name = "remuw"

/-- The chain of `if (name == ...) ... else if ...` of `Simulator::execute`, entered with
the locals `rd`, `rs1`, `rs2` read from the registers: the value of the local `rd` and the
state when the chain is left. -/
def Simulator.executeArm (self : Simulator) (inst : InstructionInstance) (rd rs1 rs2 : Int)
    (rand : Nat) : Except Fault (Int × Simulator) :=
  let name := inst.instruction.mnemonic
  let imm : Int := inst.imm
  let simm : Int := wrapI32 (wrapI64 (imm * 1048576)) >>> (20 : Nat)
  let sh5 (x : Int) : Nat := toU64 x % 32
  let load (size : MemSize) (isUnsigned : Bool) (conv : Int → Int) :
      Except Fault (Int × Simulator) :=
    match self.readMemory (toU32 (rs1 + imm)) size isUnsigned rand with
    | .error f => .error f
    | .ok (value, s) => .ok (conv value, s)
  let store (size : MemSize) : Except Fault (Int × Simulator) :=
    match self.writeMemory (toU32 (rs1 + imm)) size (toU32 rs2) rand with
    | .error f => .error f
    | .ok s => .ok (rd, s)
  let branch : Except Fault (Int × Simulator) :=
    .ok (rd, { self with pc := wrapI32 (self.pc + (imm - 4)) })
  if name = "add" then .ok (wrapI64 (rs1 + rs2), self)
  else if name = "sub" then .ok (wrapI64 (rs1 - rs2), self)
  else if name = "and" then .ok (and64 rs1 rs2, self)
  else if name = "or" then .ok (or64 rs1 rs2, self)
  else if name = "xor" then .ok (xor64 rs1 rs2, self)
  else if name = "sll" then .ok (wrapI64 (rs1 * 2 ^ sh5 rs2), self)
  else if name = "srl" then .ok (rs1 >>> sh5 rs2, self)
  else if name = "sra" then .ok (wrapI32 rs1 >>> sh5 rs2, self)
  else if name = "mul" then .ok (wrapI32 (wrapI32 rs1 * wrapI32 rs2), self)
  else if name = "mulh" then .ok (wrapI64 ((rs1 * rs2) >>> (64 : Nat)), self)
  else if name = "mulhsu" then .ok (wrapI64 ((rs1 * (toU64 rs2 : Int)) >>> (64 : Nat)), self)
  else if name = "mulhu" then
    .ok (wrapI64 (toI128 (toU64 rs1 * toU64 rs2) >>> (64 : Nat)), self)
  else if name = "div" then
    if rs2 = 0 then .ok (-1, self)
    else if rs1 = -9223372036854775808 ∧ rs2 = -1 then .ok (-9223372036854775808, self)
    else .ok (Int.tdiv rs1 rs2, self)
  else if name = "divu" then
    if rs2 = 0 then .ok (toI64 18446744073709551615, self)
    else .ok (toI64 (toU64 rs1 / toU64 rs2), self)
  else if name = "rem" then
    if rs2 = 0 then .ok (rs1, self)
    else if rs1 = -9223372036854775808 ∧ rs2 = -1 then .ok (0, self)
    else .ok (Int.tmod rs1 rs2, self)
  else if name = "remu" then
    if rs2 = 0 then .ok (rs1, self)
    else .ok (toI64 (toU64 rs1 % toU64 rs2), self)
  else if name = "addw" then .ok (wrapI32 (wrapI64 (rs1 + rs2)), self)
  else if name = "subw" then .ok (wrapI32 (wrapI64 (rs1 - rs2)), self)
  else if name = "sllw" then .ok (wrapI32 (wrapI64 (rs1 * 2 ^ sh5 rs2)), self)
  else if name = "srlw" then .ok (toI32 (toU32 rs1 >>> sh5 rs2), self)
  else if name = "sraw" then .ok (wrapI32 (wrapI32 rs1 >>> sh5 rs2), self)
  else if name = "ld" then load .DoubleWord false id
  else if name = "sd" then store .DoubleWord
  else if name = "mulw" then .ok (wrapI32 (wrapI64 (rs1 * rs2)), self)
  else if name = "divw" then
    let dividend := wrapI32 rs1
    let divisor := wrapI32 rs2
    if divisor = 0 then .ok (-1, self)
    else if dividend = -2147483648 ∧ divisor = -1 then .ok (-2147483648, self)
    else .ok (Int.tdiv dividend divisor, self)
  else if name = "divuw" then
    let dividend := toU32 rs1
    let divisor := toU32 rs2
    if divisor = 0 then .ok (-1, self)
    else .ok (toI32 (dividend / divisor), self)
  else if name = "remw" then
    let dividend := wrapI32 rs1
    let divisor := wrapI32 rs2
    if divisor = 0 then .ok (dividend, self)
    else if dividend = -2147483648 ∧ divisor = -1 then .ok (0, self)
    else .ok (Int.tmod dividend divisor, self)
  else if name = "remuw" then
    let dividend := toU32 rs1
    let divisor := toU32 rs2
    if divisor = 0 then .ok (toI32 dividend, self)
    else .ok (toI32 (dividend % divisor), self)
  else if name = "addi" then .ok (wrapI64 (rs1 + imm), self)
  else if name = "andi" then .ok (and64 rs1 imm, self)
  else if name = "ori" then .ok (or64 rs1 imm, self)
  else if name = "xori" then .ok (xor64 rs1 imm, self)
  else if name = "slli" then .ok (wrapI64 (rs1 * 2 ^ (toU64 imm % 64)), self)
  else if name = "srli" then .ok (((toU32 rs1 >>> sh5 imm : Nat) : Int), self)
  else if name = "srai" then .ok (wrapI32 rs1 >>> sh5 imm, self)
  else if name = "addiw" then .ok (wrapI32 (wrapI64 (rs1 + simm)), self)
  else if name = "slliw" then .ok (toI32 ((toU32 rs1 <<< sh5 imm) % 4294967296), self)
  else if name = "srliw" then .ok (toI32 (toU32 rs1 >>> sh5 imm), self)
  else if name = "sraiw" then .ok (wrapI32 (wrapI32 rs1 >>> sh5 imm), self)
  else if name = "lw" then load .Word false id
  else if name = "lh" then load .HalfWord false (fun v => toI16 (toU32 v))
  else if name = "lb" then load .Byte false (fun v => toI8 (toU32 v))
  else if name = "lhu" then load .HalfWord true id
  else if name = "lbu" then load .Byte true id
  else if name = "lwu" then load .Word true id
  else if name = "sw" then store .Word
  else if name = "sh" then store .HalfWord
  else if name = "sb" then store .Byte
  else if name = "beq" ∧ rs1 = rs2 then branch
  else if name = "bne" ∧ rs1 ≠ rs2 then branch
  else if name = "blt" ∧ wrapI32 rs1 < wrapI32 rs2 then branch
  else if name = "bge" ∧ wrapI32 rs1 ≥ wrapI32 rs2 then branch
  else if name = "bltu" ∧ toU32 rs1 < toU32 rs2 then branch
  else if name = "bgeu" ∧ toU32 rs1 ≥ toU32 rs2 then branch
  else if name = "jal" then
    let nextInstr := wrapI32 (self.pc + 4)
    let pc := wrapI32 (self.pc + imm)
    if inst.rd ≠ 0 then
      match self.setRegValue inst.rd nextInstr with
      | .error f => .error f
      | .ok s =>
        let stack := (s.shadowCallStack.updateTopFrameReturnAddress pc).pushFrame
          s.assembler pc
        .ok (rd, { s with pc := wrapI32 (pc - 4), shadowCallStack := stack })
    else .ok (rd, { self with pc := wrapI32 (pc - 4) })
  else if name = "jalr" then
    let pc := wrapI32 (and64 (wrapI64 (rs1 + imm)) (-2))
    let stack :=
      if inst.rd = 0 then self.shadowCallStack.popFrameIfMatchingReturnAddress (wrapI32 rd)
      else self.shadowCallStack
    .ok (rd, { self with pc := wrapI32 (pc - 4), shadowCallStack := stack })
  else if name = "lui" then .ok (wrapI64 (imm * 4096), self)
  else if name = "auipc" then .ok (wrapI64 (self.pc + wrapI64 (imm * 4096)), self)
  else .ok (rd, self)

/-- `Simulator::execute`. -/
def Simulator.execute (self : Simulator) (inst : InstructionInstance) (rand : Nat) :
    Except Fault Simulator :=
  let name := inst.instruction.mnemonic
  if name = "ecall" then
    .ok { self with pc := wrapI32 ((self.program.length : Int) * 4), running := false }
  else if name = "ebreak" then .ok { self with pauseRequested := true }
  else
    match self.reg inst.rd, self.reg inst.rs1, self.reg inst.rs2 with
    | .ok rd, .ok rs1, .ok rs2 =>
      match self.executeArm inst rd rs1 rs2 rand with
      | .error f => .error f
      | .ok (rd, s) =>
        if writesToRegister name && decide (inst.rd ≠ 0) then s.setRegValue inst.rd (wrapI32 rd)
        else .ok s
    | _, _, _ => .error .undefinedBehavior

/-- `Simulator::step`: the value returned and the state left. -/
def Simulator.step (self : Simulator) (rand : Nat) : Except Fault (Int × Simulator) :=
  let instrIndex := Int.tdiv self.pc 4
  if self.program.length = 0 ∨ instrIndex < 0 ∨ instrIndex ≥ wrapI32 (self.program.length : Int)
  then .ok (0, self)
  else
    let sourceLine := self.assembler.getCurrentSourceLine self.pc
    let stack :=
      if self.pc = 0 then self.shadowCallStack.pushFrame self.assembler self.pc
      else self.shadowCallStack.updateTopFrameSourceLine sourceLine
    match self.program.get? instrIndex.toNat with
    | none => .error .undefinedBehavior
    | some inst =>
      match ({ self with shadowCallStack := stack }).execute inst rand with
      | .error f => .error f
      | .ok s =>
        let pc := if s.pc ≤ wrapI32 (s.programEnd - 4) then wrapI32 (s.pc + 4) else s.pc
        let s := { s with
          pc := pc
          shadowCallStack := s.shadowCallStack.updateTopFrameReturnAddress pc }
        .ok (s.assembler.getCurrentSourceLine s.pc, s)

/-- The loop of `Simulator::run`, for at most `fuel` rounds; `none` when the loop has not
ended by then. The round numbered `i` takes `rand i` for its memory access. -/
def Simulator.runLoop : Nat → Nat → Simulator → (Nat → Nat) → Except Fault (Option Simulator)
  | 0, _, s, _ => if s.pc < s.programEnd then .ok none else .ok (some s)
  | fuel + 1, i, s, rand =>
    if s.pc < s.programEnd then
      let line := getBreakpointAssemblyLine s.breakpointInfo s.pc
      if line ≠ 0 ∧ s.resumedFromBreakpoint = false then
        .ok (some { s with resumedFromBreakpoint := true })
      else
        match ({ s with resumedFromBreakpoint := false }).step (rand i) with
        | .error f => .error f
        | .ok (_, s) =>
          if s.pauseRequested then .ok (some s)
          else Simulator.runLoop fuel (i + 1) s rand
    else .ok (some s)

/-- `Simulator::run`, with at most `fuel` rounds of its loop. -/
def Simulator.run (self : Simulator) (fuel : Nat) (rand : Nat → Nat) :
    Except Fault (Option Simulator) :=
  match Simulator.runLoop fuel 0 { self with running := true } rand with
  | .error f => .error f
  | .ok none => .ok none
  | .ok (some s) => .ok (some { s with pauseRequested := false })

/-- The simulator as constructed, before any call. -/
def Simulator.new : Simulator :=
  { assembler := { machineCodes := [], labelSet := {}, instructions := [], sourceLineToPC := [] }
    resumedFromBreakpoint := false
    breakpointInfo := []
    cacheSim := { cache := Cache.new Memory.empty, config := ⟨0, 0, 0, .FIFO, .WB⟩,
                  enabled := false }
    memory := Memory.empty
    program := []
    pc := 0
    shadowCallStack := { shadowCallStack := [], currCallFrame := ⟨"", 0, 0⟩ }
    running := true
    pauseRequested := false
    regs := fun _ => 0 }

/-- `InteractiveSimulator::loadProgramFromString` on the lines of the text: the program is
assembled by the assembler of the simulator and, unless no word comes out, loaded. -/
def Simulator.loadProgramFromString (self : Simulator) (mode : ISAMode) (lines : List String) :
    Except Fault Simulator :=
  match assemble mode lines with
  | .error f => .error f
  | .ok assembler =>
    let self := { self with assembler := assembler }
    if assembler.machineCodes.isEmpty then .ok self
    else .ok (self.load assembler.instructions)

/-- The states a simulator can be in after `load` and any calls of `step` and `run`. -/
inductive Simulator.Reachable : Simulator → Prop where
  | load (s : Simulator) (instructions : List InstructionInstance) :
    Simulator.Reachable (s.load instructions)
  | step (s : Simulator) (rand : Nat) (line : Int) (next : Simulator) :
    Simulator.Reachable s → s.step rand = .ok (line, next) → Simulator.Reachable next
  | run (s : Simulator) (fuel : Nat) (rand : Nat → Nat) (next : Simulator) :
    Simulator.Reachable s → s.run fuel rand = .ok (some next) → Simulator.Reachable next

/-- Everything of the state but the memory and the blocks of the cache is the same. -/
structure Simulator.SameButMemory (s t : Simulator) : Prop where
  regs : t.regs = s.regs
  pc : t.pc = s.pc
  program : t.program = s.program
  assembler : t.assembler = s.assembler
  breakpointInfo : t.breakpointInfo = s.breakpointInfo
  shadowCallStack : t.shadowCallStack = s.shadowCallStack
  running : t.running = s.running
  pauseRequested : t.pauseRequested = s.pauseRequested
  resumedFromBreakpoint : t.resumedFromBreakpoint = s.resumedFromBreakpoint
  enabled : t.cacheSim.enabled = s.cacheSim.enabled

/-- What the chain of `execute` can change: the memory and the cache; the PC and the
shadow call stack; and, in the arm of `jal` alone, one register other than `x0`, which
receives an `int`; `r` is the number of that register. -/
structure Simulator.ArmFrame (r : Int) (s t : Simulator) : Prop where
  program : t.program = s.program
  assembler : t.assembler = s.assembler
  breakpointInfo : t.breakpointInfo = s.breakpointInfo
  running : t.running = s.running
  pauseRequested : t.pauseRequested = s.pauseRequested
  resumedFromBreakpoint : t.resumedFromBreakpoint = s.resumedFromBreakpoint
  enabled : t.cacheSim.enabled = s.cacheSim.enabled
  regs : ∀ i : Fin 32, t.regs i = s.regs i ∨
    (i ≠ 0 ∧ ((i : Nat) : Int) = r ∧ -2147483648 ≤ t.regs i ∧ t.regs i < 2147483648)

/-- What `execute`, `step` and `run` leave alone: the program, the assembler, the
breakpoints and the switch of the cache; a register either keeps its value or is a
register other than `x0` that holds an `int`. -/
structure Simulator.Frame (s t : Simulator) : Prop where
  program : t.program = s.program
  assembler : t.assembler = s.assembler
  breakpointInfo : t.breakpointInfo = s.breakpointInfo
  enabled : t.cacheSim.enabled = s.cacheSim.enabled
  regs : ∀ i : Fin 32, t.regs i = s.regs i ∨
    (i ≠ 0 ∧ -2147483648 ≤ t.regs i ∧ t.regs i < 2147483648)

/-- The conditions of the six branch arms of `Simulator::execute`: whether the branch named
`name` is taken on the register values `rs1` and `rs2`; `none` for any other mnemonic. -/
def branchCondition (name : String) (rs1 rs2 : Int) : Option Bool :=
  if name = "beq" then some (decide (rs1 = rs2))
  else if name = "bne" then some (decide (rs1 ≠ rs2))
  else if name = "blt" then some (decide (wrapI32 rs1 < wrapI32 rs2))
  else if name = "bge" then some (decide (wrapI32 rs1 ≥ wrapI32 rs2))
  else if name = "bltu" then some (decide (toU32 rs1 < toU32 rs2))
  else if name = "bgeu" then some (decide (toU32 rs1 ≥ toU32 rs2))
  else none

/-! ## HazardDetector.h / HazardDetector.cpp -/

/-- `enum PipelineType`. -/
inductive PipelineType where
  | PIPELINE_3_STAGE | PIPELINE_5_STAGE | PIPELINE_7_STAGE
  deriving DecidableEq, Repr

/-- The members of `class HazardDetector` that the stall computation reads. -/
structure HazardDetector where
  pipelineType : PipelineType := .PIPELINE_5_STAGE
  forwardingEnabled : Bool := true
  deriving DecidableEq, Repr

/-- `HazardDetector::calculateRAWStallCycles`; the differences are `int` subtractions. -/
def HazardDetector.calculateRAWStallCycles (self : HazardDetector) (inst1 : InstructionInstance)
    (distance : Int) : Int :=
  let name := inst1.instruction.mnemonic
  let isLoad := isLoadInstruction name
  match self.pipelineType with
  | .PIPELINE_3_STAGE => if distance = 1 then 1 else 0
  | .PIPELINE_5_STAGE =>
    if self.forwardingEnabled then
      if isLoad then
        (if distance = 1 then 1 else max 0 (wrapI32 (2 - distance)))
      else max 0 (wrapI32 (1 - distance))
    else
      if isLoad && decide (distance = 1) then 2
      else if distance ≤ 2 then max 0 (wrapI32 (3 - distance))
      else 0
  | .PIPELINE_7_STAGE =>
    if self.forwardingEnabled then
      if isLoad then max 0 (wrapI32 (2 - distance))
      else max 0 (wrapI32 (3 - distance))
    else
      if isLoad && decide (distance ≤ 2) then max 0 (wrapI32 (3 - distance))
      else if distance ≤ 3 then max 0 (wrapI32 (4 - distance))
      else 0

/-- The table of RAW stall cycles in the words of the specification, by the number of
pipeline stages, the forwarding setting, the kind of the producer and the distance. -/
def specRAWStallCycles (pipelineType : PipelineType) (forwarding load : Bool) (d : Int) : Int :=
  match pipelineType, forwarding with
  | .PIPELINE_3_STAGE, _ => if d = 1 then 1 else 0
  | .PIPELINE_5_STAGE, true =>
    if load then (if d = 1 then 1 else max 0 (2 - d)) else max 0 (1 - d)
  | .PIPELINE_5_STAGE, false =>
    if load ∧ d = 1 then 2 else (if d ≤ 2 then max 0 (3 - d) else 0)
  | .PIPELINE_7_STAGE, true => if load then max 0 (2 - d) else max 0 (3 - d)
  | .PIPELINE_7_STAGE, false =>
    if load ∧ d ≤ 2 then max 0 (3 - d) else (if d ≤ 3 then max 0 (4 - d) else 0)

/-! ## BitUtils.h: `floorPowerOfTwo`

On a `uint32_t` from 2^31 up the loop never ends: `result << 1` wraps to 0, which is not
above `x`, and stays 0. The rounds are therefore counted. -/

namespace BitUtils

/-- The loop of `BitUtils::floorPowerOfTwo` on a `uint32_t`: `none` when the loop has not
ended after `fuel` tests of its condition. -/
def floorPowerOfTwoLoop : Nat → Nat → Nat → Option Nat
  | 0, _, _ => none
  | fuel + 1, result, x =>
    if (result <<< 1) % 4294967296 ≤ x then
      floorPowerOfTwoLoop fuel ((result <<< 1) % 4294967296) x
    else some result

/-- `BitUtils::floorPowerOfTwo`, with at most `fuel` tests of the loop condition. -/
def floorPowerOfTwo (x : Nat) (fuel : Nat) : Option Nat :=
  if x = 0 then some 0 else floorPowerOfTwoLoop fuel 1 x

end BitUtils

/-! ## CacheConfig.cpp: reading the configuration -/

/-- `CacheConfig::isPowerOfTwo` on an `int`; `&` acts on the 32-bit patterns. -/
def CacheConfig.isPowerOfTwo (x : Int) : Bool :=
  decide (x > 0) && decide (toU32 x &&& toU32 (x - 1) = 0)

/-- The mapping of the replacement policy string in `CacheConfig::loadFromFile`. -/
def replacementPolicyOfString (s : String) : Option ReplacementPolicy :=
  if s = "FIFO" then some .FIFO
  else if s = "LRU" then some .LRU
  else if s = "RANDOM" then some .RANDOM
  else none

/-- The mapping of the write policy string in `CacheConfig::loadFromFile`. -/
def writePolicyOfString (s : String) : Option WritePolicy :=
  if s = "WB" then some .WB
  else if s = "WT" then some .WT
  else none

/-- `CacheConfig::loadFromFile` from the point where the five extractions `file >> ...`
have succeeded, on the values they gave (a missing or unreadable token makes the function
return `false` before any check). The block size token is taken non-negative, since the
sizes of a `CacheConfig` are natural numbers here; the code accepts a negative one as well.
The result is the flag returned and the object after the call; `none` when the rounding
loop has not ended within `fuel` tests. -/
def CacheConfig.loadFromFile (self : CacheConfig) (sizeOfCache : Int) (blkSz : Nat)
    (assoc : Int) (replPolicyStr writePolicyStr : String) (fuel : Nat) :
    Option (Bool × CacheConfig) :=
  if sizeOfCache ≤ 0 ∨ sizeOfCache > 1024 * 1024 then some (false, self)
  else
    let rounded : Option Int :=
      if !CacheConfig.isPowerOfTwo sizeOfCache then
        (floorPowerOfTwo (toU32 sizeOfCache) fuel).map toI32
      else some sizeOfCache
    match rounded with
    | none => none
    | some sizeOfCache =>
      if assoc < 0 ∨ assoc > 16 ∨ (assoc ≠ 0 ∧ CacheConfig.isPowerOfTwo assoc = false) then
        some (false, self)
      else
        match replacementPolicyOfString replPolicyStr with
        | none => some (false, self)
        | some replacementPolicy =>
          let self := { self with replacementPolicy := replacementPolicy }
          match writePolicyOfString writePolicyStr with
          | none => some (false, self)
          | some writePolicy =>
            some (true,
              { self with
                writePolicy := writePolicy
                cacheSize := sizeOfCache.toNat
                blockSize := blkSz
                associativity := assoc.toNat })

/-! ## BreakPointInfo.cpp and Simulator.cpp: setting and removing breakpoints

The `breakpointMap` (PC to line) is an association list, as the maps of `LabelSet` are. -/

/-- `BreakPointInfo::hasBreakpoint` on the `breakpointMap`. -/
def BreakPointInfo.hasBreakpoint (breakpointMap : List (Int × Int)) (assemblyLine : Int) :
    Bool :=
  breakpointMap.any (fun e => decide (e.2 = assemblyLine))

/-- `BreakPointInfo::setBreakpoint`: the flag returned and the `breakpointMap` after the
call; `MAX_BREAKPOINTS` is 5. -/
def BreakPointInfo.setBreakpoint (breakpointMap : List (Int × Int)) (pc assemblyLine : Int) :
    Bool × List (Int × Int) :=
  if breakpointMap.length ≥ 5 then (false, breakpointMap)
  else if (mapFind pc breakpointMap).isNone then (true, mapInsert pc assemblyLine breakpointMap)
  else (false, breakpointMap)

/-- `BreakPointInfo::removeBreakpoint`: the first entry with the line, in the order of
iteration, is erased. -/
def BreakPointInfo.removeBreakpoint :
    List (Int × Int) → Int → Bool × List (Int × Int)
  | [], _ => (false, [])
  | e :: rest, assemblyLine =>
    if e.2 = assemblyLine then (true, rest)
    else
      ((BreakPointInfo.removeBreakpoint rest assemblyLine).1,
        e :: (BreakPointInfo.removeBreakpoint rest assemblyLine).2)

/-- `assembler.getSourceLineToPC()` looked up at an `int` line: the PC as the `int` the map
holds. -/
def Assembler.pcOfLine (self : Assembler) (line : Int) : Option Int :=
  if line < 0 then none else (mapFind line.toNat self.sourceLineToPC).map toI32

/-- `Simulator::setBreakpoint`: the flag returned and the state after the call. -/
def Simulator.setBreakpoint (self : Simulator) (line : Int) : Bool × Simulator :=
  match self.assembler.pcOfLine line with
  | none => (false, self)
  | some pc =>
    if BreakPointInfo.hasBreakpoint self.breakpointInfo line then (false, self)
    else
      let r := BreakPointInfo.setBreakpoint self.breakpointInfo pc line
      (r.1, { self with breakpointInfo := r.2 })

/-- `Simulator::removeBreakpoint`: the flag returned and the state after the call. -/
def Simulator.removeBreakpoint (self : Simulator) (assemblyline : Int) : Bool × Simulator :=
  match self.assembler.pcOfLine assemblyline with
  | none => (false, self)
  | some _ =>
    let r := BreakPointInfo.removeBreakpoint self.breakpointInfo assemblyline
    (r.1, { self with breakpointInfo := r.2 })

/-! ## A session at the debugger

Not code of the repository: the calls `InteractiveSimulator::runInteractive` makes on the
simulator for the commands `load`, `break`, `del`, `step` and `run`, applied in order. -/

/-- One call on the simulator. -/
inductive Command where
  | load (mode : ISAMode) (lines : List String)
  | setBreakpoint (line : Int)
  | removeBreakpoint (line : Int)
  | step (rand : Nat)
  | run (fuel : Nat) (rand : Nat → Nat)

/-- The call of one command: the flags returned by `setBreakpoint` and `removeBreakpoint`
and the state after the call; `none` when `run` has not returned within its rounds. -/
def Simulator.command (self : Simulator) : Command →
    Except Fault (Option (List Bool × Simulator))
  | .load mode lines =>
    match self.loadProgramFromString mode lines with
    | .error f => .error f
    | .ok s => .ok (some ([], s))
  | .setBreakpoint line =>
    .ok (some ([(self.setBreakpoint line).1], (self.setBreakpoint line).2))
  | .removeBreakpoint line =>
    .ok (some ([(self.removeBreakpoint line).1], (self.removeBreakpoint line).2))
  | .step rand =>
    match self.step rand with
    | .error f => .error f
    | .ok (_, s) => .ok (some ([], s))
  | .run fuel rand =>
    match self.run fuel rand with
    | .error f => .error f
    | .ok none => .ok none
    | .ok (some s) => .ok (some ([], s))

/-- The calls of a list of commands, in order: the flags returned and the last state. -/
def Simulator.session : Simulator → List Command →
    Except Fault (Option (List Bool × Simulator))
  | s, [] => .ok (some ([], s))
  | s, cmd :: rest =>
    match s.command cmd with
    | .error f => .error f
    | .ok none => .ok none
    | .ok (some (flags, t)) =>
      match Simulator.session t rest with
      | .error f => .error f
      | .ok none => .ok none
      | .ok (some (more, u)) => .ok (some (flags ++ more, u))

/-- The loop of `Simulator::run` together with the PCs at which it called `step()`, in
order. -/
def Simulator.runLoopTraced : Nat → Nat → Simulator → (Nat → Nat) →
    Except Fault (Option Simulator) × List Int
  | 0, _, s, _ => (if s.pc < s.programEnd then .ok none else .ok (some s), [])
  | fuel + 1, i, s, rand =>
    if s.pc < s.programEnd then
      let line := getBreakpointAssemblyLine s.breakpointInfo s.pc
      if line ≠ 0 ∧ s.resumedFromBreakpoint = false then
        (.ok (some { s with resumedFromBreakpoint := true }), [])
      else
        match ({ s with resumedFromBreakpoint := false }).step (rand i) with
        | .error f => (.error f, [s.pc])
        | .ok (_, t) =>
          if t.pauseRequested then (.ok (some t), [s.pc])
          else
            ((Simulator.runLoopTraced fuel (i + 1) t rand).1,
              s.pc :: (Simulator.runLoopTraced fuel (i + 1) t rand).2)
    else (.ok (some s), [])

/-! ## Breakpoints of the loaded program

Not code of the repository: the relation between the breakpoint table and the line map of
the assembler that `Simulator::load` establishes. -/

/-- The breakpoint table belongs to the line map of the assembler: it holds no PC twice,
every entry is a line of the map with the PC of that line, and no two lines of the map have
the same PC. -/
structure Simulator.BreakpointsOfProgram (s : Simulator) : Prop where
  keys : (s.breakpointInfo.map Prod.fst).Nodup
  mapped : ∀ pc line, (pc, line) ∈ s.breakpointInfo → s.assembler.pcOfLine line = some pc
  inj : ∀ l1 l2 pc, s.assembler.pcOfLine l1 = some pc → s.assembler.pcOfLine l2 = some pc →
    l1 = l2

/-! ## Cache.cpp: the block a replacement leaves, well-formed blocks, reachable states

`Cache.replaceBlockCore` and `Cache.accessCore` are `Cache::replaceBlock` and `Cache::access`
without the calls of `logAccess`: on a cache with a log stream they are the two functions
(`replaceBlock_logged`, `access_logged`). `Cache.allocated` is the block built in steps 4
and 5 of `Cache::replaceBlock`; the other definitions are not code of the repository. -/

/-- What `Cache::replaceBlock` does apart from the calls of `logAccess`. -/
def Cache.replaceBlockCore (self : Cache) (set : List CacheBlock) (setIndex : Nat) (tag : Nat)
    (address : Nat) (isWrite : Bool) (rand : Nat) : Except Fault (Cache × Nat) :=
  let chosen : Except Fault (Nat × Memory) :=
    match findInvalidBlock set with
    | some v => .ok (v, self.memory)
    | none =>
      match selectBlockToEvict self.config set rand with
      | .error f => .error f
      | .ok none => .error .undefinedBehavior
      | .ok (some v) =>
        match set.get? v with
        | none => .error .undefinedBehavior
        | some victim =>
          if victim.dirty && decide (self.config.writePolicy = .WB) then
            .ok (v, self.writeBlockToMemory victim)
          else .ok (v, self.memory)
  match chosen with
  | .error f => .error f
  | .ok (v, memory) =>
    match set.get? v with
    | none => .error .undefinedBehavior
    | some victim =>
      let blockAddr := address &&& toU32 (~~~((self.config.blockSize : Int) - 1))
      let block : CacheBlock :=
        { victim with
          valid := true
          tag := tag
          index := setIndex
          dirty := isWrite && decide (self.config.writePolicy = .WB)
          lastUsed := self.accesses
          insertionTime := self.accesses
          data := loadBlockData memory blockAddr self.config.blockSize }
      .ok ({ self with memory := memory, sets := self.sets.set setIndex (set.set v block) }, v)

/-- What `Cache::access` does apart from the calls of `logAccess`. -/
def Cache.accessCore (self : Cache) (address : Nat) (size : MemSize)
    (isUnsigned isWrite : Bool) (value : Nat) (rand : Nat) : Except Fault (Nat × Cache) :=
  let index := toU32 (self.addrDecoder.getIndex address)
  let tag := toU64 (self.addrDecoder.getTag address)
  match self.sets.get? index with
  | none => .error .undefinedBehavior
  | some set =>
    let self := { self with accesses := self.accesses + 1 }
    match findBlockInSet tag set with
    | some k =>
      match set.get? k with
      | none => .error .undefinedBehavior
      | some found =>
        let self := { self with hits := self.hits + 1 }
        let block := { found with lastUsed := self.accesses }
        if isWrite then
          let block := block.writeData address size value self.config.blockSize
          if self.config.writePolicy = .WB then
            let set := set.set k { block with dirty := true }
            .ok (address, { self with sets := self.sets.set index set })
          else
            let memory := self.memory.write address size value
            let set := set.set k { block with dirty := false }
            .ok (address, { self with memory := memory, sets := self.sets.set index set })
        else
          .ok (block.readData address size isUnsigned self.config.blockSize,
            { self with sets := self.sets.set index (set.set k block) })
    | none =>
      let self := { self with misses := self.misses + 1 }
      if isWrite && decide (self.config.writePolicy = .WT) then
        .ok (address, { self with memory := self.memory.write address size value })
      else
        match self.replaceBlockCore set index tag address isWrite rand with
        | .error f => .error f
        | .ok (self, v) =>
          match (self.sets.get? index).bind (fun s => s.get? v) with
          | none => .error .undefinedBehavior
          | some block =>
            if isWrite then
              let written := block.writeData address size value self.config.blockSize
              let block := { written with dirty := true }
              let set := (self.sets.getD index []).set v block
              .ok (address, { self with sets := self.sets.set index set })
            else
              .ok (block.readData address size isUnsigned self.config.blockSize, self)

/-- The block that `Cache::replaceBlock` leaves in the place of `victim` (steps 4 and 5). -/
def Cache.allocated (self : Cache) (victim : CacheBlock) (memory : Memory) (setIndex tag : Nat)
    (address : Nat) (isWrite : Bool) : CacheBlock :=
  { victim with
    valid := true
    tag := tag
    index := setIndex
    dirty := isWrite && decide (self.config.writePolicy = .WB)
    lastUsed := self.accesses
    insertionTime := self.accesses
    data := loadBlockData memory (address &&& toU32 (~~~((self.config.blockSize : Int) - 1)))
      self.config.blockSize }

/-- A block is well formed for a configuration: dirty only if valid, a valid block holds
`blockSize` bytes, and dirty only under write-back. -/
def CacheBlock.WellFormed (config : CacheConfig) (b : CacheBlock) : Prop :=
  (b.dirty = true → b.valid = true) ∧ (b.valid = true → b.data.length = config.blockSize) ∧
    (b.dirty = true → config.writePolicy = .WB)

/-- Every block of the cache is well formed for the configuration of the cache. -/
def Cache.WellFormed (c : Cache) : Prop :=
  ∀ set, set ∈ c.sets → ∀ b, b ∈ set → b.WellFormed c.config

/-- The states of a cache reached from `Cache::enable` by reads, writes and calls of
`invalidate()`, while the memory it points to may be changed from outside. -/
inductive Cache.Reachable : Cache → Prop where
  | enable (prior : Cache) (config : CacheConfig) (mem : Memory) (c : Cache) :
    prior.enable config mem = .ok c → Cache.Reachable c
  | read (c : Cache) (address : Nat) (size : MemSize) (isUnsigned : Bool) (rand value : Nat)
      (next : Cache) :
    Cache.Reachable c → c.read address size isUnsigned rand = .ok (value, next) →
    Cache.Reachable next
  | write (c : Cache) (address : Nat) (size : MemSize) (value rand : Nat) (next : Cache) :
    Cache.Reachable c → c.write address size value rand = .ok next → Cache.Reachable next
  | invalidate (c : Cache) : Cache.Reachable c → Cache.Reachable c.invalidate
  | memory (c : Cache) (mem : Memory) : Cache.Reachable c →
    Cache.Reachable { c with memory := mem }

/-- The cache a call returned, or the cache as constructed when the call threw; it names
the states of a scenario. -/
def Cache.orNew (r : Except Fault Cache) : Cache :=
  match r with
  | .ok c => c
  | .error _ => Cache.new Memory.empty

/-- `AddressDecoder::getOffset` on the `int` made from the address. -/
def AddressDecoder.getOffset (self : AddressDecoder) (address : Nat) : Int :=
  toI32 (toU32 (toI32 address) &&&
    toU32 (toI32 ((1 <<< self.offsetBits) % 4294967296) - 1))

/-! ## HazardDetector.cpp: the analysis of a program

The members `stats` and `detectedHazards` of the detector are passed to the functions that
read them and returned by those that write them. The `int` counters wrap at 32 bits. -/

/-- `Instruction::isStoreInstruction`. -/
def isStoreInstruction (mnemonic : String) : Bool :=
  decide (mnemonic ∈ ["sb", "sh", "sw", "sd"])

/-- `Instruction::isBranchInstruction`. -/
def isBranchInstruction (mnemonic : String) : Bool :=
  decide (mnemonic ∈ ["beq", "bne", "blt", "bge", "bltu", "bgeu"])

/-- `Instruction::isJumpInstruction`. -/
def isJumpInstruction (mnemonic : String) : Bool :=
  decide (mnemonic ∈ ["jal", "jalr"])

/-- `Instruction::isMulDivInstruction`. -/
def isMulDivInstruction (mnemonic : String) : Bool :=
  decide (mnemonic ∈ ["mul", "mulh", "mulhsu", "mulhu", "div", "divu", "rem", "remu",
    "mulw", "divw", "divuw", "remw", "remuw"])

/-- `Instruction::isALUInstruction`. -/
def isALUInstruction (mnemonic : String) : Bool :=
  decide (mnemonic ∈ ["add", "sub", "and", "or", "xor", "slt", "sltu",
    "addi", "andi", "ori", "xori", "slti", "sltiu", "addw", "subw", "addiw",
    "sll", "srl", "sra", "slli", "srli", "srai",
    "sllw", "srlw", "sraw", "slliw", "srliw", "sraiw"])

/-- `enum Hazard::Type`. -/
inductive HazardType where
  | RAW | WAW | WAR | CONTROL | STRUCTURAL | CACHE_MISS
  deriving DecidableEq, Repr

/-- `struct Hazard`; each of the two pointers is the instance it points to, `none` for
`nullptr`. -/
structure Hazard where
  type : HazardType
  instruction1 : Option InstructionInstance
  instruction2 : Option InstructionInstance
  registerNum : Int := -1
  stallCycles : Int := 0
  memoryAddress : Nat := 0
  description : String := ""
  solution : String := ""
  deriving DecidableEq, Repr

/-- `struct PipelineStats`. -/
structure PipelineStats where
  totalStalls : Int := 0
  rawStalls : Int := 0
  wawStalls : Int := 0
  warStalls : Int := 0
  controlStalls : Int := 0
  structuralStalls : Int := 0
  cacheStalls : Int := 0
  totalInstructions : Int := 0
  totalCycles : Int := 0
  deriving DecidableEq, Repr

/-- `PipelineStats::reset`. -/
def PipelineStats.reset (_self : PipelineStats) : PipelineStats :=
  { totalStalls := 0, rawStalls := 0, wawStalls := 0, warStalls := 0, controlStalls := 0,
    structuralStalls := 0, cacheStalls := 0, totalInstructions := 0, totalCycles := 0 }

/-- `std::to_string` of an `int`. -/
def intToString (n : Int) : String := ⟨intToChars n⟩

/-- `HazardDetector::getSolutionForRAW`. -/
def HazardDetector.getSolutionForRAW (self : HazardDetector) (stallCycles : Int) : String :=
  if stallCycles = 0 then
    (if self.forwardingEnabled then "No stall needed (forwarding available)"
     else "No stall needed")
  else if stallCycles = 1 then
    (if self.forwardingEnabled then "1 cycle stall or forwarding" else "1 cycle stall required")
  else intToString stallCycles ++ " cycle stall required"

/-- `HazardDetector::getSolutionForWAR`. -/
def HazardDetector.getSolutionForWAR (_self : HazardDetector) (stallCycles : Int) : String :=
  if stallCycles = 0 then "No stall needed (no conflict or handled by reordering)"
  else if stallCycles = 1 then "1 cycle stall or instruction reordering"
  else intToString stallCycles ++ " cycle stall — consider reordering or register renaming"

/-- `HazardDetector::makeRAWHazard`. -/
def HazardDetector.makeRAWHazard (self : HazardDetector) (inst1 inst2 : InstructionInstance)
    (regNum stallCycles : Int) : Hazard :=
  { type := .RAW, instruction1 := some inst1, instruction2 := some inst2,
    registerNum := regNum, stallCycles := stallCycles,
    description := "RAW Hazard: Read-after-Write on x" ++ intToString regNum,
    solution := self.getSolutionForRAW stallCycles }

/-- `HazardDetector::makeWAWHazard`. -/
def HazardDetector.makeWAWHazard (_self : HazardDetector) (inst1 inst2 : InstructionInstance)
    (regNum stallCycles : Int) : Hazard :=
  { type := .WAW, instruction1 := some inst1, instruction2 := some inst2,
    registerNum := regNum, stallCycles := stallCycles,
    description := "WAW Hazard: Write-after-Write on x" ++ intToString regNum,
    solution := "Reorder writes or stall to avoid overwriting" }

/-- `HazardDetector::makeWARHazard`. -/
def HazardDetector.makeWARHazard (self : HazardDetector) (inst1 inst2 : InstructionInstance)
    (regNum stallCycles : Int) : Hazard :=
  { type := .WAR, instruction1 := some inst1, instruction2 := some inst2,
    registerNum := regNum, stallCycles := stallCycles,
    description := "WAR Hazard: Write-after-Read on x" ++ intToString regNum,
    solution := self.getSolutionForWAR stallCycles }

/-- `HazardDetector::makeStructuralHazard`. -/
def HazardDetector.makeStructuralHazard (_self : HazardDetector)
    (inst1 inst2 : InstructionInstance) (unitName : String) (stallCycles : Int) : Hazard :=
  { type := .STRUCTURAL, instruction1 := some inst1, instruction2 := some inst2,
    stallCycles := stallCycles,
    description := "Structural hazard: both instructions use " ++ unitName,
    solution := "Stall pipeline until " ++ unitName ++ " is available" }

/-- `HazardDetector::makeControlHazard`, as it is called: with `nullptr` for the second
instruction. -/
def HazardDetector.makeControlHazard (_self : HazardDetector) (inst1 : InstructionInstance)
    (inst2 : Option InstructionInstance) (reason : String) (stallCycles : Int) : Hazard :=
  { type := .CONTROL, instruction1 := some inst1, instruction2 := inst2,
    stallCycles := stallCycles,
    description := "Control hazard from " ++ reason,
    solution := "Use branch prediction or delayed branching (" ++ intToString stallCycles
      ++ " cycles)" }

/-- `HazardDetector::makeCacheHazard`. -/
def HazardDetector.makeCacheHazard (_self : HazardDetector) (inst1 : InstructionInstance)
    (inst2 : Option InstructionInstance) (address : Nat) (stallCycles : Int) : Hazard :=
  { type := .CACHE_MISS, instruction1 := some inst1, instruction2 := inst2,
    memoryAddress := address, stallCycles := stallCycles,
    description := "Cache miss at address 0x" ++ intToString address,
    solution := "Wait for memory access or prefetch cache lines" }

/-- `HazardDetector::calculateWAWStallCycles`. -/
def HazardDetector.calculateWAWStallCycles (_self : HazardDetector) : Int := 0

/-- `HazardDetector::calculateWARStallCycles`. -/
def HazardDetector.calculateWARStallCycles (_self : HazardDetector) : Int := 0

/-- The penalty by pipeline depth that `calculateControlStallCycles` returns in three
places. -/
def HazardDetector.controlPenalty (self : HazardDetector) : Int :=
  match self.pipelineType with
  | .PIPELINE_3_STAGE => 1
  | .PIPELINE_5_STAGE => 2
  | .PIPELINE_7_STAGE => 3

/-- `HazardDetector::calculateControlStallCycles`; `detectedHazards` is the member it
searches. -/
def HazardDetector.calculateControlStallCycles (self : HazardDetector)
    (detectedHazards : List Hazard) (inst : InstructionInstance) : Int :=
  let mnemonic := inst.instruction.mnemonic
  if !isBranchInstruction mnemonic && !isJumpInstruction mnemonic then 0
  else if mnemonic = "jal" then 0
  else if mnemonic = "jalr" then self.controlPenalty
  else if isBranchInstruction mnemonic then
    let isLoop := decide (inst.imm < 0)
    if isLoop then
      let alreadyReported := detectedHazards.any (fun h =>
        decide (h.type = .CONTROL) &&
          (match h.instruction1 with
           | some i1 => decide (i1.pc = inst.pc)
           | none => false))
      if !alreadyReported then self.controlPenalty else 0
    else self.controlPenalty
  else 2

/-- `HazardDetector::calculateStructuralStallCycles`. -/
def HazardDetector.calculateStructuralStallCycles (self : HazardDetector)
    (inst1 inst2 : InstructionInstance) (distance : Int) : Int :=
  let name1 := inst1.instruction.mnemonic
  let name2 := inst2.instruction.mnemonic
  if self.pipelineType = .PIPELINE_3_STAGE ∧
      (isALUInstruction name1 && isALUInstruction name2 && decide (distance = 0)) = true then 1
  else if self.pipelineType = .PIPELINE_3_STAGE ∧
      (isLoadInstruction name1 && isLoadInstruction name2 && decide (distance = 0)) = true then 1
  else if self.pipelineType = .PIPELINE_5_STAGE ∨ self.pipelineType = .PIPELINE_7_STAGE then
    if isALUInstruction name1 && isALUInstruction name2 && decide (distance = 0) then 1
    else if (isLoadInstruction name1 || isStoreInstruction name1) &&
        (isLoadInstruction name2 || isStoreInstruction name2) && decide (distance < 2) then 1
    else if isMulDivInstruction name1 && isMulDivInstruction name2 && decide (distance < 2)
    then 2
    else 0
  else 0

/-- `HazardDetector::calculateCacheStallCycles`. -/
def HazardDetector.calculateCacheStallCycles (self : HazardDetector) : Int :=
  match self.pipelineType with
  | .PIPELINE_3_STAGE => 5
  | .PIPELINE_5_STAGE => 10
  | .PIPELINE_7_STAGE => 12

/-- The control-hazard part of the body of the loop over `i` in `detectHazards`. The state
is the local vector `hazards` and the member `stats`. -/
def HazardDetector.detectControl (self : HazardDetector) (detectedHazards : List Hazard)
    (inst1 : InstructionInstance) (acc : List Hazard × PipelineStats) :
    List Hazard × PipelineStats :=
  let name1 := inst1.instruction.mnemonic
  if isBranchInstruction name1 || isJumpInstruction name1 then
    let stall := self.calculateControlStallCycles detectedHazards inst1
    let reason := if name1 = "jalr" then "Function return: " else "Branch instruction: "
    (acc.1 ++ [self.makeControlHazard inst1 none (reason ++ name1) stall],
      { acc.2 with
        controlStalls := wrapI32 (acc.2.controlStalls + stall)
        totalStalls := wrapI32 (acc.2.totalStalls + stall) })
  else acc

/-- The cache-hazard part of the body of the loop over `i` in `detectHazards`. -/
def HazardDetector.detectCache (self : HazardDetector) (cacheEnabled : Bool)
    (inst1 : InstructionInstance) (acc : List Hazard × PipelineStats) :
    List Hazard × PipelineStats :=
  let name1 := inst1.instruction.mnemonic
  if cacheEnabled && (isLoadInstruction name1 || isStoreInstruction name1) then
    let dummyAddress : Nat := 0
    let stall := self.calculateCacheStallCycles
    let h := self.makeCacheHazard inst1 none dummyAddress stall
    (acc.1 ++ [h],
      { acc.2 with
        cacheStalls := wrapI32 (acc.2.cacheStalls + h.stallCycles)
        totalStalls := wrapI32 (acc.2.totalStalls + h.stallCycles) })
  else acc

/-- The RAW part of the body of the loop over `j` in `detectHazards`, for
`inst1 = program[i]` and `inst2 = program[j]` with `distance = j - i`. -/
def HazardDetector.detectRAW (self : HazardDetector) (inst1 inst2 : InstructionInstance)
    (distance : Int) (acc : List Hazard × PipelineStats) : List Hazard × PipelineStats :=
  if inst1.rd ≠ -1 ∧ inst1.rd ≠ 0 then
    let hazardDetected :=
      decide (inst2.rs1 ≠ -1 ∧ inst2.rs1 = inst1.rd) ||
        decide (inst2.rs2 ≠ -1 ∧ inst2.rs2 = inst1.rd)
    if hazardDetected then
      let stall := self.calculateRAWStallCycles inst1 distance
      let h := self.makeRAWHazard inst1 inst2 inst1.rd stall
      (acc.1 ++ [h],
        { acc.2 with
          rawStalls := wrapI32 (acc.2.rawStalls + h.stallCycles)
          totalStalls := wrapI32 (acc.2.totalStalls + h.stallCycles) })
    else acc
  else acc

/-- The WAW part of the body of the loop over `j`. -/
def HazardDetector.detectWAW (self : HazardDetector) (inst1 inst2 : InstructionInstance)
    (acc : List Hazard × PipelineStats) : List Hazard × PipelineStats :=
  if inst1.rd ≠ -1 ∧ inst2.rd ≠ -1 ∧ inst1.rd = inst2.rd ∧ inst1.rd ≠ 0 then
    let stall := self.calculateWAWStallCycles
    let h := self.makeWAWHazard inst1 inst2 inst1.rd stall
    (acc.1 ++ [h],
      { acc.2 with
        wawStalls := wrapI32 (acc.2.wawStalls + h.stallCycles)
        totalStalls := wrapI32 (acc.2.totalStalls + h.stallCycles) })
  else acc

/-- The WAR part of the body of the loop over `j`. -/
def HazardDetector.detectWAR (self : HazardDetector) (inst1 inst2 : InstructionInstance)
    (acc : List Hazard × PipelineStats) : List Hazard × PipelineStats :=
  if inst2.rd ≠ -1 ∧ inst2.rd ≠ 0 then
    let hazardDetected :=
      decide (inst1.rs1 ≠ -1 ∧ inst1.rs1 = inst2.rd) ||
        decide (inst1.rs2 ≠ -1 ∧ inst1.rs2 = inst2.rd)
    if hazardDetected then
      let stall := self.calculateWARStallCycles
      let h := self.makeWARHazard inst1 inst2 inst2.rd stall
      (acc.1 ++ [h],
        { acc.2 with
          warStalls := wrapI32 (acc.2.warStalls + h.stallCycles)
          totalStalls := wrapI32 (acc.2.totalStalls + h.stallCycles) })
    else acc
  else acc

/-- The structural part of the body of the loop over `j`. -/
def HazardDetector.detectStructural (self : HazardDetector)
    (inst1 inst2 : InstructionInstance) (distance : Int)
    (acc : List Hazard × PipelineStats) : List Hazard × PipelineStats :=
  let name1 := inst1.instruction.mnemonic
  let structStall := self.calculateStructuralStallCycles inst1 inst2 distance
  if structStall > 0 then
    let unit : String :=
      if isMulDivInstruction name1 then "Mul/Div Unit"
      else if isALUInstruction name1 then "ALU"
      else if isLoadInstruction name1 || isStoreInstruction name1 then "Memory Access Unit"
      else "Functional unit"
    (acc.1 ++ [self.makeStructuralHazard inst1 inst2 unit structStall],
      { acc.2 with
        structuralStalls := wrapI32 (acc.2.structuralStalls + structStall)
        totalStalls := wrapI32 (acc.2.totalStalls + structStall) })
  else acc

/-- The body of the loop over `j` in `detectHazards`: the four checks in their order. -/
def HazardDetector.detectPair (self : HazardDetector) (inst1 inst2 : InstructionInstance)
    (distance : Int) (acc : List Hazard × PipelineStats) : List Hazard × PipelineStats :=
  self.detectStructural inst1 inst2 distance
    (self.detectWAR inst1 inst2
      (self.detectWAW inst1 inst2
        (self.detectRAW inst1 inst2 distance acc)))

/-- The loop over `j` in `detectHazards`: `rest` holds `program[j]`, `program[j+1]`, ...
and `distance` is `j - i`. -/
def HazardDetector.detectInner (self : HazardDetector) (inst1 : InstructionInstance) :
    Int → List InstructionInstance → List Hazard × PipelineStats → List Hazard × PipelineStats
  | _, [], acc => acc
  | distance, inst2 :: rest, acc =>
    HazardDetector.detectInner self inst1 (distance + 1) rest
      (self.detectPair inst1 inst2 distance acc)

/-- The loop over `i` in `detectHazards`: the list holds `program[i]`, `program[i+1]`,
... up to the end of the program. Each round checks `program[i]` for a control hazard and
a cache hazard and then runs the loop over `j`. -/
def HazardDetector.detectOuter (self : HazardDetector) (detectedHazards : List Hazard)
    (cacheEnabled : Bool) :
    List InstructionInstance → List Hazard × PipelineStats → List Hazard × PipelineStats
  | [], acc => acc
  | inst1 :: rest, acc =>
    HazardDetector.detectOuter self detectedHazards cacheEnabled rest
      (self.detectInner inst1 1 rest
        (self.detectCache cacheEnabled inst1 (self.detectControl detectedHazards inst1 acc)))

/-- `HazardDetector::detectHazards` for a start index `currentPC ≥ 0` (the one call passes
0): the vector it returns and the member `stats` after the call. Both loops run below
`(int)program.size()`. -/
def HazardDetector.detectHazards (self : HazardDetector) (detectedHazards : List Hazard)
    (stats : PipelineStats) (program : List InstructionInstance) (currentPC : Nat)
    (cacheEnabled : Bool) : List Hazard × PipelineStats :=
  self.detectOuter detectedHazards cacheEnabled
    ((program.take (toI32 program.length).toNat).drop currentPC) ([], stats)

/-- `HazardDetector::performanceAnalysis`: the members `detectedHazards` and `stats` after
the call, from their values before it; `detectedHazards.clear()` discards the list. -/
def HazardDetector.performanceAnalysis (self : HazardDetector)
    (_detectedHazards : List Hazard) (stats : PipelineStats)
    (program : List InstructionInstance) (cacheEnabled : Bool) : List Hazard × PipelineStats :=
  let stats := stats.reset
  let detectedHazards : List Hazard := []
  let r := self.detectHazards detectedHazards stats program 0 cacheEnabled
  let stats := { r.2 with totalInstructions := toI32 program.length }
  let stats := { stats with totalCycles := wrapI32 (stats.totalInstructions + stats.totalStalls) }
  (r.1, stats)

/-- The quotient `performanceAnalysis` prints as the estimated CPI with hazards, when there
is an instruction: `totalCycles / totalInstructions`, which the output rounds to `float`. -/
def PipelineStats.estimatedCPI (self : PipelineStats) : Option ℚ :=
  if self.totalInstructions = 0 then none
  else some ((self.totalCycles : ℚ) / (self.totalInstructions : ℚ))

/-! ## The stall counters against the hazard list

The definitions below are not code of the repository: they state what the counters of
`PipelineStats` have to do with the hazards recorded. -/

/-- The sum of `stallCycles` over a hazard list. -/
def stallSum (l : List Hazard) : Int := (l.map (fun h => h.stallCycles)).sum

/-- The sum of `stallCycles` over the hazards of one type. -/
def stallSumOf (t : HazardType) (l : List Hazard) : Int :=
  ((l.filter (fun h => decide (h.type = t))).map (fun h => h.stallCycles)).sum

/-- The two additions `stats.X += s; stats.totalStalls += s` that follow the `push_back` of
a hazard of type `t`, `X` being the counter of that type. -/
def PipelineStats.bump (st : PipelineStats) (t : HazardType) (s : Int) : PipelineStats :=
  match t with
  | .RAW => { st with
      rawStalls := wrapI32 (st.rawStalls + s), totalStalls := wrapI32 (st.totalStalls + s) }
  | .WAW => { st with
      wawStalls := wrapI32 (st.wawStalls + s), totalStalls := wrapI32 (st.totalStalls + s) }
  | .WAR => { st with
      warStalls := wrapI32 (st.warStalls + s), totalStalls := wrapI32 (st.totalStalls + s) }
  | .CONTROL => { st with
      controlStalls := wrapI32 (st.controlStalls + s)
      totalStalls := wrapI32 (st.totalStalls + s) }
  | .STRUCTURAL => { st with
      structuralStalls := wrapI32 (st.structuralStalls + s)
      totalStalls := wrapI32 (st.totalStalls + s) }
  | .CACHE_MISS => { st with
      cacheStalls := wrapI32 (st.cacheStalls + s), totalStalls := wrapI32 (st.totalStalls + s) }

/-- The counters `st` are the sums, as `int`s, over the hazard list `hz`, no hazard has a
negative number of stall cycles, and the sum over the list is at most `B`. -/
structure StatsInv (hz : List Hazard) (st : PipelineStats) (B : Int) : Prop where
  total : st.totalStalls = wrapI32 (stallSum hz)
  raw : st.rawStalls = wrapI32 (stallSumOf .RAW hz)
  waw : st.wawStalls = wrapI32 (stallSumOf .WAW hz)
  war : st.warStalls = wrapI32 (stallSumOf .WAR hz)
  control : st.controlStalls = wrapI32 (stallSumOf .CONTROL hz)
  structural : st.structuralStalls = wrapI32 (stallSumOf .STRUCTURAL hz)
  cache : st.cacheStalls = wrapI32 (stallSumOf .CACHE_MISS hz)
  nonneg : ∀ h ∈ hz, 0 ≤ h.stallCycles
  bound : stallSum hz ≤ B

/-- No two valid blocks of the set have the same tag. Not code of the repository. -/
def TagsUnique (set : List CacheBlock) : Prop :=
  ∀ i j bi bj, set.get? i = some bi → set.get? j = some bj →
    bi.valid = true → bj.valid = true → bi.tag = bj.tag → i = j

/-- The states of a cache configured with `cfg` that are reached from `Cache::enable` by
`n` reads and writes, each within one block, while nothing else changes the memory behind
the cache. Not code of the repository. -/
inductive Cache.ReachedInBlock (cfg : CacheConfig) : Nat → Cache → Prop where
  | enable (prior : Cache) (mem : Memory) (c : Cache) :
    prior.enable cfg mem = .ok c → Cache.ReachedInBlock cfg 0 c
  | read (n : Nat) (c : Cache) (address : Nat) (size : MemSize) (isUnsigned : Bool)
      (rand value : Nat) (next : Cache) :
    Cache.ReachedInBlock cfg n c → (MemOp.load address size isUnsigned).inBlock cfg.blockSize →
    c.read address size isUnsigned rand = .ok (value, next) →
    Cache.ReachedInBlock cfg (n + 1) next
  | write (n : Nat) (c : Cache) (address : Nat) (size : MemSize) (value rand : Nat)
      (next : Cache) :
    Cache.ReachedInBlock cfg n c → (MemOp.store address size value).inBlock cfg.blockSize →
    c.write address size value rand = .ok next → Cache.ReachedInBlock cfg (n + 1) next

/-! # Theorems -/

/-! ## Machine integers and bit fields -/

theorem toU32_natCast (n : Nat) : toU32 (n : Int) = n % 4294967296 := by
  unfold toU32; omega

theorem toU32_lt (x : Int) : toU32 x < 4294967296 := by
  unfold toU32; omega

theorem toI32_of_lt (n : Nat) (h : n < 2147483648) : toI32 n = (n : Int) := by
  unfold toI32; split <;> omega

theorem toU32_toI32 (n : Nat) (h : n < 4294967296) : toU32 (toI32 n) = n := by
  unfold toU32 toI32; split <;> omega

theorem one_shl_mod (l : Nat) (hl : l < 32) : (1 <<< l) % 4294967296 = 2 ^ l := by
  rw [Nat.shiftLeft_eq, Nat.one_mul]
  apply Nat.mod_eq_of_lt
  calc 2 ^ l < 2 ^ 32 := Nat.pow_lt_pow_right (by norm_num) hl
    _ = 4294967296 := by norm_num

theorem extract_eq (v s l : Nat) (hl : l < 32) : extract v s l = v / 2 ^ s % 2 ^ l := by
  unfold extract
  rw [one_shl_mod l hl, Nat.and_pow_two_sub_one_eq_mod, Nat.shiftRight_eq_div_pow]

theorem field_lt (v s l : Nat) : v % 2 ^ l * 2 ^ s < 2 ^ (s + l) :=
  calc v % 2 ^ l * 2 ^ s < 2 ^ l * 2 ^ s :=
        Nat.mul_lt_mul_of_pos_right (Nat.mod_lt _ (by positivity)) (by positivity)
    _ = 2 ^ (s + l) := by rw [Nat.add_comm, Nat.pow_add]

theorem pack_eq (v s l : Nat) (hl : s + l ≤ 32) (hl2 : l < 32) :
    pack v s l = (v % 2 ^ l) * 2 ^ s := by
  unfold pack
  rw [one_shl_mod l hl2, Nat.and_pow_two_sub_one_eq_mod, Nat.shiftLeft_eq]
  apply Nat.mod_eq_of_lt
  calc v % 2 ^ l * 2 ^ s < 2 ^ (s + l) := field_lt v s l
    _ ≤ 2 ^ 32 := Nat.pow_le_pow_right (by norm_num) hl
    _ = 4294967296 := by norm_num

/-- A value with its low `k` bits clear and a value below `2^k` have disjoint bits. -/
theorem or_eq_add (k a b : Nat) (ha : a % 2 ^ k = 0) (hb : b < 2 ^ k) : a ||| b = a + b := by
  obtain ⟨c, rfl⟩ : 2 ^ k ∣ a := Nat.dvd_of_mod_eq_zero ha
  exact (Nat.mul_add_lt_is_or hb c).symm

theorem or_eq_add_comm (k a b : Nat) (ha : a < 2 ^ k) (hb : b % 2 ^ k = 0) :
    a ||| b = a + b := by
  rw [Nat.or_comm, or_eq_add k b a hb ha, Nat.add_comm]

/-- OR-ing a packed field under an accumulated word whose bits lie above the field. -/
theorem or_pack_of_dvd (a v s l : Nat) (hl : s + l ≤ 32) (hl2 : l < 32)
    (ha : a % 2 ^ (s + l) = 0) : a ||| pack v s l = a + v % 2 ^ l * 2 ^ s := by
  rw [pack_eq v s l hl hl2]
  exact or_eq_add (s + l) _ _ ha (field_lt v s l)

/-- OR-ing a packed field over an accumulated word whose bits lie below the field. -/
theorem or_pack_of_lt (a v s l : Nat) (hl : s + l ≤ 32) (hl2 : l < 32) (ha : a < 2 ^ s) :
    a ||| pack v s l = a + v % 2 ^ l * 2 ^ s := by
  rw [pack_eq v s l hl hl2]
  exact or_eq_add_comm s _ _ ha (Nat.mul_mod_left _ _)

theorem and_two_pow_ne_zero (n k : Nat) : (n &&& 2 ^ k ≠ 0) ↔ n / 2 ^ k % 2 = 1 := by
  have hbit : ∀ j, (n &&& 2 ^ k).testBit j = (n.testBit j && decide (k = j)) := by
    intro j
    rw [Nat.testBit_and, Nat.testBit_two_pow]
  constructor
  · intro h
    by_contra hc
    apply h
    apply Nat.eq_of_testBit_eq
    intro j
    rw [hbit, Nat.zero_testBit]
    by_cases hkj : k = j
    · subst hkj
      simp [Nat.testBit_to_div_mod, hc]
    · simp [hkj]
  · intro h hz
    have := hbit k
    rw [hz, Nat.zero_testBit, Nat.testBit_to_div_mod] at this
    simp [h] at this

theorem shl_mod_eq (v s : Nat) (h : v * 2 ^ s < 4294967296) :
    (v <<< s) % 4294967296 = v * 2 ^ s := by
  rw [Nat.shiftLeft_eq, Nat.mod_eq_of_lt h]

theorem or_mul_pow (a v s k : Nat) (ha : a % 2 ^ k = 0) (hk : v * 2 ^ s < 2 ^ k) :
    a ||| v * 2 ^ s = a + v * 2 ^ s := or_eq_add k _ _ ha hk

/-- A mask that starts at the tested bit `k` gives the same OR as one starting above it. -/
theorem or_mask_overlap (u k : Nat) (hk : k < 31) (hu : u < 2 ^ (k + 1)) (hbit : 2 ^ k ≤ u) :
    u ||| (4294967296 - 2 ^ k) = u ||| (4294967296 - 2 ^ (k + 1)) := by
  have hpk : (2 : Nat) ^ (k + 1) = 2 * 2 ^ k := by rw [Nat.pow_succ, Nat.mul_comm]
  have h32 : (2 : Nat) ^ (k + 1) ≤ 2 ^ 31 := Nat.pow_le_pow_right (by norm_num) (by omega)
  have h31 : (2 : Nat) ^ 31 = 2147483648 := by norm_num
  have hm : 4294967296 - 2 ^ k = (4294967296 - 2 ^ (k + 1)) ||| 2 ^ k := by
    rw [or_eq_add (k + 1) _ _ _ (by omega)]
    · omega
    · have : (4294967296 : Nat) = 2 ^ (31 - k) * 2 ^ (k + 1) := by
        rw [← Nat.pow_add]
        have : 31 - k + (k + 1) = 32 := by omega
        rw [this]
      rw [this, ← Nat.sub_one_mul]
      exact Nat.mul_mod_left _ _
  have hu' : u = 2 ^ k ||| (u - 2 ^ k) := by
    rw [or_eq_add k _ _ (Nat.mod_self _) (by omega)]
    omega
  rw [hm]
  generalize 4294967296 - 2 ^ (k + 1) = m
  rw [hu']
  generalize u - 2 ^ k = r
  apply Nat.eq_of_testBit_eq
  intro j
  simp only [Nat.testBit_or]
  cases (2 ^ k).testBit j <;> cases r.testBit j <;> cases m.testBit j <;> rfl

/-- The sign extension of the decoder: test bit `k`, then OR the bits above it in (the
mask may or may not contain bit `k` itself). -/
theorem signExtend_eq (u k mask : Nat) (hk : k < 31) (hu : u < 2 ^ (k + 1))
    (hmask : mask = 4294967296 - 2 ^ (k + 1) ∨ mask = 4294967296 - 2 ^ k) :
    (if toU32 (toI32 u) &&& (1 <<< k) ≠ 0 then toI32 (toU32 (toI32 u) ||| mask) else toI32 u)
      = if u < 2 ^ k then (u : Int) else (u : Int) - 2 ^ (k + 1) := by
  have h32 : (2 : Nat) ^ (k + 1) ≤ 2 ^ 31 := Nat.pow_le_pow_right (by norm_num) (by omega)
  have h31 : (2 : Nat) ^ 31 = 2147483648 := by norm_num
  have hu32 : u < 4294967296 := by omega
  have hpk : (2 : Nat) ^ (k + 1) = 2 * 2 ^ k := by rw [Nat.pow_succ, Nat.mul_comm]
  rw [toU32_toI32 u hu32, Nat.shiftLeft_eq, Nat.one_mul]
  have hiff := and_two_pow_ne_zero u k
  have hdiv : u / 2 ^ k < 2 := by
    rw [Nat.div_lt_iff_lt_mul (by positivity)]; omega
  by_cases hlt : u < 2 ^ k
  · have : u / 2 ^ k = 0 := Nat.div_eq_of_lt hlt
    rw [if_neg (by rw [hiff]; omega), if_pos hlt]
    unfold toI32; split <;> omega
  · have : 1 ≤ u / 2 ^ k := by
      rw [Nat.le_div_iff_mul_le (by positivity)]; omega
    rw [if_pos (by rw [hiff]; omega), if_neg hlt]
    have hor : u ||| mask = u + (4294967296 - 2 ^ (k + 1)) := by
      have hmain : u ||| (4294967296 - 2 ^ (k + 1)) = u + (4294967296 - 2 ^ (k + 1)) := by
        apply or_eq_add_comm (k + 1) _ _ hu
        have : (4294967296 : Nat) = 2 ^ (31 - k) * 2 ^ (k + 1) := by
          rw [← Nat.pow_add]
          have : 31 - k + (k + 1) = 32 := by omega
          rw [this]
        rw [this, ← Nat.sub_one_mul]
        exact Nat.mul_mod_left _ _
      rcases hmask with hmask | hmask
      · rw [hmask, hmain]
      · rw [hmask, or_mask_overlap u k hk hu (by omega), hmain]
    rw [hor]
    have hcast : ((2 : Nat) ^ (k + 1) : Int) = (2 : Int) ^ (k + 1) := by push_cast; rfl
    rw [← hcast]
    unfold toI32
    split <;> omega

theorem int_shiftRight_eq (x : Int) (k : Nat) : x >>> k = x / ((2 ^ k : Nat) : Int) :=
  Int.shiftRight_eq_div_pow x k

/-! ## The encoded word as a sum of shifted fields -/

theorem getMachineCode_R (i : Instruction) (hf : i.format = .R) (rd rs1 rs2 imm : Int) :
    i.getMachineCode rd rs1 rs2 imm =
      toU32 i.funct7 % 128 * 2 ^ 25 + toU32 rs2 % 32 * 2 ^ 20 + toU32 rs1 % 32 * 2 ^ 15
        + toU32 i.funct3 % 8 * 2 ^ 12 + toU32 rd % 32 * 2 ^ 7 + toU32 i.opcode % 128 := by
  unfold Instruction.getMachineCode
  rw [hf]
  simp only []
  rw [or_pack_of_dvd _ _ 25 7 (by norm_num) (by norm_num) (by omega),
    or_pack_of_dvd _ _ 20 5 (by norm_num) (by norm_num) (by omega),
    or_pack_of_dvd _ _ 15 5 (by norm_num) (by norm_num) (by omega),
    or_pack_of_dvd _ _ 12 3 (by norm_num) (by norm_num) (by omega),
    or_pack_of_dvd _ _ 7 5 (by norm_num) (by norm_num) (by omega),
    or_pack_of_dvd _ _ 0 7 (by norm_num) (by norm_num) (by omega)]
  omega

theorem getMachineCode_S (i : Instruction) (hf : i.format = .S) (rd rs1 rs2 imm : Int) :
    i.getMachineCode rd rs1 rs2 imm =
      toU32 imm / 2 ^ 5 % 128 * 2 ^ 25 + toU32 rs2 % 32 * 2 ^ 20 + toU32 rs1 % 32 * 2 ^ 15
        + toU32 i.funct3 % 8 * 2 ^ 12 + toU32 imm % 32 * 2 ^ 7 + toU32 i.opcode % 128 := by
  have hsh : toU32 (imm >>> (5 : Nat)) % 2 ^ 7 = toU32 imm / 2 ^ 5 % 128 := by
    rw [int_shiftRight_eq]; unfold toU32; norm_num; omega
  unfold Instruction.getMachineCode
  rw [hf]
  simp only []
  rw [or_pack_of_dvd _ _ 25 7 (by norm_num) (by norm_num) (by omega),
    or_pack_of_dvd _ _ 20 5 (by norm_num) (by norm_num) (by omega),
    or_pack_of_dvd _ _ 15 5 (by norm_num) (by norm_num) (by omega),
    or_pack_of_dvd _ _ 12 3 (by norm_num) (by norm_num) (by omega),
    or_pack_of_dvd _ _ 7 5 (by norm_num) (by norm_num) (by omega),
    or_pack_of_dvd _ _ 0 7 (by norm_num) (by norm_num) (by omega), hsh]
  omega

theorem getMachineCode_B (i : Instruction) (hf : i.format = .B) (rd rs1 rs2 imm : Int) :
    i.getMachineCode rd rs1 rs2 imm =
      toU32 imm / 2 ^ 12 % 2 * 2 ^ 31 + toU32 imm / 2 ^ 5 % 64 * 2 ^ 25
        + toU32 rs2 % 32 * 2 ^ 20 + toU32 rs1 % 32 * 2 ^ 15 + toU32 i.funct3 % 8 * 2 ^ 12
        + toU32 imm / 2 % 16 * 2 ^ 8 + toU32 imm / 2 ^ 11 % 2 * 2 ^ 7
        + toU32 i.opcode % 128 := by
  have h12 : toU32 (imm >>> (12 : Nat)) % 2 ^ 1 = toU32 imm / 2 ^ 12 % 2 := by
    rw [int_shiftRight_eq]; unfold toU32; norm_num; omega
  have h5 : toU32 (imm >>> (5 : Nat)) % 2 ^ 6 = toU32 imm / 2 ^ 5 % 64 := by
    rw [int_shiftRight_eq]; unfold toU32; norm_num; omega
  have h1 : toU32 (imm >>> (1 : Nat)) % 2 ^ 4 = toU32 imm / 2 % 16 := by
    rw [int_shiftRight_eq]; unfold toU32; norm_num; omega
  have h11 : toU32 (imm >>> (11 : Nat)) % 2 ^ 1 = toU32 imm / 2 ^ 11 % 2 := by
    rw [int_shiftRight_eq]; unfold toU32; norm_num; omega
  unfold Instruction.getMachineCode
  rw [hf]
  simp only []
  rw [or_pack_of_dvd _ _ 31 1 (by norm_num) (by norm_num) (by omega),
    or_pack_of_dvd _ _ 25 6 (by norm_num) (by norm_num) (by omega),
    or_pack_of_dvd _ _ 20 5 (by norm_num) (by norm_num) (by omega),
    or_pack_of_dvd _ _ 15 5 (by norm_num) (by norm_num) (by omega),
    or_pack_of_dvd _ _ 12 3 (by norm_num) (by norm_num) (by omega),
    or_pack_of_dvd _ _ 8 4 (by norm_num) (by norm_num) (by omega),
    or_pack_of_dvd _ _ 7 1 (by norm_num) (by norm_num) (by omega),
    or_pack_of_dvd _ _ 0 7 (by norm_num) (by norm_num) (by omega), h12, h5, h1, h11]
  omega

theorem getMachineCode_U (i : Instruction) (hf : i.format = .U) (rd rs1 rs2 imm : Int) :
    i.getMachineCode rd rs1 rs2 imm =
      toU32 imm % 1048576 * 2 ^ 12 + toU32 rd % 32 * 2 ^ 7 + toU32 i.opcode % 128 := by
  have hshl : (toU32 imm <<< 12) % 4294967296 = toU32 imm % 1048576 * 2 ^ 12 := by
    rw [Nat.shiftLeft_eq]; omega
  unfold Instruction.getMachineCode
  rw [hf]
  simp only []
  rw [hshl, Nat.zero_or,
    or_pack_of_dvd _ _ 7 5 (by norm_num) (by norm_num) (by omega),
    or_pack_of_dvd _ _ 0 7 (by norm_num) (by norm_num) (by omega)]
  omega

theorem getMachineCode_J (i : Instruction) (hf : i.format = .J) (rd rs1 rs2 imm : Int) :
    i.getMachineCode rd rs1 rs2 imm =
      toU32 imm / 2 ^ 20 % 2 * 2 ^ 31 + toU32 imm / 2 % 1024 * 2 ^ 21
        + toU32 imm / 2 ^ 11 % 2 * 2 ^ 20 + toU32 imm / 2 ^ 12 % 256 * 2 ^ 12
        + toU32 rd % 32 * 2 ^ 7 + toU32 i.opcode % 128 := by
  unfold Instruction.getMachineCode
  rw [hf]
  simp only [Nat.shiftRight_eq_div_pow]
  rw [or_pack_of_dvd _ _ 31 1 (by norm_num) (by norm_num) (by omega),
    or_pack_of_dvd _ _ 21 10 (by norm_num) (by norm_num) (by omega),
    or_pack_of_dvd _ _ 20 1 (by norm_num) (by norm_num) (by omega),
    or_pack_of_dvd _ _ 12 8 (by norm_num) (by norm_num) (by omega),
    or_pack_of_dvd _ _ 7 5 (by norm_num) (by norm_num) (by omega),
    or_pack_of_dvd _ _ 0 7 (by norm_num) (by norm_num) (by omega)]
  omega

theorem and_0x1F (x : Nat) : x &&& 0x1F = x % 32 := Nat.and_pow_two_sub_one_eq_mod x 5

theorem getMachineCode_I_shift (i : Instruction) (hf : i.format = .I)
    (hs : isShiftInstruction i.mnemonic = true) (rd rs1 rs2 imm : Int) :
    i.getMachineCode rd rs1 rs2 imm =
      toU32 i.funct7 % 128 * 2 ^ 25 + toU32 imm % 32 * 2 ^ 20 + toU32 rs1 % 32 * 2 ^ 15
        + toU32 i.funct3 % 8 * 2 ^ 12 + toU32 rd % 32 * 2 ^ 7 + toU32 i.opcode % 128 := by
  unfold Instruction.getMachineCode
  rw [hf]
  simp only [hs, if_true, and_0x1F]
  rw [or_pack_of_dvd _ _ 15 5 (by norm_num) (by norm_num) (by omega),
    or_pack_of_dvd _ _ 12 3 (by norm_num) (by norm_num) (by omega),
    or_pack_of_dvd _ _ 7 5 (by norm_num) (by norm_num) (by omega),
    or_pack_of_dvd _ _ 0 7 (by norm_num) (by norm_num) (by omega),
    or_pack_of_lt _ _ 20 5 (by norm_num) (by norm_num) (by omega),
    or_pack_of_lt _ _ 25 7 (by norm_num) (by norm_num) (by omega)]
  omega

theorem getMachineCode_I (i : Instruction) (hf : i.format = .I)
    (hs : isShiftInstruction i.mnemonic = false) (rd rs1 rs2 imm : Int) :
    i.getMachineCode rd rs1 rs2 imm =
      toU32 imm % 4096 * 2 ^ 20 + toU32 rs1 % 32 * 2 ^ 15
        + toU32 i.funct3 % 8 * 2 ^ 12 + toU32 rd % 32 * 2 ^ 7 + toU32 i.opcode % 128 := by
  unfold Instruction.getMachineCode
  rw [hf]
  simp only [hs, Bool.false_eq_true, if_false, ite_self]
  rw [or_pack_of_dvd _ _ 15 5 (by norm_num) (by norm_num) (by omega),
    or_pack_of_dvd _ _ 12 3 (by norm_num) (by norm_num) (by omega),
    or_pack_of_dvd _ _ 7 5 (by norm_num) (by norm_num) (by omega),
    or_pack_of_dvd _ _ 0 7 (by norm_num) (by norm_num) (by omega),
    or_pack_of_lt _ _ 20 12 (by norm_num) (by norm_num) (by omega)]
  omega

/-! ## Decoding an encoded word -/

/-- Reading a field back out of a word written as `hi | v | lo`. -/
theorem extract_field (code hi v lo M L : Nat) (hcode : code = hi * (M * L) + v * M + lo)
    (hv : v < L) (hlo : lo < M) : code / M % L = v := by
  have hM : 0 < M := by omega
  have h1 : code = lo + M * (v + L * hi) := by rw [hcode]; ring
  rw [h1, Nat.add_mul_div_left _ _ hM, Nat.div_eq_of_lt hlo, Nat.zero_add,
    Nat.add_mul_mod_self_left, Nat.mod_eq_of_lt hv]

theorem toI32_toU32 (imm : Int) (h : -2147483648 ≤ imm ∧ imm < 2147483648) :
    imm = if toU32 imm < 2147483648 then (toU32 imm : Int) else (toU32 imm : Int) - 4294967296 := by
  unfold toU32; split <;> omega

theorem digits_S (u : Nat) :
    u = u % 32 + 32 * (u / 2 ^ 5 % 128) + 4096 * (u / 4096) := by omega

theorem digits_B (u : Nat) :
    u = u % 2 + 2 * (u / 2 % 16) + 32 * (u / 2 ^ 5 % 64) + 2048 * (u / 2 ^ 11 % 2)
      + 4096 * (u / 2 ^ 12 % 2) + 8192 * (u / 8192) := by omega

theorem digits_J (u : Nat) :
    u = u % 2 + 2 * (u / 2 % 1024) + 2048 * (u / 2 ^ 11 % 2) + 4096 * (u / 2 ^ 12 % 256)
      + 1048576 * (u / 2 ^ 20 % 2) + 2097152 * (u / 2097152) := by omega

/-- The low 12 bits of the two's complement of `imm`, read as a signed 12-bit number. -/
theorem signed_low_12 (imm : Int) (u w q : Nat)
    (hu : imm = if u < 2147483648 then (u : Int) else (u : Int) - 4294967296)
    (hu2 : u < 4294967296) (hd : u = w + 4096 * q) (hw : w < 4096)
    (himm : -2048 ≤ imm ∧ imm ≤ 2047) :
    (if w < 2 ^ 11 then (w : Int) else (w : Int) - 2 ^ (11 + 1)) = imm := by
  split at hu <;> split <;> omega

theorem signed_low_13 (imm : Int) (u w q : Nat)
    (hu : imm = if u < 2147483648 then (u : Int) else (u : Int) - 4294967296)
    (hu2 : u < 4294967296) (hd : u = w + 8192 * q) (hw : w < 8192)
    (himm : -4096 ≤ imm ∧ imm ≤ 4094) :
    (if w < 2 ^ 12 then (w : Int) else (w : Int) - 2 ^ (12 + 1)) = imm := by
  split at hu <;> split <;> omega

theorem signed_low_21 (imm : Int) (u w q : Nat)
    (hu : imm = if u < 2147483648 then (u : Int) else (u : Int) - 4294967296)
    (hu2 : u < 4294967296) (hd : u = w + 2097152 * q) (hw : w < 2097152)
    (himm : -1048576 ≤ imm ∧ imm ≤ 1048574) :
    (if w < 2 ^ 20 then (w : Int) else (w : Int) - 2 ^ (20 + 1)) = imm := by
  split at hu <;> split <;> omega

theorem decode_encode_S (i : Instruction) (hf : i.format = .S) (rd rs1 rs2 imm : Int)
    (hrs1 : 0 ≤ rs1 ∧ rs1 < 32) (hrs2 : 0 ≤ rs2 ∧ rs2 < 32)
    (himm : -2048 ≤ imm ∧ imm ≤ 2047) :
    i.decodeRegistersAndImmediate (i.getMachineCode rd rs1 rs2 imm) =
      { rd := 0, rs1 := rs1, rs2 := rs2, imm := imm } := by
  obtain ⟨h1, h2⟩ := hrs1
  obtain ⟨h3, h4⟩ := hrs2
  lift rs1 to ℕ using h1
  lift rs2 to ℕ using h3
  have hcode := getMachineCode_S i hf rd rs1 rs2 imm
  have r1 : toU32 (rs1 : Int) % 32 = rs1 := by rw [toU32_natCast]; omega
  have r2 : toU32 (rs2 : Int) % 32 = rs2 := by rw [toU32_natCast]; omega
  rw [r1, r2] at hcode
  generalize i.getMachineCode rd rs1 rs2 imm = code at hcode
  have hu := toI32_toU32 imm (by omega)
  have hu2 := toU32_lt imm
  generalize toU32 imm = u at *
  have hd := digits_S u
  have b1 : u / 2 ^ 5 % 128 < 128 := Nat.mod_lt _ (by norm_num)
  have b2 : u % 32 < 32 := Nat.mod_lt _ (by norm_num)
  have b3 : toU32 i.funct3 % 8 < 8 := Nat.mod_lt _ (by norm_num)
  have b4 : toU32 i.opcode % 128 < 128 := Nat.mod_lt _ (by norm_num)
  generalize u / 2 ^ 5 % 128 = A at *
  generalize u % 32 = E at *
  generalize toU32 i.funct3 % 8 = D at *
  generalize toU32 i.opcode % 128 = F at *
  have himm2 := signed_low_12 imm u (A * 2 ^ 5 + E) (u / 4096) hu hu2 (by omega) (by omega) himm
  have e1 : code / 2 ^ 15 % 2 ^ 5 = rs1 :=
    extract_field code (A * 2 ^ 5 + rs2) rs1 (D * 2 ^ 12 + E * 2 ^ 7 + F) _ _
      (by omega) (by omega) (by omega)
  have e2 : code / 2 ^ 20 % 2 ^ 5 = rs2 :=
    extract_field code A rs2 (rs1 * 2 ^ 15 + D * 2 ^ 12 + E * 2 ^ 7 + F) _ _
      (by omega) (by omega) (by omega)
  have e3 : code / 2 ^ 25 % 2 ^ 7 = A :=
    extract_field code 0 A (rs2 * 2 ^ 20 + rs1 * 2 ^ 15 + D * 2 ^ 12 + E * 2 ^ 7 + F) _ _
      (by omega) (by omega) (by omega)
  have e4 : code / 2 ^ 7 % 2 ^ 5 = E :=
    extract_field code (A * 2 ^ 13 + rs2 * 2 ^ 8 + rs1 * 2 ^ 3 + D) E F _ _
      (by omega) (by omega) (by omega)
  unfold Instruction.decodeRegistersAndImmediate
  rw [hf]
  simp only [extract_eq _ _ _ (by norm_num : 5 < 32), extract_eq _ _ _ (by norm_num : 7 < 32),
    e1, e2, e3, e4]
  rw [toI32_of_lt rs1 (by omega), toI32_of_lt rs2 (by omega), ← himm2]
  clear himm2 hcode e1 e2 e3 e4 hu hu2 himm hd
  rw [shl_mod_eq _ 5 (by omega), or_eq_add 5 _ _ (by omega) (by omega),
    signExtend_eq _ 11 _ (by norm_num) (by omega) (by norm_num)]

theorem decode_encode_B (i : Instruction) (hf : i.format = .B) (rd rs1 rs2 imm : Int)
    (hrs1 : 0 ≤ rs1 ∧ rs1 < 32) (hrs2 : 0 ≤ rs2 ∧ rs2 < 32)
    (himm : -4096 ≤ imm ∧ imm ≤ 4094) (heven : imm % 2 = 0) :
    i.decodeRegistersAndImmediate (i.getMachineCode rd rs1 rs2 imm) =
      { rd := 0, rs1 := rs1, rs2 := rs2, imm := imm } := by
  obtain ⟨h1, h2⟩ := hrs1
  obtain ⟨h3, h4⟩ := hrs2
  lift rs1 to ℕ using h1
  lift rs2 to ℕ using h3
  have hcode := getMachineCode_B i hf rd rs1 rs2 imm
  have r1 : toU32 (rs1 : Int) % 32 = rs1 := by rw [toU32_natCast]; omega
  have r2 : toU32 (rs2 : Int) % 32 = rs2 := by rw [toU32_natCast]; omega
  rw [r1, r2] at hcode
  generalize i.getMachineCode rd rs1 rs2 imm = code at hcode
  have hu := toI32_toU32 imm (by omega)
  have hu2 := toU32_lt imm
  have hu3 : toU32 imm % 2 = 0 := by unfold toU32; omega
  generalize toU32 imm = u at *
  have hd := digits_B u
  have b1 : u / 2 ^ 12 % 2 < 2 := Nat.mod_lt _ (by norm_num)
  have b2 : u / 2 ^ 5 % 64 < 64 := Nat.mod_lt _ (by norm_num)
  have b3 : u / 2 % 16 < 16 := Nat.mod_lt _ (by norm_num)
  have b4 : u / 2 ^ 11 % 2 < 2 := Nat.mod_lt _ (by norm_num)
  have b5 : toU32 i.funct3 % 8 < 8 := Nat.mod_lt _ (by norm_num)
  have b6 : toU32 i.opcode % 128 < 128 := Nat.mod_lt _ (by norm_num)
  generalize u / 2 ^ 12 % 2 = A at *
  generalize u / 2 ^ 5 % 64 = B at *
  generalize u / 2 % 16 = C at *
  generalize u / 2 ^ 11 % 2 = E at *
  generalize toU32 i.funct3 % 8 = D at *
  generalize toU32 i.opcode % 128 = F at *
  have himm2 := signed_low_13 imm u (A * 2 ^ 12 + E * 2 ^ 11 + B * 2 ^ 5 + C * 2 ^ 1) (u / 8192)
    hu hu2 (by omega) (by omega) himm
  have e1 : code / 2 ^ 15 % 2 ^ 5 = rs1 :=
    extract_field code (A * 2 ^ 11 + B * 2 ^ 5 + rs2) rs1 (D * 2 ^ 12 + C * 2 ^ 8 + E * 2 ^ 7 + F)
      _ _ (by omega) (by omega) (by omega)
  have e2 : code / 2 ^ 20 % 2 ^ 5 = rs2 :=
    extract_field code (A * 2 ^ 6 + B) rs2 (rs1 * 2 ^ 15 + D * 2 ^ 12 + C * 2 ^ 8 + E * 2 ^ 7 + F)
      _ _ (by omega) (by omega) (by omega)
  have e3 : code / 2 ^ 31 % 2 ^ 1 = A :=
    extract_field code 0 A
      (B * 2 ^ 25 + rs2 * 2 ^ 20 + rs1 * 2 ^ 15 + D * 2 ^ 12 + C * 2 ^ 8 + E * 2 ^ 7 + F)
      _ _ (by omega) (by omega) (by omega)
  have e4 : code / 2 ^ 7 % 2 ^ 1 = E :=
    extract_field code (A * 2 ^ 23 + B * 2 ^ 17 + rs2 * 2 ^ 12 + rs1 * 2 ^ 7 + D * 2 ^ 4 + C) E F
      _ _ (by omega) (by omega) (by omega)
  have e5 : code / 2 ^ 25 % 2 ^ 6 = B :=
    extract_field code A B (rs2 * 2 ^ 20 + rs1 * 2 ^ 15 + D * 2 ^ 12 + C * 2 ^ 8 + E * 2 ^ 7 + F)
      _ _ (by omega) (by omega) (by omega)
  have e6 : code / 2 ^ 8 % 2 ^ 4 = C :=
    extract_field code (A * 2 ^ 19 + B * 2 ^ 13 + rs2 * 2 ^ 8 + rs1 * 2 ^ 3 + D) C (E * 2 ^ 7 + F)
      _ _ (by omega) (by omega) (by omega)
  unfold Instruction.decodeRegistersAndImmediate
  rw [hf]
  simp only [extract_eq _ _ _ (by norm_num : 5 < 32), extract_eq _ _ _ (by norm_num : 1 < 32),
    extract_eq _ _ _ (by norm_num : 6 < 32), extract_eq _ _ _ (by norm_num : 4 < 32),
    e1, e2, e3, e4, e5, e6]
  rw [toI32_of_lt rs1 (by omega), toI32_of_lt rs2 (by omega), ← himm2]
  clear himm2 hcode e1 e2 e3 e4 e5 e6 hu hu2 hu3 himm heven hd
  rw [shl_mod_eq _ 12 (by omega), shl_mod_eq _ 11 (by omega), shl_mod_eq _ 5 (by omega),
    shl_mod_eq _ 1 (by omega),
    or_mul_pow _ _ 11 12 (by omega) (by omega), or_mul_pow _ _ 5 11 (by omega) (by omega),
    or_mul_pow _ _ 1 5 (by omega) (by omega),
    signExtend_eq _ 12 _ (by norm_num) (by omega) (by norm_num)]

theorem decode_encode_J (i : Instruction) (hf : i.format = .J) (rd rs1 rs2 imm : Int)
    (hrd : 0 ≤ rd ∧ rd < 32) (himm : -1048576 ≤ imm ∧ imm ≤ 1048574) (heven : imm % 2 = 0) :
    i.decodeRegistersAndImmediate (i.getMachineCode rd rs1 rs2 imm) =
      { rd := rd, rs1 := 0, rs2 := 0, imm := imm } := by
  obtain ⟨h1, h2⟩ := hrd
  lift rd to ℕ using h1
  have hcode := getMachineCode_J i hf rd rs1 rs2 imm
  have r1 : toU32 (rd : Int) % 32 = rd := by rw [toU32_natCast]; omega
  rw [r1] at hcode
  generalize i.getMachineCode rd rs1 rs2 imm = code at hcode
  have hu := toI32_toU32 imm (by omega)
  have hu2 := toU32_lt imm
  have hu3 : toU32 imm % 2 = 0 := by unfold toU32; omega
  generalize toU32 imm = u at *
  have hd := digits_J u
  have b1 : u / 2 ^ 20 % 2 < 2 := Nat.mod_lt _ (by norm_num)
  have b2 : u / 2 % 1024 < 1024 := Nat.mod_lt _ (by norm_num)
  have b3 : u / 2 ^ 11 % 2 < 2 := Nat.mod_lt _ (by norm_num)
  have b4 : u / 2 ^ 12 % 256 < 256 := Nat.mod_lt _ (by norm_num)
  have b6 : toU32 i.opcode % 128 < 128 := Nat.mod_lt _ (by norm_num)
  generalize u / 2 ^ 20 % 2 = A at *
  generalize u / 2 % 1024 = B at *
  generalize u / 2 ^ 11 % 2 = C at *
  generalize u / 2 ^ 12 % 256 = D at *
  generalize toU32 i.opcode % 128 = F at *
  have himm2 := signed_low_21 imm u (A * 2 ^ 20 + D * 2 ^ 12 + C * 2 ^ 11 + B * 2 ^ 1)
    (u / 2097152) hu hu2 (by omega) (by omega) himm
  have e1 : code / 2 ^ 7 % 2 ^ 5 = rd :=
    extract_field code (A * 2 ^ 19 + B * 2 ^ 9 + C * 2 ^ 8 + D) rd F
      _ _ (by omega) (by omega) (by omega)
  have e3 : code / 2 ^ 31 % 2 ^ 1 = A :=
    extract_field code 0 A (B * 2 ^ 21 + C * 2 ^ 20 + D * 2 ^ 12 + rd * 2 ^ 7 + F)
      _ _ (by omega) (by omega) (by omega)
  have e4 : code / 2 ^ 12 % 2 ^ 8 = D :=
    extract_field code (A * 2 ^ 11 + B * 2 + C) D (rd * 2 ^ 7 + F)
      _ _ (by omega) (by omega) (by omega)
  have e5 : code / 2 ^ 20 % 2 ^ 1 = C :=
    extract_field code (A * 2 ^ 10 + B) C (D * 2 ^ 12 + rd * 2 ^ 7 + F)
      _ _ (by omega) (by omega) (by omega)
  have e6 : code / 2 ^ 21 % 2 ^ 10 = B :=
    extract_field code A B (C * 2 ^ 20 + D * 2 ^ 12 + rd * 2 ^ 7 + F)
      _ _ (by omega) (by omega) (by omega)
  unfold Instruction.decodeRegistersAndImmediate
  rw [hf]
  simp only [extract_eq _ _ _ (by norm_num : 5 < 32), extract_eq _ _ _ (by norm_num : 1 < 32),
    extract_eq _ _ _ (by norm_num : 8 < 32), extract_eq _ _ _ (by norm_num : 10 < 32),
    e1, e3, e4, e5, e6]
  rw [toI32_of_lt rd (by omega), ← himm2]
  clear himm2 hcode e1 e3 e4 e5 e6 hu hu2 hu3 himm heven hd
  rw [shl_mod_eq _ 20 (by omega), shl_mod_eq _ 12 (by omega), shl_mod_eq _ 11 (by omega),
    shl_mod_eq _ 1 (by omega),
    or_mul_pow _ _ 12 20 (by omega) (by omega), or_mul_pow _ _ 11 12 (by omega) (by omega),
    or_mul_pow _ _ 1 11 (by omega) (by omega),
    signExtend_eq _ 20 _ (by norm_num) (by omega) (by norm_num)]

/-! ## Claims about the codec -/

/-- C2 (evaluation at the failing input): for the load `lh` (and likewise `lhu`), a
non-shift I-format record, decoding the word encoded from rd = 1, rs1 = 2, imm = 100 returns
imm = 4, the low five bits only: the decoder takes every I-format word with funct3 = 001 or
101 for a shift, and the sign boundary -2048 comes back as 0. -/
theorem decode_encode_lh_loses_immediate :
    (Instruction.mk "lh" .I 0b0000011 0b001 0).decodeRegistersAndImmediate
        ((Instruction.mk "lh" .I 0b0000011 0b001 0).getMachineCode 1 2 0 100)
      = { rd := 1, rs1 := 2, rs2 := 0, imm := 4 } ∧
    (Instruction.mk "lhu" .I 0b0000011 0b101 0).decodeRegistersAndImmediate
        ((Instruction.mk "lhu" .I 0b0000011 0b101 0).getMachineCode 1 2 0 100)
      = { rd := 1, rs1 := 2, rs2 := 0, imm := 4 } ∧
    (Instruction.mk "lh" .I 0b0000011 0b001 0).decodeRegistersAndImmediate
        ((Instruction.mk "lh" .I 0b0000011 0b001 0).getMachineCode 1 2 0 (-2048))
      = { rd := 1, rs1 := 2, rs2 := 0, imm := 0 } ∧
    isShiftInstruction "lh" = false ∧ isShiftInstruction "lhu" = false := by
  decide

/-- C3: decoding inverts encoding for the S, B and J formats. For register numbers in
0..31, an S-format record with imm in -2048..2047, a B-format record with even imm in
-4096..4094 and a J-format record with even imm in -2^20..2^20-2 decode their own word to the
original registers and the original immediate, the unused fields being zero. -/
theorem decode_inverts_encode_SBJ (i : Instruction) (rd rs1 rs2 imm : Int)
    (hrd : 0 ≤ rd ∧ rd < 32) (hrs1 : 0 ≤ rs1 ∧ rs1 < 32) (hrs2 : 0 ≤ rs2 ∧ rs2 < 32) :
    (i.format = .S → -2048 ≤ imm ∧ imm ≤ 2047 →
      i.decodeRegistersAndImmediate (i.getMachineCode rd rs1 rs2 imm)
        = { rd := 0, rs1 := rs1, rs2 := rs2, imm := imm }) ∧
    (i.format = .B → -4096 ≤ imm ∧ imm ≤ 4094 → imm % 2 = 0 →
      i.decodeRegistersAndImmediate (i.getMachineCode rd rs1 rs2 imm)
        = { rd := 0, rs1 := rs1, rs2 := rs2, imm := imm }) ∧
    (i.format = .J → -1048576 ≤ imm ∧ imm ≤ 1048574 → imm % 2 = 0 →
      i.decodeRegistersAndImmediate (i.getMachineCode rd rs1 rs2 imm)
        = { rd := rd, rs1 := 0, rs2 := 0, imm := imm }) :=
  ⟨fun hf himm => decode_encode_S i hf rd rs1 rs2 imm hrs1 hrs2 himm,
   fun hf himm heven => decode_encode_B i hf rd rs1 rs2 imm hrs1 hrs2 himm heven,
   fun hf himm heven => decode_encode_J i hf rd rs1 rs2 imm hrd himm heven⟩

/-- Witness of C3 at the sign boundaries: `sw x3, -2048(x4)`, `beq x1, x2, -4096` and
`jal x5, -1048576`. -/
theorem decode_inverts_encode_SBJ_witness :
    (Instruction.mk "sw" .S 0b0100011 0b010 0).decodeRegistersAndImmediate
        ((Instruction.mk "sw" .S 0b0100011 0b010 0).getMachineCode 0 4 3 (-2048))
      = { rd := 0, rs1 := 4, rs2 := 3, imm := -2048 } ∧
    (Instruction.mk "beq" .B 0b1100011 0b000 0).decodeRegistersAndImmediate
        ((Instruction.mk "beq" .B 0b1100011 0b000 0).getMachineCode 0 1 2 (-4096))
      = { rd := 0, rs1 := 1, rs2 := 2, imm := -4096 } ∧
    (Instruction.mk "jal" .J 0b1101111 0 0).decodeRegistersAndImmediate
        ((Instruction.mk "jal" .J 0b1101111 0 0).getMachineCode 5 0 0 (-1048576))
      = { rd := 5, rs1 := 0, rs2 := 0, imm := -1048576 } :=
  ⟨(decode_inverts_encode_SBJ (Instruction.mk "sw" .S 0b0100011 0b010 0) 0 4 3 (-2048)
      (by decide) (by decide) (by decide)).1 rfl (by decide),
   (decode_inverts_encode_SBJ (Instruction.mk "beq" .B 0b1100011 0b000 0) 0 1 2 (-4096)
      (by decide) (by decide) (by decide)).2.1 rfl (by decide) (by decide),
   (decode_inverts_encode_SBJ (Instruction.mk "jal" .J 0b1101111 0 0) 5 0 0 (-1048576)
      (by decide) (by decide) (by decide)).2.2 rfl (by decide) (by decide)⟩

theorem toU32_mod_of_fit (x : Int) (m : Nat) (h0 : 0 ≤ x) (h1 : x < m) (hm : m ≤ 4294967296) :
    toU32 x % m = x.toNat := by
  unfold toU32; lift x to ℕ using h0
  have : (x : Int) % 4294967296 = (x % 4294967296 : Nat) := by omega
  rw [this]
  simp only [Int.toNat_ofNat]
  have h2 : x < m := by exact_mod_cast h1
  rw [Nat.mod_eq_of_lt (a := x) (by omega), Nat.mod_eq_of_lt h2]

/-- C4: `getMachineCode` produces the bit layout of the specification. For a record whose
opcode, funct3 and funct7 fit their fields, register numbers in 0..31 and any immediate,
the word equals the concatenation of fields the specification gives for the format
(shifts keep the low five bits of imm and carry funct7; ECALL and EBREAK carry their
discriminator as imm[11:0]); and `beq x1, x2, 8` encodes to 0x00208463, `ecall` to
0x00000073, `ebreak` to 0x00100073. -/
theorem getMachineCode_eq_specLayout (i : Instruction) (hfit : i.fieldsFit)
    (rd rs1 rs2 imm : Int)
    (hrd : 0 ≤ rd ∧ rd < 32) (hrs1 : 0 ≤ rs1 ∧ rs1 < 32) (hrs2 : 0 ≤ rs2 ∧ rs2 < 32) :
    i.getMachineCode rd rs1 rs2 imm = specLayout i rd rs1 rs2 imm ∧
    (Instruction.mk "beq" .B 0b1100011 0b000 0).getMachineCode 0 1 2 8 = 0x00208463 ∧
    (Instruction.mk "ecall" .I 0b1110011 0b000 0).getMachineCode 0 0 0 0 = 0x00000073 ∧
    (Instruction.mk "ebreak" .I 0b1110011 0b000 1).getMachineCode 0 0 0 1 = 0x00100073 := by
  refine ⟨?_, by decide, by decide, by decide⟩
  obtain ⟨ho0, ho1, hf0, hf1, hs0, hs1⟩ := hfit
  have e1 := toU32_mod_of_fit rd 32 hrd.1 hrd.2 (by norm_num)
  have e2 := toU32_mod_of_fit rs1 32 hrs1.1 hrs1.2 (by norm_num)
  have e3 := toU32_mod_of_fit rs2 32 hrs2.1 hrs2.2 (by norm_num)
  have e4 := toU32_mod_of_fit i.opcode 128 ho0 ho1 (by norm_num)
  have e5 := toU32_mod_of_fit i.funct3 8 hf0 hf1 (by norm_num)
  have e6 := toU32_mod_of_fit i.funct7 128 hs0 hs1 (by norm_num)
  have hpow : ∀ k : Nat, (2 : Nat) ^ 1 * k = 2 * k := fun k => by omega
  unfold specLayout
  cases hf : i.format
  · rw [getMachineCode_R i hf, e1, e2, e3, e4, e5, e6]
    simp only [concatFields, List.foldl]
    omega
  · by_cases hs : isShiftInstruction i.mnemonic = true
    · rw [getMachineCode_I_shift i hf hs, e1, e2, e4, e5, e6]
      simp only [hs, if_true, concatFields, List.foldl, immBits]
      generalize toU32 imm = u
      norm_num
      omega
    · have hs' : isShiftInstruction i.mnemonic = false := by simpa using hs
      rw [getMachineCode_I i hf hs', e1, e2, e4, e5]
      simp only [hs', Bool.false_eq_true, if_false, concatFields, List.foldl, immBits]
      generalize toU32 imm = u
      norm_num
      omega
  · rw [getMachineCode_S i hf, e2, e3, e4, e5]
    simp only [concatFields, List.foldl, immBits]
    generalize toU32 imm = u
    norm_num
    omega
  · rw [getMachineCode_B i hf, e2, e3, e4, e5]
    simp only [concatFields, List.foldl, immBits]
    generalize toU32 imm = u
    norm_num
    omega
  · rw [getMachineCode_U i hf, e1, e4]
    simp only [concatFields, List.foldl, immBits]
    generalize toU32 imm = u
    norm_num
    omega
  · rw [getMachineCode_J i hf, e1, e4]
    simp only [concatFields, List.foldl, immBits]
    generalize toU32 imm = u
    norm_num
    omega

/-- Witness of C4: the record of `srai` with rd = 13, rs1 = 14 and imm = 1. -/
theorem getMachineCode_eq_specLayout_witness :
    (Instruction.mk "srai" .I 0b0010011 0b101 0b0100000).getMachineCode 13 14 0 1
      = specLayout (Instruction.mk "srai" .I 0b0010011 0b101 0b0100000) 13 14 0 1 :=
  (getMachineCode_eq_specLayout (Instruction.mk "srai" .I 0b0010011 0b101 0b0100000)
    (by decide) 13 14 0 1 (by decide) (by decide) (by decide)).1

/-- Every record of every instruction table fits its fields. -/
theorem instructionList_fieldsFit (mode : ISAMode) :
    ∀ i ∈ instructionList mode, i.fieldsFit := by
  cases mode <;> decide

/-- C6 (evaluation at the failing inputs): in mode RV64I, which has no M extension,
`getByMnemonic` finds `mul` (and `div`), and in mode RV32I it finds the 64-bit load `ld`,
while `sd` and `lwu` are absent there. -/
theorem getByMnemonic_admits_outside_mode :
    getByMnemonic .RV64I "mul" = some ⟨"mul", .R, 0b0110011, 0b000, 0b0000001⟩ ∧
    getByMnemonic .RV64I "div" = some ⟨"div", .R, 0b0110011, 0b100, 0b0000001⟩ ∧
    getByMnemonic .RV32I "ld" = some ⟨"ld", .I, 0b0000011, 0b011, 0⟩ ∧
    getByMnemonic .RV32I "sd" = none ∧ getByMnemonic .RV32I "lwu" = none ∧
    getByMnemonic .RV32I "mul" = none ∧ getByMnemonic .RV64I "mulw" = none := by
  decide

/-! ## Lookup by encoded word -/


theorem extract_lt (v s l : Nat) (hl : l < 32) : extract v s l < 2 ^ l := by
  rw [extract_eq v s l hl]; exact Nat.mod_lt _ (by positivity)

theorem code_fields_R (i : Instruction) (hf : i.format = .R) (hfit : i.fieldsFit)
    (rd rs1 rs2 imm : Int) :
    extract (i.getMachineCode rd rs1 rs2 imm) 0 7 = i.opcode.toNat ∧
    extract (i.getMachineCode rd rs1 rs2 imm) 12 3 = i.funct3.toNat ∧
    extract (i.getMachineCode rd rs1 rs2 imm) 25 7 = i.funct7.toNat := by
  obtain ⟨ho0, ho1, hf0, hf1, hs0, hs1⟩ := hfit
  have hcode := getMachineCode_R i hf rd rs1 rs2 imm
  rw [toU32_mod_of_fit i.opcode 128 ho0 ho1 (by norm_num),
    toU32_mod_of_fit i.funct3 8 hf0 hf1 (by norm_num),
    toU32_mod_of_fit i.funct7 128 hs0 hs1 (by norm_num)] at hcode
  have b1 : i.opcode.toNat < 128 := by omega
  have b2 : i.funct3.toNat < 8 := by omega
  have b3 : i.funct7.toNat < 128 := by omega
  have b4 : toU32 rs2 % 32 < 32 := Nat.mod_lt _ (by norm_num)
  have b5 : toU32 rs1 % 32 < 32 := Nat.mod_lt _ (by norm_num)
  have b6 : toU32 rd % 32 < 32 := Nat.mod_lt _ (by norm_num)
  generalize i.getMachineCode rd rs1 rs2 imm = code at *
  generalize i.opcode.toNat = op at *
  generalize i.funct3.toNat = f3 at *
  generalize i.funct7.toNat = f7 at *
  generalize toU32 rs2 % 32 = A at *
  generalize toU32 rs1 % 32 = B at *
  generalize toU32 rd % 32 = C at *
  clear ho0 ho1 hf0 hf1 hs0 hs1
  rw [extract_eq _ _ _ (by norm_num), extract_eq _ _ _ (by norm_num),
    extract_eq _ _ _ (by norm_num)]
  exact ⟨extract_field code (f7 * 2 ^ 18 + A * 2 ^ 13 + B * 2 ^ 8 + f3 * 2 ^ 5 + C) op 0 _ _
      (by omega) (by omega) (by omega),
    extract_field code (f7 * 2 ^ 10 + A * 2 ^ 5 + B) f3 (C * 2 ^ 7 + op) _ _
      (by omega) (by omega) (by omega),
    extract_field code 0 f7 (A * 2 ^ 20 + B * 2 ^ 15 + f3 * 2 ^ 12 + C * 2 ^ 7 + op) _ _
      (by omega) (by omega) (by omega)⟩

theorem code_fields_I_shift (i : Instruction) (hf : i.format = .I)
    (hs : isShiftInstruction i.mnemonic = true) (hfit : i.fieldsFit)
    (rd rs1 rs2 imm : Int) :
    extract (i.getMachineCode rd rs1 rs2 imm) 0 7 = i.opcode.toNat ∧
    extract (i.getMachineCode rd rs1 rs2 imm) 12 3 = i.funct3.toNat ∧
    extract (i.getMachineCode rd rs1 rs2 imm) 25 7 = i.funct7.toNat := by
  obtain ⟨ho0, ho1, hf0, hf1, hs0, hs1⟩ := hfit
  have hcode := getMachineCode_I_shift i hf hs rd rs1 rs2 imm
  rw [toU32_mod_of_fit i.opcode 128 ho0 ho1 (by norm_num),
    toU32_mod_of_fit i.funct3 8 hf0 hf1 (by norm_num),
    toU32_mod_of_fit i.funct7 128 hs0 hs1 (by norm_num)] at hcode
  have b1 : i.opcode.toNat < 128 := by omega
  have b2 : i.funct3.toNat < 8 := by omega
  have b3 : i.funct7.toNat < 128 := by omega
  have b4 : toU32 imm % 32 < 32 := Nat.mod_lt _ (by norm_num)
  have b5 : toU32 rs1 % 32 < 32 := Nat.mod_lt _ (by norm_num)
  have b6 : toU32 rd % 32 < 32 := Nat.mod_lt _ (by norm_num)
  generalize i.getMachineCode rd rs1 rs2 imm = code at *
  generalize i.opcode.toNat = op at *
  generalize i.funct3.toNat = f3 at *
  generalize i.funct7.toNat = f7 at *
  generalize toU32 imm % 32 = A at *
  generalize toU32 rs1 % 32 = B at *
  generalize toU32 rd % 32 = C at *
  clear ho0 ho1 hf0 hf1 hs0 hs1
  rw [extract_eq _ _ _ (by norm_num), extract_eq _ _ _ (by norm_num),
    extract_eq _ _ _ (by norm_num)]
  exact ⟨extract_field code (f7 * 2 ^ 18 + A * 2 ^ 13 + B * 2 ^ 8 + f3 * 2 ^ 5 + C) op 0 _ _
      (by omega) (by omega) (by omega),
    extract_field code (f7 * 2 ^ 10 + A * 2 ^ 5 + B) f3 (C * 2 ^ 7 + op) _ _
      (by omega) (by omega) (by omega),
    extract_field code 0 f7 (A * 2 ^ 20 + B * 2 ^ 15 + f3 * 2 ^ 12 + C * 2 ^ 7 + op) _ _
      (by omega) (by omega) (by omega)⟩

theorem code_fields_I (i : Instruction) (hf : i.format = .I)
    (hs : isShiftInstruction i.mnemonic = false) (hfit : i.fieldsFit)
    (rd rs1 rs2 imm : Int) :
    extract (i.getMachineCode rd rs1 rs2 imm) 0 7 = i.opcode.toNat ∧
    extract (i.getMachineCode rd rs1 rs2 imm) 12 3 = i.funct3.toNat := by
  obtain ⟨ho0, ho1, hf0, hf1, hs0, hs1⟩ := hfit
  have hcode := getMachineCode_I i hf hs rd rs1 rs2 imm
  rw [toU32_mod_of_fit i.opcode 128 ho0 ho1 (by norm_num),
    toU32_mod_of_fit i.funct3 8 hf0 hf1 (by norm_num)] at hcode
  have b1 : i.opcode.toNat < 128 := by omega
  have b2 : i.funct3.toNat < 8 := by omega
  have b4 : toU32 imm % 4096 < 4096 := Nat.mod_lt _ (by norm_num)
  have b5 : toU32 rs1 % 32 < 32 := Nat.mod_lt _ (by norm_num)
  have b6 : toU32 rd % 32 < 32 := Nat.mod_lt _ (by norm_num)
  generalize i.getMachineCode rd rs1 rs2 imm = code at *
  generalize i.opcode.toNat = op at *
  generalize i.funct3.toNat = f3 at *
  generalize toU32 imm % 4096 = A at *
  generalize toU32 rs1 % 32 = B at *
  generalize toU32 rd % 32 = C at *
  clear ho0 ho1 hf0 hf1 hs0 hs1
  rw [extract_eq _ _ _ (by norm_num), extract_eq _ _ _ (by norm_num)]
  exact ⟨extract_field code (A * 2 ^ 13 + B * 2 ^ 8 + f3 * 2 ^ 5 + C) op 0 _ _
      (by omega) (by omega) (by omega),
    extract_field code (A * 2 ^ 5 + B) f3 (C * 2 ^ 7 + op) _ _
      (by omega) (by omega) (by omega)⟩

theorem code_fields_S (i : Instruction) (hf : i.format = .S) (hfit : i.fieldsFit)
    (rd rs1 rs2 imm : Int) :
    extract (i.getMachineCode rd rs1 rs2 imm) 0 7 = i.opcode.toNat ∧
    extract (i.getMachineCode rd rs1 rs2 imm) 12 3 = i.funct3.toNat := by
  obtain ⟨ho0, ho1, hf0, hf1, hs0, hs1⟩ := hfit
  have hcode := getMachineCode_S i hf rd rs1 rs2 imm
  rw [toU32_mod_of_fit i.opcode 128 ho0 ho1 (by norm_num),
    toU32_mod_of_fit i.funct3 8 hf0 hf1 (by norm_num)] at hcode
  have b1 : i.opcode.toNat < 128 := by omega
  have b2 : i.funct3.toNat < 8 := by omega
  have b3 : toU32 imm / 2 ^ 5 % 128 < 128 := Nat.mod_lt _ (by norm_num)
  have b4 : toU32 rs2 % 32 < 32 := Nat.mod_lt _ (by norm_num)
  have b5 : toU32 rs1 % 32 < 32 := Nat.mod_lt _ (by norm_num)
  have b6 : toU32 imm % 32 < 32 := Nat.mod_lt _ (by norm_num)
  generalize i.getMachineCode rd rs1 rs2 imm = code at *
  generalize i.opcode.toNat = op at *
  generalize i.funct3.toNat = f3 at *
  generalize toU32 imm / 2 ^ 5 % 128 = H at *
  generalize toU32 rs2 % 32 = A at *
  generalize toU32 rs1 % 32 = B at *
  generalize toU32 imm % 32 = C at *
  clear ho0 ho1 hf0 hf1 hs0 hs1
  rw [extract_eq _ _ _ (by norm_num), extract_eq _ _ _ (by norm_num)]
  exact ⟨extract_field code (H * 2 ^ 18 + A * 2 ^ 13 + B * 2 ^ 8 + f3 * 2 ^ 5 + C) op 0 _ _
      (by omega) (by omega) (by omega),
    extract_field code (H * 2 ^ 10 + A * 2 ^ 5 + B) f3 (C * 2 ^ 7 + op) _ _
      (by omega) (by omega) (by omega)⟩

theorem code_fields_B (i : Instruction) (hf : i.format = .B) (hfit : i.fieldsFit)
    (rd rs1 rs2 imm : Int) :
    extract (i.getMachineCode rd rs1 rs2 imm) 0 7 = i.opcode.toNat ∧
    extract (i.getMachineCode rd rs1 rs2 imm) 12 3 = i.funct3.toNat := by
  obtain ⟨ho0, ho1, hf0, hf1, hs0, hs1⟩ := hfit
  have hcode := getMachineCode_B i hf rd rs1 rs2 imm
  rw [toU32_mod_of_fit i.opcode 128 ho0 ho1 (by norm_num),
    toU32_mod_of_fit i.funct3 8 hf0 hf1 (by norm_num)] at hcode
  have b1 : i.opcode.toNat < 128 := by omega
  have b2 : i.funct3.toNat < 8 := by omega
  have b3 : toU32 imm / 2 ^ 12 % 2 < 2 := Nat.mod_lt _ (by norm_num)
  have b4 : toU32 imm / 2 ^ 5 % 64 < 64 := Nat.mod_lt _ (by norm_num)
  have b5 : toU32 rs2 % 32 < 32 := Nat.mod_lt _ (by norm_num)
  have b6 : toU32 rs1 % 32 < 32 := Nat.mod_lt _ (by norm_num)
  have b7 : toU32 imm / 2 % 16 < 16 := Nat.mod_lt _ (by norm_num)
  have b8 : toU32 imm / 2 ^ 11 % 2 < 2 := Nat.mod_lt _ (by norm_num)
  generalize i.getMachineCode rd rs1 rs2 imm = code at *
  generalize i.opcode.toNat = op at *
  generalize i.funct3.toNat = f3 at *
  generalize toU32 imm / 2 ^ 12 % 2 = H at *
  generalize toU32 imm / 2 ^ 5 % 64 = G at *
  generalize toU32 rs2 % 32 = A at *
  generalize toU32 rs1 % 32 = B at *
  generalize toU32 imm / 2 % 16 = C at *
  generalize toU32 imm / 2 ^ 11 % 2 = D at *
  clear ho0 ho1 hf0 hf1 hs0 hs1
  rw [extract_eq _ _ _ (by norm_num), extract_eq _ _ _ (by norm_num)]
  exact ⟨extract_field code
      (H * 2 ^ 24 + G * 2 ^ 18 + A * 2 ^ 13 + B * 2 ^ 8 + f3 * 2 ^ 5 + C * 2 + D) op 0 _ _
      (by omega) (by omega) (by omega),
    extract_field code (H * 2 ^ 16 + G * 2 ^ 10 + A * 2 ^ 5 + B) f3 (C * 2 ^ 8 + D * 2 ^ 7 + op)
      _ _ (by omega) (by omega) (by omega)⟩

theorem code_fields_U (i : Instruction) (hf : i.format = .U) (hfit : i.fieldsFit)
    (rd rs1 rs2 imm : Int) :
    extract (i.getMachineCode rd rs1 rs2 imm) 0 7 = i.opcode.toNat := by
  obtain ⟨ho0, ho1, hf0, hf1, hs0, hs1⟩ := hfit
  have hcode := getMachineCode_U i hf rd rs1 rs2 imm
  rw [toU32_mod_of_fit i.opcode 128 ho0 ho1 (by norm_num)] at hcode
  have b1 : i.opcode.toNat < 128 := by omega
  generalize i.getMachineCode rd rs1 rs2 imm = code at *
  generalize i.opcode.toNat = op at *
  generalize toU32 imm % 1048576 = A at *
  generalize toU32 rd % 32 = C at *
  clear ho0 ho1 hf0 hf1 hs0 hs1
  rw [extract_eq _ _ _ (by norm_num)]
  exact extract_field code (A * 2 ^ 5 + C) op 0 _ _ (by omega) (by omega) (by omega)

theorem code_fields_J (i : Instruction) (hf : i.format = .J) (hfit : i.fieldsFit)
    (rd rs1 rs2 imm : Int) :
    extract (i.getMachineCode rd rs1 rs2 imm) 0 7 = i.opcode.toNat := by
  obtain ⟨ho0, ho1, hf0, hf1, hs0, hs1⟩ := hfit
  have hcode := getMachineCode_J i hf rd rs1 rs2 imm
  rw [toU32_mod_of_fit i.opcode 128 ho0 ho1 (by norm_num)] at hcode
  have b1 : i.opcode.toNat < 128 := by omega
  generalize i.getMachineCode rd rs1 rs2 imm = code at *
  generalize i.opcode.toNat = op at *
  generalize toU32 imm / 2 ^ 20 % 2 = A at *
  generalize toU32 imm / 2 % 1024 = B at *
  generalize toU32 imm / 2 ^ 11 % 2 = D at *
  generalize toU32 imm / 2 ^ 12 % 256 = E at *
  generalize toU32 rd % 32 = C at *
  clear ho0 ho1 hf0 hf1 hs0 hs1
  rw [extract_eq _ _ _ (by norm_num)]
  exact extract_field code (A * 2 ^ 24 + B * 2 ^ 14 + D * 2 ^ 13 + E * 2 ^ 5 + C) op 0 _ _
    (by omega) (by omega) (by omega)



theorem getByEncodedLoop_funct7_irrel (op f3 f7 f7' : Nat) (l : List Instruction)
    (h : ∀ r ∈ l, r.opcode = (op : Int) → r.funct3 = (f3 : Int) →
      r.format ≠ .R ∧ (r.format = .I → isShiftInstruction r.mnemonic = false)) :
    getByEncodedLoop op f3 f7 l = getByEncodedLoop op f3 f7' l := by
  induction l with
  | nil => rfl
  | cons r rest ih =>
    have ih' := ih (fun x hx => h x (List.mem_cons_of_mem _ hx))
    have hr := h r (List.mem_cons_self _ _)
    unfold getByEncodedLoop
    by_cases hop : r.opcode = (op : Int)
    · by_cases hf3 : r.funct3 = (f3 : Int)
      · obtain ⟨hR, hI⟩ := hr hop hf3
        cases hfm : r.format <;> simp_all
      · cases hfm : r.format <;> simp_all
    · simp [hop, ih']

theorem getByEncodedLoop_funct3_irrel (op f3 f7 f3' f7' : Nat) (l : List Instruction)
    (h : ∀ r ∈ l, r.opcode = (op : Int) → r.format = .U ∨ r.format = .J) :
    getByEncodedLoop op f3 f7 l = getByEncodedLoop op f3' f7' l := by
  induction l with
  | nil => rfl
  | cons r rest ih =>
    have ih' := ih (fun x hx => h x (List.mem_cons_of_mem _ hx))
    have hr := h r (List.mem_cons_self _ _)
    unfold getByEncodedLoop
    by_cases hop : r.opcode = (op : Int)
    · rcases hr hop with hfm | hfm <;> simp [hop, hfm]
    · simp [hop, ih']

set_option maxRecDepth 100000 in
theorem getByEncodedLoop_table (mode : ISAMode) :
    ∀ i ∈ instructionList mode, i.mnemonic ≠ "ebreak" →
      ((i.format = .R ∨ (i.format = .I ∧ isShiftInstruction i.mnemonic = true)) →
        (getByEncodedLoop i.opcode.toNat i.funct3.toNat i.funct7.toNat
          (instructionList mode)).map (fun r => r.mnemonic) = some i.mnemonic) ∧
      ((i.format = .S ∨ i.format = .B ∨
          (i.format = .I ∧ isShiftInstruction i.mnemonic = false)) →
        (getByEncodedLoop i.opcode.toNat i.funct3.toNat 0
          (instructionList mode)).map (fun r => r.mnemonic) = some i.mnemonic ∧
        ∀ r ∈ instructionList mode, r.opcode = (i.opcode.toNat : Int) →
          r.funct3 = (i.funct3.toNat : Int) →
          r.format ≠ .R ∧ (r.format = .I → isShiftInstruction r.mnemonic = false)) ∧
      ((i.format = .U ∨ i.format = .J) →
        (getByEncodedLoop i.opcode.toNat 0 0
          (instructionList mode)).map (fun r => r.mnemonic) = some i.mnemonic ∧
        ∀ r ∈ instructionList mode, r.opcode = (i.opcode.toNat : Int) →
          r.format = .U ∨ r.format = .J) := by
  cases mode <;> decide



theorem toI32_shiftRight_20 (code A rest : Nat) (hcode : code = A * 2 ^ 20 + rest)
    (hA : A < 4096) (hrest : rest < 2 ^ 20) :
    (toI32 code) >>> (20 : Nat) = if A < 2048 then (A : Int) else (A : Int) - 4096 := by
  rw [int_shiftRight_eq]
  unfold toI32
  have h20 : ((2 ^ 20 : Nat) : Int) = 1048576 := by norm_num
  rw [h20]
  have hc : code < 4294967296 := by omega
  rw [Nat.mod_eq_of_lt hc]
  split <;> split <;> omega

theorem decode_encode_I (i : Instruction) (hf : i.format = .I)
    (hs : isShiftInstruction i.mnemonic = false) (hfit : i.fieldsFit)
    (h3 : i.funct3 ≠ 1 ∧ i.funct3 ≠ 5) (rd rs1 rs2 imm : Int)
    (hrd : 0 ≤ rd ∧ rd < 32) (hrs1 : 0 ≤ rs1 ∧ rs1 < 32)
    (himm : -2048 ≤ imm ∧ imm ≤ 2047) :
    i.decodeRegistersAndImmediate (i.getMachineCode rd rs1 rs2 imm) =
      { rd := rd, rs1 := rs1, rs2 := 0, imm := imm } := by
  obtain ⟨ho0, ho1, hf0, hf1, hs0, hs1⟩ := hfit
  obtain ⟨h1, h2⟩ := hrd
  obtain ⟨h3', h4⟩ := hrs1
  lift rd to ℕ using h1
  lift rs1 to ℕ using h3'
  have hcode := getMachineCode_I i hf hs rd rs1 rs2 imm
  have r1 : toU32 (rs1 : Int) % 32 = rs1 := by rw [toU32_natCast]; omega
  have r2 : toU32 (rd : Int) % 32 = rd := by rw [toU32_natCast]; omega
  rw [r1, r2, toU32_mod_of_fit i.opcode 128 ho0 ho1 (by norm_num),
    toU32_mod_of_fit i.funct3 8 hf0 hf1 (by norm_num)] at hcode
  have b1 : i.opcode.toNat < 128 := by omega
  have b2 : i.funct3.toNat < 8 := by omega
  have b3 : toU32 imm % 4096 < 4096 := Nat.mod_lt _ (by norm_num)
  have hA : (if toU32 imm % 4096 < 2048 then ((toU32 imm % 4096 : Nat) : Int)
      else ((toU32 imm % 4096 : Nat) : Int) - 4096) = imm := by
    unfold toU32; split <;> omega
  have hf3 : (i.funct3.toNat : Int) = i.funct3 := Int.toNat_of_nonneg hf0
  generalize i.getMachineCode rd rs1 rs2 imm = code at *
  generalize i.opcode.toNat = op at *
  generalize toU32 imm % 4096 = A at *
  have e1 : code / 2 ^ 7 % 2 ^ 5 = rd :=
    extract_field code (A * 2 ^ 8 + rs1 * 2 ^ 3 + i.funct3.toNat) rd op _ _
      (by omega) (by omega) (by omega)
  have e2 : code / 2 ^ 15 % 2 ^ 5 = rs1 :=
    extract_field code A rs1 (i.funct3.toNat * 2 ^ 12 + rd * 2 ^ 7 + op) _ _
      (by omega) (by omega) (by omega)
  have e3 : code / 2 ^ 12 % 2 ^ 3 = i.funct3.toNat :=
    extract_field code (A * 2 ^ 5 + rs1) i.funct3.toNat (rd * 2 ^ 7 + op) _ _
      (by omega) (by omega) (by omega)
  have e4 := toI32_shiftRight_20 code A
    (rs1 * 2 ^ 15 + i.funct3.toNat * 2 ^ 12 + rd * 2 ^ 7 + op) (by omega) b3 (by omega)
  unfold Instruction.decodeRegistersAndImmediate
  rw [hf]
  simp only [extract_eq _ _ _ (by norm_num : 5 < 32), extract_eq _ _ _ (by norm_num : 3 < 32),
    e1, e2, e3, e4, hA]
  rw [toI32_of_lt rd (by omega), toI32_of_lt rs1 (by omega), toI32_of_lt _ (by omega), hf3,
    if_neg (by omega)]

theorem getByEncoded_eq_loop (mode : ISAMode) (code : Nat) :
    getByEncoded mode code =
      getByEncodedLoop (extract code 0 7) (extract code 12 3) (extract code 25 7)
        (instructionList mode) := by
  unfold getByEncoded
  have h1 := extract_lt code 0 7 (by norm_num)
  have h2 := extract_lt code 12 3 (by norm_num)
  have h3 := extract_lt code 25 7 (by norm_num)
  rw [Nat.mod_eq_of_lt (by omega), Nat.mod_eq_of_lt (by omega), Nat.mod_eq_of_lt (by omega)]

/-- Lookup by encoded word returns a record with the mnemonic of the record that encoded
the word, for every record of a table other than `ebreak`. -/
theorem getByEncoded_getMachineCode (mode : ISAMode) (i : Instruction)
    (hi : i ∈ instructionList mode) (hne : i.mnemonic ≠ "ebreak") (rd rs1 rs2 imm : Int) :
    (getByEncoded mode (i.getMachineCode rd rs1 rs2 imm)).map (fun r => r.mnemonic)
      = some i.mnemonic := by
  have hfit := instructionList_fieldsFit mode i hi
  obtain ⟨hR, hS, hU⟩ := getByEncodedLoop_table mode i hi hne
  rw [getByEncoded_eq_loop]
  cases hf : i.format
  · obtain ⟨e1, e2, e3⟩ := code_fields_R i hf hfit rd rs1 rs2 imm
    rw [e1, e2, e3]
    exact hR (Or.inl hf)
  · by_cases hs : isShiftInstruction i.mnemonic = true
    · obtain ⟨e1, e2, e3⟩ := code_fields_I_shift i hf hs hfit rd rs1 rs2 imm
      rw [e1, e2, e3]
      exact hR (Or.inr ⟨hf, hs⟩)
    · have hs' : isShiftInstruction i.mnemonic = false := by simpa using hs
      obtain ⟨e1, e2⟩ := code_fields_I i hf hs' hfit rd rs1 rs2 imm
      obtain ⟨h1, h2⟩ := hS (Or.inr (Or.inr ⟨hf, hs'⟩))
      rw [e1, e2, getByEncodedLoop_funct7_irrel _ _ _ 0 _ h2]
      exact h1
  · obtain ⟨e1, e2⟩ := code_fields_S i hf hfit rd rs1 rs2 imm
    obtain ⟨h1, h2⟩ := hS (Or.inl hf)
    rw [e1, e2, getByEncodedLoop_funct7_irrel _ _ _ 0 _ h2]
    exact h1
  · obtain ⟨e1, e2⟩ := code_fields_B i hf hfit rd rs1 rs2 imm
    obtain ⟨h1, h2⟩ := hS (Or.inr (Or.inl hf))
    rw [e1, e2, getByEncodedLoop_funct7_irrel _ _ _ 0 _ h2]
    exact h1
  · have e1 := code_fields_U i hf hfit rd rs1 rs2 imm
    obtain ⟨h1, h2⟩ := hU (Or.inl hf)
    rw [e1, getByEncodedLoop_funct3_irrel _ _ _ 0 0 _ h2]
    exact h1
  · have e1 := code_fields_J i hf hfit rd rs1 rs2 imm
    obtain ⟨h1, h2⟩ := hU (Or.inr hf)
    rw [e1, getByEncodedLoop_funct3_irrel _ _ _ 0 0 _ h2]
    exact h1


theorem system_table (mode : ISAMode) :
    getByEncodedLoop 0b1110011 0 0 (instructionList mode) = some ecallRecord ∧
    (∀ r ∈ instructionList mode, r.opcode = ((0b1110011 : Nat) : Int) →
      r.funct3 = ((0 : Nat) : Int) →
      r.format ≠ .R ∧ (r.format = .I → isShiftInstruction r.mnemonic = false)) ∧
    getByMnemonic mode "ebreak" = some ebreakRecord ∧
    (∀ i ∈ instructionList mode, i.mnemonic = "ebreak" → i = ebreakRecord) ∧
    (∀ i ∈ instructionList mode, i.mnemonic = "ecall" → i = ecallRecord) := by
  cases mode <;> decide

theorem getByEncoded_system (mode : ISAMode) (i : Instruction)
    (hi : i = ecallRecord ∨ i = ebreakRecord) (rd rs1 rs2 imm : Int) :
    getByEncoded mode (i.getMachineCode rd rs1 rs2 imm) = some ecallRecord := by
  have hfit : i.fieldsFit := by rcases hi with h | h <;> subst h <;> decide
  have hf : i.format = .I := by rcases hi with h | h <;> subst h <;> rfl
  have hs : isShiftInstruction i.mnemonic = false := by
    rcases hi with h | h <;> subst h <;> decide
  obtain ⟨e1, e2⟩ := code_fields_I i hf hs hfit rd rs1 rs2 imm
  have hop : i.opcode.toNat = 0b1110011 := by rcases hi with h | h <;> subst h <;> decide
  have hf3 : i.funct3.toNat = 0 := by rcases hi with h | h <;> subst h <;> decide
  obtain ⟨h1, h2, -⟩ := system_table mode
  rw [getByEncoded_eq_loop, e1, e2, hop, hf3, getByEncodedLoop_funct7_irrel _ _ _ 0 _ h2]
  exact h1

theorem disassembleWord_system (mode : ISAMode) (labelSet : LabelSet) (idx : Nat)
    (i : Instruction) (hi : i = ecallRecord ∨ i = ebreakRecord) (rd rs1 rs2 : Int)
    (hrd : 0 ≤ rd ∧ rd < 32) (hrs1 : 0 ≤ rs1 ∧ rs1 < 32) :
    (disassembleWord mode labelSet idx (i.getMachineCode rd rs1 rs2 1)).getLast? = some "ebreak " ∧
    (disassembleWord mode labelSet idx (i.getMachineCode rd rs1 rs2 0)).getLast? = some "ecall " := by
  have hfit : i.fieldsFit := by rcases hi with h | h <;> subst h <;> decide
  have hf : i.format = .I := by rcases hi with h | h <;> subst h <;> rfl
  have hs : isShiftInstruction i.mnemonic = false := by
    rcases hi with h | h <;> subst h <;> decide
  have h3 : i.funct3 ≠ 1 ∧ i.funct3 ≠ 5 := by rcases hi with h | h <;> subst h <;> decide
  have hdec : ∀ imm : Int, -2048 ≤ imm ∧ imm ≤ 2047 →
      ecallRecord.decodeRegistersAndImmediate (i.getMachineCode rd rs1 rs2 imm)
        = { rd := rd, rs1 := rs1, rs2 := 0, imm := imm } := by
    intro imm himm
    have := decode_encode_I i hf hs hfit h3 rd rs1 rs2 imm hrd hrs1 himm
    rcases hi with h | h <;> subst h <;> exact this
  obtain ⟨-, -, hm, -, -⟩ := system_table mode
  constructor
  · unfold disassembleWord
    simp only [getByEncoded_system mode i hi, hdec 1 (by decide), hm]
    simp [ecallRecord, ebreakRecord, formatOperands]
  · unfold disassembleWord
    simp only [getByEncoded_system mode i hi, hdec 0 (by decide)]
    simp [ecallRecord, formatOperands]


/-- C5: lookup by encoded word inverts encoding. For every ISA mode, every record `i` of its
table and all operand values: if `i` is not `ebreak`, `getByEncoded` applied to the word
`getMachineCode` produces returns a record with the mnemonic of `i`; for the word of
`ebreak` it returns the record `ecall`; and the disassembler then prints `ebreak` for the
word of `ecall`/`ebreak` carrying immediate 1 and `ecall` for the one carrying immediate 0
(the mnemonic followed by a blank and no operands). -/
theorem getByEncoded_inverts_getMachineCode (mode : ISAMode) (i : Instruction)
    (hi : i ∈ instructionList mode) (rd rs1 rs2 imm : Int) (labelSet : LabelSet) (idx : Nat) :
    (i.mnemonic ≠ "ebreak" →
      (getByEncoded mode (i.getMachineCode rd rs1 rs2 imm)).map (fun r => r.mnemonic)
        = some i.mnemonic) ∧
    (i.mnemonic = "ebreak" →
      getByEncoded mode (i.getMachineCode rd rs1 rs2 imm) = some ecallRecord) ∧
    (i.mnemonic = "ebreak" ∨ i.mnemonic = "ecall" → 0 ≤ rd ∧ rd < 32 → 0 ≤ rs1 ∧ rs1 < 32 →
      (disassembleWord mode labelSet idx (i.getMachineCode rd rs1 rs2 1)).getLast?
        = some "ebreak " ∧
      (disassembleWord mode labelSet idx (i.getMachineCode rd rs1 rs2 0)).getLast?
        = some "ecall ") := by
  obtain ⟨-, -, -, hb, hc⟩ := system_table mode
  refine ⟨fun hne => getByEncoded_getMachineCode mode i hi hne rd rs1 rs2 imm,
    fun he => getByEncoded_system mode i (Or.inr (hb i hi he)) rd rs1 rs2 imm,
    fun hsys hrd hrs1 => ?_⟩
  have hrec : i = ecallRecord ∨ i = ebreakRecord := by
    rcases hsys with h | h
    · exact Or.inr (hb i hi h)
    · exact Or.inl (hc i hi h)
  exact disassembleWord_system mode labelSet idx i hrec rd rs1 rs2 hrd hrs1

/-- Witness of C5: the record `srai` in mode RV32I with rd = 13, rs1 = 14, imm = 1. -/
theorem getByEncoded_inverts_getMachineCode_witness :
    (getByEncoded .RV32I
        ((Instruction.mk "srai" .I 0b0010011 0b101 0b0100000).getMachineCode 13 14 0 1)).map
      (fun r => r.mnemonic) = some "srai" :=
  (getByEncoded_inverts_getMachineCode .RV32I (Instruction.mk "srai" .I 0b0010011 0b101 0b0100000)
    (by decide) 13 14 0 1 {} 0).1 (by decide)

/-! ## Claims about the assembler and the disassembler, evaluated -/


/-- C8 (evaluation at the failing inputs): `lh x1, 100(x2)` assembles to 0x06410083; the
disassembler prints it as `lh x1, 4(x2)`, which assembles to 0x00410083, a different word.
Likewise `beq x0, x0, END` with the label `END` defined after the last instruction
assembles with offset 4 to 0x00000263, is printed as `beq x0, x0, END` without any line
`END:`, and that text assembles with offset 0 to 0x00000063. -/
theorem reassembly_changes_machine_code :
    (assemble .RV32I ["lh x1, 100(x2)"]).map (fun a => a.machineCodes) = .ok [0x06411083] ∧
    (assemble .RV32I ["lh x1, 100(x2)"]).map
        (fun a => disassemble .RV32I a.labelSet a.machineCodes) = .ok ["lh x1, 4(x2)"] ∧
    (assemble .RV32I ["lh x1, 4(x2)"]).map (fun a => a.machineCodes) = .ok [0x00411083] ∧
    (assemble .RV32I ["beq x0, x0, END", "END:"]).map (fun a => a.machineCodes)
      = .ok [0x00000263] ∧
    (assemble .RV32I ["beq x0, x0, END", "END:"]).map
        (fun a => disassemble .RV32I a.labelSet a.machineCodes) = .ok ["beq x0, x0, END"] ∧
    (assemble .RV32I ["beq x0, x0, END"]).map (fun a => a.machineCodes) = .ok [0x00000063] := by
  decide

/-- C9 (evaluation at the failing input): in the program `beq x0, x0, A` / `A:` / `B:` /
`addi x1, x1, 1` the label `A` is defined at PC 4 and the branch is at PC 0, yet the
assembled branch has imm = -1 instead of 4: `B`, defined at the same PC, has replaced `A`
in the map `getProgramCounter` searches, while `isPresent` still knows `A`. -/
theorem label_shadowed_at_same_pc :
    (assemble .RV32I ["beq x0, x0, A", "A:", "B:", "addi x1, x1, 1"]).map
        (fun a => a.instructions.map (fun i => (i.instruction.mnemonic, i.pc, i.imm)))
      = .ok [("beq", (0 : Nat), (-1 : Int)), ("addi", 4, 1)] ∧
    (assemble .RV32I ["beq x0, x0, A", "A:", "B:", "addi x1, x1, 1"]).map
        (fun a => (a.labelSet.isPresentLabel "A", a.labelSet.labeltoAddress,
          a.labelSet.addressToLabels, a.labelSet.getProgramCounter "A"))
      = .ok (true, [("A", (4 : Int)), ("B", 4)], [((4 : Int), "B")], (-1 : Int)) :=
  ⟨by decide, by decide⟩

/-- C10 (evaluation at the failing inputs): a line with an invalid register name
(`add x1, x2, q`), with an unparseable immediate (`addi x1, x2, zzz`), with an undefined
label (`beq x1, x2, nolabel`) or with a missing operand (`addi x1, x2`) does not stop the
assembly: the line itself is encoded (register -1 as 31, immediate 0) and so is the line
after it, so three words are returned instead of one. A line with too many operands
(`add x1, x2, x3, x4`) does stop it. -/
theorem assemble_continues_after_error :
    (assemble .RV32I ["addi x1, x0, 1", "add x1, x2, q", "addi x2, x0, 2"]).map
        (fun a => (a.machineCodes, a.instructions.length))
      = .ok ([0x00100093, 0x01f100b3, 0x00200113], 3) ∧
    (assemble .RV32I ["addi x1, x0, 1", "addi x1, x2, zzz", "addi x2, x0, 2"]).map
        (fun a => (a.machineCodes, a.instructions.length))
      = .ok ([0x00100093, 0x00010093, 0x00200113], 3) ∧
    (assemble .RV32I ["addi x1, x0, 1", "beq x1, x2, nolabel", "addi x2, x0, 2"]).map
        (fun a => (a.machineCodes, a.instructions.length))
      = .ok ([0x00100093, 0x00208063, 0x00200113], 3) ∧
    (assemble .RV32I ["addi x1, x0, 1", "addi x1, x2", "addi x2, x0, 2"]).map
        (fun a => (a.machineCodes, a.instructions.length))
      = .ok ([0x00100093, 0x00000093, 0x00200113], 3) ∧
    (assemble .RV32I ["addi x1, x0, 1", "add x1, x2, x3, x4", "addi x2, x0, 2"]).map
        (fun a => (a.machineCodes, a.instructions.length))
      = .ok ([0x00100093], 1) := by
  decide

/-! ## Cache: address arithmetic -/


theorem two_pow_split (n s : Nat) (h : s ≤ n) : (2 : Nat) ^ n = 2 ^ (n - s) * 2 ^ s := by
  rw [← Nat.pow_add]; congr 1; omega

/-- The tag the cache stores for an address: the bits above index and offset, with the
sign of the `int` address copied into the upper 32 bits. -/
theorem toU64_getTag (s a : Nat) (hs : s ≤ 30) (ha : a < 4294967296) :
    toU64 ((toI32 a) >>> s) =
      a / 2 ^ s + (if a < 2147483648 then 0 else 18446744073709551616 - 2 ^ (32 - s)) := by
  have hP : (2 : Nat) ^ 32 = 2 ^ (32 - s) * 2 ^ s := two_pow_split 32 s (by omega)
  have hPle : (2 : Nat) ^ (32 - s) ≤ 2 ^ 32 := Nat.pow_le_pow_right (by norm_num) (by omega)
  have h32 : (2 : Nat) ^ 32 = 4294967296 := by norm_num
  have hq : a / 2 ^ s < 2 ^ (32 - s) := by
    rw [Nat.div_lt_iff_lt_mul (by positivity)]; omega
  have hpos : 0 < (2 : Nat) ^ s := by positivity
  rw [int_shiftRight_eq]
  unfold toI32 toU64
  rw [Nat.mod_eq_of_lt ha]
  split
  · rename_i hlt
    have : ((a : Int) / ((2 ^ s : Nat) : Int)) = ((a / 2 ^ s : Nat) : Int) := by
      rw [Int.natCast_div]
    rw [this]
    generalize a / 2 ^ s = q at *
    generalize 2 ^ (32 - s) = P at *
    omega
  · rename_i hge
    have h1 : ((a : Int) - 4294967296) = (a : Int) + (-((2 ^ (32 - s) : Nat) : Int)) * ((2 ^ s : Nat) : Int) := by
      have : ((2 ^ (32 - s) : Nat) : Int) * ((2 ^ s : Nat) : Int) = 4294967296 := by
        rw [← Int.natCast_mul, ← hP, h32]; rfl
      rw [Int.neg_mul, this]; ring
    have hne : ((2 ^ s : Nat) : Int) ≠ 0 := by exact_mod_cast hpos.ne'
    have h2 : ((a : Nat) : Int) - 4294967296 = ((a : Int) - 4294967296) := rfl
    rw [h1, Int.add_mul_ediv_right _ _ hne]
    have : ((a : Int) / ((2 ^ s : Nat) : Int)) = ((a / 2 ^ s : Nat) : Int) := by
      rw [Int.natCast_div]
    rw [this]
    generalize a / 2 ^ s = q at *
    generalize 2 ^ (32 - s) = P at *
    omega


theorem toU32_shiftRight (s a : Nat) (hs : s ≤ 30) (ha : a < 4294967296) :
    toU32 ((toI32 a) >>> s) =
      a / 2 ^ s + (if a < 2147483648 then 0 else 4294967296 - 2 ^ (32 - s)) := by
  have hP : (2 : Nat) ^ 32 = 2 ^ (32 - s) * 2 ^ s := two_pow_split 32 s (by omega)
  have hPle : (2 : Nat) ^ (32 - s) ≤ 2 ^ 32 := Nat.pow_le_pow_right (by norm_num) (by omega)
  have h32 : (2 : Nat) ^ 32 = 4294967296 := by norm_num
  have hq : a / 2 ^ s < 2 ^ (32 - s) := by
    rw [Nat.div_lt_iff_lt_mul (by positivity)]; omega
  have hpos : 0 < (2 : Nat) ^ s := by positivity
  rw [int_shiftRight_eq]
  unfold toI32 toU32
  rw [Nat.mod_eq_of_lt ha]
  split
  · have : ((a : Int) / ((2 ^ s : Nat) : Int)) = ((a / 2 ^ s : Nat) : Int) := by
      rw [Int.natCast_div]
    rw [this]
    generalize a / 2 ^ s = q at *
    generalize 2 ^ (32 - s) = P at *
    omega
  · have h1 : ((a : Int) - 4294967296) = (a : Int) + (-((2 ^ (32 - s) : Nat) : Int)) * ((2 ^ s : Nat) : Int) := by
      have : ((2 ^ (32 - s) : Nat) : Int) * ((2 ^ s : Nat) : Int) = 4294967296 := by
        rw [← Int.natCast_mul, ← hP, h32]; rfl
      rw [Int.neg_mul, this]; ring
    have hne : ((2 ^ s : Nat) : Int) ≠ 0 := by exact_mod_cast hpos.ne'
    rw [h1, Int.add_mul_ediv_right _ _ hne]
    have : ((a : Int) / ((2 ^ s : Nat) : Int)) = ((a / 2 ^ s : Nat) : Int) := by
      rw [Int.natCast_div]
    rw [this]
    generalize a / 2 ^ s = q at *
    generalize 2 ^ (32 - s) = P at *
    omega

theorem two_pow_le_of_le (a b : Nat) (h : a ≤ b) : (2 : Nat) ^ a ≤ 2 ^ b :=
  Nat.pow_le_pow_right (by norm_num) h

theorem getIndex_eq (ob ib a : Nat) (h : ob + ib ≤ 30) (ha : a < 4294967296) :
    toU32 ((AddressDecoder.mk ob ib).getIndex a) = a / 2 ^ ob % 2 ^ ib := by
  unfold AddressDecoder.getIndex
  simp only []
  have h30 : (2 : Nat) ^ ib ≤ 2 ^ 30 := two_pow_le_of_le _ _ (by omega)
  have h30' : (2 : Nat) ^ 30 = 1073741824 := by norm_num
  have hpos : 0 < (2 : Nat) ^ ib := by positivity
  have hmask : toU32 (toI32 ((1 <<< ib) % 4294967296) - 1) = 2 ^ ib - 1 := by
    rw [one_shl_mod ib (by omega), toI32_of_lt _ (by omega)]
    unfold toU32
    generalize 2 ^ ib = P at *
    omega
  rw [hmask, Nat.and_pow_two_sub_one_eq_mod, toU32_shiftRight ob a (by omega) ha]
  have hlt : (a / 2 ^ ob + if a < 2147483648 then 0 else 4294967296 - 2 ^ (32 - ob)) % 2 ^ ib
      = a / 2 ^ ob % 2 ^ ib := by
    split
    · rfl
    · have h32 : (4294967296 : Nat) = 2 ^ (32 - ib) * 2 ^ ib := two_pow_split 32 ib (by omega)
      have hob : (2 : Nat) ^ (32 - ob) = 2 ^ (32 - ob - ib) * 2 ^ ib :=
        two_pow_split (32 - ob) ib (by omega)
      rw [h32, hob, ← Nat.sub_mul, Nat.add_mul_mod_self_right]
  rw [hlt]
  have hm : a / 2 ^ ob % 2 ^ ib < 2 ^ ib := Nat.mod_lt _ hpos
  rw [toU32_toI32 _ (by omega)]

theorem getTag_eq (ob ib a : Nat) (h : ob + ib ≤ 30) (ha : a < 4294967296) :
    toU64 ((AddressDecoder.mk ob ib).getTag a) =
      a / 2 ^ (ib + ob) +
        (if a < 2147483648 then 0 else 18446744073709551616 - 2 ^ (32 - (ib + ob))) := by
  unfold AddressDecoder.getTag
  exact toU64_getTag (ib + ob) a (by omega) ha

theorem div_pow_add (a ob ib : Nat) : a / 2 ^ (ib + ob) = a / 2 ^ ob / 2 ^ ib := by
  rw [Nat.add_comm, Nat.pow_add, Nat.div_div_eq_div_mul]

/-- Two addresses have the same index and tag exactly when they lie in the same block. -/
theorem same_block_iff (ob ib a b : Nat) (h : ob + ib ≤ 30) (ha : a < 4294967296)
    (hb : b < 4294967296) :
    (toU32 ((AddressDecoder.mk ob ib).getIndex a) = toU32 ((AddressDecoder.mk ob ib).getIndex b) ∧
      toU64 ((AddressDecoder.mk ob ib).getTag a) = toU64 ((AddressDecoder.mk ob ib).getTag b))
      ↔ a / 2 ^ ob = b / 2 ^ ob := by
  rw [getIndex_eq ob ib a h ha, getIndex_eq ob ib b h hb, getTag_eq ob ib a h ha,
    getTag_eq ob ib b h hb, div_pow_add, div_pow_add]
  have hP : (2 : Nat) ^ 32 = 2 ^ (32 - (ib + ob)) * 2 ^ (ib + ob) :=
    two_pow_split 32 (ib + ob) (by omega)
  have hPle : (2 : Nat) ^ (32 - (ib + ob)) ≤ 2 ^ 32 := two_pow_le_of_le _ _ (by omega)
  have h32 : (2 : Nat) ^ 32 = 4294967296 := by norm_num
  have hqa : a / 2 ^ ob / 2 ^ ib < 2 ^ (32 - (ib + ob)) := by
    rw [← div_pow_add, Nat.div_lt_iff_lt_mul (by positivity)]; omega
  have hqb : b / 2 ^ ob / 2 ^ ib < 2 ^ (32 - (ib + ob)) := by
    rw [← div_pow_add, Nat.div_lt_iff_lt_mul (by positivity)]; omega
  have hda := Nat.div_add_mod (a / 2 ^ ob) (2 ^ ib)
  have hdb := Nat.div_add_mod (b / 2 ^ ob) (2 ^ ib)
  constructor
  · rintro ⟨h1, h2⟩
    have hq : a / 2 ^ ob / 2 ^ ib = b / 2 ^ ob / 2 ^ ib := by
      generalize a / 2 ^ ob / 2 ^ ib = qa at *
      generalize b / 2 ^ ob / 2 ^ ib = qb at *
      generalize 2 ^ (32 - (ib + ob)) = P at *
      clear hda hdb hP
      split at h2 <;> split at h2 <;> omega
    rw [← hda, ← hdb, h1, hq]
  · intro heq
    rw [heq]
    refine ⟨rfl, ?_⟩
    have hlt : a < 2147483648 ↔ b < 2147483648 := by
      have h31 : (2147483648 : Nat) = 2 ^ (31 - ob) * 2 ^ ob := two_pow_split 31 ob (by omega)
      have hpos : 0 < (2 : Nat) ^ ob := by positivity
      rw [h31, ← Nat.div_lt_iff_lt_mul hpos, ← Nat.div_lt_iff_lt_mul hpos, heq]
    by_cases hc : a < 2147483648
    · rw [if_pos hc, if_pos (hlt.1 hc)]
    · rw [if_neg hc, if_neg (fun hh => hc (hlt.2 hh))]


theorem int_not_sub_one (n : Nat) (h : 0 < n) : ~~~((n : Int) - 1) = -(n : Int) := by
  obtain ⟨m, rfl⟩ : ∃ m, n = m + 1 := ⟨n - 1, by omega⟩
  have : ((m + 1 : Nat) : Int) - 1 = (m : Int) := by push_cast; omega
  rw [this]
  show Int.not (Int.ofNat m) = _
  simp only [Int.not, Int.negSucc_eq]
  push_cast
  ring

theorem testBit_mask (ob j : Nat) (hob : ob ≤ 32) :
    (4294967296 - 2 ^ ob).testBit j = (decide (ob ≤ j) && decide (j < 32)) := by
  have h : (4294967296 : Nat) - 2 ^ ob = 2 ^ ob * (2 ^ (32 - ob) - 1) := by
    rw [Nat.mul_sub, Nat.mul_one, ← Nat.pow_add]
    have : ob + (32 - ob) = 32 := by omega
    rw [this]
  rw [h, Nat.testBit_mul_pow_two, Nat.testBit_two_pow_sub_one]
  by_cases h1 : ob ≤ j
  · simp [h1]; omega
  · simp [h1]

/-- Step 5 of `replaceBlock`: `address & ~(blockSize - 1)` is the start of the block. -/
theorem blockAddr_eq (ob a : Nat) (hob : ob ≤ 30) (ha : a < 4294967296) :
    a &&& toU32 (~~~(((2 ^ ob : Nat) : Int) - 1)) = a / 2 ^ ob * 2 ^ ob := by
  rw [int_not_sub_one _ (by positivity)]
  have h30 : (2 : Nat) ^ ob ≤ 2 ^ 30 := two_pow_le_of_le _ _ hob
  have h30' : (2 : Nat) ^ 30 = 1073741824 := by norm_num
  have hpos : 0 < (2 : Nat) ^ ob := by positivity
  have hm : toU32 (-((2 ^ ob : Nat) : Int)) = 4294967296 - 2 ^ ob := by
    unfold toU32
    generalize 2 ^ ob = P at *
    omega
  rw [hm]
  apply Nat.eq_of_testBit_eq
  intro j
  rw [Nat.testBit_and, testBit_mask ob j (by omega), Nat.mul_comm, Nat.testBit_mul_pow_two,
    ← Nat.shiftRight_eq_div_pow, Nat.testBit_shiftRight]
  by_cases h1 : ob ≤ j
  · have hj : ob + (j - ob) = j := by omega
    by_cases h2 : j < 32
    · simp [h1, h2, hj]
    · have : a.testBit j = false := by
        apply Nat.testBit_lt_two_pow
        calc a < 2 ^ 32 := by norm_num; exact ha
          _ ≤ 2 ^ j := two_pow_le_of_le _ _ (by omega)
      simp [h1, h2, hj, this]
  · simp [h1]

/-! ## Cache: the logarithm of the sizes -/

theorem log2Loop_spec (fuel x c : Nat) (h1 : 1 ≤ x) (h2 : x < 2 ^ fuel) :
    ∃ r, log2Loop fuel x c = c + r ∧ 2 ^ r ≤ x ∧ x < 2 ^ (r + 1) := by
  induction fuel generalizing x c with
  | zero => simp at h2; omega
  | succ f ih =>
    have hx2 : x >>> 1 = x / 2 := by rw [Nat.shiftRight_eq_div_pow, Nat.pow_one]
    by_cases hx : x > 1
    · have hstep : log2Loop (f + 1) x c = log2Loop f (x >>> 1) (c + 1) := by
        simp only [log2Loop, if_pos hx]
      rw [Nat.pow_succ] at h2
      obtain ⟨r, hr, hlo, hhi⟩ := ih (x >>> 1) (c + 1) (by rw [hx2]; omega) (by rw [hx2]; omega)
      rw [hx2] at hlo hhi
      refine ⟨r + 1, by rw [hstep, hr]; omega, ?_, ?_⟩
      · rw [Nat.pow_succ]; omega
      · rw [Nat.pow_succ] at hhi ⊢; omega
    · have hstep : log2Loop (f + 1) x c = c := by
        simp only [log2Loop, if_neg hx]
      exact ⟨0, by rw [hstep]; rfl, by simpa using h1, by simp; omega⟩

theorem log2_two_pow (k : Nat) (hk : k < 32) : log2 (2 ^ k) = k := by
  obtain ⟨r, hr, hlo, hhi⟩ := log2Loop_spec 32 (2 ^ k) 0 (Nat.one_le_two_pow)
    (Nat.pow_lt_pow_right (by norm_num) hk)
  unfold log2
  rw [hr, Nat.zero_add]
  have h1 : r ≤ k := (Nat.pow_le_pow_iff_right (by norm_num)).1 hlo
  have h2 : k < r + 1 := (Nat.pow_lt_pow_iff_right (by norm_num)).1 hhi
  omega

theorem two_pow_log2_le (n : Nat) (h1 : 1 ≤ n) (h2 : n < 4294967296) : 2 ^ log2 n ≤ n := by
  obtain ⟨r, hr, hlo, _⟩ := log2Loop_spec 32 n 0 h1 (by norm_num; exact h2)
  unfold log2
  rw [hr, Nat.zero_add]
  exact hlo

/-! ## Cache: bytes of memory and of a block -/

theorem toU8_toI8 (b : Fin 256) : toU8 (toI8 b.val) = b.val := by
  unfold toU8 toI8
  have := b.isLt
  split <;> omega

theorem byteOfNat_val (b : Fin 256) : byteOfNat b.val = b := by
  apply Fin.ext
  show b.val % 256 = b.val
  exact Nat.mod_eq_of_lt b.isLt

theorem byteOfNat_and (b : Fin 256) : byteOfNat ((b.val >>> (8 * 0)) &&& 0xFF) = b := by
  apply Fin.ext
  show ((b.val >>> (8 * 0)) &&& 0xFF) % 256 = b.val
  have h : (0xFF : Nat) = 2 ^ 8 - 1 := by norm_num
  rw [Nat.mul_zero, Nat.shiftRight_zero, h, Nat.and_pow_two_sub_one_eq_mod]
  have := b.isLt
  omega

/-- The bytes of memory after `Memory::write` of `n` bytes that do not wrap around. -/
theorem writeLoop_memory (mem : Memory) (A v n a : Nat) (h : A + n ≤ 4294967296) :
    (mem.writeLoop A v n).memory a =
      if A ≤ a ∧ a < A + n then byteOfNat ((v >>> (8 * (a - A))) &&& 0xFF)
      else mem.memory a := by
  induction n with
  | zero => simp only [Memory.writeLoop]; rw [if_neg (by omega)]
  | succ i ih =>
    have hmod : (A + i) % 4294967296 = A + i := Nat.mod_eq_of_lt (by omega)
    simp only [Memory.writeLoop, Memory.setByte, hmod]
    rw [ih (by omega)]
    by_cases h1 : a = A + i
    · subst h1
      have : A + i - A = i := by omega
      simp [this]
    · rw [if_neg h1]
      by_cases h2 : A ≤ a ∧ a < A + i
      · rw [if_pos h2, if_pos ⟨h2.1, by omega⟩]
      · rw [if_neg h2, if_neg (by omega)]

theorem writeDataLoop_length (data : List (Fin 256)) (off v n : Nat) :
    (writeDataLoop data off v n).length = data.length := by
  induction n with
  | zero => rfl
  | succ i ih => simp only [writeDataLoop, List.length_set, ih]

/-- The bytes of a block after `CacheBlock::writeData` of `n` bytes inside the block. -/
theorem writeDataLoop_get (data : List (Fin 256)) (off v n p : Nat)
    (h : off + n ≤ data.length) :
    (writeDataLoop data off v n).get? p =
      if off ≤ p ∧ p < off + n then some (byteOfNat ((v >>> (8 * (p - off))) &&& 0xFF))
      else data.get? p := by
  induction n with
  | zero => simp only [writeDataLoop]; rw [if_neg (by omega)]
  | succ i ih =>
    simp only [writeDataLoop, List.get?_eq_getElem?, List.getElem?_set, writeDataLoop_length]
    simp only [List.get?_eq_getElem?] at ih
    rw [ih (by omega)]
    by_cases h1 : off + i = p
    · subst h1
      have : off + i - off = i := by omega
      simp [this]; omega
    · rw [if_neg h1]
      by_cases h2 : off ≤ p ∧ p < off + i
      · rw [if_pos h2, if_pos ⟨h2.1, by omega⟩]
      · rw [if_neg h2, if_neg (by omega)]

/-- `CacheBlock::readData` assembles the same word as `Memory::read` when the block holds
the bytes of memory. -/
theorem readDataLoop_eq (data : List (Fin 256)) (off : Nat) (m : Memory) (A n : Nat)
    (h : ∀ i, i < n → data.get? (off + i) = some (m.memory ((A + i) % 4294967296))) :
    readDataLoop data off n = m.readLoop A n := by
  induction n with
  | zero => rfl
  | succ i ih =>
    simp only [readDataLoop, Memory.readLoop, h i (by omega), Memory.getByte, toU8_toI8]
    rw [ih (fun j hj => h j (by omega))]

theorem readLoop_lt (m : Memory) (A n : Nat) : m.readLoop A n < 2 ^ (8 * n) := by
  induction n with
  | zero => simp [Memory.readLoop]
  | succ i ih =>
    simp only [Memory.readLoop]
    apply Nat.or_lt_two_pow
    · calc m.readLoop A i < 2 ^ (8 * i) := ih
        _ ≤ 2 ^ (8 * (i + 1)) := two_pow_le_of_le _ _ (by omega)
    · apply Nat.lt_of_le_of_lt (Nat.mod_le _ _)
      rw [Nat.shiftLeft_eq]
      have hb : toU8 (m.getByte ((A + i) % 4294967296)) < 2 ^ 8 := by
        unfold toU8; omega
      calc toU8 (m.getByte ((A + i) % 4294967296)) * 2 ^ (8 * i)
          < 2 ^ 8 * 2 ^ (8 * i) := Nat.mul_lt_mul_of_pos_right hb (by positivity)
        _ = 2 ^ (8 * (i + 1)) := by rw [← Nat.pow_add]; congr 1; omega

theorem readLoop_congr (m m2 : Memory) (A n : Nat)
    (h : ∀ i, i < n → m.memory ((A + i) % 4294967296) = m2.memory ((A + i) % 4294967296)) :
    m.readLoop A n = m2.readLoop A n := by
  induction n with
  | zero => rfl
  | succ i ih =>
    simp only [Memory.readLoop, Memory.getByte, h i (by omega)]
    rw [ih (fun j hj => h j (by omega))]

/-! ## Cache: the value of a read -/

theorem signExtend_byte (V : Nat) :
    toI32 (toU32 ((toI32 ((V <<< ((4 - 1) * 8)) % 4294967296)) >>> ((4 - 1) * 8 : Nat))) = toI8 V := by
  rw [int_shiftRight_eq, Nat.shiftLeft_eq]
  have h24 : (2 : Nat) ^ ((4 - 1) * 8) = 16777216 := by norm_num
  rw [h24]
  unfold toI32 toU32 toI8
  have e1 : ((16777216 : Nat) : Int) = 16777216 := rfl
  rw [e1]
  split <;> omega

theorem signExtend_half (V : Nat) :
    toI32 (toU32 ((toI32 ((V <<< ((4 - 2) * 8)) % 4294967296)) >>> ((4 - 2) * 8 : Nat))) = toI16 V := by
  rw [int_shiftRight_eq, Nat.shiftLeft_eq]
  have h16 : (2 : Nat) ^ ((4 - 2) * 8) = 65536 := by norm_num
  rw [h16]
  unfold toI32 toU32 toI16
  have e1 : ((65536 : Nat) : Int) = 65536 := rfl
  rw [e1]
  split <;> omega

/-- A read served from a block that holds the bytes of `m` gives the 32-bit pattern of the
value `Memory::read` gives on `m`. -/
theorem readData_eq (b : CacheBlock) (m : Memory) (A : Nat) (size : MemSize) (u : Bool)
    (bs : Nat) (hsz : size ≠ .DoubleWord)
    (h : ∀ i, i < size.toNat →
      b.data.get? (A % bs + i) = some (m.memory ((A + i) % 4294967296))) :
    toI32 (b.readData A size u bs) = m.read A size u ∧ b.readData A size u bs < 4294967296 := by
  have hlt := readLoop_lt m A size.toNat
  have hrd := readDataLoop_eq b.data (A % bs) m A size.toNat h
  cases size with
  | DoubleWord => exact absurd rfl hsz
  | Byte =>
    have hV : m.readLoop A 1 < 2 ^ 8 := hlt
    have hrd1 : readDataLoop b.data (A % bs) 1 = m.readLoop A 1 := hrd
    simp only [CacheBlock.readData, Memory.read, MemSize.toNat, hrd1]
    generalize m.readLoop A 1 = V at hV
    norm_num at hV
    cases u
    · refine ⟨?_, by simp only [Bool.not_false, Bool.true_and]; split <;> first | exact toU32_lt _ | omega⟩
      have := signExtend_byte V
      simpa using this
    · exact ⟨by simp, by simp; omega⟩
  | HalfWord =>
    have hV : m.readLoop A 2 < 2 ^ 16 := hlt
    have hrd1 : readDataLoop b.data (A % bs) 2 = m.readLoop A 2 := hrd
    simp only [CacheBlock.readData, Memory.read, MemSize.toNat, hrd1]
    generalize m.readLoop A 2 = V at hV
    norm_num at hV
    cases u
    · refine ⟨?_, by simp only [Bool.not_false, Bool.true_and]; split <;> first | exact toU32_lt _ | omega⟩
      have := signExtend_half V
      simpa using this
    · exact ⟨by simp, by simp; omega⟩
  | Word =>
    have hV : m.readLoop A 4 < 2 ^ 32 := hlt
    have hrd1 : readDataLoop b.data (A % bs) 4 = m.readLoop A 4 := hrd
    simp only [CacheBlock.readData, Memory.read, MemSize.toNat, hrd1]
    generalize m.readLoop A 4 = V at hV
    norm_num at hV
    cases u
    · exact ⟨by simp, by simp; omega⟩
    · exact ⟨by simp, by simp; omega⟩

/-! ## Cache: write-back and block load -/

theorem write_byte (mem : Memory) (addr : Nat) (byte : Fin 256) (h : addr < 4294967296) :
    mem.write addr .Byte byte.val = mem.setByte addr byte := by
  simp only [Memory.write, MemSize.toNat, Memory.writeLoop, Nat.add_zero, Nat.mod_eq_of_lt h,
    byteOfNat_and]

theorem writeBackLoop_outside (base : Nat) (data : List (Fin 256)) (i : Nat) (mem : Memory)
    (a : Nat) (h : base + i + data.length ≤ 4294967296)
    (ha : ¬(base + i ≤ a ∧ a < base + i + data.length)) :
    (writeBackLoop base data i mem).memory a = mem.memory a := by
  induction data generalizing i mem with
  | nil => rfl
  | cons byte rest ih =>
    simp only [List.length_cons] at h ha
    have hlt : base + i < 4294967296 := by omega
    simp only [writeBackLoop, Nat.mod_eq_of_lt hlt, write_byte _ _ _ hlt]
    rw [ih (i + 1) _ (by omega) (by omega)]
    simp only [Memory.setByte]
    rw [if_neg (by omega)]

theorem writeBackLoop_inside (base : Nat) (data : List (Fin 256)) (i : Nat) (mem : Memory)
    (j : Nat) (x : Fin 256) (h : base + i + data.length ≤ 4294967296)
    (hj : data.get? j = some x) :
    (writeBackLoop base data i mem).memory (base + i + j) = x := by
  induction data generalizing i mem j with
  | nil => simp at hj
  | cons byte rest ih =>
    simp only [List.length_cons] at h
    have hlt : base + i < 4294967296 := by omega
    simp only [writeBackLoop, Nat.mod_eq_of_lt hlt, write_byte _ _ _ hlt]
    cases j with
    | zero =>
      simp only [List.get?_cons_zero, Option.some.injEq] at hj
      show (writeBackLoop base rest (i + 1) (mem.setByte (base + i) byte)).memory (base + i) = x
      rw [writeBackLoop_outside base rest (i + 1) _ (base + i) (by omega) (by omega)]
      simp [Memory.setByte, hj]
    | succ j2 =>
      simp only [List.get?_cons_succ] at hj
      have := ih (i + 1) (mem.setByte (base + i) byte) j2 (by omega) hj
      have e : base + i + (j2 + 1) = base + (i + 1) + j2 := by omega
      rw [e]; exact this

theorem read_byte (mem : Memory) (addr : Nat) (h : addr < 4294967296) :
    byteOfNat (toU8 (mem.read addr .Byte false)) = mem.memory addr := by
  have hV : mem.readLoop addr 1 = (mem.memory addr).val := by
    simp only [Memory.readLoop, Nat.add_zero, Nat.mod_eq_of_lt h, Memory.getByte, toU8_toI8,
      Nat.mul_zero, Nat.shiftLeft_zero, Nat.zero_or]
    have := (mem.memory addr).isLt
    exact Nat.mod_eq_of_lt (by omega)
  simp [Memory.read, MemSize.toNat, hV, toU8_toI8, byteOfNat_val]

theorem loadBlockData_length (mem : Memory) (base n : Nat) :
    (loadBlockData mem base n).length = n := by
  simp [loadBlockData]

theorem loadBlockData_get (mem : Memory) (base n i : Nat) (hi : i < n) :
    (loadBlockData mem base n).get? i = some (mem.memory ((base + i) % 4294967296)) := by
  simp only [loadBlockData, List.get?_eq_getElem?, List.getElem?_map, List.getElem?_range hi,
    Option.map_some', read_byte mem _ (Nat.mod_lt _ (by norm_num))]

/-! ## Cache: the address of a block -/

theorem getBlockAddress_eq (b : CacheBlock) (cfg : CacheConfig) (ob ib a : Nat)
    (hob : cfg.getOffsetBits = ob) (hib : cfg.getIndexBits = ib) (h : ob + ib ≤ 30)
    (ha : a < 4294967296)
    (hidx : b.index = toU32 ((AddressDecoder.mk ob ib).getIndex a))
    (htag : b.tag = toU64 ((AddressDecoder.mk ob ib).getTag a)) :
    b.getBlockAddress cfg = a / 2 ^ ob * 2 ^ ob := by
  unfold CacheBlock.getBlockAddress
  rw [hob, hib, hidx, htag, getIndex_eq ob ib a h ha, getTag_eq ob ib a h ha, div_pow_add,
    Nat.shiftLeft_eq, Nat.shiftLeft_eq]
  have h64 : (18446744073709551616 : Nat) = 2 ^ 64 := by norm_num
  have h32 : (4294967296 : Nat) = 2 ^ 32 := by norm_num
  have hd1 : (4294967296 : Nat) ∣ 18446744073709551616 := by norm_num
  have hd2 : 2 ^ ib ∣ (18446744073709551616 : Nat) := by
    rw [h64]; exact Nat.pow_dvd_pow 2 (by omega)
  rw [Nat.mod_mod_of_dvd _ hd1]
  generalize hhi : (if a < 2147483648 then 0
    else 18446744073709551616 - 2 ^ (32 - (ib + ob))) = hi
  have hT : ((a / 2 ^ ob / 2 ^ ib + hi) * 2 ^ ib % 18446744073709551616) % 2 ^ ib = 0 := by
    rw [Nat.mod_mod_of_dvd _ hd2, Nat.mul_mod_left]
  rw [or_eq_add ib _ _ hT (Nat.mod_lt _ (by positivity))]
  have hdvd : 4294967296 ∣ hi * 2 ^ ib * 2 ^ ob := by
    rw [← hhi]
    split
    · simp
    · rw [Nat.mul_assoc, ← Nat.pow_add, Nat.sub_mul, ← Nat.pow_add]
      have e : 32 - (ib + ob) + (ib + ob) = 32 := by omega
      rw [e]
      exact Nat.dvd_sub' (Dvd.dvd.mul_right hd1 _) (by norm_num)
  have hle : a / 2 ^ ob * 2 ^ ob ≤ a := Nat.div_mul_le_self a (2 ^ ob)
  apply Nat.mod_eq_of_modEq _ (by omega)
  have h1 : (a / 2 ^ ob / 2 ^ ib + hi) * 2 ^ ib % 18446744073709551616 ≡
      (a / 2 ^ ob / 2 ^ ib + hi) * 2 ^ ib [MOD 4294967296] :=
    (Nat.mod_modEq _ _).of_dvd hd1
  have h2 : ((a / 2 ^ ob / 2 ^ ib + hi) * 2 ^ ib + a / 2 ^ ob % 2 ^ ib) * 2 ^ ob =
      a / 2 ^ ob * 2 ^ ob + hi * 2 ^ ib * 2 ^ ob := by
    have := Nat.div_add_mod (a / 2 ^ ob) (2 ^ ib)
    generalize a / 2 ^ ob / 2 ^ ib = q at *
    generalize a / 2 ^ ob % 2 ^ ib = r at *
    rw [← this]; ring
  have h3 : a / 2 ^ ob * 2 ^ ob + hi * 2 ^ ib * 2 ^ ob ≡ a / 2 ^ ob * 2 ^ ob + 0
      [MOD 4294967296] :=
    Nat.ModEq.add_left _ ((Nat.modEq_zero_iff_dvd).2 hdvd)
  calc ((a / 2 ^ ob / 2 ^ ib + hi) * 2 ^ ib % 18446744073709551616 + a / 2 ^ ob % 2 ^ ib)
        * 2 ^ ob
      ≡ ((a / 2 ^ ob / 2 ^ ib + hi) * 2 ^ ib + a / 2 ^ ob % 2 ^ ib) * 2 ^ ob
        [MOD 4294967296] := (h1.add_right _).mul_right _
    _ = a / 2 ^ ob * 2 ^ ob + hi * 2 ^ ib * 2 ^ ob := h2
    _ ≡ a / 2 ^ ob * 2 ^ ob + 0 [MOD 4294967296] := h3
    _ = a / 2 ^ ob * 2 ^ ob := Nat.add_zero _

/-! ## Cache: the searches in a set -/

theorem findBlockInSet_some (tag : Nat) (set : List CacheBlock) (k : Nat)
    (h : findBlockInSet tag set = some k) :
    ∃ b, set.get? k = some b ∧ b.valid = true ∧ b.tag = tag := by
  induction set generalizing k with
  | nil => simp [findBlockInSet] at h
  | cons block rest ih =>
    simp only [findBlockInSet] at h
    split at h
    · rename_i hc
      simp only [Option.some.injEq] at h
      subst h
      simp only [Bool.and_eq_true, decide_eq_true_eq] at hc
      exact ⟨block, rfl, hc.1, hc.2⟩
    · cases hr : findBlockInSet tag rest with
      | none => rw [hr] at h; simp at h
      | some j =>
        rw [hr] at h
        simp only [Option.map_some', Option.some.injEq] at h
        subst h
        exact ih j hr

theorem findBlockInSet_none (tag : Nat) (set : List CacheBlock)
    (h : findBlockInSet tag set = none) (k : Nat) (b : CacheBlock)
    (hk : set.get? k = some b) (hv : b.valid = true) : b.tag ≠ tag := by
  induction set generalizing k with
  | nil => simp at hk
  | cons block rest ih =>
    simp only [findBlockInSet] at h
    split at h
    · simp at h
    · rename_i hc
      simp only [Bool.and_eq_true, decide_eq_true_eq, not_and] at hc
      cases k with
      | zero =>
        simp only [List.get?_cons_zero, Option.some.injEq] at hk
        subst hk
        exact hc hv
      | succ j =>
        simp only [List.get?_cons_succ] at hk
        cases hr : findBlockInSet tag rest with
        | none => exact ih hr j hk
        | some j2 => rw [hr] at h; simp at h

theorem findInvalidBlock_some (set : List CacheBlock) (v : Nat)
    (h : findInvalidBlock set = some v) : ∃ b, set.get? v = some b ∧ b.valid = false := by
  induction set generalizing v with
  | nil => simp [findInvalidBlock] at h
  | cons block rest ih =>
    simp only [findInvalidBlock] at h
    split at h
    · rename_i hc
      simp only [Option.some.injEq] at h
      subst h
      simp only [Bool.not_eq_true', ] at hc
      exact ⟨block, rfl, hc⟩
    · cases hr : findInvalidBlock rest with
      | none => rw [hr] at h; simp at h
      | some j =>
        rw [hr] at h
        simp only [Option.map_some', Option.some.injEq] at h
        subst h
        exact ih j hr

theorem findInvalidBlock_none (set : List CacheBlock) (h : findInvalidBlock set = none)
    (b : CacheBlock) (hb : b ∈ set) : b.valid = true := by
  induction set with
  | nil => simp at hb
  | cons block rest ih =>
    simp only [findInvalidBlock] at h
    split at h
    · simp at h
    · rename_i hc
      simp only [Bool.not_eq_true', Bool.not_eq_false] at hc
      cases hr : findInvalidBlock rest with
      | none =>
        rcases List.mem_cons.1 hb with rfl | hmem
        · exact hc
        · exact ih hr hmem
      | some j => rw [hr] at h; simp at h

theorem selectOldestLoop_some (key : CacheBlock → Nat) (set : List CacheBlock)
    (i oldest : Nat) (victim : Option Nat)
    (h : (∃ b, b ∈ set ∧ key b < oldest) ∨ (∃ j, victim = some j ∧ j < i)) :
    ∃ j, selectOldestLoop key set i oldest victim = some j ∧ j < i + set.length := by
  induction set generalizing i oldest victim with
  | nil =>
    rcases h with ⟨b, hb, _⟩ | ⟨j, hj, hlt⟩
    · simp at hb
    · exact ⟨j, by simp [selectOldestLoop, hj], by simpa using hlt⟩
  | cons block rest ih =>
    simp only [selectOldestLoop, List.length_cons]
    by_cases hc : key block < oldest
    · rw [if_pos hc]
      obtain ⟨j, hj, hlt⟩ := ih (i + 1) (key block) (some i) (Or.inr ⟨i, rfl, by omega⟩)
      exact ⟨j, hj, by omega⟩
    · rw [if_neg hc]
      have h2 : (∃ b, b ∈ rest ∧ key b < oldest) ∨ (∃ j, victim = some j ∧ j < i + 1) := by
        rcases h with ⟨b, hb, hlt⟩ | ⟨j, hj, hlt⟩
        · rcases List.mem_cons.1 hb with rfl | hmem
          · exact absurd hlt hc
          · exact Or.inl ⟨b, hmem, hlt⟩
        · exact Or.inr ⟨j, hj, by omega⟩
      obtain ⟨j, hj, hlt⟩ := ih (i + 1) oldest victim h2
      exact ⟨j, hj, by omega⟩

/-- With a non-empty set of blocks whose time stamps are below `UINT64_MAX`, every policy
names a victim inside the set. -/
theorem selectBlockToEvict_ok (config : CacheConfig) (set : List CacheBlock) (rand : Nat)
    (hne : set ≠ [])
    (hkeys : ∀ b, b ∈ set → b.lastUsed < 18446744073709551615 ∧
      b.insertionTime < 18446744073709551615) :
    ∃ v, selectBlockToEvict config set rand = .ok (some v) ∧ v < set.length := by
  obtain ⟨b0, hb0⟩ := List.exists_mem_of_ne_nil set hne
  unfold selectBlockToEvict
  cases config.replacementPolicy with
  | LRU =>
    obtain ⟨j, hj, hlt⟩ := selectOldestLoop_some (fun b => b.lastUsed) set 0
      18446744073709551615 none (Or.inl ⟨b0, hb0, (hkeys b0 hb0).1⟩)
    exact ⟨j, by simp only [hj], by omega⟩
  | FIFO =>
    obtain ⟨j, hj, hlt⟩ := selectOldestLoop_some (fun b => b.insertionTime) set 0
      18446744073709551615 none (Or.inl ⟨b0, hb0, (hkeys b0 hb0).2⟩)
    exact ⟨j, by simp only [hj], by omega⟩
  | RANDOM =>
    have hpos : 0 < set.length := List.length_pos.2 hne
    exact ⟨rand % set.length, by simp only [if_neg (Nat.ne_of_gt hpos)], Nat.mod_lt _ hpos⟩

/-! ## Cache: replacing one block of one set -/

theorem blockAt_set (sets : List (List CacheBlock)) (s k : Nat) (set : List CacheBlock)
    (b2 : CacheBlock) (hs : sets.get? s = some set) (hk : k < set.length) (s2 k2 : Nat) :
    blockAt (sets.set s (set.set k b2)) s2 k2 =
      if s2 = s ∧ k2 = k then some b2 else blockAt sets s2 k2 := by
  have hslt : s < sets.length := by
    rw [List.get?_eq_getElem?] at hs
    exact (List.getElem?_eq_some.1 hs).1
  simp only [blockAt, List.get?_eq_getElem?, List.getElem?_set] at hs ⊢
  by_cases h1 : s = s2
  · subst h1
    simp only [if_true, if_pos hslt, Option.some_bind, List.getElem?_set, true_and, hs]
    by_cases h2 : k = k2
    · subst h2; simp [hk]
    · rw [if_neg h2, if_neg (fun h => h2 h.symm)]
  · rw [if_neg h1, if_neg (fun h => h1 h.1.symm)]

theorem get?_set_sets (sets : List (List CacheBlock)) (s : Nat) (set set2 : List CacheBlock)
    (hs : sets.get? s = some set) : (sets.set s set2).get? s = some set2 := by
  have hslt : s < sets.length := by
    rw [List.get?_eq_getElem?] at hs
    exact (List.getElem?_eq_some.1 hs).1
  simp [List.get?_eq_getElem?, List.getElem?_set, hslt]

/-- Replacing one block keeps every set non-empty. -/
theorem sets_set_ne_nil (sets : List (List CacheBlock)) (s k : Nat) (set : List CacheBlock)
    (b2 : CacheBlock) (hs : sets.get? s = some set)
    (hne : ∀ s2 set2, sets.get? s2 = some set2 → set2 ≠ []) (s2 : Nat)
    (set2 : List CacheBlock) (h : (sets.set s (set.set k b2)).get? s2 = some set2) :
    set2 ≠ [] := by
  simp only [List.get?_eq_getElem?, List.getElem?_set] at h hs
  by_cases h1 : s = s2
  · subst h1
    rw [if_pos rfl] at h
    split at h
    · simp only [Option.some.injEq] at h
      subst h
      have := hne s set (by simpa [List.get?_eq_getElem?] using hs)
      intro hnil
      apply this
      have hl := congrArg List.length hnil
      simp only [List.length_set, List.length_nil] at hl
      exact List.length_eq_zero.1 hl
    · simp at h
  · rw [if_neg h1] at h
    exact hne s2 set2 (by simpa [List.get?_eq_getElem?] using h)

/-! ## Cache: addresses inside one block -/

theorem block_end_le (ob A : Nat) (hob : ob ≤ 32) (hA : A < 4294967296) :
    A / 2 ^ ob * 2 ^ ob + 2 ^ ob ≤ 4294967296 := by
  have h32 : (4294967296 : Nat) = 2 ^ (32 - ob) * 2 ^ ob := by
    rw [← two_pow_split 32 ob hob]; norm_num
  have hq : A / 2 ^ ob < 2 ^ (32 - ob) := by
    rw [Nat.div_lt_iff_lt_mul (by positivity)]; omega
  calc A / 2 ^ ob * 2 ^ ob + 2 ^ ob = (A / 2 ^ ob + 1) * 2 ^ ob := by ring
    _ ≤ 2 ^ (32 - ob) * 2 ^ ob := Nat.mul_le_mul_right _ hq
    _ = 4294967296 := h32.symm

theorem access_end_le (ob A n : Nat) (hob : ob ≤ 32) (hA : A < 4294967296)
    (hin : A % 2 ^ ob + n ≤ 2 ^ ob) : A + n ≤ 4294967296 := by
  have h1 := block_end_le ob A hob hA
  have h2 := Nat.div_add_mod A (2 ^ ob)
  rw [Nat.mul_comm] at h2
  generalize A / 2 ^ ob * 2 ^ ob = Q at *
  generalize A % 2 ^ ob = r at *
  generalize 2 ^ ob = P at *
  omega

/-- In the block of `A`, the bytes an access at `A` touches are those at the matching
offsets. -/
theorem range_in_block (P A a n : Nat) (hsame : a / P = A / P) :
    ((A ≤ a ∧ a < A + n) ↔ (A % P ≤ a % P ∧ a % P < A % P + n)) ∧
      a - A = a % P - A % P := by
  have h1 := Nat.div_add_mod A P
  have h2 := Nat.div_add_mod a P
  rw [hsame] at h2
  generalize P * (A / P) = Q at *
  generalize A % P = r at *
  generalize a % P = r2 at *
  omega

/-- An access that stays inside its block touches no byte of another block. -/
theorem range_other_block (P A a n : Nat) (hP : 0 < P) (hne : a / P ≠ A / P)
    (hin : A % P + n ≤ P) : ¬(A ≤ a ∧ a < A + n) := by
  rintro ⟨h1, h2⟩
  apply hne
  have hA := Nat.div_add_mod A P
  have e : a = P * (A / P) + (A % P + (a - A)) := by omega
  have hlt : A % P + (a - A) < P := by omega
  have h3 : (P * (A / P) + (A % P + (a - A))) / P = A / P := by
    rw [Nat.mul_add_div hP, Nat.div_eq_of_lt hlt, Nat.add_zero]
  rw [← e] at h3
  exact h3

theorem block_offset (P A a : Nat) (hsame : a / P = A / P) :
    A / P * P + a % P = a := by
  have h2 := Nat.div_add_mod a P
  rw [hsame, Nat.mul_comm] at h2
  exact h2

/-! ## Cache: the invariant under the steps of an access -/

theorem indexOf_lt (ob ib a : Nat) (h : ob + ib ≤ 30) (ha : a < 4294967296) :
    indexOf ob ib a < 2 ^ ib := by
  unfold indexOf
  rw [getIndex_eq ob ib a h ha]
  exact Nat.mod_lt _ (by positivity)

theorem same_block (ob ib a b : Nat) (h : ob + ib ≤ 30) (ha : a < 4294967296)
    (hb : b < 4294967296) :
    (indexOf ob ib a = indexOf ob ib b ∧ tagOf ob ib a = tagOf ob ib b) ↔
      a / 2 ^ ob = b / 2 ^ ob :=
  same_block_iff ob ib a b h ha hb

theorem upd_cases {B B2 : Nat → Nat → Option CacheBlock} {s k : Nat} {b2 : CacheBlock}
    (hB2 : ∀ s2 k2, B2 s2 k2 = if s2 = s ∧ k2 = k then some b2 else B s2 k2)
    (s2 k2 : Nat) (x : CacheBlock) (h : B2 s2 k2 = some x) :
    (s2 = s ∧ k2 = k ∧ x = b2) ∨ (¬(s2 = s ∧ k2 = k) ∧ B s2 k2 = some x) := by
  rw [hB2] at h
  by_cases hc : s2 = s ∧ k2 = k
  · rw [if_pos hc] at h
    exact Or.inl ⟨hc.1, hc.2, (Option.some.inj h).symm⟩
  · rw [if_neg hc] at h
    exact Or.inr ⟨hc, h⟩

/-- Memory may be brought up to date with the reference memory at any address. -/
theorem CacheInv.heal {ob ib : Nat} {wp : WritePolicy} {n : Nat}
    {B : Nat → Nat → Option CacheBlock} {mem m : Memory}
    (inv : CacheInv ob ib wp n B mem m) (mem2 : Memory)
    (h : ∀ a, a < 4294967296 → mem2.memory a = mem.memory a ∨ mem2.memory a = m.memory a) :
    CacheInv ob ib wp n B mem2 m where
  wf := inv.wf
  uniq := inv.uniq
  hit := fun a k b ha hB hv ht => ⟨(inv.hit a k b ha hB hv ht).1, fun hd => by
    rcases h a ha with e | e
    · rw [e]; exact (inv.hit a k b ha hB hv ht).2 hd
    · exact e⟩
  miss := fun a ha hno => by
    rcases h a ha with e | e
    · rw [e]; exact inv.miss a ha hno
    · exact e

/-- A hit that only stamps the block with the access counter. -/
theorem CacheInv.touch {ob ib : Nat} {wp : WritePolicy} {n : Nat}
    {B : Nat → Nat → Option CacheBlock} {mem m : Memory}
    (inv : CacheInv ob ib wp n B mem m) (n2 : Nat) (hn : n ≤ n2)
    (s k : Nat) (b b2 : CacheBlock) (B2 : Nat → Nat → Option CacheBlock)
    (hB : B s k = some b)
    (hB2 : ∀ s2 k2, B2 s2 k2 = if s2 = s ∧ k2 = k then some b2 else B s2 k2)
    (hv : b2.valid = b.valid) (ht : b2.tag = b.tag) (hi : b2.index = b.index)
    (hd : b2.data = b.data) (hdirty : b2.dirty = b.dirty)
    (hl : b2.lastUsed ≤ n2) (hins : b2.insertionTime ≤ n2) :
    CacheInv ob ib wp n2 B2 mem m := by
  constructor
  · intro s2 k2 x hx hvx
    rcases upd_cases hB2 s2 k2 x hx with ⟨rfl, rfl, rfl⟩ | ⟨_, hx2⟩
    · have h := inv.wf _ _ b hB (hv ▸ hvx)
      rw [hi, hd, ht]
      exact ⟨h.1, h.2.1, hl, hins, h.2.2.2.2⟩
    · have h := inv.wf _ _ x hx2 hvx
      exact ⟨h.1, h.2.1, le_trans h.2.2.1 hn, le_trans h.2.2.2.1 hn, h.2.2.2.2⟩
  · intro s2 k1 k2 x y hx hy hvx hvy hxy
    rcases upd_cases hB2 s2 k1 x hx with ⟨rfl, rfl, rfl⟩ | ⟨_, hx2⟩
    · rcases upd_cases hB2 _ k2 y hy with ⟨_, rfl, _⟩ | ⟨_, hy2⟩
      · rfl
      · exact inv.uniq _ _ _ b y hB hy2 (hv ▸ hvx) hvy (ht ▸ hxy)
    · rcases upd_cases hB2 s2 k2 y hy with ⟨rfl, rfl, rfl⟩ | ⟨_, hy2⟩
      · exact inv.uniq _ _ _ x b hx2 hB hvx (hv ▸ hvy) (ht ▸ hxy)
      · exact inv.uniq _ _ _ x y hx2 hy2 hvx hvy hxy
  · intro a k2 x ha hx hvx htx
    rcases upd_cases hB2 _ k2 x hx with ⟨rfl, rfl, rfl⟩ | ⟨_, hx2⟩
    · have h := inv.hit a _ b ha hB (hv ▸ hvx) (ht ▸ htx)
      rw [hd, hdirty]
      exact h
    · exact inv.hit a k2 x ha hx2 hvx htx
  · intro a ha hno
    apply inv.miss a ha
    intro k2 y hy hvy
    by_cases hc : indexOf ob ib a = s ∧ k2 = k
    · obtain ⟨rfl, rfl⟩ := hc
      rw [hB] at hy
      obtain rfl := Option.some.inj hy
      have := hno k2 b2 (by rw [hB2, if_pos ⟨rfl, rfl⟩]) (hv.trans hvy)
      rw [ht] at this
      exact this
    · exact hno k2 y (by rw [hB2, if_neg hc]; exact hy) hvy


/-- A write into a block that holds the address, with the memory written through or the
block marked dirty. -/
theorem CacheInv.write_block {ob ib : Nat} {wp : WritePolicy} {n : Nat}
    {B : Nat → Nat → Option CacheBlock} {mem m : Memory}
    (inv : CacheInv ob ib wp n B mem m) (hbits : ob + ib ≤ 30) (n2 : Nat) (hn : n ≤ n2)
    (s k : Nat) (b b2 : CacheBlock) (B2 : Nat → Nat → Option CacheBlock) (mem2 : Memory)
    (A : Nat) (size : MemSize) (v : Nat)
    (hA : A < 4294967296) (hin : A % 2 ^ ob + size.toNat ≤ 2 ^ ob)
    (hB : B s k = some b) (hvalid : b.valid = true) (hs : indexOf ob ib A = s)
    (htag : b.tag = tagOf ob ib A)
    (hB2 : ∀ s2 k2, B2 s2 k2 = if s2 = s ∧ k2 = k then some b2 else B s2 k2)
    (hv2 : b2.valid = true) (ht2 : b2.tag = b.tag) (hi2 : b2.index = b.index)
    (hd2 : b2.data = writeDataLoop b.data (A % 2 ^ ob) v size.toNat)
    (hl2 : b2.lastUsed ≤ n2) (hins2 : b2.insertionTime ≤ n2)
    (hmem : (mem2 = mem ∧ b2.dirty = true ∧ wp = .WB) ∨
      (mem2 = mem.write A size v ∧ wp = .WT)) :
    CacheInv ob ib wp n2 B2 mem2 (m.write A size v) := by
  have hend : A + size.toNat ≤ 4294967296 := access_end_le ob A _ (by omega) hA hin
  have hP : 0 < 2 ^ ob := by positivity
  have hwf := inv.wf s k b hB hvalid
  have hm2 : ∀ a, (m.write A size v).memory a =
      if A ≤ a ∧ a < A + size.toNat then byteOfNat ((v >>> (8 * (a - A))) &&& 0xFF)
      else m.memory a := fun a => writeLoop_memory m A v _ a hend
  have hmemw : ∀ a, (mem.write A size v).memory a =
      if A ≤ a ∧ a < A + size.toNat then byteOfNat ((v >>> (8 * (a - A))) &&& 0xFF)
      else mem.memory a := fun a => writeLoop_memory mem A v _ a hend
  have hother : ∀ a, a / 2 ^ ob ≠ A / 2 ^ ob →
      (m.write A size v).memory a = m.memory a ∧ mem2.memory a = mem.memory a := by
    intro a hne
    have hr := range_other_block (2 ^ ob) A a size.toNat hP hne hin
    refine ⟨by rw [hm2, if_neg hr], ?_⟩
    rcases hmem with ⟨rfl, _, _⟩ | ⟨rfl, _⟩
    · rfl
    · rw [hmemw, if_neg hr]
  have hsame : ∀ a, a < 4294967296 →
      ((indexOf ob ib a = s ∧ tagOf ob ib a = b.tag) ↔ a / 2 ^ ob = A / 2 ^ ob) := by
    intro a ha
    rw [← hs, htag]
    exact same_block ob ib a A hbits ha hA
  constructor
  · intro s2 k2 x hx hvx
    rcases upd_cases hB2 s2 k2 x hx with ⟨rfl, rfl, rfl⟩ | ⟨_, hx2⟩
    · rw [hi2, hd2, ht2, writeDataLoop_length]
      exact ⟨hwf.1, hwf.2.1, hl2, hins2, hwf.2.2.2.2⟩
    · have h := inv.wf _ _ x hx2 hvx
      exact ⟨h.1, h.2.1, le_trans h.2.2.1 hn, le_trans h.2.2.2.1 hn, h.2.2.2.2⟩
  · intro s2 k1 k2 x y hx hy hvx hvy hxy
    rcases upd_cases hB2 s2 k1 x hx with ⟨rfl, rfl, rfl⟩ | ⟨_, hx2⟩
    · rcases upd_cases hB2 _ k2 y hy with ⟨_, rfl, _⟩ | ⟨_, hy2⟩
      · rfl
      · exact inv.uniq _ _ _ b y hB hy2 hvalid hvy (ht2 ▸ hxy)
    · rcases upd_cases hB2 s2 k2 y hy with ⟨rfl, rfl, rfl⟩ | ⟨_, hy2⟩
      · exact inv.uniq _ _ _ x b hx2 hB hvx hvalid (ht2 ▸ hxy)
      · exact inv.uniq _ _ _ x y hx2 hy2 hvx hvy hxy
  · intro a k2 x ha hx hvx htx
    rcases upd_cases hB2 _ k2 x hx with ⟨hsa, rfl, rfl⟩ | ⟨hne, hx2⟩
    · have hblk : a / 2 ^ ob = A / 2 ^ ob := (hsame a ha).1 ⟨hsa, by rw [← htx, ht2]⟩
      have hold := inv.hit a k2 b ha (by rw [hsa]; exact hB) hvalid (by rw [← ht2]; exact htx)
      obtain ⟨hiff, hsub⟩ := range_in_block (2 ^ ob) A a size.toNat hblk
      rw [hd2, writeDataLoop_get _ _ _ _ _ (by rw [hwf.2.1]; exact hin), hm2]
      constructor
      · by_cases hr : A ≤ a ∧ a < A + size.toNat
        · rw [if_pos hr, if_pos (hiff.1 hr), hsub]
        · rw [if_neg hr, if_neg (fun h => hr (hiff.2 h))]
          exact hold.1
      · intro hd
        rcases hmem with ⟨_, hdirty, hwp⟩ | ⟨rfl, hwp⟩
        · rcases hd with hd | hd
          · rw [hdirty] at hd; exact absurd hd (by simp)
          · rw [hwp] at hd; exact absurd hd (by simp)
        · rw [hmemw]
          by_cases hr : A ≤ a ∧ a < A + size.toNat
          · rw [if_pos hr, if_pos hr]
          · rw [if_neg hr, if_neg hr]
            exact hold.2 (Or.inr hwp)
    · have hblk : a / 2 ^ ob ≠ A / 2 ^ ob := by
        intro hblk
        obtain ⟨h1, h2⟩ := (hsame a ha).2 hblk
        have := inv.uniq _ _ _ x b hx2 (by rw [h1]; exact hB) hvx hvalid (by rw [htx, h2])
        exact hne ⟨h1, this⟩
      obtain ⟨e1, e2⟩ := hother a hblk
      rw [e1, e2]
      exact inv.hit a k2 x ha hx2 hvx htx
  · intro a ha hno
    by_cases hblk : a / 2 ^ ob = A / 2 ^ ob
    · obtain ⟨h1, h2⟩ := (hsame a ha).2 hblk
      exact absurd (by rw [ht2, h2]) (hno k b2 (by rw [hB2, if_pos ⟨h1, rfl⟩]) hv2)
    · obtain ⟨e1, e2⟩ := hother a hblk
      rw [e1, e2]
      apply inv.miss a ha
      intro k2 y hy hvy
      by_cases hc : indexOf ob ib a = s ∧ k2 = k
      · obtain ⟨h1, rfl⟩ := hc
        rw [h1, hB] at hy
        obtain rfl := Option.some.inj hy
        have := hno k2 b2 (by rw [hB2, if_pos ⟨h1, rfl⟩]) hv2
        rw [ht2] at this
        exact this
      · exact hno k2 y (by rw [hB2, if_neg hc]; exact hy) hvy

/-- A write miss under write-through: only memory is written. -/
theorem CacheInv.write_through {ob ib : Nat} {wp : WritePolicy} {n : Nat}
    {B : Nat → Nat → Option CacheBlock} {mem m : Memory}
    (inv : CacheInv ob ib wp n B mem m) (hbits : ob + ib ≤ 30) (n2 : Nat) (hn : n ≤ n2)
    (A : Nat) (size : MemSize) (v : Nat)
    (hA : A < 4294967296) (hin : A % 2 ^ ob + size.toNat ≤ 2 ^ ob)
    (hmiss : ∀ k b, B (indexOf ob ib A) k = some b → b.valid = true →
      b.tag ≠ tagOf ob ib A) :
    CacheInv ob ib wp n2 B (mem.write A size v) (m.write A size v) := by
  have hend : A + size.toNat ≤ 4294967296 := access_end_le ob A _ (by omega) hA hin
  have hP : 0 < 2 ^ ob := by positivity
  have hm2 : ∀ a, (m.write A size v).memory a =
      if A ≤ a ∧ a < A + size.toNat then byteOfNat ((v >>> (8 * (a - A))) &&& 0xFF)
      else m.memory a := fun a => writeLoop_memory m A v _ a hend
  have hmemw : ∀ a, (mem.write A size v).memory a =
      if A ≤ a ∧ a < A + size.toNat then byteOfNat ((v >>> (8 * (a - A))) &&& 0xFF)
      else mem.memory a := fun a => writeLoop_memory mem A v _ a hend
  constructor
  · intro s2 k2 x hx hvx
    have h := inv.wf _ _ x hx hvx
    exact ⟨h.1, h.2.1, le_trans h.2.2.1 hn, le_trans h.2.2.2.1 hn, h.2.2.2.2⟩
  · exact inv.uniq
  · intro a k2 x ha hx hvx htx
    have hblk : a / 2 ^ ob ≠ A / 2 ^ ob := by
      intro hblk
      obtain ⟨h1, h2⟩ := (same_block ob ib a A hbits ha hA).2 hblk
      exact hmiss k2 x (by rw [← h1]; exact hx) hvx (by rw [htx, h2])
    have hr := range_other_block (2 ^ ob) A a size.toNat hP hblk hin
    rw [hm2, hmemw, if_neg hr, if_neg hr]
    exact inv.hit a k2 x ha hx hvx htx
  · intro a ha hno
    rw [hm2, hmemw]
    by_cases hr : A ≤ a ∧ a < A + size.toNat
    · rw [if_pos hr, if_pos hr]
    · rw [if_neg hr, if_neg hr]
      exact inv.miss a ha hno

/-- A miss that loads the block of `A` into way `v` of its set, after the block that was
there has been made to agree with memory. -/
theorem CacheInv.replace {ob ib : Nat} {wp : WritePolicy} {n : Nat}
    {B : Nat → Nat → Option CacheBlock} {mem m : Memory}
    (inv : CacheInv ob ib wp n B mem m) (hbits : ob + ib ≤ 30) (n2 : Nat) (hn : n ≤ n2)
    (s v : Nat) (bv b2 : CacheBlock) (B2 : Nat → Nat → Option CacheBlock)
    (A : Nat) (hA : A < 4294967296)
    (hB : B s v = some bv) (hs : indexOf ob ib A = s)
    (hmiss : ∀ k b, B s k = some b → b.valid = true → b.tag ≠ tagOf ob ib A)
    (hclean : bv.valid = true → ∀ a, a < 4294967296 → indexOf ob ib a = s →
      tagOf ob ib a = bv.tag → mem.memory a = m.memory a)
    (hB2 : ∀ s2 k2, B2 s2 k2 = if s2 = s ∧ k2 = v then some b2 else B s2 k2)
    (hv2 : b2.valid = true) (ht2 : b2.tag = tagOf ob ib A) (hi2 : b2.index = s)
    (hd2 : b2.data = loadBlockData mem (A / 2 ^ ob * 2 ^ ob) (2 ^ ob))
    (hl2 : b2.lastUsed ≤ n2) (hins2 : b2.insertionTime ≤ n2) :
    CacheInv ob ib wp n2 B2 mem m := by
  have hP : 0 < 2 ^ ob := by positivity
  constructor
  · intro s2 k2 x hx hvx
    rcases upd_cases hB2 s2 k2 x hx with ⟨rfl, rfl, rfl⟩ | ⟨_, hx2⟩
    · rw [hi2, hd2, ht2, loadBlockData_length]
      exact ⟨rfl, rfl, hl2, hins2, A, hA, hs, rfl⟩
    · have h := inv.wf _ _ x hx2 hvx
      exact ⟨h.1, h.2.1, le_trans h.2.2.1 hn, le_trans h.2.2.2.1 hn, h.2.2.2.2⟩
  · intro s2 k1 k2 x y hx hy hvx hvy hxy
    rcases upd_cases hB2 s2 k1 x hx with ⟨rfl, rfl, rfl⟩ | ⟨_, hx2⟩
    · rcases upd_cases hB2 _ k2 y hy with ⟨_, rfl, _⟩ | ⟨_, hy2⟩
      · rfl
      · exact absurd (by rw [← hxy, ht2]) (hmiss k2 y hy2 hvy)
    · rcases upd_cases hB2 s2 k2 y hy with ⟨rfl, rfl, rfl⟩ | ⟨_, hy2⟩
      · exact absurd (by rw [hxy, ht2]) (hmiss k1 x hx2 hvx)
      · exact inv.uniq _ _ _ x y hx2 hy2 hvx hvy hxy
  · intro a k2 x ha hx hvx htx
    rcases upd_cases hB2 _ k2 x hx with ⟨hsa, rfl, rfl⟩ | ⟨_, hx2⟩
    · have hblk : a / 2 ^ ob = A / 2 ^ ob :=
        (same_block ob ib a A hbits ha hA).1 ⟨by rw [hsa, hs], by rw [← htx, ht2]⟩
      have hlt : a % 2 ^ ob < 2 ^ ob := Nat.mod_lt _ hP
      have hmem : mem.memory a = m.memory a := by
        apply inv.miss a ha
        intro k3 y hy hvy
        rw [← htx, ht2]
        exact hmiss k3 y (by rw [← hsa]; exact hy) hvy
      rw [hd2, loadBlockData_get mem _ _ _ hlt, block_offset (2 ^ ob) A a hblk,
        Nat.mod_eq_of_lt ha, hmem]
      exact ⟨rfl, fun _ => rfl⟩
    · exact inv.hit a k2 x ha hx2 hvx htx
  · intro a ha hno
    by_cases hc : bv.valid = true ∧ indexOf ob ib a = s ∧ tagOf ob ib a = bv.tag
    · exact hclean hc.1 a ha hc.2.1 hc.2.2
    · apply inv.miss a ha
      intro k2 y hy hvy
      by_cases hc2 : indexOf ob ib a = s ∧ k2 = v
      · obtain ⟨h1, rfl⟩ := hc2
        rw [h1, hB] at hy
        obtain rfl := Option.some.inj hy
        intro heq
        exact hc ⟨hvy, h1, heq.symm⟩
      · exact hno k2 y (by rw [hB2, if_neg hc2]; exact hy) hvy

/-! ## Cache: reads and write-backs under the invariant -/

theorem in_block_add (P A i : Nat) (hP : 0 < P) (h : A % P + i < P) :
    (A + i) / P = A / P ∧ (A + i) % P = A % P + i := by
  have hA := Nat.div_add_mod A P
  have e : A + i = P * (A / P) + (A % P + i) := by omega
  constructor
  · rw [e, Nat.mul_add_div hP, Nat.div_eq_of_lt h, Nat.add_zero]
  · rw [e, Nat.mul_add_mod, Nat.mod_eq_of_lt h]

theorem CacheInv.mono {ob ib : Nat} {wp : WritePolicy} {n : Nat}
    {B : Nat → Nat → Option CacheBlock} {mem m : Memory}
    (inv : CacheInv ob ib wp n B mem m) (n2 : Nat) (hn : n ≤ n2) :
    CacheInv ob ib wp n2 B mem m where
  wf := fun s k b hB hv => by
    have h := inv.wf s k b hB hv
    exact ⟨h.1, h.2.1, le_trans h.2.2.1 hn, le_trans h.2.2.2.1 hn, h.2.2.2.2⟩
  uniq := inv.uniq
  hit := inv.hit
  miss := inv.miss

/-- A read served from a valid block that holds the address. -/
theorem CacheInv.read_block {ob ib : Nat} {wp : WritePolicy} {n : Nat}
    {B : Nat → Nat → Option CacheBlock} {mem m : Memory}
    (inv : CacheInv ob ib wp n B mem m) (hbits : ob + ib ≤ 30)
    (A : Nat) (size : MemSize) (u : Bool) (hA : A < 4294967296)
    (hsz : size ≠ .DoubleWord) (hin : A % 2 ^ ob + size.toNat ≤ 2 ^ ob)
    (k : Nat) (b b2 : CacheBlock) (hB : B (indexOf ob ib A) k = some b)
    (hv : b.valid = true) (ht : b.tag = tagOf ob ib A) (hd : b2.data = b.data) :
    toI32 (b2.readData A size u (2 ^ ob)) = m.read A size u ∧
      b2.readData A size u (2 ^ ob) < 4294967296 := by
  have hP : 0 < 2 ^ ob := by positivity
  have hend : A + size.toNat ≤ 4294967296 := access_end_le ob A _ (by omega) hA hin
  apply readData_eq b2 m A size u (2 ^ ob) hsz
  intro i hi
  obtain ⟨h1, h2⟩ := in_block_add (2 ^ ob) A i hP (by omega)
  have hAi : A + i < 4294967296 := by omega
  obtain ⟨hs1, hs2⟩ := (same_block ob ib (A + i) A hbits hAi hA).2 h1
  have h := (inv.hit (A + i) k b hAi (by rw [hs1]; exact hB) hv (by rw [ht, hs2])).1
  rw [hd, Nat.mod_eq_of_lt hAi, ← h2]
  exact h

/-- Writing a valid block back brings memory up to date on the block and changes nothing
else. -/
theorem CacheInv.writeBack {ob ib : Nat} {wp : WritePolicy} {n : Nat}
    {B : Nat → Nat → Option CacheBlock} {mem m : Memory}
    (inv : CacheInv ob ib wp n B mem m) (hbits : ob + ib ≤ 30) (cfg : CacheConfig)
    (hob : cfg.getOffsetBits = ob) (hib : cfg.getIndexBits = ib)
    (s v : Nat) (bv : CacheBlock) (hB : B s v = some bv) (hv : bv.valid = true) :
    (∀ a, a < 4294967296 →
      (writeBackLoop (bv.getBlockAddress cfg) bv.data 0 mem).memory a = mem.memory a ∨
      (writeBackLoop (bv.getBlockAddress cfg) bv.data 0 mem).memory a = m.memory a) ∧
    (∀ a, a < 4294967296 → indexOf ob ib a = s → tagOf ob ib a = bv.tag →
      (writeBackLoop (bv.getBlockAddress cfg) bv.data 0 mem).memory a = m.memory a) := by
  have hP : 0 < 2 ^ ob := by positivity
  obtain ⟨hidx, hlen, _, _, a0, ha0, hs0, ht0⟩ := inv.wf s v bv hB hv
  have hbase : bv.getBlockAddress cfg = a0 / 2 ^ ob * 2 ^ ob :=
    getBlockAddress_eq bv cfg ob ib a0 hob hib hbits ha0 (by rw [hidx, ← hs0]; rfl)
      (by rw [← ht0]; rfl)
  rw [hbase]
  have hend := block_end_le ob a0 (by omega) ha0
  have key : ∀ a, a < 4294967296 → a / 2 ^ ob = a0 / 2 ^ ob →
      (writeBackLoop (a0 / 2 ^ ob * 2 ^ ob) bv.data 0 mem).memory a = m.memory a := by
    intro a ha hblk
    obtain ⟨h1, h2⟩ := (same_block ob ib a a0 hbits ha ha0).2 hblk
    have hdata := (inv.hit a v bv ha (by rw [h1, hs0]; exact hB) hv (by rw [h2, ht0])).1
    have := writeBackLoop_inside (a0 / 2 ^ ob * 2 ^ ob) bv.data 0 mem (a % 2 ^ ob)
      (m.memory a) (by rw [hlen]; omega) hdata
    rw [Nat.add_zero, block_offset (2 ^ ob) a0 a hblk] at this
    exact this
  constructor
  · intro a ha
    by_cases hblk : a / 2 ^ ob = a0 / 2 ^ ob
    · exact Or.inr (key a ha hblk)
    · left
      apply writeBackLoop_outside
      · rw [hlen]; omega
      · rw [hlen, Nat.add_zero]
        have hb0 : (a0 / 2 ^ ob * 2 ^ ob) / 2 ^ ob = a0 / 2 ^ ob := Nat.mul_div_cancel _ hP
        have hb1 : (a0 / 2 ^ ob * 2 ^ ob) % 2 ^ ob = 0 := Nat.mul_mod_left _ _
        exact range_other_block (2 ^ ob) (a0 / 2 ^ ob * 2 ^ ob) a (2 ^ ob) hP
          (by rw [hb0]; exact hblk) (by rw [hb1]; omega)
  · intro a ha h1 h2
    exact key a ha ((same_block ob ib a a0 hbits ha ha0).1 ⟨by rw [h1, hs0], by rw [h2, ht0]⟩)

theorem writeData_eq (b : CacheBlock) (A : Nat) (size : MemSize) (v bs : Nat)
    (h : A % bs + size.toNat ≤ b.data.length) :
    b.writeData A size v bs =
      { b with data := writeDataLoop b.data (A % bs) v size.toNat, valid := true } := by
  unfold CacheBlock.writeData
  simp only []
  rw [if_neg (by omega)]

theorem blockAt_eq (sets : List (List CacheBlock)) (s k : Nat) (set : List CacheBlock)
    (hs : sets.get? s = some set) : blockAt sets s k = set.get? k := by
  simp only [blockAt, hs, Option.some_bind]

/-! ## Cache: the log stream -/

theorem logAccess_set (c : Cache) (h : c.logStream = true) : c.logAccess = .ok () := by
  simp only [Cache.logAccess, h, if_true]

theorem logAccess_null (c : Cache) (h : c.logStream = false) :
    c.logAccess = .error .undefinedBehavior := by
  simp only [Cache.logAccess, h, Bool.false_eq_true, if_false]

/-- On a cache with a log stream `Cache::replaceBlock` is its part apart from the log. -/
theorem replaceBlock_logged (c : Cache) (h : c.logStream = true) (set : List CacheBlock)
    (setIndex tag address : Nat) (isWrite : Bool) (rand : Nat) :
    c.replaceBlock set setIndex tag address isWrite rand =
      c.replaceBlockCore set setIndex tag address isWrite rand := by
  unfold Cache.replaceBlock Cache.replaceBlockCore
  simp only [logAccess_set c h, ite_self]

/-- Without a log stream `Cache::replaceBlock` does not return. -/
theorem replaceBlock_null (c : Cache) (h : c.logStream = false) (set : List CacheBlock)
    (setIndex tag address : Nat) (isWrite : Bool) (rand : Nat) :
    c.replaceBlock set setIndex tag address isWrite rand = .error .undefinedBehavior := by
  unfold Cache.replaceBlock
  simp only [logAccess_null c h]
  split
  · rename_i f hf
    split at hf
    · exact absurd hf (by simp)
    · split at hf
      · rename_i g hg
        unfold selectBlockToEvict at hg
        split at hg
        · exact absurd hg (by simp)
        · exact absurd hg (by simp)
        · split at hg
          · injection hg with hg
            injection hf with hf
            rw [← hf, ← hg]
          · exact absurd hg (by simp)
      · injection hf with hf
        rw [← hf]
      · split at hf
        · injection hf with hf
          rw [← hf]
        · split at hf
          · injection hf with hf
            rw [← hf]
          · split at hf
            · injection hf with hf
              rw [← hf]
            · exact absurd hf (by simp)
  · split <;> rfl

/-- The call leaves the log stream as it is. -/
theorem replaceBlockCore_logStream (c : Cache) (set : List CacheBlock)
    (setIndex tag address : Nat) (isWrite : Bool) (rand : Nat) (c2 : Cache) (v : Nat)
    (h : c.replaceBlockCore set setIndex tag address isWrite rand = .ok (c2, v)) :
    c2.logStream = c.logStream := by
  unfold Cache.replaceBlockCore at h
  simp only [] at h
  split at h
  · exact absurd h (by simp)
  · split at h
    · exact absurd h (by simp)
    · simp only [Except.ok.injEq, Prod.mk.injEq] at h
      rw [← h.1]

/-- On a cache with a log stream `Cache::access` is its part apart from the log. -/
theorem access_logged (c : Cache) (h : c.logStream = true) (A : Nat) (size : MemSize)
    (u w : Bool) (value rand : Nat) :
    c.access A size u w value rand = c.accessCore A size u w value rand := by
  unfold Cache.access Cache.accessCore
  simp only [Cache.logAccess, h, if_true]
  split
  · rfl
  · split
    · rfl
    · split
      · rfl
      · rw [replaceBlock_logged _ rfl]
        split
        · rfl
        · rename_i c3 v hrep
          have h3 : c3.logStream = true :=
            replaceBlockCore_logStream _ _ _ _ _ _ _ _ _ hrep
          simp only [h3, if_true]

/-- Without a log stream `Cache::access` does not return. -/
theorem access_null (c : Cache) (h : c.logStream = false) (A : Nat) (size : MemSize)
    (u w : Bool) (value rand : Nat) :
    c.access A size u w value rand = .error .undefinedBehavior := by
  unfold Cache.access
  simp only [Cache.logAccess, h, Bool.false_eq_true, if_false]
  split
  · rfl
  · split
    · split
      · rfl
      · split <;> (try split) <;> rfl
    · split
      · rfl
      · rw [replaceBlock_null _ rfl]

/-- An access that returns was made with a log stream. -/
theorem access_returns_logged (c : Cache) (A : Nat) (size : MemSize) (u w : Bool)
    (value rand : Nat) (p : Nat × Cache) (h : c.access A size u w value rand = .ok p) :
    c.logStream = true := by
  cases hl : c.logStream with
  | true => rfl
  | false => rw [access_null c hl] at h; exact absurd h (by simp)

/-- An access leaves the log stream as it is. -/
theorem accessCore_logStream (c : Cache) (A : Nat) (size : MemSize) (u w : Bool)
    (value rand r : Nat) (c2 : Cache) (h : c.accessCore A size u w value rand = .ok (r, c2)) :
    c2.logStream = c.logStream := by
  unfold Cache.accessCore at h
  simp only [] at h
  split at h
  · exact absurd h (by simp)
  · split at h
    · split at h
      · exact absurd h (by simp)
      · split at h
        · split at h <;>
          · simp only [Except.ok.injEq, Prod.mk.injEq] at h
            rw [← h.2]
        · simp only [Except.ok.injEq, Prod.mk.injEq] at h
          rw [← h.2]
    · split at h
      · simp only [Except.ok.injEq, Prod.mk.injEq] at h
        rw [← h.2]
      · split at h
        · exact absurd h (by simp)
        · rename_i c3 v hrep
          have h3 := replaceBlockCore_logStream _ _ _ _ _ _ _ _ _ hrep
          split at h
          · exact absurd h (by simp)
          · split at h <;>
            · simp only [Except.ok.injEq, Prod.mk.injEq] at h
              rw [← h.2]
              exact h3

theorem access_logStream (c : Cache) (A : Nat) (size : MemSize) (u w : Bool)
    (value rand r : Nat) (c2 : Cache) (h : c.access A size u w value rand = .ok (r, c2)) :
    c.logStream = true ∧ c2.logStream = true := by
  have hl := access_returns_logged c A size u w value rand _ h
  rw [access_logged c hl] at h
  exact ⟨hl, by rw [accessCore_logStream c A size u w value rand r c2 h]; exact hl⟩

/-- A read that returns was made with a log stream, which the cache keeps. -/
theorem read_logStream (c : Cache) (A : Nat) (size : MemSize) (u : Bool) (rand r : Nat)
    (c2 : Cache) (h : c.read A size u rand = .ok (r, c2)) :
    c.logStream = true ∧ c2.logStream = true :=
  access_logStream c A size u false 0 rand r c2 h

/-- A write that returns was made with a log stream, which the cache keeps. -/
theorem write_logStream (c : Cache) (A : Nat) (size : MemSize) (value rand : Nat)
    (c2 : Cache) (h : c.write A size value rand = .ok c2) :
    c.logStream = true ∧ c2.logStream = true := by
  unfold Cache.write at h
  cases ha : c.access A size false true value rand with
  | error f => rw [ha] at h; exact absurd h (by simp)
  | ok p =>
    obtain ⟨r, c3⟩ := p
    rw [ha] at h
    simp only [Except.ok.injEq] at h
    subst h
    exact access_logStream c A size false true value rand r c3 ha

theorem setLogStream_of_logged (c : Cache) (h : c.logStream = true) : c.setLogStream = c := by
  cases c
  simp only [Cache.setLogStream] at h ⊢
  simp only [h]

theorem enable_setLogStream (prior : Cache) (config : CacheConfig) (mem : Memory) (c : Cache)
    (h : prior.enable config mem = .ok c) :
    prior.setLogStream.enable config mem = .ok c.setLogStream := by
  unfold Cache.enable at h ⊢
  simp only [] at h ⊢
  split at h
  · exact absurd h (by simp)
  · rename_i hne
    rw [if_neg hne]
    injection h with h
    subst h
    rfl

/-- Setting the log stream in a state reached from `Cache::enable` gives a state reached
from `Cache::enable`: the one reached by the same calls when the stream is set first. -/
theorem reachable_setLogStream (c : Cache) (h : c.Reachable) : c.setLogStream.Reachable := by
  induction h with
  | enable prior config mem c he =>
    exact .enable prior.setLogStream config mem _ (enable_setLogStream prior config mem c he)
  | read c address size isUnsigned rand value next hc hr _ =>
    rw [setLogStream_of_logged next
      (read_logStream c address size isUnsigned rand value next hr).2]
    exact .read c address size isUnsigned rand value next hc hr
  | write c address size value rand next hc hw _ =>
    rw [setLogStream_of_logged next (write_logStream c address size value rand next hw).2]
    exact .write c address size value rand next hc hw
  | invalidate c _ ih => exact .invalidate _ ih
  | memory c mem _ ih => exact .memory _ mem ih

/-! ## Cache: one access -/

theorem get?_lt {α : Type} (l : List α) (k : Nat) (x : α) (h : l.get? k = some x) :
    k < l.length := by
  rw [List.get?_eq_getElem?] at h
  exact (List.getElem?_eq_some.1 h).1

/-- `Cache::replaceBlock` on a miss, apart from the log: it returns, and the block it returns
is valid, holds the tag asked for, and the cache still stands for the same reference
memory. -/
theorem replaceBlock_ok (cfg : CacheConfig) (ob ib : Nat) (hbs : cfg.blockSize = 2 ^ ob)
    (hob : cfg.getOffsetBits = ob) (hib : cfg.getIndexBits = ib) (hbits : ob + ib ≤ 30)
    (c : Cache) (m : Memory) (rel : CacheRel cfg ob ib c m)
    (hacc : c.accesses < 18446744073709551615)
    (A : Nat) (hA : A < 4294967296) (set : List CacheBlock)
    (hset : c.sets.get? (indexOf ob ib A) = some set)
    (hmiss : findBlockInSet (tagOf ob ib A) set = none) (isWrite : Bool) (rand : Nat) :
    ∃ c2 v set2 b2,
      c.replaceBlockCore set (indexOf ob ib A) (tagOf ob ib A) A isWrite rand = .ok (c2, v) ∧
      CacheRel cfg ob ib c2 m ∧ c2.accesses = c.accesses ∧
      c2.sets.get? (indexOf ob ib A) = some set2 ∧ set2.get? v = some b2 ∧
      b2.valid = true ∧ b2.tag = tagOf ob ib A := by
  obtain ⟨hcfg, hdec, hlen, hways, inv⟩ := rel
  have hne := hways _ _ hset
  have hBset : ∀ k, blockAt c.sets (indexOf ob ib A) k = set.get? k :=
    fun k => blockAt_eq _ _ _ _ hset
  have hmiss2 : ∀ k b, blockAt c.sets (indexOf ob ib A) k = some b → b.valid = true →
      b.tag ≠ tagOf ob ib A := by
    intro k b hb hv
    rw [hBset] at hb
    exact findBlockInSet_none _ _ hmiss k b hb hv
  have finish : ∀ (v : Nat) (bv : CacheBlock) (mem2 : Memory), set.get? v = some bv →
      CacheInv ob ib cfg.writePolicy c.accesses (blockAt c.sets) mem2 m →
      (bv.valid = true → ∀ a, a < 4294967296 → indexOf ob ib a = indexOf ob ib A →
        tagOf ob ib a = bv.tag → mem2.memory a = m.memory a) →
      ∀ nb : CacheBlock, nb = { bv with
          valid := true
          tag := tagOf ob ib A
          index := indexOf ob ib A
          dirty := isWrite && decide (c.config.writePolicy = .WB)
          lastUsed := c.accesses
          insertionTime := c.accesses
          data := loadBlockData mem2 (A &&& toU32 (~~~((c.config.blockSize : Int) - 1)))
            c.config.blockSize } →
      ∀ c2 : Cache, c2 = { c with
          memory := mem2
          sets := c.sets.set (indexOf ob ib A) (set.set v nb) } →
      ∃ set2 b2, CacheRel cfg ob ib c2 m ∧ c2.accesses = c.accesses ∧
        c2.sets.get? (indexOf ob ib A) = some set2 ∧ set2.get? v = some b2 ∧
        b2.valid = true ∧ b2.tag = tagOf ob ib A := by
    intro v bv mem2 hget inv2 hclean nb hnb c2 hc2
    have hvlt := get?_lt _ _ _ hget
    subst hc2
    refine ⟨set.set v nb, nb, ⟨hcfg, hdec, ?_, ?_, ?_⟩, rfl, get?_set_sets _ _ _ _ hset, ?_,
      by rw [hnb], by rw [hnb]⟩
    · simp only [List.length_set]; exact hlen
    · exact sets_set_ne_nil _ _ _ _ _ hset hways
    · refine CacheInv.replace inv2 hbits c.accesses (le_refl _) (indexOf ob ib A) v bv _ _ A hA
        (by rw [hBset]; exact hget) rfl hmiss2 hclean
        (fun s2 k2 => blockAt_set _ _ _ _ _ hset hvlt s2 k2) (by rw [hnb]) (by rw [hnb])
        (by rw [hnb]) ?_ (by rw [hnb]) (by rw [hnb])
      rw [hnb]
      show loadBlockData mem2 (A &&& toU32 (~~~((c.config.blockSize : Int) - 1)))
        c.config.blockSize = _
      rw [hcfg, hbs, blockAddr_eq ob A (by omega) hA]
    · rw [List.get?_eq_getElem?]; exact List.getElem?_set_self hvlt
  cases hfi : findInvalidBlock set with
  | some v =>
    obtain ⟨bv, hget, hinvalid⟩ := findInvalidBlock_some set v hfi
    obtain ⟨set2, b2, h⟩ := finish v bv c.memory hget inv
      (fun hv => by rw [hinvalid] at hv; exact absurd hv (by simp)) _ rfl _ rfl
    refine ⟨_, v, set2, b2, ?_, h⟩
    simp only [Cache.replaceBlockCore, hfi, hget]
  | none =>
    have hkeys : ∀ b, b ∈ set → b.lastUsed < 18446744073709551615 ∧
        b.insertionTime < 18446744073709551615 := by
      intro b hb
      obtain ⟨k, hk⟩ := List.mem_iff_get?.1 hb
      have hv := findInvalidBlock_none set hfi b hb
      have h := inv.wf _ k b (by rw [hBset]; exact hk) hv
      exact ⟨by omega, by omega⟩
    obtain ⟨v, hsel, hvlt⟩ := selectBlockToEvict_ok c.config set rand hne hkeys
    obtain ⟨bv, hget⟩ : ∃ bv, set.get? v = some bv := by
      rw [List.get?_eq_getElem?]
      exact ⟨set[v], List.getElem?_eq_some.2 ⟨hvlt, rfl⟩⟩
    have hvalid : bv.valid = true :=
      findInvalidBlock_none set hfi bv (List.mem_iff_get?.2 ⟨v, hget⟩)
    by_cases hd : (bv.dirty && decide (c.config.writePolicy = .WB)) = true
    · obtain ⟨hw1, hw2⟩ := CacheInv.writeBack inv hbits c.config (by rw [hcfg]; exact hob)
        (by rw [hcfg]; exact hib) _ v bv (by rw [hBset]; exact hget) hvalid
      obtain ⟨set2, b2, h⟩ := finish v bv
        (writeBackLoop (bv.getBlockAddress c.config) bv.data 0 c.memory) hget
        (inv.heal _ hw1) (fun _ a ha h1 h2 => hw2 a ha h1 h2) _ rfl _ rfl
      refine ⟨_, v, set2, b2, ?_, h⟩
      simp only [Cache.replaceBlockCore, hfi, hsel, hget, hd, if_true, Cache.writeBlockToMemory,
        CacheBlock.writeBackToMemory, hvalid, Bool.not_true, Bool.false_eq_true, if_false]
    · have hclean : bv.valid = true → ∀ a, a < 4294967296 →
          indexOf ob ib a = indexOf ob ib A → tagOf ob ib a = bv.tag →
          c.memory.memory a = m.memory a := by
        intro _ a ha h1 h2
        refine (inv.hit a v bv ha (by rw [h1, hBset]; exact hget) hvalid h2.symm).2 ?_
        simp only [Bool.and_eq_true, decide_eq_true_eq, not_and, Bool.not_eq_true] at hd
        rw [← hcfg]
        cases hdirty : bv.dirty with
        | false => exact Or.inl rfl
        | true =>
          right
          have := hd hdirty
          cases hwp : c.config.writePolicy with
          | WB => exact absurd hwp this
          | WT => rfl
      obtain ⟨set2, b2, h⟩ := finish v bv c.memory hget inv hclean _ rfl _ rfl
      refine ⟨_, v, set2, b2, ?_, h⟩
      simp only [Cache.replaceBlockCore, hfi, hsel, hget, hd, Bool.false_eq_true, if_false]


theorem getD_sets (sets : List (List CacheBlock)) (s : Nat) (set : List CacheBlock)
    (hs : sets.get? s = some set) : sets.getD s [] = set := by
  rw [List.get?_eq_getElem?] at hs
  simp [List.getD_eq_getElem?_getD, hs]

/-- One access through a cache with a log stream returns, keeps the cache in step with the
reference memory, and a read gives the value of `Memory::read` on the reference memory. -/
theorem access_ok (cfg : CacheConfig) (ob ib : Nat) (hbs : cfg.blockSize = 2 ^ ob)
    (hob : cfg.getOffsetBits = ob) (hib : cfg.getIndexBits = ib) (hbits : ob + ib ≤ 30)
    (c : Cache) (m : Memory) (rel : CacheRel cfg ob ib c m) (hlog : c.logStream = true)
    (hacc : c.accesses + 1 < 18446744073709551615)
    (A : Nat) (size : MemSize) (u isWrite : Bool) (value rand : Nat)
    (hA : A < 4294967296) (hsz : size ≠ .DoubleWord)
    (hin : A % 2 ^ ob + size.toNat ≤ 2 ^ ob) :
    ∃ r c2, c.access A size u isWrite value rand = .ok (r, c2) ∧
      CacheRel cfg ob ib c2 (if isWrite then m.write A size value else m) ∧
      c2.accesses = c.accesses + 1 ∧
      (isWrite = false → toI32 r = m.read A size u ∧ r < 4294967296) := by
  have rel0 := rel
  obtain ⟨hcfg, hdec, hlen, hways, inv⟩ := rel
  have hidx := indexOf_lt ob ib A hbits hA
  have hidx2 : indexOf ob ib A < c.sets.length := lt_of_lt_of_le hidx hlen
  obtain ⟨set, hset⟩ : ∃ set, c.sets.get? (indexOf ob ib A) = some set := by
    rw [List.get?_eq_getElem?]
    exact ⟨c.sets[indexOf ob ib A], List.getElem?_eq_some.2 ⟨hidx2, rfl⟩⟩
  have e1 : toU32 (c.addrDecoder.getIndex A) = indexOf ob ib A := by rw [hdec]; rfl
  have e2 : toU64 (c.addrDecoder.getTag A) = tagOf ob ib A := by rw [hdec]; rfl
  have hbs2 : c.config.blockSize = 2 ^ ob := by rw [hcfg]; exact hbs
  have hBset : ∀ k, blockAt c.sets (indexOf ob ib A) k = set.get? k :=
    fun k => blockAt_eq _ _ _ _ hset
  cases hfind : findBlockInSet (tagOf ob ib A) set with
  | some k =>
    obtain ⟨found, hget, hv, ht⟩ := findBlockInSet_some _ _ _ hfind
    have hklt := get?_lt _ _ _ hget
    have hB : blockAt c.sets (indexOf ob ib A) k = some found := by rw [hBset]; exact hget
    have hwf := inv.wf _ _ _ hB hv
    cases isWrite with
    | false =>
      have heq : c.access A size u false value rand = .ok
          (({ found with lastUsed := c.accesses + 1 } : CacheBlock).readData A size u (2 ^ ob),
            { c with
              accesses := c.accesses + 1
              hits := c.hits + 1
              sets := c.sets.set (indexOf ob ib A)
                (set.set k { found with lastUsed := c.accesses + 1 }) }) := by
        rw [access_logged c hlog]
        simp only [Cache.accessCore, e1, e2, hset, hfind, hget, hbs2, Bool.false_eq_true, if_false]
      refine ⟨_, _, heq, ⟨hcfg, hdec, ?_, ?_, ?_⟩, rfl, fun _ => ?_⟩
      · simp only [List.length_set]; exact hlen
      · exact sets_set_ne_nil _ _ _ _ _ hset hways
      · exact CacheInv.touch inv (c.accesses + 1) (by omega) (indexOf ob ib A) k found _ _ hB
          (fun s2 k2 => blockAt_set _ _ _ _ _ hset hklt s2 k2) rfl rfl rfl rfl rfl (le_refl _)
          (by show found.insertionTime ≤ c.accesses + 1; omega)
      · exact CacheInv.read_block inv hbits A size u hA hsz hin k found _ hB hv ht rfl
    | true =>
      have hwd := writeData_eq ({ found with lastUsed := c.accesses + 1 } : CacheBlock) A size
        value (2 ^ ob) (by show A % 2 ^ ob + size.toNat ≤ found.data.length; rw [hwf.2.1]; exact hin)
      by_cases hwp : c.config.writePolicy = .WB
      · have heq : c.access A size u true value rand = .ok (A,
            { c with
              accesses := c.accesses + 1
              hits := c.hits + 1
              sets := c.sets.set (indexOf ob ib A)
                (set.set k { (({ found with lastUsed := c.accesses + 1 } : CacheBlock).writeData
                  A size value (2 ^ ob)) with dirty := true }) }) := by
          rw [access_logged c hlog]
          simp only [Cache.accessCore, e1, e2, hset, hfind, hget, hbs2, hwp, if_true]
        refine ⟨_, _, heq, ⟨hcfg, hdec, ?_, ?_, ?_⟩, rfl, fun h => absurd h (by simp)⟩
        · simp only [List.length_set]; exact hlen
        · exact sets_set_ne_nil _ _ _ _ _ hset hways
        · rw [if_pos rfl]
          refine CacheInv.write_block inv hbits (c.accesses + 1) (by omega) (indexOf ob ib A) k
            found _ _ c.memory A size value hA hin hB hv rfl ht
            (fun s2 k2 => blockAt_set _ _ _ _ _ hset hklt s2 k2) ?_ ?_ ?_ ?_ ?_ ?_
            (Or.inl ⟨rfl, rfl, by rw [← hcfg]; exact hwp⟩)
          all_goals rw [hwd]
          · show found.insertionTime ≤ c.accesses + 1; omega
      · have hwt : c.config.writePolicy = .WT := by
          cases h : c.config.writePolicy with
          | WB => exact absurd h hwp
          | WT => rfl
        have heq : c.access A size u true value rand = .ok (A,
            { c with
              accesses := c.accesses + 1
              hits := c.hits + 1
              memory := c.memory.write A size value
              sets := c.sets.set (indexOf ob ib A)
                (set.set k { (({ found with lastUsed := c.accesses + 1 } : CacheBlock).writeData
                  A size value (2 ^ ob)) with dirty := false }) }) := by
          rw [access_logged c hlog]
          simp only [Cache.accessCore, e1, e2, hset, hfind, hget, hbs2, hwt, if_true]
          simp
        refine ⟨_, _, heq, ⟨hcfg, hdec, ?_, ?_, ?_⟩, rfl, fun h => absurd h (by simp)⟩
        · simp only [List.length_set]; exact hlen
        · exact sets_set_ne_nil _ _ _ _ _ hset hways
        · rw [if_pos rfl]
          refine CacheInv.write_block inv hbits (c.accesses + 1) (by omega) (indexOf ob ib A) k
            found _ _ (c.memory.write A size value) A size value hA hin hB hv rfl ht
            (fun s2 k2 => blockAt_set _ _ _ _ _ hset hklt s2 k2) ?_ ?_ ?_ ?_ ?_ ?_
            (Or.inr ⟨rfl, by rw [← hcfg]; exact hwt⟩)
          all_goals rw [hwd]
          · show found.insertionTime ≤ c.accesses + 1; omega
  | none =>
    have hmiss2 : ∀ k b, blockAt c.sets (indexOf ob ib A) k = some b → b.valid = true →
        b.tag ≠ tagOf ob ib A := by
      intro k b hb hv
      rw [hBset] at hb
      exact findBlockInSet_none _ _ hfind k b hb hv
    by_cases hwt : (isWrite && decide (c.config.writePolicy = .WT)) = true
    · simp only [Bool.and_eq_true, decide_eq_true_eq] at hwt
      obtain ⟨rfl, hwt⟩ := hwt
      have heq : c.access A size u true value rand = .ok (A,
          { c with
            accesses := c.accesses + 1
            misses := c.misses + 1
            memory := c.memory.write A size value }) := by
        rw [access_logged c hlog]
        simp only [Cache.accessCore, e1, e2, hset, hfind, hwt, Bool.true_and, decide_True, if_true]
      refine ⟨_, _, heq, ⟨hcfg, hdec, hlen, hways, ?_⟩, rfl, fun h => absurd h (by simp)⟩
      rw [if_pos rfl]
      exact CacheInv.write_through inv hbits (c.accesses + 1) (by omega) A size value hA hin
        hmiss2
    · have rel1 : CacheRel cfg ob ib
          { c with accesses := c.accesses + 1, misses := c.misses + 1 } m :=
        ⟨hcfg, hdec, hlen, hways, inv.mono (c.accesses + 1) (by omega)⟩
      obtain ⟨c2, v, set2, b2, hrep, rel2, hacc2, hset2, hget2, hv2, ht2⟩ :=
        replaceBlock_ok cfg ob ib hbs hob hib hbits _ m rel1 hacc A hA set hset hfind isWrite
          rand
      have hB2 : blockAt c2.sets (indexOf ob ib A) v = some b2 := by
        rw [blockAt_eq _ _ _ _ hset2]; exact hget2
      have hbs3 : c2.config.blockSize = 2 ^ ob := by rw [rel2.config]; exact hbs
      cases isWrite with
      | false =>
        have heq : c.access A size u false value rand =
            .ok (b2.readData A size u (2 ^ ob), c2) := by
          rw [access_logged c hlog]
          simp only [Cache.accessCore, e1, e2, hset, hfind, Bool.false_and, Bool.false_eq_true,
            if_false, hrep, hset2, hget2, Option.some_bind, hbs3]
        refine ⟨_, _, heq, rel2, hacc2, fun _ => ?_⟩
        exact CacheInv.read_block rel2.inv hbits A size u hA hsz hin v b2 b2 hB2 hv2 ht2 rfl
      | true =>
        have hwb : cfg.writePolicy = .WB := by
          simp only [Bool.true_and, decide_eq_true_eq] at hwt
          rw [← hcfg]
          cases h : c.config.writePolicy with
          | WB => rfl
          | WT => exact absurd h hwt
        have hwf2 := rel2.inv.wf _ _ _ hB2 hv2
        have hwd := writeData_eq b2 A size value (2 ^ ob) (by rw [hwf2.2.1]; exact hin)
        have hvlt := get?_lt _ _ _ hget2
        have heq : c.access A size u true value rand = .ok (A,
            { c2 with
              sets := c2.sets.set (indexOf ob ib A)
                (set2.set v { (b2.writeData A size value (2 ^ ob)) with dirty := true }) }) := by
          rw [access_logged c hlog]
          simp only [Cache.accessCore, e1, e2, hset, hfind, hwt, Bool.false_eq_true,
            if_false, hrep, hset2, hget2, Option.some_bind, hbs3, if_true,
            getD_sets _ _ _ hset2]
        refine ⟨_, _, heq, ⟨rel2.config, rel2.dec, ?_, ?_, ?_⟩, hacc2, fun h => absurd h (by simp)⟩
        · simp only [List.length_set]; exact rel2.len
        · exact sets_set_ne_nil _ _ _ _ _ hset2 rel2.ways
        · rw [if_pos rfl]
          refine CacheInv.write_block rel2.inv hbits c2.accesses (le_refl _)
            (indexOf ob ib A) v b2 _ _ c2.memory A size value hA hin hB2 hv2 rfl ht2
            (fun s2 k2 => blockAt_set _ _ _ _ _ hset2 hvlt s2 k2) ?_ ?_ ?_ ?_ ?_ ?_
            (Or.inl ⟨rfl, rfl, hwb⟩)
          all_goals rw [hwd]
          · exact hwf2.2.2.1
          · exact hwf2.2.2.2.1

/-! ## Cache: the freshly enabled cache -/

theorem resizeList_length {α : Type} (d : α) (l : List α) (n : Nat) :
    (resizeList d l n).length = n := by
  simp only [resizeList, List.length_append, List.length_take, List.length_replicate]
  omega

theorem mem_resizeList {α : Type} (d : α) (l : List α) (n : Nat) (x : α)
    (h : x ∈ resizeList d l n) : x ∈ l ∨ x = d := by
  simp only [resizeList, List.mem_append] at h
  rcases h with h | h
  · exact Or.inl (List.mem_of_mem_take h)
  · exact Or.inr (List.eq_of_mem_replicate h)

theorem blockAt_mem (sets : List (List CacheBlock)) (s k : Nat) (b : CacheBlock)
    (h : blockAt sets s k = some b) : ∃ set, set ∈ sets ∧ b ∈ set := by
  unfold blockAt at h
  cases hs : sets.get? s with
  | none => rw [hs] at h; simp at h
  | some set =>
    rw [hs] at h
    simp only [Option.some_bind] at h
    exact ⟨set, List.mem_iff_get?.2 ⟨s, hs⟩, List.mem_iff_get?.2 ⟨k, h⟩⟩

/-- The sizes `Cache::enable` derives from a valid configuration. -/
theorem enable_bits (cfg : CacheConfig) (k : Nat) (hbs : cfg.blockSize = 2 ^ k)
    (hsize : cfg.cacheSize < 2147483648) (hsets : 1 ≤ (enableShape cfg).1)
    (hways : 1 ≤ (enableShape cfg).2) :
    cfg.getOffsetBits = k ∧ k + cfg.getIndexBits ≤ 30 ∧
      2 ^ cfg.getIndexBits ≤ (enableShape cfg).1 ∧ cfg.cacheSize ≠ 0 := by
  have hP : 0 < 2 ^ k := by positivity
  have hnb : (enableShape cfg).1 ≤ cfg.cacheSize / 2 ^ k ∧ 1 ≤ cfg.cacheSize / 2 ^ k ∧
      2 ^ cfg.getIndexBits ≤ (enableShape cfg).1 := by
    have hdl : cfg.cacheSize / 2 ^ k ≤ cfg.cacheSize := Nat.div_le_self _ _
    unfold enableShape CacheConfig.getIndexBits at *
    simp only [hbs] at hsets hways ⊢
    by_cases h0 : cfg.associativity = 0
    · simp only [h0, if_true] at hsets hways ⊢
      exact ⟨hways, hways, by simp⟩
    · by_cases h1 : cfg.associativity = 1
      · simp only [h1, if_true, if_false, Nat.one_ne_zero, Nat.div_one] at hsets hways ⊢
        exact ⟨le_refl _, hsets, two_pow_log2_le _ hsets (by omega)⟩
      · simp only [h0, h1, if_false] at hsets hways ⊢
        have hle : cfg.cacheSize / 2 ^ k / cfg.associativity ≤ cfg.cacheSize / 2 ^ k :=
          Nat.div_le_self _ _
        exact ⟨hle, le_trans hsets hle, two_pow_log2_le _ hsets (by omega)⟩
  obtain ⟨h1, h2, h3⟩ := hnb
  have hcs : 2 ^ k ≤ cfg.cacheSize := by
    have := Nat.div_mul_le_self cfg.cacheSize (2 ^ k)
    calc 2 ^ k = 1 * 2 ^ k := (Nat.one_mul _).symm
      _ ≤ cfg.cacheSize / 2 ^ k * 2 ^ k := Nat.mul_le_mul_right _ h2
      _ ≤ cfg.cacheSize := this
  have hk : k < 31 := by
    have : (2 : Nat) ^ k < 2 ^ 31 := by
      calc 2 ^ k ≤ cfg.cacheSize := hcs
        _ < 2 ^ 31 := by norm_num; exact hsize
    exact (Nat.pow_lt_pow_iff_right (by norm_num)).1 this
  have hsum : k + cfg.getIndexBits < 31 := by
    have : (2 : Nat) ^ (k + cfg.getIndexBits) < 2 ^ 31 := by
      calc 2 ^ (k + cfg.getIndexBits) = 2 ^ cfg.getIndexBits * 2 ^ k := by
            rw [Nat.pow_add, Nat.mul_comm]
        _ ≤ cfg.cacheSize / 2 ^ k * 2 ^ k := Nat.mul_le_mul_right _ (le_trans h3 h1)
        _ ≤ cfg.cacheSize := Nat.div_mul_le_self _ _
        _ < 2 ^ 31 := by norm_num; exact hsize
    exact (Nat.pow_lt_pow_iff_right (by norm_num)).1 this
  refine ⟨?_, by omega, h3, by omega⟩
  unfold CacheConfig.getOffsetBits
  rw [hbs]
  exact log2_two_pow k (by omega)

/-- `Cache::enable` with a valid configuration returns a cache without a valid block, which
stands for the memory it was given and has the log stream it had. -/
theorem enable_ok (prior : Cache) (cfg : CacheConfig) (mem : Memory) (k : Nat)
    (hbs : cfg.blockSize = 2 ^ k) (hsize : cfg.cacheSize < 2147483648)
    (hsets : 1 ≤ (enableShape cfg).1) (hways : 1 ≤ (enableShape cfg).2) :
    ∃ c, prior.enable cfg mem = .ok c ∧ CacheRel cfg k cfg.getIndexBits c mem ∧
      c.accesses = 0 ∧ c.logStream = prior.logStream := by
  obtain ⟨hob, hbits, hlen, hcs⟩ := enable_bits cfg k hbs hsize hsets hways
  have hP : 0 < 2 ^ k := by positivity
  have hne : ¬(cfg.blockSize = 0 ∨ cfg.cacheSize = 0) := by
    rw [hbs]; omega
  have hinvalid : ∀ s j b,
      blockAt ((resizeList [] (prior.invalidate).sets (enableShape cfg).1).map
        (fun set => resizeList {} set (enableShape cfg).2)) s j = some b → b.valid = false := by
    intro s j b hb
    obtain ⟨set, hset, hmem⟩ := blockAt_mem _ _ _ _ hb
    obtain ⟨set0, hset0, rfl⟩ := List.mem_map.1 hset
    rcases mem_resizeList _ _ _ _ hmem with h | h
    · rcases mem_resizeList _ _ _ _ hset0 with h2 | h2
      · simp only [Cache.invalidate, List.mem_map] at h2
        obtain ⟨set1, _, rfl⟩ := h2
        obtain ⟨b1, _, rfl⟩ := List.mem_map.1 h
        rfl
      · rw [h2] at h; simp at h
    · rw [h]
  refine ⟨{ prior.invalidate with
      config := cfg
      numSets := (enableShape cfg).1
      sets := (resizeList [] (prior.invalidate).sets (enableShape cfg).1).map
        (fun set => resizeList {} set (enableShape cfg).2)
      addrDecoder := ⟨cfg.getOffsetBits, cfg.getIndexBits⟩
      memory := mem }, by simp only [Cache.enable, if_neg hne], ⟨rfl, ?_, ?_, ?_, ?_⟩, rfl,
    rfl⟩
  · show AddressDecoder.mk cfg.getOffsetBits cfg.getIndexBits = _
    rw [hob]
  · show 2 ^ cfg.getIndexBits ≤ (List.map _ _).length
    rw [List.length_map, resizeList_length]
    exact hlen
  · intro s set hs
    have hmem : set ∈ (resizeList [] (prior.invalidate).sets (enableShape cfg).1).map
        (fun set => resizeList {} set (enableShape cfg).2) := List.mem_iff_get?.2 ⟨s, hs⟩
    obtain ⟨set0, _, rfl⟩ := List.mem_map.1 hmem
    intro hnil
    have := congrArg List.length hnil
    rw [resizeList_length] at this
    simp at this
    omega
  · constructor
    · intro s j b hb hv
      rw [hinvalid s j b hb] at hv
      exact absurd hv (by simp)
    · intro s j j2 b b2 hb _ hv
      rw [hinvalid s j b hb] at hv
      exact absurd hv (by simp)
    · intro a j b _ hb hv
      rw [hinvalid _ j b hb] at hv
      exact absurd hv (by simp)
    · intro a _ _
      rfl

/-! ## Cache: the whole stream -/

theorem runThroughCache_ok (cfg : CacheConfig) (ob ib : Nat) (hbs : cfg.blockSize = 2 ^ ob)
    (hob : cfg.getOffsetBits = ob) (hib : cfg.getIndexBits = ib) (hbits : ob + ib ≤ 30)
    (ops : List (MemOp × Nat)) (c : Cache) (m : Memory) (rel : CacheRel cfg ob ib c m)
    (hlog : c.logStream = true) (hacc : c.accesses + ops.length < 2147483648)
    (hops : ∀ p, p ∈ ops → p.1.inBlock cfg.blockSize) :
    ∃ values, runThroughCache c ops = .ok values ∧
      values.map toI32 = runOnMemory m (ops.map Prod.fst) ∧
      ∀ v, v ∈ values → v < 4294967296 := by
  induction ops generalizing c m with
  | nil => exact ⟨[], rfl, rfl, by simp⟩
  | cons p rest ih =>
    obtain ⟨op, rand⟩ := p
    have hop := hops (op, rand) (List.mem_cons_self _ _)
    have hrest : ∀ p, p ∈ rest → p.1.inBlock cfg.blockSize :=
      fun p hp => hops p (List.mem_cons_of_mem _ hp)
    simp only [List.length_cons] at hacc
    cases op with
    | load A size u =>
      obtain ⟨hA, hsz, hin⟩ := hop
      simp only [MemOp.address, MemOp.size, hbs] at hA hsz hin
      obtain ⟨r, c2, heq, rel2, hacc2, hval⟩ := access_ok cfg ob ib hbs hob hib hbits c m rel
        hlog (by omega) A size u false 0 rand hA hsz hin
      rw [if_neg (by simp)] at rel2
      obtain ⟨values, hrun, hmap, hlt⟩ := ih c2 m rel2
        (access_logStream c A size u false 0 rand r c2 heq).2 (by omega) hrest
      obtain ⟨hr1, hr2⟩ := hval rfl
      refine ⟨r :: values, ?_, ?_, ?_⟩
      · simp only [runThroughCache, Cache.read, heq, hrun]
      · simp only [List.map_cons, runOnMemory, hr1, hmap]
      · intro v hv
        rcases List.mem_cons.1 hv with rfl | hv
        · exact hr2
        · exact hlt v hv
    | store A size value =>
      obtain ⟨hA, hsz, hin⟩ := hop
      simp only [MemOp.address, MemOp.size, hbs] at hA hsz hin
      obtain ⟨r, c2, heq, rel2, hacc2, _⟩ := access_ok cfg ob ib hbs hob hib hbits c m rel
        hlog (by omega) A size false true value rand hA hsz hin
      rw [if_pos rfl] at rel2
      obtain ⟨values, hrun, hmap, hlt⟩ := ih c2 _ rel2
        (access_logStream c A size false true value rand r c2 heq).2 (by omega) hrest
      refine ⟨values, ?_, ?_, hlt⟩
      · simp only [runThroughCache, Cache.write, heq, hrun]
      · simp only [List.map_cons, runOnMemory, hmap]


/-- Evaluation of the programs of `TestRunner`: for each program of `unitTests` and
`integrationTests`, in the ISA mode of its test, `assemble` returns and `disassemble`,
holding the assembler's label set, gives back the program line by line, so that `runTest`
answers `true`. Among them are the lines `addi x1, x2, 10` ... `lhu x19, 4(x20)`,
`lbu x21, 0(x22)` and the labelled program `beq x4, x7, L1` / `add x1, x2, x3` / `L1:` /
`addi x5, x6, 12`. -/
theorem testRunner_programs_round_trip :
    runTest ["add x3, x4, x7", "sub x1, x2, x3", "and x8, x9, x10", "or x11, x12, x13",
      "xor x14, x15, x16", "sll x17, x18, x19", "srl x20, x21, x22", "sra x23, x24, x25"]
      .RV32I = .ok true ∧
    runTest ["addi x1, x2, 10", "andi x3, x4, 15", "ori x5, x6, 20", "xori x7, x8, 25",
      "slli x9, x10, 2", "srli x11, x12, 3", "srai x13, x14, 1", "lhu x19, 4(x20)",
      "lbu x21, 0(x22)"] .RV32I = .ok true ∧
    runTest ["sw x3, 12(x4)", "sh x5, 4(x6)", "sb x7, 0(x8)"] .RV32I = .ok true ∧
    runTest ["beq x1, x2, 8", "bne x3, x4, 12", "blt x5, x6, 16", "bge x7, x8, 20",
      "bltu x9, x10, 24", "bgeu x11, x12, 28"] .RV32I = .ok true ∧
    runTest ["lui x1, 0x10000", "jal x2, 16", "jalr x3, 0(x4)"] .RV32I = .ok true ∧
    runTest ["mul x1, x2, x3", "mulh x4, x5, x6", "mulhsu x7, x8, x9", "mulhu x10, x11, x12",
      "div x1, x2, x3", "divu x4, x5, x6", "rem x7, x8, x9", "remu x10, x11, x12"]
      .RV32IM = .ok true ∧
    runTest ["addw x1, x2, x3", "subw x4, x5, x6", "sllw x7, x8, x9", "srlw x10, x11, x12",
      "sraw x13, x14, x15", "addiw x1, x2, 100", "slliw x3, x4, 5", "srliw x5, x6, 3",
      "sraiw x7, x8, 2", "ld x1, 0(x2)", "sd x3, 8(x4)", "lwu x5, 4(x6)"] .RV64I = .ok true ∧
    runTest ["mulw x1, x2, x3", "divw x4, x5, x6", "divuw x7, x8, x9", "remw x10, x11, x12",
      "remuw x13, x14, x15"] .RV64IM = .ok true ∧
    runTest ["beq x5, x6, 8", "blt x5, x6, 4", "sub x5, x5, x6", "jal x0, -12",
      "sub x6, x6, x5", "jal x0, -16", "addi x1, x0, 5", "addi x2, x0, 1", "beq x1, x0, 8",
      "addi x1, x1, -1", "jal x0, -12", "addi x3, x0, 0", "addi x4, x0, 1", "addi x5, x0, 10",
      "add x3, x3, x4", "addi x4, x4, 1", "addi x5, x5, -1", "bne x5, x0, -12",
      "addi x6, x0, 100", "addi x7, x0, 10", "sub x6, x6, x7", "addi x7, x7, -1",
      "bne x7, x0, -8"] .RV32I = .ok true ∧
    runTest ["add x3, x4, x7", "beq x4, x7, L1", "add x1, x2, x3", "L1:", "addi x5, x6, 12",
      "jal x0, L2", "sb x5, 12(x6)", "lui x9, 0x10000", "L2:", "addi x9, x10, 12"]
      .RV32I = .ok true ∧
    runTest ["beq x4, x7, L1", "add x1, x2, x3", "L1:", "addi x5, x6, 12"] .RV32I = .ok true ∧
    runTest ["addi x10, x0, -10", "addi x11, x0, 10", "addi x12, x0, 1",
      "jal x0, printNewLine", "printNewLine:", "jalr x0, 0(x1)"] .RV32I = .ok true :=
  ⟨by decide, by decide, by decide, by decide, by decide, by decide, by decide, by decide,
    by decide, by decide, by decide, by decide⟩

/-! ## Numerals: `operator<<` and `std::stoi` -/

theorem toDigitsCore_append (b : Nat) (hb : 1 < b) (m : Nat) :
    ∀ fuel ds, m < fuel →
      Nat.toDigitsCore b fuel m ds = Nat.toDigitsCore b (m + 1) m [] ++ ds := by
  induction m using Nat.strong_induction_on with
  | _ m ih =>
    intro fuel ds hlt
    obtain ⟨f, rfl⟩ : ∃ f, fuel = f + 1 := ⟨fuel - 1, by omega⟩
    simp only [Nat.toDigitsCore]
    by_cases h0 : m / b = 0
    · simp only [h0, if_true, List.singleton_append]
    · simp only [h0, if_false]
      have hdiv : m / b < m := Nat.div_lt_self (by
        rcases Nat.eq_zero_or_pos m with h | h
        · rw [h] at h0; simp at h0
        · exact h) hb
      rw [ih (m / b) hdiv f _ (by omega), ih (m / b) hdiv m [Nat.digitChar (m % b)] hdiv]
      simp

theorem toDigits_lt (b n : Nat) (h : n < b) : Nat.toDigits b n = [Nat.digitChar n] := by
  simp only [Nat.toDigits, Nat.toDigitsCore, Nat.div_eq_of_lt h, Nat.mod_eq_of_lt h, if_true]

theorem toDigits_ge (b n : Nat) (hb : 1 < b) (h : b ≤ n) :
    Nat.toDigits b n = Nat.toDigits b (n / b) ++ [Nat.digitChar (n % b)] := by
  have h0 : n / b ≠ 0 := by
    have : 0 < n / b := Nat.div_pos h (by omega)
    omega
  have hdiv : n / b < n := Nat.div_lt_self (by omega) hb
  have e : Nat.toDigitsCore b (n + 1) n [] =
      Nat.toDigitsCore b n (n / b) [Nat.digitChar (n % b)] := by
    simp only [Nat.toDigitsCore, h0, if_false]
  unfold Nat.toDigits
  rw [e, toDigitsCore_append b hb (n / b) n _ hdiv]

theorem digitValue_digitChar (d : Nat) (h : d < 16) : digitValue (Nat.digitChar d) = some d := by
  interval_cases d <;> rfl

theorem parseDigits_toDigits (b : Nat) (hb : 1 < b) (hb16 : b ≤ 16) (n : Nat) :
    ∀ rest acc cnt, parseDigits b (Nat.toDigits b n ++ rest) acc cnt =
      parseDigits b rest (acc * b ^ (Nat.toDigits b n).length + n)
        (cnt + (Nat.toDigits b n).length) := by
  induction n using Nat.strong_induction_on with
  | _ n ih =>
    intro rest acc cnt
    by_cases h : n < b
    · rw [toDigits_lt b n h]
      simp only [List.singleton_append, parseDigits, digitValue_digitChar n (by omega), h,
        if_true, List.length_singleton, Nat.pow_one]
      rfl
    · have hge : b ≤ n := by omega
      have hdiv : n / b < n := Nat.div_lt_self (by omega) hb
      rw [toDigits_ge b n hb hge, List.append_assoc, ih (n / b) hdiv]
      have hm : n % b < b := Nat.mod_lt _ (by omega)
      simp only [List.singleton_append, parseDigits, digitValue_digitChar (n % b) (by omega), hm,
        if_true, List.length_append, List.length_singleton]
      congr 1
      · rw [Nat.pow_succ]
        have := Nat.div_add_mod n b
        generalize n / b = q at *
        generalize n % b = r at *
        generalize b ^ (Nat.toDigits b q).length = P at *
        rw [← this]; ring

theorem toDigits_ne_nil (b n : Nat) (hb : 1 < b) : Nat.toDigits b n ≠ [] := by
  by_cases h : n < b
  · rw [toDigits_lt b n h]; simp
  · rw [toDigits_ge b n hb (by omega)]; simp

/-- A positive number is printed with a leading digit that is not zero. -/
theorem toDigits_head (b n : Nat) (hb : 1 < b) (hn : 0 < n) :
    ∃ d ds, Nat.toDigits b n = Nat.digitChar d :: ds ∧ 1 ≤ d ∧ d < b := by
  induction n using Nat.strong_induction_on with
  | _ n ih =>
    by_cases h : n < b
    · exact ⟨n, [], toDigits_lt b n h, hn, h⟩
    · have hge : b ≤ n := by omega
      have hdiv : n / b < n := Nat.div_lt_self (by omega) hb
      obtain ⟨d, ds, he, h1, h2⟩ := ih (n / b) hdiv (Nat.div_pos hge (by omega))
      exact ⟨d, ds ++ [Nat.digitChar (n % b)], by rw [toDigits_ge b n hb hge, he]; rfl, h1, h2⟩

/-- Every character `operator<<` prints for a number is the digit of a value below the
base. -/
theorem toDigits_chars (b n : Nat) (hb : 1 < b) :
    ∀ c, c ∈ Nat.toDigits b n → ∃ d, d < b ∧ c = Nat.digitChar d := by
  induction n using Nat.strong_induction_on with
  | _ n ih =>
    intro c hc
    by_cases h : n < b
    · rw [toDigits_lt b n h] at hc
      exact ⟨n, h, by simpa using hc⟩
    · have hge : b ≤ n := by omega
      have hdiv : n / b < n := Nat.div_lt_self (by omega) hb
      rw [toDigits_ge b n hb hge] at hc
      rcases List.mem_append.1 hc with hc | hc
      · exact ih (n / b) hdiv c hc
      · exact ⟨n % b, Nat.mod_lt _ (by omega), by simpa using hc⟩

theorem stoi_decimal (c : Char) (cs : List Char)
    (hc : c ∈ ['1', '2', '3', '4', '5', '6', '7', '8', '9']) :
    stoi (c :: cs) = stoiFinish false (parseDigits 10 (c :: cs) 0 0) := by
  simp only [List.mem_cons, List.mem_singleton, List.not_mem_nil, or_false] at hc
  rcases hc with rfl | rfl | rfl | rfl | rfl | rfl | rfl | rfl | rfl <;>
    simp [stoi, stoiFinish, isSpace]

theorem stoi_negative (c : Char) (cs : List Char)
    (hc : c ∈ ['1', '2', '3', '4', '5', '6', '7', '8', '9']) :
    stoi ('-' :: c :: cs) = stoiFinish true (parseDigits 10 (c :: cs) 0 0) := by
  simp only [List.mem_cons, List.mem_singleton, List.not_mem_nil, or_false] at hc
  rcases hc with rfl | rfl | rfl | rfl | rfl | rfl | rfl | rfl | rfl <;>
    simp [stoi, stoiFinish, isSpace]

theorem stoi_hex (c : Char) (cs : List Char) (hc : (digitValue c).isSome = true) :
    stoi ('0' :: 'x' :: c :: cs) = stoiFinish false (parseDigits 16 (c :: cs) 0 0) := by
  simp [stoi, stoiFinish, isSpace, hc]

theorem digitChar_decimal (d : Nat) (h1 : 1 ≤ d) (h2 : d < 10) :
    Nat.digitChar d ∈ ['1', '2', '3', '4', '5', '6', '7', '8', '9'] := by
  interval_cases d <;> decide

theorem parseDigits_toDigits_all (b : Nat) (hb : 1 < b) (hb16 : b ≤ 16) (n : Nat) :
    parseDigits b (Nat.toDigits b n) 0 0 = (n, (Nat.toDigits b n).length) := by
  have h := parseDigits_toDigits b hb hb16 n [] 0 0
  rw [List.append_nil] at h
  rw [h]
  simp [parseDigits]

theorem toDigits_length_pos (b n : Nat) (hb : 1 < b) : (Nat.toDigits b n).length ≠ 0 := by
  intro h
  exact toDigits_ne_nil b n hb (List.length_eq_zero.1 h)

/-- `std::stoi` reads back the decimal numeral `operator<<` prints for an `int`. -/
theorem stoi_intToChars (n : Int) (h : -2147483648 ≤ n ∧ n ≤ 2147483647) :
    stoi (intToChars n) = .ok n := by
  unfold intToChars
  rcases lt_trichotomy n 0 with hn | hn | hn
  · rw [if_pos hn]
    obtain ⟨d, ds, he, h1, h2⟩ := toDigits_head 10 n.natAbs (by norm_num) (by omega)
    have hp := parseDigits_toDigits_all 10 (by norm_num) (by norm_num) n.natAbs
    have hl := toDigits_length_pos 10 n.natAbs (by norm_num)
    rw [he] at hp hl ⊢
    rw [stoi_negative _ _ (digitChar_decimal d h1 h2), hp]
    simp only [stoiFinish, hl, if_false, if_true]
    rw [if_neg (by omega)]
    congr 1
    omega
  · subst hn
    decide
  · rw [if_neg (by omega)]
    obtain ⟨d, ds, he, h1, h2⟩ := toDigits_head 10 n.toNat (by norm_num) (by omega)
    have hp := parseDigits_toDigits_all 10 (by norm_num) (by norm_num) n.toNat
    have hl := toDigits_length_pos 10 n.toNat (by norm_num)
    rw [he] at hp hl ⊢
    rw [stoi_decimal _ _ (digitChar_decimal d h1 h2), hp]
    simp only [stoiFinish, hl, if_false, Bool.false_eq_true]
    rw [if_neg (by omega)]
    congr 1
    omega

/-- `std::stoi` reads back the hexadecimal numeral printed after `0x`. -/
theorem stoi_hexToChars (u : Nat) (h : u < 2147483648) :
    stoi ('0' :: 'x' :: Nat.toDigits 16 u) = .ok (u : Int) := by
  have hp := parseDigits_toDigits_all 16 (by norm_num) (by norm_num) u
  have hl := toDigits_length_pos 16 u (by norm_num)
  have hch := toDigits_chars 16 u (by norm_num)
  cases hd : Nat.toDigits 16 u with
  | nil => exact absurd hd (toDigits_ne_nil 16 u (by norm_num))
  | cons c cs =>
    rw [hd] at hp hl hch
    obtain ⟨d, hd16, rfl⟩ := hch c (List.mem_cons_self _ _)
    rw [stoi_hex _ _ (by rw [digitValue_digitChar d hd16]; rfl), hp]
    simp only [stoiFinish, hl, if_false, Bool.false_eq_true]
    rw [if_neg (by omega)]

theorem digitChar_token (d : Nat) (h : d < 16) : isTokenChar (Nat.digitChar d) = true := by
  interval_cases d <;> decide

theorem toDigits_token (b n : Nat) (hb : 1 < b) (hb16 : b ≤ 16) :
    ∀ c, c ∈ Nat.toDigits b n → isTokenChar c = true := by
  intro c hc
  obtain ⟨d, hd, rfl⟩ := toDigits_chars b n hb c hc
  exact digitChar_token d (by omega)

theorem intToChars_token (n : Int) : ∀ c, c ∈ intToChars n → isTokenChar c = true := by
  intro c hc
  unfold intToChars at hc
  split at hc
  · rcases List.mem_cons.1 hc with rfl | hc
    · decide
    · exact toDigits_token 10 _ (by norm_num) (by norm_num) c hc
  · exact toDigits_token 10 _ (by norm_num) (by norm_num) c hc

theorem intToChars_head (n : Int) : ∃ c cs, intToChars n = c :: cs := by
  unfold intToChars
  split
  · exact ⟨'-', _, rfl⟩
  · cases hd : Nat.toDigits 10 n.toNat with
    | nil => exact absurd hd (toDigits_ne_nil 10 _ (by norm_num))
    | cons c cs => exact ⟨c, cs, rfl⟩

/-! ## Strings: searching, trimming, splitting -/

theorem findChar_none (c : Char) (s : List Char) (h : c ∉ s) : findChar c s = none := by
  induction s with
  | nil => rfl
  | cons x xs ih =>
    simp only [List.mem_cons, not_or] at h
    rw [findChar, if_neg (Ne.symm h.1), ih h.2]
    rfl

theorem findChar_append (c : Char) (s t : List Char) (h : c ∉ s) :
    findChar c (s ++ c :: t) = some s.length := by
  induction s with
  | nil => simp [findChar]
  | cons x xs ih =>
    simp only [List.mem_cons, not_or] at h
    rw [List.cons_append, findChar, if_neg (Ne.symm h.1), ih h.2]
    rfl

theorem findFirstNotOf_blanks (p : Char → Bool) (pre : List Char) (c : Char) (t : List Char)
    (hpre : ∀ x, x ∈ pre → p x = true) (hc : p c = false) :
    findFirstNotOf p (pre ++ c :: t) = some pre.length := by
  induction pre with
  | nil => simp [findFirstNotOf, hc]
  | cons x xs ih =>
    have hx := hpre x (List.mem_cons_self _ _)
    rw [List.cons_append, findFirstNotOf, if_pos hx,
      ih (fun y hy => hpre y (List.mem_cons_of_mem _ hy))]
    rfl

theorem findLastNotOf_all (p : Char → Bool) (post : List Char)
    (h : ∀ x, x ∈ post → p x = true) : findLastNotOf p post = none := by
  induction post with
  | nil => rfl
  | cons x xs ih =>
    simp only [findLastNotOf, ih (fun y hy => h y (List.mem_cons_of_mem _ hy)),
      h x (List.mem_cons_self _ _), if_true]

theorem findLastNotOf_blanks (p : Char → Bool) (s : List Char) (c : Char) (post : List Char)
    (hc : p c = false) (hpost : ∀ x, x ∈ post → p x = true) :
    findLastNotOf p (s ++ c :: post) = some s.length := by
  induction s with
  | nil => simp [findLastNotOf, findLastNotOf_all p post hpost, hc]
  | cons x xs ih =>
    rw [List.cons_append, findLastNotOf, ih]
    rfl

/-- `Parser::trim` takes the blanks off both ends of a text that starts and ends with a
character that is not blank. -/
theorem trimChars_blanks (pre post : List Char) (t : List Char) (c0 c1 : Char)
    (u v : List Char) (ht0 : t = c0 :: u) (ht1 : t = v ++ [c1])
    (hpre : ∀ x, x ∈ pre → isBlank x = true) (hpost : ∀ x, x ∈ post → isBlank x = true)
    (h0 : isBlank c0 = false) (h1 : isBlank c1 = false) :
    trimChars (pre ++ t ++ post) = t := by
  have e1 : findFirstNotOf isBlank (pre ++ t ++ post) = some pre.length := by
    rw [ht0, List.append_assoc, List.cons_append]
    exact findFirstNotOf_blanks isBlank pre c0 _ hpre h0
  have e2 : findLastNotOf isBlank (pre ++ t ++ post) = some (pre ++ v).length := by
    rw [ht1, List.append_assoc, List.append_assoc, List.singleton_append, ← List.append_assoc]
    exact findLastNotOf_blanks isBlank (pre ++ v) c1 post h1 hpost
  have hlen : t.length = v.length + 1 := by rw [ht1]; simp
  unfold trimChars
  rw [e1, e2]
  simp only [substr, List.length_append]
  have e3 : pre.length + v.length - pre.length + 1 = t.length := by omega
  rw [e3, List.append_assoc, List.drop_left, List.take_left]

theorem trimChars_tight (t : List Char) (c0 c1 : Char) (u v : List Char)
    (ht0 : t = c0 :: u) (ht1 : t = v ++ [c1])
    (h0 : isBlank c0 = false) (h1 : isBlank c1 = false) : trimChars t = t := by
  have h := trimChars_blanks [] [] t c0 c1 u v ht0 ht1 (by simp) (by simp) h0 h1
  simpa using h

theorem trimChars_lead (t : List Char) (c0 c1 : Char) (u v : List Char)
    (ht0 : t = c0 :: u) (ht1 : t = v ++ [c1])
    (h0 : isBlank c0 = false) (h1 : isBlank c1 = false) : trimChars (' ' :: t) = t := by
  have h := trimChars_blanks [' '] [] t c0 c1 u v ht0 ht1 (by simp [isBlank]) (by simp) h0 h1
  simpa using h

theorem trimChars_trail (t : List Char) (c0 c1 : Char) (u v : List Char)
    (ht0 : t = c0 :: u) (ht1 : t = v ++ [c1])
    (h0 : isBlank c0 = false) (h1 : isBlank c1 = false) : trimChars (t ++ [' ']) = t := by
  have h := trimChars_blanks [] [' '] t c0 c1 u v ht0 ht1 (by simp) (by simp [isBlank]) h0 h1
  simpa using h

/-- A non-empty list has a first and a last element. -/
theorem list_ends {α : Type} (t : List α) (h : t ≠ []) :
    (∃ c0 u, t = c0 :: u) ∧ (∃ v c1, t = v ++ [c1]) := by
  constructor
  · cases t with
    | nil => exact absurd rfl h
    | cons c u => exact ⟨c, u, rfl⟩
  · exact ⟨t.dropLast, t.getLast h, (List.dropLast_append_getLast h).symm⟩

theorem isTokenChar_not_blank (c : Char) (h : isTokenChar c = true) : isBlank c = false := by
  by_contra hb
  simp only [isBlank, Bool.not_eq_false, Bool.or_eq_true, decide_eq_true_eq] at hb
  rcases hb with rfl | rfl <;> exact absurd h (by decide)

theorem isTokenChar_not_space (c : Char) (h : isTokenChar c = true) : isSpace c = false := by
  by_contra hb
  simp only [isSpace, Bool.not_eq_false, Bool.or_eq_true, decide_eq_true_eq] at hb
  rcases hb with ((((rfl | rfl) | rfl) | rfl) | rfl) | rfl <;> exact absurd h (by decide)

/-- A token made of token characters is left alone by `Parser::trim`, with or without a
blank before it. -/
theorem trimChars_token (t : List Char) (hne : t ≠ [])
    (h : ∀ c, c ∈ t → isBlank c = false) :
    trimChars t = t ∧ trimChars (' ' :: t) = t := by
  obtain ⟨⟨c0, u, ht0⟩, ⟨v, c1, ht1⟩⟩ := list_ends t hne
  have h0 : isBlank c0 = false := h c0 (by rw [ht0]; simp)
  have h1 : isBlank c1 = false := h c1 (by rw [ht1]; simp)
  exact ⟨trimChars_tight t c0 c1 u v ht0 ht1 h0 h1, trimChars_lead t c0 c1 u v ht0 ht1 h0 h1⟩

theorem splitLoop_token (d : Char) (t rest cur : List Char) (h : d ∉ t) :
    splitLoop d cur (t ++ rest) = splitLoop d (t.reverse ++ cur) rest := by
  induction t generalizing cur with
  | nil => rfl
  | cons x xs ih =>
    simp only [List.mem_cons, not_or] at h
    rw [List.cons_append, splitLoop, if_neg (Ne.symm h.1), ih _ h.2, List.reverse_cons,
      List.append_assoc, List.singleton_append]

/-- `Parser::split` at commas gives back the operands, each with the blank that follows the
comma. -/
theorem splitLoop_ops (toks : List (List Char)) (hne : toks ≠ [])
    (h : ∀ t, t ∈ toks → ',' ∉ t) :
    splitLoop ',' [] (' ' :: opsChars toks) = toks.map (fun t => ' ' :: t) := by
  induction toks with
  | nil => exact absurd rfl hne
  | cons t ts ih =>
    have ht : ',' ∉ ' ' :: t := by
      simp only [List.mem_cons, not_or]
      exact ⟨by decide, h t (List.mem_cons_self _ _)⟩
    cases ts with
    | nil =>
      have e := splitLoop_token ',' (' ' :: t) [] [] ht
      simp only [List.append_nil] at e
      simp only [opsChars, List.map_cons, List.map_nil]
      rw [e]
      simp [splitLoop]
    | cons t2 ts2 =>
      have e := splitLoop_token ',' (' ' :: t) (',' :: ' ' :: opsChars (t2 :: ts2)) [] ht
      simp only [List.append_nil, List.cons_append] at e
      have ih2 := ih (by simp) (fun x hx => h x (List.mem_cons_of_mem _ hx))
      rw [opsChars, e, splitLoop, if_pos rfl, ih2]
      all_goals simp

theorem takeWhile_stop (p : Char → Bool) (s : List Char) (c : Char) (t : List Char)
    (hs : ∀ x, x ∈ s → p x = true) (hc : p c = false) :
    (s ++ c :: t).takeWhile p = s ∧ (s ++ c :: t).dropWhile p = c :: t := by
  induction s with
  | nil => simp [List.takeWhile, List.dropWhile, hc]
  | cons x xs ih =>
    have hx := hs x (List.mem_cons_self _ _)
    have := ih (fun y hy => hs y (List.mem_cons_of_mem _ hy))
    simp [List.takeWhile, List.dropWhile, hx, this]

theorem takeWhile_all (p : Char → Bool) (s : List Char) (hs : ∀ x, x ∈ s → p x = true) :
    s.takeWhile p = s ∧ s.dropWhile p = [] := by
  induction s with
  | nil => simp
  | cons x xs ih =>
    have hx := hs x (List.mem_cons_self _ _)
    have := ih (fun y hy => hs y (List.mem_cons_of_mem _ hy))
    simp [List.takeWhile, List.dropWhile, hx, this]

/-! ## Operands: what the assembler reads from what the disassembler prints -/

theorem isOperandChar_of_token (c : Char) (h : isTokenChar c = true) :
    isOperandChar c = true := by
  simp [isOperandChar, h]

theorem isOperandChar_ne (c : Char) (h : isOperandChar c = true) :
    c ≠ ',' ∧ c ≠ '#' ∧ c ≠ ':' ∧ c ≠ '\n' ∧ isBlank c = false ∧ isSpace c = false := by
  refine ⟨?_, ?_, ?_, ?_, ?_, ?_⟩
  · rintro rfl; exact absurd h (by decide)
  · rintro rfl; exact absurd h (by decide)
  · rintro rfl; exact absurd h (by decide)
  · rintro rfl; exact absurd h (by decide)
  · by_contra hb
    simp only [isBlank, Bool.not_eq_false, Bool.or_eq_true, decide_eq_true_eq] at hb
    rcases hb with rfl | rfl <;> exact absurd h (by decide)
  · by_contra hb
    simp only [isSpace, Bool.not_eq_false, Bool.or_eq_true, decide_eq_true_eq] at hb
    rcases hb with ((((rfl | rfl) | rfl) | rfl) | rfl) | rfl <;> exact absurd h (by decide)

theorem isTokenChar_ne_paren (c : Char) (h : isTokenChar c = true) : c ≠ '(' ∧ c ≠ ')' := by
  constructor
  · rintro rfl; exact absurd h (by decide)
  · rintro rfl; exact absurd h (by decide)

/-- The register operand `x0` .. `x31` is read back as its number. -/
theorem parseRegister_x (r : Int) (h : 0 ≤ r ∧ r < 32) :
    parseRegister ⟨'x' :: intToChars r⟩ = r := by
  obtain ⟨h0, h1⟩ := h
  lift r to ℕ using h0
  have h2 : r < 32 := by exact_mod_cast h1
  interval_cases r <;> rfl

theorem regToken_chars (r : Int) : ∀ c, c ∈ 'x' :: intToChars r → isTokenChar c = true := by
  intro c hc
  rcases List.mem_cons.1 hc with rfl | hc
  · decide
  · exact intToChars_token r c hc

/-- A decimal numeral is not taken for a label and is read back as its value. -/
theorem parseImmediate_numeral (L : LabelSet) (imm pc : Int)
    (h : -2147483648 ≤ imm ∧ imm ≤ 2147483647)
    (hnot : L.isPresentLabel ⟨intToChars imm⟩ = false) :
    parseImmediate L ⟨intToChars imm⟩ pc = .ok imm := by
  obtain ⟨c, cs, he⟩ := intToChars_head imm
  have htrim : Parser.trim ⟨intToChars imm⟩ = ⟨intToChars imm⟩ := by
    show (⟨trimChars (intToChars imm)⟩ : String) = _
    rw [(trimChars_token (intToChars imm) (by rw [he]; simp)
      (fun x hx => isTokenChar_not_blank x (intToChars_token imm x hx))).1]
  simp only [parseImmediate, htrim, hnot, Bool.false_eq_true, if_false, stoi_intToChars imm h]

/-- The hexadecimal numeral printed for `lui` and `auipc` is read back as its value. -/
theorem parseImmediate_hex (L : LabelSet) (imm pc : Int)
    (h : 0 ≤ imm ∧ imm < 1048576)
    (hnot : L.isPresentLabel ⟨'0' :: 'x' :: hexToChars imm⟩ = false) :
    parseImmediate L ⟨'0' :: 'x' :: hexToChars imm⟩ pc = .ok imm := by
  have hu : toU32 imm = imm.toNat := by unfold toU32; omega
  have hchars : ∀ x, x ∈ '0' :: 'x' :: hexToChars imm → isTokenChar x = true := by
    intro x hx
    rcases List.mem_cons.1 hx with rfl | hx
    · decide
    · rcases List.mem_cons.1 hx with rfl | hx
      · decide
      · exact toDigits_token 16 _ (by norm_num) (by norm_num) x hx
  have htrim : Parser.trim ⟨'0' :: 'x' :: hexToChars imm⟩ = ⟨'0' :: 'x' :: hexToChars imm⟩ := by
    show (⟨trimChars _⟩ : String) = _
    rw [(trimChars_token _ (by simp) (fun x hx => isTokenChar_not_blank x (hchars x hx))).1]
  have hst : stoi ('0' :: 'x' :: hexToChars imm) = .ok imm := by
    unfold hexToChars
    rw [hu, stoi_hexToChars imm.toNat (by omega)]
    congr 1
    omega
  simp only [parseImmediate, htrim, hnot, Bool.false_eq_true, if_false, hst]

/-- The operand `imm(xN)` of loads, stores and `jalr` is read back as its two values. -/
theorem parseMemoryOperand_printed (L : LabelSet) (imm r pc : Int)
    (h : -2147483648 ≤ imm ∧ imm ≤ 2147483647) (hr : 0 ≤ r ∧ r < 32)
    (hnot : L.isPresentLabel ⟨intToChars imm⟩ = false) :
    parseMemoryOperand L ⟨intToChars imm ++ ['('] ++ ('x' :: intToChars r) ++ [')']⟩ pc =
      .ok (some (imm, r)) := by
  have hN1 : '(' ∉ intToChars imm := fun hm =>
    (isTokenChar_ne_paren _ (intToChars_token imm _ hm)).1 rfl
  have hN2 : ')' ∉ intToChars imm := fun hm =>
    (isTokenChar_ne_paren _ (intToChars_token imm _ hm)).2 rfl
  have hX2 : ')' ∉ 'x' :: intToChars r := fun hm =>
    (isTokenChar_ne_paren _ (regToken_chars r _ hm)).2 rfl
  have e1 : findChar '(' (intToChars imm ++ ['('] ++ ('x' :: intToChars r) ++ [')']) =
      some (intToChars imm).length := by
    rw [List.append_assoc, List.append_assoc, List.singleton_append]
    exact findChar_append '(' _ _ hN1
  have e2 : findChar ')' (intToChars imm ++ ['('] ++ ('x' :: intToChars r) ++ [')']) =
      some ((intToChars imm ++ ['('] ++ ('x' :: intToChars r)).length) := by
    apply findChar_append
    intro hm
    rcases List.mem_append.1 hm with hm | hm
    · rcases List.mem_append.1 hm with hm | hm
      · exact hN2 hm
      · simp at hm
    · exact hX2 hm
  have e3 : substr (intToChars imm ++ ['('] ++ ('x' :: intToChars r) ++ [')']) 0
      (intToChars imm).length = intToChars imm := by
    simp only [substr, List.drop_zero, List.append_assoc, List.take_left]
  have e4 : substr (intToChars imm ++ ['('] ++ ('x' :: intToChars r) ++ [')'])
      ((intToChars imm).length + 1)
      ((intToChars imm ++ ['('] ++ ('x' :: intToChars r)).length - (intToChars imm).length - 1)
      = 'x' :: intToChars r := by
    have hl : (intToChars imm ++ ['('] ++ ('x' :: intToChars r)).length - (intToChars imm).length
        - 1 = ('x' :: intToChars r).length := by
      simp only [List.length_append, List.length_cons, List.length_nil]; omega
    have hd : List.drop ((intToChars imm).length + 1)
        (intToChars imm ++ ['('] ++ ('x' :: intToChars r) ++ [')']) =
        ('x' :: intToChars r) ++ [')'] := by
      have : (intToChars imm ++ ['('] ++ ('x' :: intToChars r) ++ [')']) =
          (intToChars imm ++ ['(']) ++ (('x' :: intToChars r) ++ [')']) := by
        simp only [List.append_assoc]
      rw [this]
      have hl2 : (intToChars imm).length + 1 = (intToChars imm ++ ['(']).length := by simp
      rw [hl2, List.drop_left]
    simp only [substr]
    rw [hl, hd, List.take_left]
  simp only [parseMemoryOperand, e1, e2, e3, e4]
  rw [if_neg (by simp only [List.length_append, List.length_cons, List.length_nil]; omega)]
  simp only [parseImmediate_numeral L imm pc h hnot, parseRegister_x r hr]

/-! ## The instruction tables -/

set_option maxRecDepth 100000 in
/-- Every record of a table is the one its mnemonic is looked up to. -/
theorem getByMnemonic_table (mode : ISAMode) :
    ∀ i, i ∈ instructionList mode → getByMnemonic mode i.mnemonic = some i := by
  cases mode <;> decide

set_option maxRecDepth 100000 in
/-- The mnemonics of a table are words of token characters, shifts carry funct3 001 or 101,
and `ecall` and `ebreak` are the only records of their opcode. -/
theorem table_facts (mode : ISAMode) :
    ∀ i, i ∈ instructionList mode →
      (i.mnemonic.data ≠ [] ∧ i.mnemonic.data.all isTokenChar = true) ∧
      (isShiftInstruction i.mnemonic = true → i.funct3 = 1 ∨ i.funct3 = 5) ∧
      (i.format = .I → ((i.mnemonic = "ecall" ∨ i.mnemonic = "ebreak") ↔ i.opcode = 0b1110011)) := by
  cases mode <;> decide

theorem getByEncodedLoop_mem (opcode funct3 funct7 : Nat) (l : List Instruction)
    (r : Instruction) (h : getByEncodedLoop opcode funct3 funct7 l = some r) : r ∈ l := by
  induction l with
  | nil => simp [getByEncodedLoop] at h
  | cons x xs ih =>
    simp only [getByEncodedLoop] at h
    split at h
    · exact List.mem_cons_of_mem _ (ih h)
    · split at h <;> (try split at h) <;> (try split at h) <;> (try split at h) <;>
        first
        | (simp only [Option.some.injEq] at h; subst h; exact List.mem_cons_self _ _)
        | exact List.mem_cons_of_mem _ (ih h)

/-- Lookup by encoded word returns the record that encoded the word. -/
theorem getByEncoded_record (mode : ISAMode) (i : Instruction)
    (hi : i ∈ instructionList mode) (hne : i.mnemonic ≠ "ebreak") (rd rs1 rs2 imm : Int) :
    getByEncoded mode (i.getMachineCode rd rs1 rs2 imm) = some i := by
  have h := getByEncoded_getMachineCode mode i hi hne rd rs1 rs2 imm
  cases hr : getByEncoded mode (i.getMachineCode rd rs1 rs2 imm) with
  | none => rw [hr] at h; simp at h
  | some r =>
    rw [hr] at h
    simp only [Option.map_some', Option.some.injEq] at h
    have hmem : r ∈ instructionList mode := by
      rw [getByEncoded_eq_loop] at hr
      exact getByEncodedLoop_mem _ _ _ _ r hr
    have h1 := getByMnemonic_table mode r hmem
    have h2 := getByMnemonic_table mode i hi
    rw [h] at h1
    rw [h1] at h2
    exact h2


/-! ## Decoding inverts encoding: the remaining formats -/

theorem decode_encode_R (i : Instruction) (hf : i.format = .R) (hfit : i.fieldsFit)
    (rd rs1 rs2 imm : Int)
    (hrd : 0 ≤ rd ∧ rd < 32) (hrs1 : 0 ≤ rs1 ∧ rs1 < 32) (hrs2 : 0 ≤ rs2 ∧ rs2 < 32) :
    i.decodeRegistersAndImmediate (i.getMachineCode rd rs1 rs2 imm) =
      { rd := rd, rs1 := rs1, rs2 := rs2, imm := 0 } := by
  obtain ⟨ho0, ho1, hf0, hf1, hs0, hs1⟩ := hfit
  obtain ⟨h1, h2⟩ := hrd
  obtain ⟨h3, h4⟩ := hrs1
  obtain ⟨h5, h6⟩ := hrs2
  lift rd to ℕ using h1
  lift rs1 to ℕ using h3
  lift rs2 to ℕ using h5
  have hcode := getMachineCode_R i hf rd rs1 rs2 imm
  have r1 : toU32 (rs1 : Int) % 32 = rs1 := by rw [toU32_natCast]; omega
  have r2 : toU32 (rd : Int) % 32 = rd := by rw [toU32_natCast]; omega
  have r3 : toU32 (rs2 : Int) % 32 = rs2 := by rw [toU32_natCast]; omega
  rw [r1, r2, r3, toU32_mod_of_fit i.opcode 128 ho0 ho1 (by norm_num),
    toU32_mod_of_fit i.funct3 8 hf0 hf1 (by norm_num),
    toU32_mod_of_fit i.funct7 128 hs0 hs1 (by norm_num)] at hcode
  have b1 : i.opcode.toNat < 128 := by omega
  have b2 : i.funct3.toNat < 8 := by omega
  have b3 : i.funct7.toNat < 128 := by omega
  generalize i.getMachineCode rd rs1 rs2 imm = code at *
  generalize i.opcode.toNat = op at *
  generalize i.funct3.toNat = f3 at *
  generalize i.funct7.toNat = f7 at *
  have e1 : code / 2 ^ 7 % 2 ^ 5 = rd :=
    extract_field code (f7 * 2 ^ 13 + rs2 * 2 ^ 8 + rs1 * 2 ^ 3 + f3) rd op _ _
      (by omega) (by omega) (by omega)
  have e2 : code / 2 ^ 15 % 2 ^ 5 = rs1 :=
    extract_field code (f7 * 2 ^ 5 + rs2) rs1 (f3 * 2 ^ 12 + rd * 2 ^ 7 + op) _ _
      (by omega) (by omega) (by omega)
  have e3 : code / 2 ^ 20 % 2 ^ 5 = rs2 :=
    extract_field code f7 rs2 (rs1 * 2 ^ 15 + f3 * 2 ^ 12 + rd * 2 ^ 7 + op) _ _
      (by omega) (by omega) (by omega)
  unfold Instruction.decodeRegistersAndImmediate
  rw [hf]
  simp only [extract_eq _ _ _ (by norm_num : 5 < 32), e1, e2, e3]
  rw [toI32_of_lt rd (by omega), toI32_of_lt rs1 (by omega), toI32_of_lt rs2 (by omega)]

theorem decode_encode_U (i : Instruction) (hf : i.format = .U) (hfit : i.fieldsFit)
    (rd rs1 rs2 imm : Int) (hrd : 0 ≤ rd ∧ rd < 32) (himm : 0 ≤ imm ∧ imm < 1048576) :
    i.decodeRegistersAndImmediate (i.getMachineCode rd rs1 rs2 imm) =
      { rd := rd, rs1 := 0, rs2 := 0, imm := imm } := by
  obtain ⟨ho0, ho1, hf0, hf1, hs0, hs1⟩ := hfit
  obtain ⟨h1, h2⟩ := hrd
  obtain ⟨h3, h4⟩ := himm
  lift rd to ℕ using h1
  lift imm to ℕ using h3
  have hcode := getMachineCode_U i hf rd rs1 rs2 imm
  have r2 : toU32 (rd : Int) % 32 = rd := by rw [toU32_natCast]; omega
  have r3 : toU32 (imm : Int) % 1048576 = imm := by rw [toU32_natCast]; omega
  rw [r2, r3, toU32_mod_of_fit i.opcode 128 ho0 ho1 (by norm_num)] at hcode
  have b1 : i.opcode.toNat < 128 := by omega
  generalize i.getMachineCode rd rs1 rs2 imm = code at *
  generalize i.opcode.toNat = op at *
  have e1 : code / 2 ^ 7 % 2 ^ 5 = rd :=
    extract_field code imm rd op _ _ (by omega) (by omega) (by omega)
  have e2 : code / 2 ^ 12 % 2 ^ 20 = imm :=
    extract_field code 0 imm (rd * 2 ^ 7 + op) _ _ (by omega) (by omega) (by omega)
  unfold Instruction.decodeRegistersAndImmediate
  rw [hf]
  simp only [extract_eq _ _ _ (by norm_num : 5 < 32), extract_eq _ _ _ (by norm_num : 20 < 32),
    e1, e2]
  rw [toI32_of_lt rd (by omega), toI32_of_lt imm (by omega)]

/-- Format I, funct3 001 or 101: the decoder returns the five bits 20..24; the shifts
encode their amount there, and a load encodes there the low bits of its offset. -/
theorem decode_encode_I_low (i : Instruction) (hf : i.format = .I) (hfit : i.fieldsFit)
    (h3 : i.funct3 = 1 ∨ i.funct3 = 5) (rd rs1 rs2 imm : Int)
    (hrd : 0 ≤ rd ∧ rd < 32) (hrs1 : 0 ≤ rs1 ∧ rs1 < 32) (himm : 0 ≤ imm ∧ imm < 32) :
    i.decodeRegistersAndImmediate (i.getMachineCode rd rs1 rs2 imm) =
      { rd := rd, rs1 := rs1, rs2 := 0, imm := imm } := by
  obtain ⟨ho0, ho1, hf0, hf1, hs0, hs1⟩ := hfit
  obtain ⟨h1, h2⟩ := hrd
  obtain ⟨h3a, h4⟩ := hrs1
  obtain ⟨h5, h6⟩ := himm
  lift rd to ℕ using h1
  lift rs1 to ℕ using h3a
  lift imm to ℕ using h5
  have r1 : toU32 (rs1 : Int) % 32 = rs1 := by rw [toU32_natCast]; omega
  have r2 : toU32 (rd : Int) % 32 = rd := by rw [toU32_natCast]; omega
  have r3 : toU32 (imm : Int) % 32 = imm := by rw [toU32_natCast]; omega
  have r4 : toU32 (imm : Int) % 4096 = imm := by rw [toU32_natCast]; omega
  have b1 : i.opcode.toNat < 128 := by omega
  have b2 : i.funct3.toNat < 8 := by omega
  have b3 : i.funct7.toNat < 128 := by omega
  have hf3 : (i.funct3.toNat : Int) = i.funct3 := Int.toNat_of_nonneg hf0
  have hcode : ∃ hi, hi < 128 ∧ i.getMachineCode rd rs1 rs2 imm =
      hi * 2 ^ 25 + imm * 2 ^ 20 + rs1 * 2 ^ 15 + i.funct3.toNat * 2 ^ 12 + rd * 2 ^ 7
        + i.opcode.toNat := by
    by_cases hs : isShiftInstruction i.mnemonic = true
    · refine ⟨i.funct7.toNat, b3, ?_⟩
      rw [getMachineCode_I_shift i hf hs, r1, r2, r3,
        toU32_mod_of_fit i.opcode 128 ho0 ho1 (by norm_num),
        toU32_mod_of_fit i.funct3 8 hf0 hf1 (by norm_num),
        toU32_mod_of_fit i.funct7 128 hs0 hs1 (by norm_num)]
    · refine ⟨0, by norm_num, ?_⟩
      rw [getMachineCode_I i hf (by simpa using hs), r1, r2, r4,
        toU32_mod_of_fit i.opcode 128 ho0 ho1 (by norm_num),
        toU32_mod_of_fit i.funct3 8 hf0 hf1 (by norm_num)]
      ring
  obtain ⟨hi, hhi, hcode⟩ := hcode
  generalize i.getMachineCode rd rs1 rs2 imm = code at *
  generalize i.opcode.toNat = op at *
  have e1 : code / 2 ^ 7 % 2 ^ 5 = rd :=
    extract_field code (hi * 2 ^ 13 + imm * 2 ^ 8 + rs1 * 2 ^ 3 + i.funct3.toNat) rd op _ _
      (by omega) (by omega) (by omega)
  have e2 : code / 2 ^ 15 % 2 ^ 5 = rs1 :=
    extract_field code (hi * 2 ^ 5 + imm) rs1 (i.funct3.toNat * 2 ^ 12 + rd * 2 ^ 7 + op) _ _
      (by omega) (by omega) (by omega)
  have e3 : code / 2 ^ 12 % 2 ^ 3 = i.funct3.toNat :=
    extract_field code (hi * 2 ^ 10 + imm * 2 ^ 5 + rs1) i.funct3.toNat (rd * 2 ^ 7 + op) _ _
      (by omega) (by omega) (by omega)
  have e4 : code / 2 ^ 20 % 2 ^ 5 = imm :=
    extract_field code hi imm (rs1 * 2 ^ 15 + i.funct3.toNat * 2 ^ 12 + rd * 2 ^ 7 + op) _ _
      (by omega) (by omega) (by omega)
  unfold Instruction.decodeRegistersAndImmediate
  rw [hf]
  simp only [extract_eq _ _ _ (by norm_num : 5 < 32), extract_eq _ _ _ (by norm_num : 3 < 32),
    e1, e2, e3, e4]
  rw [toI32_of_lt rd (by omega), toI32_of_lt rs1 (by omega), toI32_of_lt _ (by omega), hf3,
    if_pos h3, toI32_of_lt imm (by omega)]

/-! ## A printed line under `cleanLine`, `operator>>` and `split` -/

theorem opsChars_mem (toks : List (List Char)) (c : Char) (h : c ∈ opsChars toks) :
    c = ',' ∨ c = ' ' ∨ ∃ t, t ∈ toks ∧ c ∈ t := by
  induction toks with
  | nil => simp [opsChars] at h
  | cons t ts ih =>
    cases ts with
    | nil =>
      simp only [opsChars] at h
      exact Or.inr (Or.inr ⟨t, List.mem_cons_self _ _, h⟩)
    | cons t2 ts2 =>
      rw [opsChars] at h
      · rcases List.mem_append.1 h with h | h
        · exact Or.inr (Or.inr ⟨t, List.mem_cons_self _ _, h⟩)
        · rcases List.mem_cons.1 h with rfl | h
          · exact Or.inl rfl
          · rcases List.mem_cons.1 h with rfl | h
            · exact Or.inr (Or.inl rfl)
            · rcases ih h with h | h | ⟨x, hx, hc⟩
              · exact Or.inl h
              · exact Or.inr (Or.inl h)
              · exact Or.inr (Or.inr ⟨x, List.mem_cons_of_mem _ hx, hc⟩)
      · simp

theorem opsChars_last (toks : List (List Char)) (hne : toks ≠ [])
    (h : ∀ t, t ∈ toks → t ≠ []) :
    ∃ v c1 t, opsChars toks = v ++ [c1] ∧ t ∈ toks ∧ c1 ∈ t := by
  induction toks with
  | nil => exact absurd rfl hne
  | cons t ts ih =>
    cases ts with
    | nil =>
      obtain ⟨_, v, c1, hv⟩ := list_ends t (h t (List.mem_cons_self _ _))
      exact ⟨v, c1, t, by simp only [opsChars]; exact hv, List.mem_cons_self _ _,
        by rw [hv]; simp⟩
    | cons t2 ts2 =>
      obtain ⟨v, c1, x, hv, hx, hc⟩ := ih (by simp) (fun y hy => h y (List.mem_cons_of_mem _ hy))
      refine ⟨t ++ ',' :: ' ' :: v, c1, x, ?_, List.mem_cons_of_mem _ hx, hc⟩
      rw [opsChars, hv]
      · simp
      · simp

/-- What `cleanLine` makes of a printed line: the line itself, or the mnemonic alone when no
operand follows it; no colon is in it, and it does not start a comment. -/
theorem cleanLine_printed (mn : List Char) (toks : List (List Char))
    (hmn : mn ≠ []) (hmnc : ∀ c, c ∈ mn → isTokenChar c = true)
    (htoks : ∀ t, t ∈ toks → t ≠ [] ∧ ∀ c, c ∈ t → isOperandChar c = true) :
    cleanLineChars (mn ++ ' ' :: opsChars toks) =
        (if toks = [] then mn else mn ++ ' ' :: opsChars toks) ∧
      findChar ':' (if toks = [] then mn else mn ++ ' ' :: opsChars toks) = none ∧
      ∃ c0 u, (if toks = [] then mn else mn ++ ' ' :: opsChars toks) = c0 :: u ∧
        isTokenChar c0 = true := by
  obtain ⟨⟨c0, u, hm0⟩, ⟨v, c1, hm1⟩⟩ := list_ends mn hmn
  have hc0 : isTokenChar c0 = true := hmnc c0 (by rw [hm0]; simp)
  have hc1 : isTokenChar c1 = true := hmnc c1 (by rw [hm1]; simp)
  have hline : ∀ c, c ∈ mn ++ ' ' :: opsChars toks → c ≠ '#' ∧ c ≠ ':' := by
    intro c hc
    rcases List.mem_append.1 hc with hc | hc
    · have := isOperandChar_ne c (isOperandChar_of_token c (hmnc c hc))
      exact ⟨this.2.1, this.2.2.1⟩
    · rcases List.mem_cons.1 hc with rfl | hc
      · exact ⟨by decide, by decide⟩
      · rcases opsChars_mem toks c hc with rfl | rfl | ⟨t, ht, hct⟩
        · exact ⟨by decide, by decide⟩
        · exact ⟨by decide, by decide⟩
        · have := isOperandChar_ne c ((htoks t ht).2 c hct)
          exact ⟨this.2.1, this.2.2.1⟩
  have hnc : findChar '#' (mn ++ ' ' :: opsChars toks) = none :=
    findChar_none _ _ (fun hm => (hline _ hm).1 rfl)
  unfold cleanLineChars
  simp only [hnc]
  by_cases ht : toks = []
  · subst ht
    simp only [opsChars, if_true]
    refine ⟨trimChars_trail mn c0 c1 u v hm0 hm1 (isTokenChar_not_blank _ hc0)
      (isTokenChar_not_blank _ hc1), ?_, c0, u, hm0, hc0⟩
    exact findChar_none _ _ (fun hm => (hline ':' (by simp [hm])).2 rfl)
  · simp only [if_neg ht]
    obtain ⟨w, d1, t, hw, htm, hd⟩ := opsChars_last toks ht (fun t h => (htoks t h).1)
    have hd1 : isBlank d1 = false := (isOperandChar_ne d1 ((htoks t htm).2 d1 hd)).2.2.2.2.1
    refine ⟨trimChars_tight _ c0 d1 (u ++ ' ' :: opsChars toks) (mn ++ ' ' :: w)
      (by rw [hm0]; rfl) (by rw [hw]; simp) (isTokenChar_not_blank _ hc0) hd1, ?_,
      c0, u ++ ' ' :: opsChars toks, by rw [hm0]; rfl, hc0⟩
    exact findChar_none _ _ (fun hm => (hline ':' hm).2 rfl)

/-- `ss >> mnemonic` and `getline` on a printed line. -/
theorem readMnemonic_printed (mn : List Char) (toks : List (List Char))
    (hmn : mn ≠ []) (hmnc : ∀ c, c ∈ mn → isTokenChar c = true)
    (htoks : ∀ t, t ∈ toks → t ≠ [] ∧ ∀ c, c ∈ t → isOperandChar c = true) :
    readMnemonic (if toks = [] then mn else mn ++ ' ' :: opsChars toks) =
      (⟨mn⟩, ⟨if toks = [] then [] else ' ' :: opsChars toks⟩) := by
  have hns : ∀ x, x ∈ mn → (fun c => !isSpace c) x = true := by
    intro x hx
    simp [isTokenChar_not_space x (hmnc x hx)]
  obtain ⟨⟨c0, u, hm0⟩, _⟩ := list_ends mn hmn
  have hc0 : isSpace c0 = false := isTokenChar_not_space c0 (hmnc c0 (by rw [hm0]; simp))
  by_cases ht : toks = []
  · simp only [if_pos ht, readMnemonic]
    have hd : mn.dropWhile isSpace = mn := by rw [hm0]; simp [List.dropWhile, hc0]
    rw [hd, (takeWhile_all _ mn hns).1, (takeWhile_all _ mn hns).2]
    rfl
  · simp only [if_neg ht, readMnemonic]
    have hd : (mn ++ ' ' :: opsChars toks).dropWhile isSpace = mn ++ ' ' :: opsChars toks := by
      rw [hm0]; simp [List.dropWhile, hc0]
    have hsp : (fun c => !isSpace c) ' ' = false := by decide
    rw [hd, (takeWhile_stop _ mn ' ' (opsChars toks) hns hsp).1,
      (takeWhile_stop _ mn ' ' (opsChars toks) hns hsp).2]
    have hnl : ∀ x, x ∈ ' ' :: opsChars toks → (fun c => decide (c ≠ '\n')) x = true := by
      intro x hx
      rcases List.mem_cons.1 hx with rfl | hx
      · decide
      · rcases opsChars_mem toks x hx with rfl | rfl | ⟨t, ht2, hct⟩
        · decide
        · decide
        · have := (isOperandChar_ne x ((htoks t ht2).2 x hct)).2.2.2.1
          simpa using this
    rw [(takeWhile_all _ _ hnl).1]

/-- `Parser::split` gives back the operands of a printed line. -/
theorem split_printed (toks : List (List Char))
    (htoks : ∀ t, t ∈ toks → t ≠ [] ∧ ∀ c, c ∈ t → isOperandChar c = true) :
    Parser.split ⟨if toks = [] then [] else ' ' :: opsChars toks⟩ ',' =
      toks.map (fun t => (⟨t⟩ : String)) := by
  by_cases ht : toks = []
  · subst ht
    simp [Parser.split, splitLoop]
  · simp only [if_neg ht, Parser.split]
    rw [splitLoop_ops toks ht (fun t h hm => (isOperandChar_ne ',' ((htoks t h).2 _ hm)).1 rfl),
      List.map_map]
    apply List.map_congr_left
    intro t h
    simp only [Function.comp]
    rw [(trimChars_token t (htoks t h).1
      (fun c hc => (isOperandChar_ne c ((htoks t h).2 c hc)).2.2.2.2.1)).2]

/-! ## The line of an instruction, assembled -/

theorem formatOperands_tokens (L : LabelSet) (s : SourceInstr) (pc : Nat) :
    (formatOperands L s.instr s.rd s.rs1 s.rs2 s.imm pc).data = opsChars (s.tokens L pc) := by
  unfold formatOperands SourceInstr.tokens
  cases s.instr.format
  · simp [opsChars]
  · simp only []
    split
    · simp [opsChars]
    · split <;> simp [opsChars]
  · simp [opsChars]
  · simp [opsChars]
  · simp [opsChars]
  · simp [opsChars]

theorem line_data (L : LabelSet) (s : SourceInstr) (pc : Nat) :
    (s.line L pc).data = s.instr.mnemonic.data ++ ' ' :: opsChars (s.tokens L pc) := by
  unfold SourceInstr.line
  rw [String.data_append, String.data_append, formatOperands_tokens]
  simp

theorem toI32_toU32_id (x : Int) (h : -2147483648 ≤ x ∧ x < 2147483648) :
    toI32 (toU32 x) = x := by
  unfold toI32 toU32
  split <;> omega

/-- The target of a branch or jump, as printed, is a non-empty word of token characters. -/
theorem target_token (L : LabelSet) (hL : L.Readable) (imm : Int) (pc : Nat) :
    (if L.isPresentPC (toI32 (toU32 ((pc : Int) + imm))) then
          (L.getLabel (toI32 (toU32 ((pc : Int) + imm))) false).data
        else intToChars imm) ≠ [] ∧
    ∀ c, c ∈ (if L.isPresentPC (toI32 (toU32 ((pc : Int) + imm))) then
          (L.getLabel (toI32 (toU32 ((pc : Int) + imm))) false).data
        else intToChars imm) → isTokenChar c = true := by
  cases hfind : mapFind (toI32 (toU32 ((pc : Int) + imm))) L.addressToLabels with
  | none =>
    have hp : L.isPresentPC (toI32 (toU32 ((pc : Int) + imm))) = false := by
      simp [LabelSet.isPresentPC, hfind]
    simp only [hp, Bool.false_eq_true, if_false]
    obtain ⟨c, cs, he⟩ := intToChars_head imm
    exact ⟨by rw [he]; simp, intToChars_token imm⟩
  | some name =>
    have hp : L.isPresentPC (toI32 (toU32 ((pc : Int) + imm))) = true := by
      simp [LabelSet.isPresentPC, hfind]
    have hg : L.getLabel (toI32 (toU32 ((pc : Int) + imm))) false = name := by
      simp [LabelSet.getLabel, hfind]
    obtain ⟨_, _, h3, h4⟩ := hL.byAddress _ name hfind
    simp only [hp, if_true, hg]
    exact ⟨h3, h4⟩

/-- The operand of a branch or jump: the label the disassembler prints for the target, or
the offset when there is none; either is read back as the offset. -/
theorem parseImmediate_target (L : LabelSet) (hL : L.Readable) (imm : Int) (pc : Nat)
    (hpc : pc < 1073741824) (h : -1048576 ≤ imm ∧ imm ≤ 1048574)
    (hnot : L.isPresentPC (toI32 (toU32 ((pc : Int) + imm))) = false →
      L.isPresentLabel ⟨intToChars imm⟩ = false) :
    parseImmediate L
      ⟨if L.isPresentPC (toI32 (toU32 ((pc : Int) + imm))) then
          (L.getLabel (toI32 (toU32 ((pc : Int) + imm))) false).data
        else intToChars imm⟩ (toI32 pc) = .ok imm := by
  have hP : toI32 (toU32 ((pc : Int) + imm)) = (pc : Int) + imm :=
    toI32_toU32_id _ (by omega)
  have hipc : toI32 pc = (pc : Int) := toI32_of_lt pc (by omega)
  rw [hP] at hnot
  rw [hP, hipc]
  cases hfind : mapFind ((pc : Int) + imm) L.addressToLabels with
  | none =>
    have hp : L.isPresentPC ((pc : Int) + imm) = false := by
      simp [LabelSet.isPresentPC, hfind]
    simp only [hp, Bool.false_eq_true, if_false]
    exact parseImmediate_numeral L imm pc (by omega) (hnot hp)
  | some name =>
    have hp : L.isPresentPC ((pc : Int) + imm) = true := by
      simp [LabelSet.isPresentPC, hfind]
    have hg : L.getLabel ((pc : Int) + imm) false = name := by
      simp [LabelSet.getLabel, hfind]
    obtain ⟨h1, h2, h3, h4⟩ := hL.byAddress _ name hfind
    simp only [hp, if_true, hg]
    have htrim : Parser.trim ⟨name.data⟩ = name := by
      show (⟨trimChars name.data⟩ : String) = name
      rw [(trimChars_token name.data h3 (fun x hx => isTokenChar_not_blank x (h4 x hx))).1]
    simp only [parseImmediate, htrim, h1, if_true, h2]
    congr 1
    omega

/-- What `numeralIsNoLabel` says for each format. -/
theorem numeral_facts (L : LabelSet) (s : SourceInstr) (pc : Nat)
    (h : s.numeralIsNoLabel L pc = true) :
    (s.instr.format = .I → ¬(s.instr.mnemonic = "ecall" ∨ s.instr.mnemonic = "ebreak") →
      L.isPresentLabel ⟨intToChars s.imm⟩ = false) ∧
    (s.instr.format = .S → L.isPresentLabel ⟨intToChars s.imm⟩ = false) ∧
    (s.instr.format = .U → L.isPresentLabel ⟨'0' :: 'x' :: hexToChars s.imm⟩ = false) ∧
    (s.instr.format = .B ∨ s.instr.format = .J →
      L.isPresentPC (toI32 (toU32 ((pc : Int) + s.imm))) = false →
      L.isPresentLabel ⟨intToChars s.imm⟩ = false) := by
  unfold SourceInstr.numeralIsNoLabel SourceInstr.numeral at h
  simp only [] at h
  refine ⟨fun hf hne => ?_, fun hf => ?_, fun hf => ?_, fun hf hp => ?_⟩
  · rw [hf] at h
    simp only [if_neg hne] at h
    simpa using h
  · rw [hf] at h
    simpa using h
  · rw [hf] at h
    simpa using h
  · rcases hf with hf | hf <;> rw [hf] at h <;> simp only [hp] at h <;> simpa using h

/-- The operands printed for an instruction are non-empty words of operand characters. -/
theorem tokens_ok (L : LabelSet) (hL : L.Readable) (s : SourceInstr) (pc : Nat) :
    ∀ t, t ∈ s.tokens L pc → t ≠ [] ∧ ∀ c, c ∈ t → isOperandChar c = true := by
  have hx : ∀ r : Int, ('x' :: intToChars r) ≠ [] ∧
      ∀ c, c ∈ 'x' :: intToChars r → isOperandChar c = true :=
    fun r => ⟨by simp, fun c hc => isOperandChar_of_token c (regToken_chars r c hc)⟩
  have hm : ∀ imm r : Int, (intToChars imm ++ ['('] ++ ('x' :: intToChars r) ++ [')']) ≠ [] ∧
      ∀ c, c ∈ intToChars imm ++ ['('] ++ ('x' :: intToChars r) ++ [')'] →
        isOperandChar c = true := by
    intro imm r
    refine ⟨by simp, fun c hc => ?_⟩
    simp only [List.mem_append, List.mem_singleton] at hc
    rcases hc with ((hc | rfl) | hc) | rfl
    · exact isOperandChar_of_token c (intToChars_token imm c hc)
    · decide
    · exact isOperandChar_of_token c (regToken_chars r c hc)
    · decide
  have hn : ∀ imm : Int, intToChars imm ≠ [] ∧
      ∀ c, c ∈ intToChars imm → isOperandChar c = true := by
    intro imm
    obtain ⟨c, cs, he⟩ := intToChars_head imm
    exact ⟨by rw [he]; simp, fun c hc => isOperandChar_of_token c (intToChars_token imm c hc)⟩
  intro t ht
  unfold SourceInstr.tokens at ht
  cases hf : s.instr.format <;> rw [hf] at ht <;> simp only [] at ht
  · simp only [List.mem_cons, List.mem_singleton, List.not_mem_nil, or_false] at ht
    rcases ht with rfl | rfl | rfl <;> exact hx _
  · split at ht
    · simp at ht
    · split at ht
      · simp only [List.mem_cons, List.mem_singleton, List.not_mem_nil, or_false] at ht
        rcases ht with rfl | rfl
        · exact hx _
        · exact hm _ _
      · simp only [List.mem_cons, List.mem_singleton, List.not_mem_nil, or_false] at ht
        rcases ht with rfl | rfl | rfl
        · exact hx _
        · exact hx _
        · exact hn _
  · simp only [List.mem_cons, List.mem_singleton, List.not_mem_nil, or_false] at ht
    rcases ht with rfl | rfl
    · exact hx _
    · exact hm _ _
  · simp only [List.mem_cons, List.mem_singleton, List.not_mem_nil, or_false] at ht
    have htg := target_token L hL s.imm pc
    rcases ht with rfl | rfl | rfl
    · exact hx _
    · exact hx _
    · exact ⟨htg.1, fun c hc => isOperandChar_of_token c (htg.2 c hc)⟩
  · simp only [List.mem_cons, List.mem_singleton, List.not_mem_nil, or_false] at ht
    rcases ht with rfl | rfl
    · exact hx _
    · refine ⟨by simp, fun c hc => ?_⟩
      rcases List.mem_cons.1 hc with rfl | hc
      · decide
      · rcases List.mem_cons.1 hc with rfl | hc
        · decide
        · exact isOperandChar_of_token c
            (toDigits_token 16 _ (by norm_num) (by norm_num) c hc)
  · simp only [List.mem_cons, List.mem_singleton, List.not_mem_nil, or_false] at ht
    have htg := target_token L hL s.imm pc
    rcases ht with rfl | rfl
    · exact hx _
    · exact ⟨htg.1, fun c hc => isOperandChar_of_token c (htg.2 c hc)⟩

/-- The assembler reads the line printed for an instruction in range back as that
instruction. -/
theorem assembleLine_printed (mode : ISAMode) (L : LabelSet) (hL : L.Readable)
    (s : SourceInstr) (hs : s.instr ∈ instructionList mode) (hr : s.readsBack)
    (pc : Nat) (hpc : pc < 1073741824) (hnum : s.numeralIsNoLabel L pc = true) :
    assembleLine mode L ⟨cleanLineChars (s.line L pc).data⟩ pc =
      .ok (some { instruction := s.instr, rd := s.rd, rs1 := s.rs1, rs2 := s.rs2,
                  imm := s.imm, originalCode := ⟨cleanLineChars (s.line L pc).data⟩,
                  pc := pc }) := by
  have htok := tokens_ok L hL s pc
  obtain ⟨hnI, hnS, hnU, hnB⟩ := numeral_facts L s pc hnum
  obtain ⟨⟨hmn, hmnc⟩, hshift, hsys⟩ := table_facts mode s.instr hs
  have hmnc2 : ∀ c, c ∈ s.instr.mnemonic.data → isTokenChar c = true :=
    fun c hc => List.all_eq_true.1 hmnc c hc
  obtain ⟨hclean, _, _⟩ := cleanLine_printed s.instr.mnemonic.data (s.tokens L pc) hmn hmnc2 htok
  have hread := readMnemonic_printed s.instr.mnemonic.data (s.tokens L pc) hmn hmnc2 htok
  have hsplit := split_printed (s.tokens L pc) htok
  have hget := getByMnemonic_table mode s.instr hs
  have hipc : toI32 pc = (pc : Int) := toI32_of_lt pc (by omega)
  rw [line_data, hclean]
  generalize horig : (⟨if s.tokens L pc = [] then s.instr.mnemonic.data
    else s.instr.mnemonic.data ++ ' ' :: opsChars (s.tokens L pc)⟩ : String) = orig
  have hdata : orig.data = if s.tokens L pc = [] then s.instr.mnemonic.data
      else s.instr.mnemonic.data ++ ' ' :: opsChars (s.tokens L pc) := by rw [← horig]
  unfold assembleLine
  simp only [hdata, hread, hget, hsplit]
  unfold SourceInstr.readsBack at hr
  unfold SourceInstr.tokens
  cases hf : s.instr.format <;> rw [hf] at hr <;> simp only [] at hr ⊢
  · obtain ⟨h1, h2, h3, h4⟩ := hr
    simp [operandAt, parseRegister_x _ h1, parseRegister_x _ h2, parseRegister_x _ h3, h4]
  · by_cases he : s.instr.mnemonic = "ecall"
    · rw [if_pos he] at hr
      obtain ⟨h1, h2, h3, h4⟩ := hr
      simp [he, h1, h2, h3, h4]
    · rw [if_neg he] at hr
      by_cases hb : s.instr.mnemonic = "ebreak"
      · rw [if_pos hb] at hr
        obtain ⟨h1, h2, h3, h4⟩ := hr
        simp [hb, h1, h2, h3, h4]
      · rw [if_neg hb] at hr
        obtain ⟨h1, h2, h3, h4⟩ := hr
        have himm : -2147483648 ≤ s.imm ∧ s.imm ≤ 2147483647 := by
          split at h4 <;> omega
        have hne : ¬(s.instr.mnemonic = "ecall" ∨ s.instr.mnemonic = "ebreak") := by
          rintro (h | h)
          · exact he h
          · exact hb h
        simp only [if_neg hne]
        by_cases hl : (isLoadInstruction s.instr.mnemonic || s.instr.mnemonic = "jalr") = true
        · simp only [hl, if_true, List.map_cons, List.map_nil, List.length_cons,
            List.length_nil, operandAt, List.get?_cons_zero, List.get?_cons_succ, hipc,
            parseMemoryOperand_printed L s.imm s.rs1 pc himm h2 (hnI hf hne),
            parseRegister_x _ h1, h3]
        · simp only [hl, Bool.false_eq_true, if_false, List.map_cons, List.map_nil,
            List.length_cons, List.length_nil, operandAt, List.get?_cons_zero,
            List.get?_cons_succ, hipc, parseImmediate_numeral L s.imm pc himm (hnI hf hne),
            parseRegister_x _ h1, parseRegister_x _ h2, h3]
          simp
  · obtain ⟨h1, h2, h3, h4, h5⟩ := hr
    simp only [List.map_cons, List.map_nil, List.length_cons, List.length_nil, operandAt,
      List.get?_cons_zero, List.get?_cons_succ, hipc,
      parseMemoryOperand_printed L s.imm s.rs1 pc (by omega) h2 (hnS hf),
      parseRegister_x _ h3, h1]
    simp
  · obtain ⟨h1, h2, h3, h4, h5, h6⟩ := hr
    have htg := parseImmediate_target L hL s.imm pc hpc (by omega) (hnB (Or.inl hf))
    rw [hipc] at htg
    simp only [List.map_cons, List.map_nil, List.length_cons, List.length_nil, operandAt,
      List.get?_cons_zero, List.get?_cons_succ, hipc, htg, parseRegister_x _ h2,
      parseRegister_x _ h3, h1]
    simp
  · obtain ⟨h1, h2, h3, h4, h5⟩ := hr
    simp only [List.map_cons, List.map_nil, List.length_cons, List.length_nil, operandAt,
      List.get?_cons_zero, List.get?_cons_succ, hipc,
      parseImmediate_hex L s.imm pc ⟨h4, h5⟩ (hnU hf), parseRegister_x _ h1, h2, h3]
    simp
  · obtain ⟨h1, h2, h3, h4, h5, h6⟩ := hr
    have htg := parseImmediate_target L hL s.imm pc hpc ⟨h4, h5⟩ (hnB (Or.inr hf))
    rw [hipc] at htg
    simp only [List.map_cons, List.map_nil, List.length_cons, List.length_nil, operandAt,
      List.get?_cons_zero, List.get?_cons_succ, hipc, htg, parseRegister_x _ h1, h2, h3]
    simp

/-! ## The word of an instruction, disassembled -/

/-- Decoding the word of an instruction in range returns its operand values. -/
theorem decode_printed (mode : ISAMode) (s : SourceInstr)
    (hs : s.instr ∈ instructionList mode) (hr : s.readsBack)
    (hsys : ¬(s.instr.mnemonic = "ecall" ∨ s.instr.mnemonic = "ebreak")) :
    s.instr.decodeRegistersAndImmediate (s.instr.getMachineCode s.rd s.rs1 s.rs2 s.imm) =
      { rd := s.rd, rs1 := s.rs1, rs2 := s.rs2, imm := s.imm } := by
  have hfit := instructionList_fieldsFit mode s.instr hs
  obtain ⟨_, hshift, _⟩ := table_facts mode s.instr hs
  unfold SourceInstr.readsBack at hr
  cases hf : s.instr.format <;> rw [hf] at hr <;> simp only [] at hr
  · obtain ⟨h1, h2, h3, h4⟩ := hr
    rw [decode_encode_R s.instr hf hfit s.rd s.rs1 s.rs2 s.imm h1 h2 h3, h4]
  · rw [if_neg (fun h => hsys (Or.inl h)), if_neg (fun h => hsys (Or.inr h))] at hr
    obtain ⟨h1, h2, h3, h4⟩ := hr
    by_cases h35 : s.instr.funct3 = 1 ∨ s.instr.funct3 = 5
    · rw [if_pos h35] at h4
      rw [decode_encode_I_low s.instr hf hfit h35 s.rd s.rs1 s.rs2 s.imm h1 h2 h4, h3]
    · rw [if_neg h35] at h4
      have hns : isShiftInstruction s.instr.mnemonic = false := by
        by_contra hc
        exact h35 (hshift (by simpa using hc))
      rw [decode_encode_I s.instr hf hns hfit ⟨fun h => h35 (Or.inl h), fun h => h35 (Or.inr h)⟩
        s.rd s.rs1 s.rs2 s.imm h1 h2 h4, h3]
  · obtain ⟨h1, h2, h3, h4, h5⟩ := hr
    rw [decode_encode_S s.instr hf s.rd s.rs1 s.rs2 s.imm h2 h3 ⟨h4, h5⟩, h1]
  · obtain ⟨h1, h2, h3, h4, h5, h6⟩ := hr
    rw [decode_encode_B s.instr hf s.rd s.rs1 s.rs2 s.imm h2 h3 ⟨h4, h5⟩ h6, h1]
  · obtain ⟨h1, h2, h3, h4, h5⟩ := hr
    rw [decode_encode_U s.instr hf hfit s.rd s.rs1 s.rs2 s.imm h1 ⟨h4, h5⟩, h2, h3]
  · obtain ⟨h1, h2, h3, h4, h5, h6⟩ := hr
    rw [decode_encode_J s.instr hf s.rd s.rs1 s.rs2 s.imm h1 ⟨h4, h5⟩ h6, h2, h3]

/-- The disassembler prints, for the word of an instruction in range, the label line of its
address if a label is defined there, and the line of the instruction. -/
theorem disassembleWord_printed (mode : ISAMode) (L : LabelSet) (s : SourceInstr)
    (hs : s.instr ∈ instructionList mode) (hr : s.readsBack) (i : Nat) :
    disassembleWord mode L i (s.instr.getMachineCode s.rd s.rs1 s.rs2 s.imm) =
      (if L.isPresentPC (toI32 ((0 + i * 4) % 4294967296)) then
          [L.getLabel (toI32 ((0 + i * 4) % 4294967296)) true ++ ":"] else []) ++
        [s.line L ((0 + i * 4) % 4294967296)] := by
  obtain ⟨h1, _, h3, h4, h5⟩ := system_table mode
  by_cases he : s.instr.mnemonic = "ecall"
  · have hrec := h5 s.instr hs he
    have hr2 := hr
    unfold SourceInstr.readsBack at hr2
    rw [hrec] at hr2
    simp only [ecallRecord, if_true] at hr2
    obtain ⟨e1, e2, e3, e4⟩ := hr2
    have hcode : getByEncoded mode (ecallRecord.getMachineCode 0 0 0 0) = some ecallRecord :=
      getByEncoded_system mode ecallRecord (Or.inl rfl) _ _ _ _
    have hd : (ecallRecord.decodeRegistersAndImmediate
        (ecallRecord.getMachineCode 0 0 0 0)).imm = 0 := by decide
    have hm : ecallRecord.mnemonic = "ecall" := rfl
    have hfo : ∀ rd rs1 rs2 imm pc, formatOperands L ecallRecord rd rs1 rs2 imm pc = "" := by
      intro rd rs1 rs2 imm pc
      simp [formatOperands, ecallRecord]
    unfold disassembleWord SourceInstr.line
    rw [hrec, e1, e2, e3, e4]
    simp only [hcode, hd, hm, hfo]
    simp [hm, hfo]
  · by_cases hb : s.instr.mnemonic = "ebreak"
    · have hrec := h4 s.instr hs hb
      have hr2 := hr
      unfold SourceInstr.readsBack at hr2
      rw [hrec] at hr2
      simp only [ebreakRecord] at hr2
      rw [if_pos trivial] at hr2
      obtain ⟨e1, e2, e3, e4⟩ := hr2
      have hcode : getByEncoded mode (ebreakRecord.getMachineCode 0 0 0 1) = some ecallRecord :=
        getByEncoded_system mode ebreakRecord (Or.inr rfl) _ _ _ _
      have hd : (ecallRecord.decodeRegistersAndImmediate
          (ebreakRecord.getMachineCode 0 0 0 1)).imm = 1 := by decide
      have hm : ecallRecord.mnemonic = "ecall" := rfl
      have hm2 : ebreakRecord.mnemonic = "ebreak" := rfl
      have hfo : ∀ rd rs1 rs2 imm pc,
          formatOperands L ebreakRecord rd rs1 rs2 imm pc = "" := by
        intro rd rs1 rs2 imm pc
        simp [formatOperands, ebreakRecord]
      unfold disassembleWord SourceInstr.line
      rw [hrec, e1, e2, e3, e4]
      simp only [hcode, hd, hm, hm2, h3, hfo]
      simp [hm2, hfo]
    · have hsys : ¬(s.instr.mnemonic = "ecall" ∨ s.instr.mnemonic = "ebreak") := by
        rintro (h | h)
        · exact he h
        · exact hb h
      have hcode := getByEncoded_record mode s.instr hs hb s.rd s.rs1 s.rs2 s.imm
      have hdec := decode_printed mode s hs hr hsys
      unfold disassembleWord SourceInstr.line
      simp only [hcode, hdec, he, false_and, if_false]

/-! ## Association lists -/

theorem mapInsert_append {α β : Type} [DecidableEq α] (k : α) (v : β) (l : List (α × β))
    (h : k ∉ l.map Prod.fst) : mapInsert k v l = l ++ [(k, v)] := by
  induction l with
  | nil => rfl
  | cons e rest ih =>
    simp only [List.map_cons, List.mem_cons, not_or] at h
    simp only [mapInsert, if_neg (Ne.symm h.1), ih h.2, List.cons_append]

theorem mapFind_none {α β : Type} [DecidableEq α] (k : α) (l : List (α × β))
    (h : k ∉ l.map Prod.fst) : mapFind k l = none := by
  induction l with
  | nil => rfl
  | cons e rest ih =>
    simp only [List.map_cons, List.mem_cons, not_or] at h
    simp only [mapFind, if_neg (Ne.symm h.1), ih h.2]

theorem mapFind_mem {α β : Type} [DecidableEq α] (k : α) (v : β) (l : List (α × β))
    (h : mapFind k l = some v) : (k, v) ∈ l := by
  induction l with
  | nil => simp [mapFind] at h
  | cons e rest ih =>
    simp only [mapFind] at h
    split at h
    · rename_i he
      simp only [Option.some.injEq] at h
      rw [← he, ← h]
      exact List.mem_cons_self _ _
    · exact List.mem_cons_of_mem _ (ih h)

theorem mapFind_of_mem {α β : Type} [DecidableEq α] (k : α) (v : β) (l : List (α × β))
    (hnd : (l.map Prod.fst).Nodup) (h : (k, v) ∈ l) : mapFind k l = some v := by
  induction l with
  | nil => simp at h
  | cons e rest ih =>
    simp only [List.map_cons, List.nodup_cons] at hnd
    rcases List.mem_cons.1 h with he | hmem
    · simp only [mapFind, ← he, if_true]
    · have hne : e.1 ≠ k := by
        intro hek
        apply hnd.1
        rw [hek]
        exact List.mem_map.2 ⟨(k, v), hmem, rfl⟩
      simp only [mapFind, if_neg hne, ih hnd.2 hmem]

theorem mapFind_map {α β γ : Type} [DecidableEq α] (k : α) (g : β → γ) (l : List (α × β)) :
    mapFind k (l.map (fun p => (p.1, g p.2))) = (mapFind k l).map g := by
  induction l with
  | nil => rfl
  | cons e rest ih =>
    simp only [List.map_cons, mapFind]
    split
    · rfl
    · exact ih

theorem getProgramCounterLoop_of_mem (name : String) (pc : Int) (l : List (Int × String))
    (hnd : (l.map Prod.snd).Nodup) (h : (pc, name) ∈ l) :
    getProgramCounterLoop name l = pc := by
  induction l with
  | nil => simp at h
  | cons e rest ih =>
    simp only [List.map_cons, List.nodup_cons] at hnd
    rcases List.mem_cons.1 h with he | hmem
    · simp only [getProgramCounterLoop, ← he, if_true]
    · have hne : e.2 ≠ name := by
        intro hek
        apply hnd.1
        rw [hek]
        exact List.mem_map.2 ⟨(pc, name), hmem, rfl⟩
      simp only [getProgramCounterLoop, if_neg hne, ih hnd.2 hmem]

/-! ## The label set of a program -/

theorem pc_eq (i : Nat) (h : i < 268435456) :
    toI32 ((0 + i * 4) % 4294967296) = ((4 * i : Nat) : Int) := by
  have e : (0 + i * 4) % 4294967296 = 4 * i := by omega
  rw [e, toI32_of_lt _ (by omega)]

theorem labelPairs_fst (rest : List (Option String × SourceInstr)) (i : Nat)
    (hlen : i + rest.length ≤ 268435456) :
    ∀ p, p ∈ labelPairs rest i → ∃ j, i ≤ j ∧ j < i + rest.length ∧ p.1 = ((4 * j : Nat) : Int) := by
  induction rest generalizing i with
  | nil => intro p hp; simp [labelPairs] at hp
  | cons q rest ih =>
    obtain ⟨lbl, s⟩ := q
    simp only [List.length_cons] at hlen ⊢
    intro p hp
    cases lbl with
    | none =>
      simp only [labelPairs] at hp
      obtain ⟨j, h1, h2, h3⟩ := ih (i + 1) (by omega) p hp
      exact ⟨j, by omega, by omega, h3⟩
    | some name =>
      simp only [labelPairs, List.mem_cons] at hp
      rcases hp with rfl | hp
      · exact ⟨i, le_refl _, by omega, pc_eq i (by omega)⟩
      · obtain ⟨j, h1, h2, h3⟩ := ih (i + 1) (by omega) p hp
        exact ⟨j, by omega, by omega, h3⟩

theorem labelPairs_snd (rest : List (Option String × SourceInstr)) (i : Nat) :
    (labelPairs rest i).map Prod.snd = rest.filterMap Prod.fst := by
  induction rest generalizing i with
  | nil => rfl
  | cons q rest ih =>
    obtain ⟨lbl, s⟩ := q
    cases lbl with
    | none => simp only [labelPairs, List.filterMap_cons, ih]
    | some name => simp only [labelPairs, List.map_cons, List.filterMap_cons, ih]

theorem labelPairs_nodup (rest : List (Option String × SourceInstr)) (i : Nat)
    (hlen : i + rest.length ≤ 268435456) : ((labelPairs rest i).map Prod.fst).Nodup := by
  induction rest generalizing i with
  | nil => simp [labelPairs]
  | cons q rest ih =>
    obtain ⟨lbl, s⟩ := q
    simp only [List.length_cons] at hlen
    cases lbl with
    | none =>
      simp only [labelPairs]
      exact ih (i + 1) (by omega)
    | some name =>
      simp only [labelPairs, List.map_cons, List.nodup_cons]
      refine ⟨?_, ih (i + 1) (by omega)⟩
      intro hm
      obtain ⟨p, hp, he⟩ := List.mem_map.1 hm
      obtain ⟨j, h1, h2, h3⟩ := labelPairs_fst rest (i + 1) (by omega) p hp
      rw [h3, pc_eq i (by omega)] at he
      omega

/-- The address of an instruction is looked up to its label, if it has one. -/
theorem labelPairs_find (rest : List (Option String × SourceInstr)) (i j : Nat)
    (p : Option String × SourceInstr) (hlen : i + rest.length ≤ 268435456)
    (hp : rest.get? j = some p) :
    mapFind (toI32 ((0 + (i + j) * 4) % 4294967296)) (labelPairs rest i) = p.1 := by
  induction rest generalizing i j with
  | nil => simp at hp
  | cons q rest ih =>
    obtain ⟨lbl, s⟩ := q
    simp only [List.length_cons] at hlen
    cases j with
    | zero =>
      simp only [List.get?_cons_zero, Option.some.injEq] at hp
      subst hp
      cases lbl with
      | none =>
        simp only [labelPairs, Nat.add_zero]
        apply mapFind_none
        intro hm
        obtain ⟨p, hp, he⟩ := List.mem_map.1 hm
        obtain ⟨j, h1, h2, h3⟩ := labelPairs_fst rest (i + 1) (by omega) p hp
        rw [h3, pc_eq i (by omega)] at he
        omega
      | some name => simp only [labelPairs, Nat.add_zero, mapFind, if_true]
    | succ j2 =>
      simp only [List.get?_cons_succ] at hp
      have e : i + (j2 + 1) = (i + 1) + j2 := by omega
      have hj : j2 < rest.length := get?_lt _ _ _ hp
      cases lbl with
      | none =>
        simp only [labelPairs]
        rw [e]
        exact ih (i + 1) j2 (by omega) hp
      | some name =>
        have hne : toI32 ((0 + i * 4) % 4294967296) ≠
            toI32 ((0 + (i + (j2 + 1)) * 4) % 4294967296) := by
          rw [pc_eq i (by omega), pc_eq (i + (j2 + 1)) (by omega)]
          omega
        simp only [labelPairs, mapFind, if_neg hne]
        rw [e]
        exact ih (i + 1) j2 (by omega) hp

theorem programLabels_maps (rest : List (Option String × SourceInstr)) (i : Nat)
    (L0 : LabelSet) (hlen : i + rest.length ≤ 268435456)
    (hnames : (rest.filterMap Prod.fst).Nodup)
    (h0 : ∀ p, p ∈ labelPairs rest i → p.1 ∉ L0.addressToLabels.map Prod.fst ∧
      p.1 ∉ L0.labelDefinitions.map Prod.fst ∧ p.2 ∉ L0.labeltoAddress.map Prod.fst) :
    programLabels rest i L0 =
      { addressToLabels := L0.addressToLabels ++ labelPairs rest i
        labeltoAddress := L0.labeltoAddress ++ (labelPairs rest i).map (fun p => (p.2, p.1))
        labelDefinitions :=
          L0.labelDefinitions ++ (labelPairs rest i).map (fun p => (p.1, true)) } := by
  induction rest generalizing i L0 with
  | nil => simp [programLabels, labelPairs]
  | cons q rest ih =>
    obtain ⟨lbl, s⟩ := q
    simp only [List.length_cons] at hlen
    cases lbl with
    | none =>
      simp only [List.filterMap_cons] at hnames
      simp only [labelPairs] at h0
      simp only [programLabels, labelPairs]
      exact ih (i + 1) L0 (by omega) hnames h0
    | some name =>
      simp only [List.filterMap_cons, List.nodup_cons] at hnames
      simp only [labelPairs, List.mem_cons] at h0
      obtain ⟨ha, hd, hn⟩ := h0 _ (Or.inl rfl)
      simp only [programLabels, labelPairs, LabelSet.setLabel, if_true]
      rw [mapInsert_append _ _ _ ha, mapInsert_append _ _ _ hd, mapInsert_append _ _ _ hn]
      rw [ih (i + 1) _ (by omega) hnames.2]
      · simp
      · intro p hp
        obtain ⟨h1, h2, h3⟩ := h0 p (Or.inr hp)
        obtain ⟨j, hj1, hj2, hj3⟩ := labelPairs_fst rest (i + 1) (by omega) p hp
        have hpc : p.1 ≠ toI32 ((0 + i * 4) % 4294967296) := by
          rw [hj3, pc_eq i (by omega)]; omega
        have hnm : p.2 ≠ name := by
          intro he
          apply hnames.1
          rw [← he, ← labelPairs_snd rest (i + 1)]
          exact List.mem_map.2 ⟨p, hp, rfl⟩
        simp only [List.map_append, List.map_cons, List.map_nil, List.mem_append,
          List.mem_singleton, not_or]
        exact ⟨⟨h1, hpc⟩, ⟨h2, hpc⟩, ⟨h3, hnm⟩⟩

/-- The maps of the label set of a program with distinct labels. -/
theorem programLabels_eq (prog : List (Option String × SourceInstr))
    (hlen : prog.length ≤ 268435456) (hnames : (prog.filterMap Prod.fst).Nodup) :
    programLabels prog 0 {} =
      { addressToLabels := labelPairs prog 0
        labeltoAddress := (labelPairs prog 0).map (fun p => (p.2, p.1))
        labelDefinitions := (labelPairs prog 0).map (fun p => (p.1, true)) } := by
  rw [programLabels_maps prog 0 {} (by omega) hnames (by intro p _; simp)]
  simp

theorem labelPairs_name (prog : List (Option String × SourceInstr)) (i : Nat)
    (p : Int × String) (hp : p ∈ labelPairs prog i) :
    ∃ q, q ∈ prog ∧ q.1 = some p.2 := by
  have h : p.2 ∈ (labelPairs prog i).map Prod.snd := List.mem_map.2 ⟨p, hp, rfl⟩
  rw [labelPairs_snd] at h
  obtain ⟨q, hq, he⟩ := List.mem_filterMap.1 h
  exact ⟨q, hq, he⟩

theorem isLabelName_chars (name : String) (h : isLabelName name) :
    name.data ≠ [] ∧ ∀ c, c ∈ name.data → isTokenChar c = true :=
  ⟨h.1, fun x hx => List.all_eq_true.1 h.2 x hx⟩

/-- The label set of a program with distinct label names can be read back. -/
theorem programLabels_readable (prog : List (Option String × SourceInstr))
    (hlen : prog.length ≤ 268435456) (hnames : (prog.filterMap Prod.fst).Nodup)
    (hlabels : ∀ p, p ∈ prog → ∀ name, p.1 = some name → isLabelName name) :
    (programLabels prog 0 {}).Readable := by
  rw [programLabels_eq prog hlen hnames]
  have hsnd : ((labelPairs prog 0).map Prod.snd).Nodup := by
    rw [labelPairs_snd]; exact hnames
  have hkeys : (((labelPairs prog 0).map (fun p => (p.2, p.1))).map Prod.fst).Nodup := by
    rw [List.map_map]
    exact hsnd
  constructor
  · intro pc name hf
    have hm : (pc, name) ∈ labelPairs prog 0 := mapFind_mem _ _ _ hf
    obtain ⟨q, hq, hq1⟩ := labelPairs_name prog 0 (pc, name) hm
    have hn := isLabelName_chars name (hlabels q hq name hq1)
    refine ⟨?_, ?_, hn.1, hn.2⟩
    · simp only [LabelSet.isPresentLabel]
      rw [mapFind_of_mem name pc _ hkeys (List.mem_map.2 ⟨(pc, name), hm, rfl⟩)]
      rfl
    · simp only [LabelSet.getProgramCounter]
      exact getProgramCounterLoop_of_mem name pc _ hsnd hm

/-- The disassembler holding the label set of a program finds, at the address of an
instruction, the label defined before it. -/
theorem programLabels_at (prog : List (Option String × SourceInstr))
    (hlen : prog.length ≤ 268435456) (hnames : (prog.filterMap Prod.fst).Nodup)
    (j : Nat) (p : Option String × SourceInstr) (hp : prog.get? j = some p) :
    (programLabels prog 0 {}).isPresentPC (toI32 ((0 + j * 4) % 4294967296)) = p.1.isSome ∧
      ∀ name, p.1 = some name →
        (programLabels prog 0 {}).getLabel (toI32 ((0 + j * 4) % 4294967296)) true = name := by
  rw [programLabels_eq prog hlen hnames]
  have hfind := labelPairs_find prog 0 j p (by omega) hp
  simp only [Nat.zero_add] at hfind
  have hdefs := mapFind_map (toI32 (j * 4 % 4294967296)) (fun _ : String => true)
    (labelPairs prog 0)
  simp only [hfind] at hdefs
  constructor
  · simp only [LabelSet.isPresentPC, Nat.zero_add, hfind]
  · intro name hn
    rw [hn] at hfind hdefs
    simp only [LabelSet.getLabel, Nat.zero_add, hfind, hdefs]
    simp

/-! ## The two passes of the assembler and the disassembler over a program -/

/-- The first pass on a label line. -/
theorem collectLabelsStep_label (st : CollectState) (n : Nat) (name : String)
    (h : isLabelName name) :
    collectLabelsStep st n (name ++ ":") =
      { st with
        labelSet := (st.labelSet.setLabel
          (toI32 ((0 + st.currentInstructionIndex * 4) % 4294967296)) name true) } := by
  obtain ⟨hne, hch⟩ := isLabelName_chars name h
  obtain ⟨⟨c0, u, h0⟩, _⟩ := list_ends name.data hne
  have hc0 : isTokenChar c0 = true := hch c0 (by rw [h0]; simp)
  have hdata : (name ++ ":").data = name.data ++ [':'] := by
    rw [String.data_append]
  have hnc : ∀ x : Char, isTokenChar x = false → x ∉ name.data := by
    intro x hx hm
    rw [hch x hm] at hx
    exact absurd hx (by simp)
  have hhash : findChar '#' (name.data ++ [':']) = none := by
    apply findChar_none
    intro hm
    rcases List.mem_append.1 hm with hm | hm
    · exact hnc '#' (by decide) hm
    · simp at hm
  have htrim : trimChars (name.data ++ [':']) = name.data ++ [':'] :=
    trimChars_tight _ c0 ':' (u ++ [':']) name.data (by rw [h0]; rfl) rfl
      (isTokenChar_not_blank _ hc0) (by decide)
  have hclean : cleanLineChars (name.data ++ [':']) = name.data ++ [':'] := by
    simp only [cleanLineChars, hhash, htrim]
  have hcolon : findChar ':' (name.data ++ [':']) = some name.data.length :=
    findChar_append ':' name.data [] (hnc ':' (by decide))
  have hsub : substr (name.data ++ [':']) 0 name.data.length = name.data := by
    simp [substr]
  have hdrop : (name.data ++ [':']).drop (name.data.length + 1) = [] := by
    simp
  have hempty : cleanLineChars [] = [] := by decide
  have hh1 : c0 ≠ '#' := by rintro rfl; exact absurd hc0 (by decide)
  have hh2 : c0 ≠ ';' := by rintro rfl; exact absurd hc0 (by decide)
  unfold collectLabelsStep
  simp only [hdata, hclean, hcolon, hsub, hdrop, hempty]
  rw [h0]
  simp [hh1, hh2]
  rw [← h0]

/-- The first pass on the line of an instruction. -/
theorem collectLabelsStep_instr (mode : ISAMode) (L : LabelSet) (hL : L.Readable)
    (s : SourceInstr) (hs : s.instr ∈ instructionList mode) (pc : Nat) (st : CollectState)
    (n : Nat) :
    collectLabelsStep st n (s.line L pc) =
      { labelSet := st.labelSet
        instructionsOnly := st.instructionsOnly ++ [⟨cleanLineChars (s.line L pc).data⟩]
        sourceLineToPC := (mapInsert (n + 1)
          ((0 + st.currentInstructionIndex * 4) % 4294967296) st.sourceLineToPC)
        currentInstructionIndex := st.currentInstructionIndex + 1 } := by
  have htok := tokens_ok L hL s pc
  obtain ⟨⟨hmn, hmnc⟩, _, _⟩ := table_facts mode s.instr hs
  have hmnc2 : ∀ c, c ∈ s.instr.mnemonic.data → isTokenChar c = true :=
    fun c hc => List.all_eq_true.1 hmnc c hc
  obtain ⟨hclean, hcolon, c0, u, hbody, hc0⟩ :=
    cleanLine_printed s.instr.mnemonic.data (s.tokens L pc) hmn hmnc2 htok
  have hh1 : c0 ≠ '#' := by rintro rfl; exact absurd hc0 (by decide)
  have hh2 : c0 ≠ ';' := by rintro rfl; exact absurd hc0 (by decide)
  unfold collectLabelsStep
  rw [line_data, hclean]
  simp only [hcolon]
  rw [hbody]
  simp [hh1, hh2]


theorem collectLabelsLoop_text (mode : ISAMode) (L : LabelSet) (hL : L.Readable)
    (rest : List (Option String × SourceInstr)) (i : Nat)
    (hlen : i + rest.length ≤ 268435456)
    (hin : ∀ p, p ∈ rest → p.2.instr ∈ instructionList mode ∧ p.2.readsBack)
    (hlab : ∀ p, p ∈ rest → ∀ name, p.1 = some name → isLabelName name) :
    ∀ (st : CollectState) (n : Nat), st.currentInstructionIndex = i →
      ∃ m, collectLabelsLoop st n (programText L rest i) =
        { labelSet := programLabels rest i st.labelSet
          instructionsOnly := st.instructionsOnly ++ programLines L rest i
          sourceLineToPC := m
          currentInstructionIndex := i + rest.length } := by
  induction rest generalizing i with
  | nil =>
    intro st n hst
    refine ⟨st.sourceLineToPC, ?_⟩
    cases st
    simp only [programText, collectLabelsLoop, programLabels, programLines, List.append_nil,
      List.length_nil, Nat.add_zero] at hst ⊢
    rw [hst]
  | cons q rest ih =>
    obtain ⟨lbl, s⟩ := q
    intro st n hst
    simp only [List.length_cons] at hlen
    have hs := (hin (lbl, s) (List.mem_cons_self _ _)).1
    have hin2 : ∀ p, p ∈ rest → p.2.instr ∈ instructionList mode ∧ p.2.readsBack :=
      fun p hp => hin p (List.mem_cons_of_mem _ hp)
    have hlab2 : ∀ p, p ∈ rest → ∀ name, p.1 = some name → isLabelName name :=
      fun p hp => hlab p (List.mem_cons_of_mem _ hp)
    cases lbl with
    | none =>
      simp only [programText, List.nil_append, collectLabelsLoop, programLabels, programLines]
      rw [collectLabelsStep_instr mode L hL s hs _ st n]
      obtain ⟨m, hm⟩ := ih (i + 1) (by omega) hin2 hlab2
        { labelSet := st.labelSet
          instructionsOnly := st.instructionsOnly ++
            [⟨cleanLineChars (s.line L ((0 + i * 4) % 4294967296)).data⟩]
          sourceLineToPC := (mapInsert (n + 1)
            ((0 + st.currentInstructionIndex * 4) % 4294967296) st.sourceLineToPC)
          currentInstructionIndex := st.currentInstructionIndex + 1 } (n + 1)
        (by simp only [hst])
      refine ⟨m, ?_⟩
      rw [hm]
      simp only [List.append_assoc, List.singleton_append, List.length_cons]
      congr 1
      omega
    | some name =>
      have hname := hlab (some name, s) (List.mem_cons_self _ _) name rfl
      simp only [programText, List.singleton_append, collectLabelsLoop, programLabels,
        programLines]
      rw [collectLabelsStep_label st n name hname,
        collectLabelsStep_instr mode L hL s hs _ _ (n + 1)]
      obtain ⟨m, hm⟩ := ih (i + 1) (by omega) hin2 hlab2
        { labelSet := st.labelSet.setLabel
            (toI32 ((0 + st.currentInstructionIndex * 4) % 4294967296)) name true
          instructionsOnly := st.instructionsOnly ++
            [⟨cleanLineChars (s.line L ((0 + i * 4) % 4294967296)).data⟩]
          sourceLineToPC := (mapInsert (n + 1 + 1)
            ((0 + st.currentInstructionIndex * 4) % 4294967296) st.sourceLineToPC)
          currentInstructionIndex := st.currentInstructionIndex + 1 } (n + 1 + 1)
        (by simp only [hst])
      refine ⟨m, ?_⟩
      rw [hm]
      simp only [List.append_assoc, List.singleton_append, List.length_cons, hst]
      congr 1
      omega

theorem assembleLoop_nil (mode : ISAMode) (L : LabelSet) (i : Nat) (st : Assembler) :
    assembleLoop mode L [] i st = .ok st := rfl

theorem assembleLoop_cons (mode : ISAMode) (L : LabelSet) (line : String) (rest : List String)
    (i : Nat) (st : Assembler) (inst : InstructionInstance)
    (h : assembleLine mode L line ((0 + i * 4) % 4294967296) = .ok (some inst)) :
    assembleLoop mode L (line :: rest) i st =
      assembleLoop mode L rest (i + 1)
        { st with
          instructions := st.instructions ++ [inst]
          machineCodes := st.machineCodes ++ [inst.machineCode] } := by
  show (match assembleLine mode L line ((0 + i * 4) % 4294967296) with
    | .error f => (Except.error f : Except Fault Assembler)
    | .ok none => .ok st
    | .ok (some inst) =>
      assembleLoop mode L rest (i + 1)
        { st with instructions := st.instructions ++ [inst]
                  machineCodes := st.machineCodes ++ [inst.machineCode] }) = _
  rw [h]

theorem assembleLoop_text (mode : ISAMode) (L : LabelSet) (hL : L.Readable)
    (rest : List (Option String × SourceInstr)) (i : Nat)
    (hlen : i + rest.length ≤ 268435456)
    (hin : ∀ p, p ∈ rest → p.2.instr ∈ instructionList mode ∧ p.2.readsBack)
    (hnum : numeralsAreNoLabels L rest i = true) :
    ∀ st : Assembler, ∃ insts,
      assembleLoop mode L (programLines L rest i) i st =
        .ok { st with
          instructions := st.instructions ++ insts
          machineCodes := st.machineCodes ++ programCodes rest } := by
  induction rest generalizing i with
  | nil =>
    intro st
    refine ⟨[], ?_⟩
    simp only [programLines, assembleLoop_nil, programCodes, List.map_nil, List.append_nil]
  | cons q rest ih =>
    obtain ⟨lbl, s⟩ := q
    intro st
    simp only [List.length_cons] at hlen
    obtain ⟨hs, hr⟩ := hin (lbl, s) (List.mem_cons_self _ _)
    have hpc : (0 + i * 4) % 4294967296 < 1073741824 := by omega
    simp only [numeralsAreNoLabels, Bool.and_eq_true] at hnum
    have hline := assembleLine_printed mode L hL s hs hr _ hpc hnum.1
    generalize hinst : (⟨s.instr, s.rd, s.rs1, s.rs2, s.imm,
      ⟨cleanLineChars (s.line L ((0 + i * 4) % 4294967296)).data⟩,
      (0 + i * 4) % 4294967296⟩ : InstructionInstance) = inst at hline
    have hcode : inst.machineCode = s.instr.getMachineCode s.rd s.rs1 s.rs2 s.imm := by
      rw [← hinst]; rfl
    obtain ⟨insts, hi⟩ := ih (i + 1) (by omega) (fun p hp => hin p (List.mem_cons_of_mem _ hp))
      hnum.2
      { st with
        instructions := st.instructions ++ [inst]
        machineCodes := st.machineCodes ++ [inst.machineCode] }
    refine ⟨inst :: insts, ?_⟩
    have hstep : assembleLoop mode L (programLines L ((lbl, s) :: rest) i) i st =
        assembleLoop mode L (programLines L rest (i + 1)) (i + 1)
          { st with
            instructions := st.instructions ++ [inst]
            machineCodes := st.machineCodes ++ [inst.machineCode] } := by
      simp only [programLines]
      exact assembleLoop_cons mode L _ _ i st inst hline
    rw [hstep, hi, hcode]
    simp [programCodes]

theorem disassembleLoop_text (mode : ISAMode) (L : LabelSet)
    (rest : List (Option String × SourceInstr)) (i : Nat)
    (hin : ∀ p, p ∈ rest → p.2.instr ∈ instructionList mode ∧ p.2.readsBack)
    (hat : ∀ j p, rest.get? j = some p →
      L.isPresentPC (toI32 ((0 + (i + j) * 4) % 4294967296)) = p.1.isSome ∧
      ∀ name, p.1 = some name →
        L.getLabel (toI32 ((0 + (i + j) * 4) % 4294967296)) true = name) :
    disassembleLoop mode L i (programCodes rest) = programText L rest i := by
  induction rest generalizing i with
  | nil => rfl
  | cons q rest ih =>
    obtain ⟨lbl, s⟩ := q
    obtain ⟨hs, hr⟩ := hin (lbl, s) (List.mem_cons_self _ _)
    have h0 := hat 0 (lbl, s) rfl
    rw [Nat.add_zero] at h0
    have hrest := ih (i + 1) (fun p hp => hin p (List.mem_cons_of_mem _ hp))
      (fun j p hp => by
        have := hat (j + 1) p (by simpa using hp)
        have e : i + (j + 1) = i + 1 + j := by omega
        rw [e] at this
        exact this)
    simp only [programCodes, List.map_cons, disassembleLoop] at hrest ⊢
    rw [hrest, disassembleWord_printed mode L s hs hr i, h0.1]
    cases lbl with
    | none => simp [programText]
    | some name =>
      rw [h0.2 name rfl]
      simp [programText]

theorem CleansTo.refl (text : List String) : CleansTo text text := by
  induction text with
  | nil => exact CleansTo.nil
  | cons l rest ih => exact CleansTo.keep l l rest rest rfl ih

/-- The first pass looks at a line through `cleanLine` only, and leaves `sourceLineToPC`
out of everything else it computes. -/
theorem collectLabelsStep_congr (st : CollectState) (m : List (Nat × Nat)) (n n2 : Nat)
    (l l2 : String) (hl : cleanLineChars l.data = cleanLineChars l2.data) :
    ∃ m2, collectLabelsStep { st with sourceLineToPC := m } n l =
      { collectLabelsStep st n2 l2 with sourceLineToPC := m2 } := by
  unfold collectLabelsStep
  rw [hl]
  simp only []
  split
  · exact ⟨m, rfl⟩
  · split
    · exact ⟨_, rfl⟩
    · exact ⟨m, rfl⟩

theorem collectLabelsStep_skip (st : CollectState) (n : Nat) (l : String)
    (hl : cleanLineChars l.data = []) : collectLabelsStep st n l = st := by
  unfold collectLabelsStep
  rw [hl]
  simp

theorem collectLabelsLoop_cleansTo (src text : List String) (h : CleansTo src text) :
    ∀ (st : CollectState) (m : List (Nat × Nat)) (n n2 : Nat),
      ∃ m2, collectLabelsLoop { st with sourceLineToPC := m } n src =
        { collectLabelsLoop st n2 text with sourceLineToPC := m2 } := by
  induction h with
  | nil => intro st m n n2; exact ⟨m, rfl⟩
  | skip line src text hl _ ih =>
    intro st m n n2
    simp only [collectLabelsLoop]
    rw [collectLabelsStep_skip _ n line hl]
    exact ih st m (n + 1) n2
  | keep line printed src text hl _ ih =>
    intro st m n n2
    simp only [collectLabelsLoop]
    obtain ⟨m2, hm2⟩ := collectLabelsStep_congr st m n n2 line printed hl
    rw [hm2]
    exact ih (collectLabelsStep st n2 printed) m2 (n + 1) (n2 + 1)


set_option maxRecDepth 100000 in
/-- In the tables the I-format instructions with funct3 001 or 101 that are no shifts are
`lh` and `lhu`. -/
theorem table_halfword_loads (mode : ISAMode) :
    ∀ i, i ∈ instructionList mode → i.format = .I → isShiftInstruction i.mnemonic = false →
      i.funct3 = 1 ∨ i.funct3 = 5 → i.mnemonic = "lh" ∨ i.mnemonic = "lhu" := by
  cases mode <;> decide

/-- Only `lh` and `lhu` are instructions whose word the decoder can mis-read. -/
theorem missesDecoderDefect_of_not_halfword_load (mode : ISAMode) (s : SourceInstr)
    (hs : s.instr ∈ instructionList mode)
    (h : s.instr.mnemonic ≠ "lh" ∧ s.instr.mnemonic ≠ "lhu") : s.missesDecoderDefect := by
  intro hf hshift h35
  rcases table_halfword_loads mode s.instr hs hf hshift h35 with h1 | h1
  · exact absurd h1 h.1
  · exact absurd h1 h.2

/-- Operand values in range that the decoder does not mis-read are read back. -/
theorem readsBack_of_inRange (s : SourceInstr) (h1 : s.inRange)
    (h2 : s.missesDecoderDefect) : s.readsBack := by
  unfold SourceInstr.inRange at h1
  unfold SourceInstr.missesDecoderDefect at h2
  unfold SourceInstr.readsBack
  cases hf : s.instr.format <;> rw [hf] at h1 <;> simp only [] at h1 ⊢ <;> try exact h1
  by_cases he : s.instr.mnemonic = "ecall"
  · rw [if_pos he] at h1 ⊢
    exact h1
  · rw [if_neg he] at h1 ⊢
    by_cases hb : s.instr.mnemonic = "ebreak"
    · rw [if_pos hb] at h1 ⊢
      exact h1
    · rw [if_neg hb] at h1 ⊢
      obtain ⟨r1, r2, r3, hrange, hshift⟩ := h1
      refine ⟨r1, r2, r3, ?_⟩
      by_cases h35 : s.instr.funct3 = 1 ∨ s.instr.funct3 = 5
      · rw [if_pos h35]
        cases hs : isShiftInstruction s.instr.mnemonic with
        | true => exact hshift hs
        | false => exact h2 hf hs h35
      · rw [if_neg h35]
        exact hrange

/-- The line of a label is as `cleanLine` leaves it. -/
theorem labelLine_clean (name : String) (h : isLabelName name) :
    cleanLineChars (name ++ ":").data = (name ++ ":").data ∧ (name ++ ":").data ≠ [] := by
  obtain ⟨hne, hch⟩ := isLabelName_chars name h
  obtain ⟨⟨c0, u, h0⟩, _⟩ := list_ends name.data hne
  have hc0 : isTokenChar c0 = true := hch c0 (by rw [h0]; simp)
  have hdata : (name ++ ":").data = name.data ++ [':'] := by
    rw [String.data_append]
  have hnc : ∀ x : Char, isTokenChar x = false → x ∉ name.data := by
    intro x hx hm
    rw [hch x hm] at hx
    exact absurd hx (by simp)
  have hhash : findChar '#' (name.data ++ [':']) = none := by
    apply findChar_none
    intro hm
    rcases List.mem_append.1 hm with hm | hm
    · exact hnc '#' (by decide) hm
    · simp at hm
  have htrim : trimChars (name.data ++ [':']) = name.data ++ [':'] :=
    trimChars_tight _ c0 ':' (u ++ [':']) name.data (by rw [h0]; rfl) rfl
      (isTokenChar_not_blank _ hc0) (by decide)
  rw [hdata]
  exact ⟨by simp only [cleanLineChars, hhash, htrim], by simp⟩

/-- The line printed for an instruction other than `ecall` and `ebreak` is as `cleanLine`
leaves it; the line of `ecall` and of `ebreak` ends in a blank. -/
theorem instrLine_clean (mode : ISAMode) (L : LabelSet) (hL : L.Readable)
    (s : SourceInstr) (hs : s.instr ∈ instructionList mode) (pc : Nat)
    (hsys : s.instr.mnemonic ≠ "ecall" ∧ s.instr.mnemonic ≠ "ebreak") :
    cleanLineChars (s.line L pc).data = (s.line L pc).data ∧ (s.line L pc).data ≠ [] := by
  have htok := tokens_ok L hL s pc
  obtain ⟨⟨hmn, hmnc⟩, _, _⟩ := table_facts mode s.instr hs
  have hmnc2 : ∀ c, c ∈ s.instr.mnemonic.data → isTokenChar c = true :=
    fun c hc => List.all_eq_true.1 hmnc c hc
  obtain ⟨hclean, _, _⟩ := cleanLine_printed s.instr.mnemonic.data (s.tokens L pc) hmn hmnc2 htok
  have hne : s.tokens L pc ≠ [] := by
    unfold SourceInstr.tokens
    cases hf : s.instr.format <;> simp only []
    all_goals first
      | exact List.cons_ne_nil _ _
      | (rw [if_neg (fun h => h.elim hsys.1 hsys.2)]
         split <;> exact List.cons_ne_nil _ _)
  rw [line_data, hclean, if_neg hne]
  exact ⟨rfl, by simp⟩

/-- Every line of the text of a program without `ecall` and `ebreak` is as `cleanLine`
leaves it and is not empty. -/
theorem programText_clean (mode : ISAMode) (L : LabelSet) (hL : L.Readable)
    (rest : List (Option String × SourceInstr)) (i : Nat)
    (hlen : i + rest.length ≤ 268435456)
    (hin : ∀ p, p ∈ rest → p.2.instr ∈ instructionList mode ∧ p.2.readsBack)
    (hlab : ∀ p, p ∈ rest → ∀ name, p.1 = some name → isLabelName name)
    (hsys : ∀ p, p ∈ rest → p.2.instr.mnemonic ≠ "ecall" ∧ p.2.instr.mnemonic ≠ "ebreak") :
    ∀ line, line ∈ programText L rest i →
      cleanLineChars line.data = line.data ∧ line.data ≠ [] := by
  induction rest generalizing i with
  | nil =>
    intro line hl
    simp [programText] at hl
  | cons q rest ih =>
    obtain ⟨lbl, s⟩ := q
    simp only [List.length_cons] at hlen
    have hs := (hin (lbl, s) (List.mem_cons_self _ _)).1
    have hline := instrLine_clean mode L hL s hs ((0 + i * 4) % 4294967296)
      (hsys (lbl, s) (List.mem_cons_self _ _))
    have ih2 := ih (i + 1) (by omega) (fun p hp => hin p (List.mem_cons_of_mem _ hp))
      (fun p hp => hlab p (List.mem_cons_of_mem _ hp))
      (fun p hp => hsys p (List.mem_cons_of_mem _ hp))
    intro line hl
    simp only [programText, List.mem_append, List.mem_cons] at hl
    rcases hl with hl | hl | hl
    · cases lbl with
      | none => simp at hl
      | some name =>
        simp only [List.mem_singleton] at hl
        rw [hl]
        exact labelLine_clean name (hlab (some name, s) (List.mem_cons_self _ _) name rfl)
    · rw [hl]
      exact hline
    · exact ih2 line hl

/-- A text whose lines are as `cleanLine` leaves them and not empty is the source it stands
for with what `cleanLine` removes taken away. -/
theorem cleansTo_cleanedLines (src text : List String) (h : CleansTo src text)
    (hclean : ∀ line, line ∈ text → cleanLineChars line.data = line.data ∧ line.data ≠ []) :
    cleanedLines src = text := by
  induction h with
  | nil => rfl
  | skip line src text hl _ ih =>
    have := ih hclean
    unfold cleanedLines at this ⊢
    simp only [List.map_cons, Parser.cleanLine]
    rw [List.filter_cons_of_neg (by simp [hl])]
    exact this
  | keep line printed src text hl _ ih =>
    have := ih (fun l hm => hclean l (List.mem_cons_of_mem _ hm))
    obtain ⟨hc, hne⟩ := hclean printed (List.mem_cons_self _ _)
    unfold cleanedLines at this ⊢
    simp only [List.map_cons, Parser.cleanLine]
    rw [hl, hc, List.filter_cons_of_pos (by simpa using hne), this]

/-- The line the disassembler prints for `ecall` ends in a blank: it is `ecall` up to what
`cleanLine` removes, and the comparison of `runTest`, which is exact, fails on it. A label
that starts with a letter of a hexadecimal digit is read back like any other, and so is a
label spelled like a numeral that the program does not print as an operand. -/
theorem ecall_line_ends_in_blank :
    (assemble .RV32I ["ecall"]).map
        (fun a => disassemble .RV32I a.labelSet a.machineCodes) = .ok ["ecall "] ∧
    Parser.cleanLine "ecall " = "ecall" ∧
    runTest ["ecall"] .RV32I = .ok false ∧
    runTest ["beq x0, x0, end", "end:", "addi x1, x1, 1"] .RV32I = .ok true ∧
    runTest ["F:", "addi x1, x1, 1", "beq x0, x0, F"] .RV32I = .ok true ∧
    runTest ["addi x1, x1, 8", "12:", "addi x2, x2, 1", "beq x0, x0, 12"] .RV32I = .ok true ∧
    CanonicalProgram .RV32I
      [(none, ⟨⟨"addi", .I, 0b0010011, 0b000, 0⟩, 1, 1, 0, 8⟩),
        (some "12", ⟨⟨"addi", .I, 0b0010011, 0b000, 0⟩, 2, 2, 0, 1⟩),
        (none, ⟨⟨"beq", .B, 0b1100011, 0b000, 0⟩, 0, 0, 0, -4⟩)] ∧
    ¬ CanonicalProgram .RV32I
      [(none, ⟨⟨"addi", .I, 0b0010011, 0b000, 0⟩, 1, 1, 0, 8⟩),
        (some "8", ⟨⟨"addi", .I, 0b0010011, 0b000, 0⟩, 2, 2, 0, 1⟩)] :=
  ⟨by decide, by decide, by decide, by decide, by decide, by decide,
    ⟨by decide, by decide, by decide, by decide, by decide, by decide⟩,
    fun h => absurd h.numerals (by decide)⟩

/-! ## Memory: the bytes of a write and the value of a read -/

/-- The byte `Memory::write` leaves at the `i`-th address of the written range, with
the addresses reduced to 32 bits. -/
theorem writeLoop_at (mem : Memory) (a v n i : Nat) (hn : n ≤ 4294967296) (hi : i < n) :
    (mem.writeLoop a v n).memory ((a + i) % 4294967296) =
      byteOfNat ((v >>> (8 * i)) &&& 0xFF) := by
  induction n with
  | zero => omega
  | succ k ih =>
    simp only [Memory.writeLoop, Memory.setByte]
    by_cases hik : i = k
    · subst hik
      rw [if_pos rfl]
    · rw [if_neg (by omega), ih (by omega) (by omega)]

/-- An address outside the written range keeps its byte. -/
theorem writeLoop_other (mem : Memory) (a v n b : Nat)
    (hb : ∀ i, i < n → b ≠ (a + i) % 4294967296) :
    (mem.writeLoop a v n).memory b = mem.memory b := by
  induction n with
  | zero => rfl
  | succ k ih =>
    simp only [Memory.writeLoop, Memory.setByte]
    rw [if_neg (hb k (by omega)), ih (fun i hi => hb i (by omega))]

theorem byteOfNat_shift (v i : Nat) :
    (byteOfNat ((v >>> (8 * i)) &&& 0xFF)).val = v / 2 ^ (8 * i) % 256 := by
  show ((v >>> (8 * i)) &&& 0xFF) % 256 = v / 2 ^ (8 * i) % 256
  have h : (0xFF : Nat) = 2 ^ 8 - 1 := by norm_num
  rw [h, Nat.and_pow_two_sub_one_eq_mod, Nat.shiftRight_eq_div_pow]
  omega

/-- The value the loop of `Memory::read` assembles from the bytes of the range. -/
theorem readLoop_bytes (m : Memory) (a n : Nat) (hn : n ≤ 4) :
    m.readLoop a n =
      (List.range n).foldl
        (fun acc i => acc + (m.memory ((a + i) % 4294967296)).val * 2 ^ (8 * i)) 0 := by
  induction n with
  | zero => rfl
  | succ k ih =>
    rw [List.range_succ, List.foldl_append, ← ih (by omega)]
    simp only [Memory.readLoop, List.foldl_cons, List.foldl_nil, Memory.getByte, toU8_toI8]
    have hb := (m.memory ((a + k) % 4294967296)).isLt
    have hlt := readLoop_lt m a k
    have hp : (2 : Nat) ^ (8 * k) ≤ 2 ^ 24 := two_pow_le_of_le _ _ (by omega)
    have hnl : (m.memory ((a + k) % 4294967296)).val * 2 ^ (8 * k) < 4294967296 := by
      calc (m.memory ((a + k) % 4294967296)).val * 2 ^ (8 * k)
          ≤ 255 * 2 ^ (8 * k) := Nat.mul_le_mul_right _ (by omega)
        _ ≤ 255 * 2 ^ 24 := Nat.mul_le_mul_left _ hp
        _ < 4294967296 := by norm_num
    rw [shl_mod_eq _ _ hnl]
    exact or_eq_add_comm (8 * k) _ _ hlt (Nat.mul_mod_left _ _)

/-- An unsigned read after a write of the same range gives the low `8n` bits of the value. -/
theorem readLoop_writeLoop (mem : Memory) (a v : Nat) (size : MemSize)
    (hsz : size ≠ .DoubleWord) :
    (mem.writeLoop a v size.toNat).readLoop a size.toNat = v % 2 ^ (8 * size.toNat) := by
  have hn : size.toNat ≤ 4 := by cases size <;> simp_all [MemSize.toNat]
  rw [readLoop_bytes _ _ _ hn]
  have hb : ∀ i, i < size.toNat →
      ((mem.writeLoop a v size.toNat).memory ((a + i) % 4294967296)).val =
        v / 2 ^ (8 * i) % 256 := fun i hi => by
    rw [writeLoop_at mem a v _ i (by omega) hi, byteOfNat_shift]
  cases size with
  | DoubleWord => exact absurd rfl hsz
  | Byte =>
    have h0 := hb 0 (by decide)
    simp only [MemSize.toNat] at h0 ⊢
    simp only [List.range_succ, List.range_zero, List.nil_append, List.foldl_cons,
      List.foldl_nil, h0]
    norm_num
  | HalfWord =>
    have h0 := hb 0 (by decide)
    have h1 := hb 1 (by decide)
    simp only [MemSize.toNat] at h0 h1 ⊢
    simp only [List.range_succ, List.range_zero, List.nil_append, List.cons_append,
      List.foldl_cons, List.foldl_nil, h0, h1]
    norm_num
    omega
  | Word =>
    have h0 := hb 0 (by decide)
    have h1 := hb 1 (by decide)
    have h2 := hb 2 (by decide)
    have h3 := hb 3 (by decide)
    simp only [MemSize.toNat] at h0 h1 h2 h3 ⊢
    simp only [List.range_succ, List.range_zero, List.nil_append, List.cons_append,
      List.foldl_cons, List.foldl_nil, h0, h1, h2, h3]
    norm_num
    omega


theorem readLoop_absent (m : Memory) (a n : Nat)
    (h : ∀ i, i < n → m.memory ((a + i) % 4294967296) = 0) : m.readLoop a n = 0 := by
  induction n with
  | zero => rfl
  | succ k ih =>
    simp only [Memory.readLoop, Memory.getByte, h k (by omega)]
    rw [ih (fun i hi => h i (by omega))]
    have e : toU8 (toI8 ((0 : Fin 256) : Nat)) = 0 := by decide
    rw [e, Nat.zero_shiftLeft]
    rfl

theorem writes_other (ws : List (Nat × MemSize × Nat)) (mem : Memory) (b : Nat)
    (h : ∀ w, w ∈ ws → ∀ j, j < w.2.1.toNat → b ≠ (w.1 + j) % 4294967296) :
    (ws.foldl (fun m w => m.write w.1 w.2.1 w.2.2) mem).memory b = mem.memory b := by
  induction ws generalizing mem with
  | nil => rfl
  | cons w rest ih =>
    rw [List.foldl_cons, ih _ (fun w2 hw2 => h w2 (List.mem_cons_of_mem _ hw2))]
    exact writeLoop_other mem w.1 w.2.2 _ b (h w (List.mem_cons_self _ _))

/-- C13: `Memory::write` stores a value little-endian and `Memory::read` reads it back.
For every memory, address `a`, size of 1, 2 or 4 bytes and value `v`: after
`write(a, n, v)` the byte at the `i`-th address of the range (addresses are 32-bit, so the
`i`-th address is `a + i` reduced modulo 2^32) holds bits `8i..8i+7` of `v`, every byte at
an address that is not in the range is unchanged, and the unsigned read of the same range
returns the 32-bit pattern `v mod 2^(8n)` (as an `int32_t`; it is that number itself
whenever it is below 2^31, which is always so for 1 and 2 bytes). The value 0x12345678
written at 0x1000 is stored as the bytes 78 56 34 12. -/
theorem memory_write_little_endian (mem : Memory) (a v : Nat) (size : MemSize)
    (hsz : size ≠ .DoubleWord) :
    (∀ i, i < size.toNat →
      ((mem.write a size v).memory ((a + i) % 4294967296)).val = v / 2 ^ (8 * i) % 256) ∧
    (∀ b, (∀ i, i < size.toNat → b ≠ (a + i) % 4294967296) →
      (mem.write a size v).memory b = mem.memory b) ∧
    toU32 ((mem.write a size v).read a size true) = v % 2 ^ (8 * size.toNat) ∧
    (v % 2 ^ (8 * size.toNat) < 2147483648 →
      (mem.write a size v).read a size true = ((v % 2 ^ (8 * size.toNat) : Nat) : Int)) ∧
    (size ≠ .Word →
      (mem.write a size v).read a size true = ((v % 2 ^ (8 * size.toNat) : Nat) : Int)) ∧
    ((mem.write 0x1000 .Word 0x12345678).memory 0x1000).val = 0x78 ∧
    ((mem.write 0x1000 .Word 0x12345678).memory 0x1001).val = 0x56 ∧
    ((mem.write 0x1000 .Word 0x12345678).memory 0x1002).val = 0x34 ∧
    ((mem.write 0x1000 .Word 0x12345678).memory 0x1003).val = 0x12 := by
  have hn : size.toNat ≤ 4 := by cases size <;> simp_all [MemSize.toNat]
  have hrd : (mem.write a size v).read a size true =
      toI32 (v % 2 ^ (8 * size.toNat)) := by
    show toI32 ((mem.writeLoop a v size.toNat).readLoop a size.toNat) = _
    rw [readLoop_writeLoop mem a v size hsz]
  have hlt : v % 2 ^ (8 * size.toNat) < 4294967296 :=
    Nat.lt_of_lt_of_le (Nat.mod_lt _ (Nat.pos_pow_of_pos _ (by norm_num)))
      (two_pow_le_of_le _ 32 (by omega))
  refine ⟨fun i hi => ?_, fun b hb => writeLoop_other mem a v _ b hb, ?_, ?_, ?_,
    rfl, rfl, rfl, rfl⟩
  · show ((mem.writeLoop a v size.toNat).memory ((a + i) % 4294967296)).val = _
    rw [writeLoop_at mem a v _ i (by omega) hi, byteOfNat_shift]
  · rw [hrd, toU32_toI32 _ hlt]
  · intro h
    rw [hrd, toI32_of_lt _ h]
  · intro h
    rw [hrd]
    apply toI32_of_lt
    cases size with
    | DoubleWord => exact absurd rfl hsz
    | Word => exact absurd rfl h
    | Byte =>
      have : v % 2 ^ (8 * MemSize.Byte.toNat) < 2 ^ 8 := Nat.mod_lt _ (by norm_num)
      omega
    | HalfWord =>
      have : v % 2 ^ (8 * MemSize.HalfWord.toNat) < 2 ^ 16 := Nat.mod_lt _ (by norm_num)
      omega

/-- Witness of C13: the half-word 0xBEEF written at the last address of the 32-bit
space; its second byte goes to address 0. -/
theorem memory_write_little_endian_witness :
    (∀ i, i < MemSize.HalfWord.toNat →
      ((Memory.empty.write 4294967295 .HalfWord 0xBEEF).memory
        ((4294967295 + i) % 4294967296)).val = 0xBEEF / 2 ^ (8 * i) % 256) ∧
    (∀ b, (∀ i, i < MemSize.HalfWord.toNat → b ≠ (4294967295 + i) % 4294967296) →
      (Memory.empty.write 4294967295 .HalfWord 0xBEEF).memory b = Memory.empty.memory b) ∧
    toU32 ((Memory.empty.write 4294967295 .HalfWord 0xBEEF).read 4294967295 .HalfWord true)
      = 0xBEEF % 2 ^ (8 * MemSize.HalfWord.toNat) ∧
    (0xBEEF % 2 ^ (8 * MemSize.HalfWord.toNat) < 2147483648 →
      (Memory.empty.write 4294967295 .HalfWord 0xBEEF).read 4294967295 .HalfWord true =
        ((0xBEEF % 2 ^ (8 * MemSize.HalfWord.toNat) : Nat) : Int)) ∧
    (MemSize.HalfWord ≠ .Word →
      (Memory.empty.write 4294967295 .HalfWord 0xBEEF).read 4294967295 .HalfWord true =
        ((0xBEEF % 2 ^ (8 * MemSize.HalfWord.toNat) : Nat) : Int)) ∧
    ((Memory.empty.write 0x1000 .Word 0x12345678).memory 0x1000).val = 0x78 ∧
    ((Memory.empty.write 0x1000 .Word 0x12345678).memory 0x1001).val = 0x56 ∧
    ((Memory.empty.write 0x1000 .Word 0x12345678).memory 0x1002).val = 0x34 ∧
    ((Memory.empty.write 0x1000 .Word 0x12345678).memory 0x1003).val = 0x12 :=
  memory_write_little_endian Memory.empty 4294967295 0xBEEF .HalfWord (by decide)

/-- C14: signed reads sign-extend and absent addresses read as zero.
A read of one byte returns the stored byte as a number 0..255 when unsigned and that number
less 256 from 128 on when signed; a read of two bytes returns the little-endian number
`b0 + 256 * b1` when unsigned and that number less 65536 from 32768 on when signed. A stored
byte 0x80 reads as -128 signed and 128 unsigned. In a memory built from the empty one by
any writes, a read of any size whose addresses none of the writes touched returns 0. -/
theorem memory_read_signed_and_absent (mem : Memory) (a : Nat) :
    mem.read a .Byte true = ((mem.memory (a % 4294967296)).val : Int) ∧
    mem.read a .Byte false =
      (if (mem.memory (a % 4294967296)).val < 128 then ((mem.memory (a % 4294967296)).val : Int)
       else ((mem.memory (a % 4294967296)).val : Int) - 256) ∧
    mem.read a .HalfWord true =
      (((mem.memory (a % 4294967296)).val +
        256 * (mem.memory ((a + 1) % 4294967296)).val : Nat) : Int) ∧
    mem.read a .HalfWord false =
      (if (mem.memory (a % 4294967296)).val +
          256 * (mem.memory ((a + 1) % 4294967296)).val < 32768 then
        (((mem.memory (a % 4294967296)).val +
          256 * (mem.memory ((a + 1) % 4294967296)).val : Nat) : Int)
       else (((mem.memory (a % 4294967296)).val +
          256 * (mem.memory ((a + 1) % 4294967296)).val : Nat) : Int) - 65536) ∧
    (mem.write a .Byte 0x80).read a .Byte false = -128 ∧
    (mem.write a .Byte 0x80).read a .Byte true = 128 ∧
    ∀ (ws : List (Nat × MemSize × Nat)) (size : MemSize) (isUnsigned : Bool),
      (∀ w, w ∈ ws → ∀ j, j < w.2.1.toNat → ∀ i, i < size.toNat →
        (a + i) % 4294967296 ≠ (w.1 + j) % 4294967296) →
      (ws.foldl (fun m w => m.write w.1 w.2.1 w.2.2) Memory.empty).read a size isUnsigned
        = 0 := by
  have h0 := (mem.memory (a % 4294967296)).isLt
  have h1 := (mem.memory ((a + 1) % 4294967296)).isLt
  have e1 : mem.readLoop a 1 = (mem.memory (a % 4294967296)).val := by
    rw [readLoop_bytes _ _ _ (by omega)]
    simp [List.range_succ]
  have e2 : mem.readLoop a 2 = (mem.memory (a % 4294967296)).val +
      256 * (mem.memory ((a + 1) % 4294967296)).val := by
    rw [readLoop_bytes _ _ _ (by omega)]
    simp [List.range_succ]
    omega
  have w1 : (mem.write a .Byte 0x80).readLoop a 1 = 128 :=
    readLoop_writeLoop mem a 0x80 .Byte (by decide)
  refine ⟨?_, ?_, ?_, ?_, ?_, ?_, ?_⟩
  · show toI32 (mem.readLoop a 1) = _
    rw [e1, toI32_of_lt _ (by omega)]
  · show toI8 (mem.readLoop a 1) = _
    rw [e1]
    unfold toI8
    split <;> split <;> omega
  · show toI32 (mem.readLoop a 2) = _
    rw [e2, toI32_of_lt _ (by omega)]
  · show toI16 (mem.readLoop a 2) = _
    rw [e2]
    unfold toI16
    split <;> split <;> omega
  · show toI8 ((mem.write a .Byte 0x80).readLoop a 1) = _
    rw [w1]
    rfl
  · show toI32 ((mem.write a .Byte 0x80).readLoop a 1) = _
    rw [w1]
    rfl
  · intro ws size isUnsigned h
    have hz : (ws.foldl (fun m w => m.write w.1 w.2.1 w.2.2) Memory.empty).readLoop a
        size.toNat = 0 := by
      apply readLoop_absent
      intro i hi
      rw [writes_other ws Memory.empty _ (fun w hw j hj => h w hw j hj i hi)]
      rfl
    unfold Memory.read
    simp only [hz]
    cases isUnsigned <;> cases size <;> rfl

/-- Witness of C14: after a word written at 0x1000 and a byte at 0x2000, the double word
at 0x1004 reads as 0. -/
theorem memory_read_signed_and_absent_witness :
    ([(0x1000, MemSize.Word, 0xFFFFFFFF), (0x2000, MemSize.Byte, 0x80)].foldl
      (fun m (w : Nat × MemSize × Nat) => m.write w.1 w.2.1 w.2.2) Memory.empty).read
        0x1004 .DoubleWord false = 0 :=
  (memory_read_signed_and_absent Memory.empty 0x1004).2.2.2.2.2.2
    [(0x1000, MemSize.Word, 0xFFFFFFFF), (0x2000, MemSize.Byte, 0x80)] .DoubleWord false
    (by decide)

/-! ## The first pass, line by line -/

theorem collectLabelsStep_eq (st : CollectState) (n : Nat) (line : String) :
    collectLabelsStep st n line =
      { labelSet :=
          (match definesLabel line with
            | some name =>
              st.labelSet.setLabel
                (toI32 ((0 + st.currentInstructionIndex * 4) % 4294967296)) name true
            | none => st.labelSet)
        instructionsOnly :=
          (if producesInstruction line = true then
            st.instructionsOnly ++ [⟨instructionText line⟩]
          else st.instructionsOnly)
        sourceLineToPC :=
          (if producesInstruction line = true then
            mapInsert (n + 1) ((0 + st.currentInstructionIndex * 4) % 4294967296)
              st.sourceLineToPC
          else st.sourceLineToPC)
        currentInstructionIndex :=
          (if producesInstruction line = true then st.currentInstructionIndex + 1
          else st.currentInstructionIndex) } := by
  unfold collectLabelsStep producesInstruction definesLabel instructionText isIgnoredLine
  simp only []
  by_cases hig : ((cleanLineChars line.data).isEmpty ||
      (cleanLineChars line.data).head? == some '#' ||
      (cleanLineChars line.data).head? == some ';') = true
  · rw [if_pos hig]
    simp only [hig, Bool.not_true, Bool.false_and, Bool.false_eq_true, if_false, if_true]
  · rw [if_neg hig]
    have hig2 := Bool.eq_false_iff.2 hig
    simp only [hig2, Bool.not_false, Bool.true_and, Bool.false_eq_true, if_false]
    cases hc : findChar ':' (cleanLineChars line.data) with
    | none =>
      simp only []
      by_cases he : (cleanLineChars line.data).isEmpty = true
      · simp [he]
      · simp [he]
    | some colonPos =>
      simp only []
      by_cases he : (cleanLineChars ((cleanLineChars line.data).drop (colonPos + 1))).isEmpty
          = true
      · simp [he]
      · simp [he]

theorem collectLabelsLoop_append (st : CollectState) (n : Nat) (xs ys : List String) :
    collectLabelsLoop st n (xs ++ ys) =
      collectLabelsLoop (collectLabelsLoop st n xs) (n + xs.length) ys := by
  induction xs generalizing st n with
  | nil => rfl
  | cons x rest ih =>
    show collectLabelsLoop (collectLabelsStep st n x) (n + 1) (rest ++ ys) =
      collectLabelsLoop (collectLabelsLoop (collectLabelsStep st n x) (n + 1) rest)
        (n + (rest.length + 1)) ys
    rw [ih, show n + 1 + rest.length = n + (rest.length + 1) by omega]


/-- What the first pass has built after a list of lines, started in a state whose counter
is the number of its instructions and whose line map has no later line. -/
theorem collectLabelsLoop_inv (lines : List String) :
    ∀ (st : CollectState) (n : Nat),
      st.currentInstructionIndex = st.instructionsOnly.length →
      (∀ k, n < k → mapFind k st.sourceLineToPC = none) →
      (collectLabelsLoop st n lines).currentInstructionIndex =
          st.instructionsOnly.length + lines.countP producesInstruction ∧
        (collectLabelsLoop st n lines).instructionsOnly.length =
          st.instructionsOnly.length + lines.countP producesInstruction ∧
        (∃ more, (collectLabelsLoop st n lines).instructionsOnly =
          st.instructionsOnly ++ more) ∧
        (∀ k, k ≤ n → mapFind k (collectLabelsLoop st n lines).sourceLineToPC =
          mapFind k st.sourceLineToPC) ∧
        (∀ k, n + lines.length < k →
          mapFind k (collectLabelsLoop st n lines).sourceLineToPC = none) := by
  induction lines with
  | nil =>
    intro st n hidx hmap
    refine ⟨?_, ?_, ⟨[], ?_⟩, fun _ _ => rfl, ?_⟩
    · simpa [collectLabelsLoop] using hidx
    · simp [collectLabelsLoop]
    · simp [collectLabelsLoop]
    · simpa [collectLabelsLoop] using hmap
  | cons line rest ih =>
    intro st n hidx hmap
    have hstep := collectLabelsStep_eq st n line
    have hfind : ∀ k v, k ≠ n + 1 →
        mapFind k (mapInsert (n + 1) v st.sourceLineToPC) = mapFind k st.sourceLineToPC := by
      intro k v hk
      generalize st.sourceLineToPC = l
      induction l with
      | nil => simp [mapInsert, mapFind, Ne.symm hk]
      | cons e l ihl =>
        simp only [mapInsert]
        by_cases he : e.1 = n + 1
        · rw [if_pos he]
          simp only [mapFind]
          rw [if_neg (Ne.symm hk), if_neg (by rw [he]; exact Ne.symm hk)]
        · rw [if_neg he]
          simp only [mapFind, ihl]
    simp only [collectLabelsLoop, List.length_cons]
    by_cases hp : producesInstruction line = true
    · simp only [hp, if_true] at hstep
      have h1 : (collectLabelsStep st n line).currentInstructionIndex =
          (collectLabelsStep st n line).instructionsOnly.length := by
        rw [hstep]
        simp [hidx]
      have h2 : ∀ k, n + 1 < k →
          mapFind k (collectLabelsStep st n line).sourceLineToPC = none := by
        intro k hk
        rw [hstep]
        simp only []
        rw [hfind k _ (by omega)]
        exact hmap k (by omega)
      obtain ⟨i1, i2, ⟨more, i3⟩, i4, i5⟩ := ih (collectLabelsStep st n line) (n + 1) h1 h2
      have hl : (collectLabelsStep st n line).instructionsOnly.length =
          st.instructionsOnly.length + 1 := by
        rw [hstep]
        simp
      have hio : (collectLabelsStep st n line).instructionsOnly =
          st.instructionsOnly ++ [⟨instructionText line⟩] := by
        rw [hstep]
      rw [List.countP_cons_of_pos _ _ hp]
      refine ⟨by rw [i1, hl]; omega, by rw [i2, hl]; omega,
        ⟨(⟨instructionText line⟩ : String) :: more, ?_⟩, ?_, ?_⟩
      · rw [i3, hio, List.append_assoc]
        rfl
      · intro k hk
        rw [i4 k (by omega), hstep]
        simp only []
        exact hfind k _ (by omega)
      · intro k hk
        exact i5 k (by omega)
    · simp only [hp, if_false, Bool.false_eq_true] at hstep
      have h1 : (collectLabelsStep st n line).currentInstructionIndex =
          (collectLabelsStep st n line).instructionsOnly.length := by
        rw [hstep]
        exact hidx
      have h2 : ∀ k, n + 1 < k →
          mapFind k (collectLabelsStep st n line).sourceLineToPC = none := by
        intro k hk
        rw [hstep]
        exact hmap k (by omega)
      obtain ⟨i1, i2, ⟨more, i3⟩, i4, i5⟩ := ih (collectLabelsStep st n line) (n + 1) h1 h2
      have hio : (collectLabelsStep st n line).instructionsOnly = st.instructionsOnly := by
        rw [hstep]
      have hsm : (collectLabelsStep st n line).sourceLineToPC = st.sourceLineToPC := by
        rw [hstep]
      rw [List.countP_cons_of_neg _ _ hp]
      rw [hio] at i1 i2 i3
      refine ⟨i1, i2, ⟨more, i3⟩, ?_, ?_⟩
      · intro k hk
        rw [i4 k (by omega), hsm]
      · intro k hk
        exact i5 k (by omega)


/-! ## The second pass, line by line -/

set_option maxHeartbeats 1000000 in
/-- The instance the second pass pushes for a line carries the PC of the line. -/
theorem assembleLine_pc (mode : ISAMode) (L : LabelSet) (line : String) (pc : Nat)
    (inst : InstructionInstance) (h : assembleLine mode L line pc = .ok (some inst)) :
    inst.pc = pc := by
  unfold assembleLine at h
  simp only [] at h
  repeat' split at h
  all_goals first
    | (injection h with h; injection h with h; rw [← h])
    | (exact absurd h (by simp))


theorem assembleLoop_stop (mode : ISAMode) (L : LabelSet) (line : String) (rest : List String)
    (i : Nat) (st : Assembler)
    (h : assembleLine mode L line ((0 + i * 4) % 4294967296) = .ok none) :
    assembleLoop mode L (line :: rest) i st = .ok st := by
  show (match assembleLine mode L line ((0 + i * 4) % 4294967296) with
    | .error f => (Except.error f : Except Fault Assembler)
    | .ok none => .ok st
    | .ok (some inst) =>
      assembleLoop mode L rest (i + 1)
        { st with instructions := st.instructions ++ [inst]
                  machineCodes := st.machineCodes ++ [inst.machineCode] }) = _
  rw [h]

theorem assembleLoop_fault (mode : ISAMode) (L : LabelSet) (line : String) (rest : List String)
    (i : Nat) (st : Assembler) (f : Fault)
    (h : assembleLine mode L line ((0 + i * 4) % 4294967296) = .error f) :
    assembleLoop mode L (line :: rest) i st = .error f := by
  show (match assembleLine mode L line ((0 + i * 4) % 4294967296) with
    | .error f => (Except.error f : Except Fault Assembler)
    | .ok none => .ok st
    | .ok (some inst) =>
      assembleLoop mode L rest (i + 1)
        { st with instructions := st.instructions ++ [inst]
                  machineCodes := st.machineCodes ++ [inst.machineCode] }) = _
  rw [h]

theorem assembleLine_unknown (mode : ISAMode) (L : LabelSet) (line : String) (pc : Nat)
    (h : getByMnemonic mode (readMnemonic line.data).1 = none) :
    assembleLine mode L line pc = .ok none := by
  unfold assembleLine
  simp only [h]

theorem pushed_of_isSome (x : Except Fault (Option InstructionInstance))
    (h : x.toOption.join.isSome = true) : ∃ inst, x = .ok (some inst) := by
  rcases x with f | o
  · simp [Except.toOption] at h
  · rcases o with _ | inst
    · simp [Except.toOption] at h
    · exact ⟨inst, rfl⟩

/-- The second pass over lines that are all pushed, up to a line that makes it return. -/
theorem assembleLoop_prefix (mode : ISAMode) (L : LabelSet) (bad : String)
    (post pre : List String) :
    ∀ (i : Nat) (st : Assembler),
      (∀ k line, pre.get? k = some line →
        ∃ inst, assembleLine mode L line ((0 + (i + k) * 4) % 4294967296) = .ok (some inst)) →
      assembleLine mode L bad ((0 + (i + pre.length) * 4) % 4294967296) = .ok none →
      ∃ insts, insts.length = pre.length ∧
        assembleLoop mode L (pre ++ bad :: post) i st =
          .ok { st with
            instructions := st.instructions ++ insts
            machineCodes := st.machineCodes ++ insts.map InstructionInstance.machineCode } ∧
        ∀ k line, pre.get? k = some line →
          ∃ inst, insts.get? k = some inst ∧
            assembleLine mode L line ((0 + (i + k) * 4) % 4294967296) = .ok (some inst) := by
  induction pre with
  | nil =>
    intro i st _ hbad
    refine ⟨[], rfl, ?_, fun k line h => by simp at h⟩
    rw [List.nil_append, assembleLoop_stop mode L bad post i st (by simpa using hbad)]
    simp
  | cons line rest ih =>
    intro i st hpre hbad
    obtain ⟨inst, hinst⟩ := hpre 0 line rfl
    obtain ⟨insts, hlen, hloop, hget⟩ := ih (i + 1)
      { st with instructions := st.instructions ++ [inst]
                machineCodes := st.machineCodes ++ [inst.machineCode] }
      (fun k l hk => by
        have := hpre (k + 1) l hk
        rw [show i + (k + 1) = i + 1 + k by omega] at this
        exact this)
      (by rw [List.length_cons, show i + (rest.length + 1) = i + 1 + rest.length by omega]
            at hbad
          exact hbad)
    refine ⟨inst :: insts, by simp [hlen], ?_, ?_⟩
    · rw [List.cons_append, assembleLoop_cons mode L line _ i st inst (by simpa using hinst),
        hloop]
      simp
    · intro k l hk
      rcases k with _ | k
      · simp only [List.get?_cons_zero, Option.some.injEq] at hk
        subst hk
        exact ⟨inst, rfl, hinst⟩
      · have := hget k l hk
        rw [show i + 1 + k = i + (k + 1) by omega] at this
        exact this

/-- The instances the second pass pushes carry the PCs `4 i`, `4 (i + 1)`, ... -/
theorem assembleLoop_pcs (mode : ISAMode) (L : LabelSet) (lines : List String) :
    ∀ (i : Nat) (st a : Assembler), assembleLoop mode L lines i st = .ok a →
      ∃ insts, a.instructions = st.instructions ++ insts ∧ insts.length ≤ lines.length ∧
        ∀ k inst, insts.get? k = some inst → inst.pc = (0 + (i + k) * 4) % 4294967296 := by
  induction lines with
  | nil =>
    intro i st a h
    rw [assembleLoop_nil] at h
    injection h with h
    exact ⟨[], by rw [← h]; simp, Nat.le_refl _, fun k inst hk => by simp at hk⟩
  | cons line rest ih =>
    intro i st a h
    cases hl : assembleLine mode L line ((0 + i * 4) % 4294967296) with
    | error f =>
      rw [assembleLoop_fault mode L line rest i st f hl] at h
      exact absurd h (by simp)
    | ok o =>
      cases o with
      | none =>
        rw [assembleLoop_stop mode L line rest i st hl] at h
        injection h with h
        exact ⟨[], by rw [← h]; simp, Nat.zero_le _, fun k inst hk => by simp at hk⟩
      | some inst =>
        rw [assembleLoop_cons mode L line rest i st inst hl] at h
        obtain ⟨insts, h1, h2, h3⟩ := ih (i + 1) _ a h
        refine ⟨inst :: insts, ?_, ?_, ?_⟩
        · rw [h1]
          simp
        · simp only [List.length_cons]
          omega
        · intro k x hk
          rcases k with _ | k
          · simp only [List.get?_cons_zero, Option.some.injEq] at hk
            subst hk
            rw [assembleLine_pc mode L line _ _ hl]
            rfl
          · rw [h3 k x hk]
            congr 2
            omega

theorem mapFind_mapInsert_self {α β : Type} [DecidableEq α] (k : α) (v : β)
    (l : List (α × β)) : mapFind k (mapInsert k v l) = some v := by
  induction l with
  | nil => simp [mapInsert, mapFind]
  | cons e rest ih =>
    simp only [mapInsert]
    by_cases he : e.1 = k
    · rw [if_pos he]
      simp [mapFind]
    · rw [if_neg he]
      simp only [mapFind, if_neg he, ih]


/-! ## Claims about the two passes -/

/-- C11: the partial result when the assembler stops at an unknown mnemonic.
Let the instruction lines the first pass keeps be `pre`, then a line `bad` whose first word
is no mnemonic of the mode, then `post`, and let every line of `pre` be one the second
pass pushes (at the PC `4 k` for the `k`-th of them). Then `assemble` returns, and what it
leaves is exactly the words and the instances of the lines of `pre`, in order: as many
words and as many instances as `pre` has lines, the `k`-th instance being the one of the
`k`-th line assembled at PC `4 k`, with that PC in it, and the `k`-th word its encoding. -/
theorem assemble_stops_at_unknown_mnemonic (mode : ISAMode) (lines pre : List String)
    (bad : String) (post : List String)
    (hsplit : (collectLabels lines).instructionsOnly = pre ++ bad :: post)
    (hshort : pre.length ≤ 1073741824)
    (hpre : ∀ k line, pre.get? k = some line →
      ∃ inst, assembleLine mode (collectLabels lines).labelSet line (4 * k) = .ok (some inst))
    (hbad : getByMnemonic mode (readMnemonic bad.data).1 = none) :
    ∃ a, assemble mode lines = .ok a ∧
      a.machineCodes.length = pre.length ∧ a.instructions.length = pre.length ∧
      ∀ k line, pre.get? k = some line →
        ∃ inst, assembleLine mode (collectLabels lines).labelSet line (4 * k) = .ok (some inst) ∧
          a.instructions.get? k = some inst ∧
          a.machineCodes.get? k =
            some (inst.instruction.getMachineCode inst.rd inst.rs1 inst.rs2 inst.imm) ∧
          inst.pc = 4 * k := by
  have hk : ∀ k, k < pre.length → (0 + (0 + k) * 4) % 4294967296 = 4 * k := by
    intro k hk
    omega
  have hlt : ∀ k line, pre.get? k = some line → k < pre.length := by
    intro k line h
    exact (List.get?_eq_some.1 h).1
  obtain ⟨insts, hlen, hloop, hget⟩ := assembleLoop_prefix mode (collectLabels lines).labelSet
    bad post pre 0
    { machineCodes := [], labelSet := (collectLabels lines).labelSet, instructions := [],
      sourceLineToPC := (collectLabels lines).sourceLineToPC }
    (fun k line h => by rw [hk k (hlt k line h)]; exact hpre k line h)
    (assembleLine_unknown mode _ bad _ hbad)
  refine ⟨{ machineCodes := [] ++ insts.map InstructionInstance.machineCode,
            labelSet := (collectLabels lines).labelSet,
            instructions := [] ++ insts,
            sourceLineToPC := (collectLabels lines).sourceLineToPC }, ?_, ?_, ?_, ?_⟩
  · unfold assemble
    simp only []
    rw [hsplit]
    exact hloop
  · simp [hlen]
  · simp [hlen]
  · intro k line h
    obtain ⟨inst, h1, h2⟩ := hget k line h
    rw [hk k (hlt k line h)] at h2
    refine ⟨inst, h2, ?_, ?_, assembleLine_pc mode _ line _ inst h2⟩
    · simpa using h1
    · simp only [List.nil_append, List.get?_eq_getElem?, List.getElem?_map] at h1 ⊢
      rw [h1]
      rfl

/-- Witness of C11: two valid lines, a line with the unknown word `foo`, a valid line. -/
theorem assemble_stops_at_unknown_mnemonic_witness :
    ∃ a, assemble .RV32I ["addi x1, x0, 1", "L: add x2, x1, x1", "foo x1, x2",
        "sub x3, x2, x1"] = .ok a ∧
      a.machineCodes.length = ["addi x1, x0, 1", "add x2, x1, x1"].length ∧
      a.instructions.length = ["addi x1, x0, 1", "add x2, x1, x1"].length ∧
      ∀ k line, ["addi x1, x0, 1", "add x2, x1, x1"].get? k = some line →
        ∃ inst, assembleLine .RV32I
            (collectLabels ["addi x1, x0, 1", "L: add x2, x1, x1", "foo x1, x2",
              "sub x3, x2, x1"]).labelSet line (4 * k) = .ok (some inst) ∧
          a.instructions.get? k = some inst ∧
          a.machineCodes.get? k =
            some (inst.instruction.getMachineCode inst.rd inst.rs1 inst.rs2 inst.imm) ∧
          inst.pc = 4 * k :=
  assemble_stops_at_unknown_mnemonic .RV32I
    ["addi x1, x0, 1", "L: add x2, x1, x1", "foo x1, x2", "sub x3, x2, x1"]
    ["addi x1, x0, 1", "add x2, x1, x1"] "foo x1, x2" ["sub x3, x2, x1"]
    (by decide) (by decide)
    (fun k line h =>
      match k, h with
      | 0, h => pushed_of_isSome _ (Option.some.inj h ▸ (by decide))
      | 1, h => pushed_of_isSome _ (Option.some.inj h ▸ (by decide))
      | _ + 2, h => nomatch h)
    (by decide)

/-- C12: the program counters the first pass assigns.
For a source text of at most 2^29 lines: the first pass keeps one instruction for each
instruction-producing line; a line that comes after `i` such lines and produces an
instruction (the `i`-th, from 0) is entered in the line map under its 1-based line number
with the PC `4 i`, and its text is the `i`-th of the kept instructions; a line that
produces none (blank, comment-only, label-only) gets no entry; a label defined on a line
that comes after `i` instruction-producing lines is recorded by `setLabel` at the PC `4 i`,
the PC of the next instruction to be produced, so that the label set then maps the name to
`4 i` and `4 i` to the name; and whenever `assemble` returns, the `i`-th instance it holds
has `pc = 4 i`. -/
theorem collectLabels_assigns_pcs (lines : List String) (hshort : lines.length ≤ 536870912) :
    (collectLabels lines).instructionsOnly.length = lines.countP producesInstruction ∧
    (∀ before line after, lines = before ++ line :: after →
      (producesInstruction line = true →
        mapFind (before.length + 1) (collectLabels lines).sourceLineToPC =
            some (4 * before.countP producesInstruction) ∧
          (collectLabels lines).instructionsOnly.get? (before.countP producesInstruction) =
            some ⟨instructionText line⟩) ∧
      (producesInstruction line = false →
        mapFind (before.length + 1) (collectLabels lines).sourceLineToPC = none) ∧
      (∀ name, definesLabel line = some name →
        (collectLabels (before ++ [line])).labelSet =
            (collectLabels before).labelSet.setLabel
              ((4 * before.countP producesInstruction : Nat) : Int) name true ∧
          mapFind name (collectLabels (before ++ [line])).labelSet.labeltoAddress =
            some ((4 * before.countP producesInstruction : Nat) : Int) ∧
          (collectLabels (before ++ [line])).labelSet.getLabel
            ((4 * before.countP producesInstruction : Nat) : Int) true = name) ∧
      (definesLabel line = none →
        (collectLabels (before ++ [line])).labelSet = (collectLabels before).labelSet)) ∧
    (∀ mode a, assemble mode lines = .ok a →
      ∀ i inst, a.instructions.get? i = some inst → inst.pc = 4 * i) := by
  have hcount : ∀ l : List String, l.countP producesInstruction ≤ l.length :=
    fun l => List.countP_le_length _
  have hstart : ∀ k, 0 < k → mapFind k ([] : List (Nat × Nat)) = none := fun _ _ => rfl
  obtain ⟨_, hlen, _, _, _⟩ := collectLabelsLoop_inv lines
    { labelSet := {}, instructionsOnly := [], sourceLineToPC := [],
      currentInstructionIndex := 0 } 0 rfl hstart
  have hlen2 : (collectLabels lines).instructionsOnly.length =
      lines.countP producesInstruction := by
    simpa using hlen
  refine ⟨hlen2, ?_, ?_⟩
  · intro before line after hsp
    obtain ⟨b1, b2, _, _, b5⟩ := collectLabelsLoop_inv before
      { labelSet := {}, instructionsOnly := [], sourceLineToPC := [],
        currentInstructionIndex := 0 } 0 rfl hstart
    simp only [List.length_nil, Nat.zero_add] at b1 b2 b5
    have hbl : before.length < lines.length := by
      rw [hsp]
      simp
    have hi : before.countP producesInstruction < 536870912 := by
      have := hcount before
      omega
    generalize hI : before.countP producesInstruction = i at *
    have hpc : (0 + i * 4) % 4294967296 = 4 * i := by omega
    have hpci : toI32 (4 * i) = ((4 * i : Nat) : Int) := toI32_of_lt _ (by omega)
    -- the state before the line, after it, and at the end
    have hs : collectLabels before = collectLabelsLoop
      { labelSet := {}, instructionsOnly := [], sourceLineToPC := [],
        currentInstructionIndex := 0 } 0 before := rfl
    have hmid : collectLabels (before ++ [line]) =
        collectLabelsStep (collectLabels before) before.length line := by
      unfold collectLabels
      rw [collectLabelsLoop_append]
      simp [collectLabelsLoop]
    have hend : collectLabels lines =
        collectLabelsLoop (collectLabels (before ++ [line])) (before.length + 1) after := by
      rw [hsp, show before ++ line :: after = (before ++ [line]) ++ after by simp]
      unfold collectLabels
      rw [collectLabelsLoop_append]
      simp
    have hstep := collectLabelsStep_eq (collectLabels before) before.length line
    rw [← hs] at b1 b2 b5
    rw [b1, hpc] at hstep
    refine ⟨?_, ?_, ?_, ?_⟩
    · intro hp
      simp only [hp, if_true] at hstep
      have m1 : (collectLabels (before ++ [line])).currentInstructionIndex =
          (collectLabels (before ++ [line])).instructionsOnly.length := by
        rw [hmid, hstep]
        simp [b2]
      have find1 : mapFind (before.length + 1)
          (collectLabels (before ++ [line])).sourceLineToPC = some (4 * i) := by
        rw [hmid, hstep]
        exact mapFind_mapInsert_self _ _ _
      have m2 : ∀ k, before.length + 1 < k →
          mapFind k (collectLabels (before ++ [line])).sourceLineToPC = none := by
        intro k hk
        by_contra hne
        obtain ⟨v, hv⟩ := Option.ne_none_iff_exists'.1 hne
        have hmem := mapFind_mem _ _ _ hv
        rw [hmid, hstep] at hmem
        simp only [] at hmem
        have hkeys : ∀ (l : List (Nat × Nat)) (a b : Nat) (p : Nat × Nat),
            p ∈ mapInsert a b l → p = (a, b) ∨ p ∈ l := by
          intro l a b p
          induction l with
          | nil => intro h; simpa [mapInsert] using h
          | cons e l ihl =>
            intro h
            simp only [mapInsert] at h
            split at h
            · rcases List.mem_cons.1 h with h | h
              · exact Or.inl h
              · exact Or.inr (List.mem_cons_of_mem _ h)
            · rcases List.mem_cons.1 h with h | h
              · exact Or.inr (h ▸ List.mem_cons_self _ _)
              · rcases ihl h with h | h
                · exact Or.inl h
                · exact Or.inr (List.mem_cons_of_mem _ h)
        rcases hkeys _ _ _ _ hmem with h | h
        · injection h with h1 _
          omega
        · have hnone := b5 k (by omega)
          have hnd : k ∈ (collectLabels before).sourceLineToPC.map Prod.fst :=
            List.mem_map.2 ⟨(k, v), h, rfl⟩
          by_cases hin : k ∈ (collectLabels before).sourceLineToPC.map Prod.fst
          · have : ∀ (l : List (Nat × Nat)), k ∈ l.map Prod.fst → mapFind k l ≠ none := by
              intro l
              induction l with
              | nil => intro h; simp at h
              | cons e l ihl =>
                intro h
                simp only [mapFind]
                split
                · simp
                · rename_i hek
                  simp only [List.map_cons, List.mem_cons] at h
                  rcases h with h | h
                  · exact absurd h.symm hek
                  · exact ihl h
            exact this _ hin hnone
          · exact hin hnd
      obtain ⟨_, _, ⟨more, e3⟩, e4, _⟩ := collectLabelsLoop_inv after
        (collectLabels (before ++ [line])) (before.length + 1) m1 m2
      rw [← hend] at e3 e4
      refine ⟨?_, ?_⟩
      · rw [e4 (before.length + 1) (Nat.le_refl _), find1]
      · rw [e3, hmid, hstep]
        simp only []
        rw [List.append_assoc, List.get?_eq_getElem?, List.getElem?_append_right (by omega), b2]
        simp
    · intro hp
      simp only [hp, if_false, Bool.false_eq_true] at hstep
      have m1 : (collectLabels (before ++ [line])).currentInstructionIndex =
          (collectLabels (before ++ [line])).instructionsOnly.length := by
        rw [hmid, hstep]
        simp [b2]
      have m2 : ∀ k, before.length < k →
          mapFind k (collectLabels (before ++ [line])).sourceLineToPC = none := by
        intro k hk
        rw [hmid, hstep]
        exact b5 k hk
      have m3 : ∀ k, before.length + 1 < k →
          mapFind k (collectLabels (before ++ [line])).sourceLineToPC = none :=
        fun k hk => m2 k (by omega)
      obtain ⟨_, _, _, e4, _⟩ := collectLabelsLoop_inv after
        (collectLabels (before ++ [line])) (before.length + 1) m1 m3
      rw [← hend] at e4
      rw [e4 (before.length + 1) (Nat.le_refl _)]
      exact m2 _ (by omega)
    · intro name hname
      have hlab : (collectLabels (before ++ [line])).labelSet =
          (collectLabels before).labelSet.setLabel ((4 * i : Nat) : Int) name true := by
        rw [hmid, hstep]
        simp only [hname]
        rw [hpci]
      refine ⟨hlab, ?_, ?_⟩
      · rw [hlab]
        exact mapFind_mapInsert_self _ _ _
      · rw [hlab]
        simp only [LabelSet.getLabel, LabelSet.setLabel, if_true, mapFind_mapInsert_self]
        simp
    · intro hname
      rw [hmid, hstep]
      simp only [hname]
  · intro mode a ha i inst hget
    unfold assemble at ha
    simp only [] at ha
    obtain ⟨insts, h1, h2, h3⟩ := assembleLoop_pcs mode _ _ 0 _ a ha
    simp only [List.nil_append] at h1
    rw [h1] at hget
    have hi : i < insts.length := (List.get?_eq_some.1 hget).1
    rw [h3 i inst hget]
    have := hcount lines
    omega


/-- Witness of C12: a comment line, a labelled instruction, an empty line, a label line and
an instruction. -/
theorem collectLabels_assigns_pcs_witness :
    (collectLabels
        ["# start", "L: addi x1, x0, 1", "", "M:", "add x2, x1, x1"]).instructionsOnly.length = 
      ["# start", "L: addi x1, x0, 1", "", "M:", "add x2, x1, x1"].countP producesInstruction ∧
    (∀ before line after, 
      ["# start", "L: addi x1, x0, 1", "", "M:", "add x2, x1, x1"] = before ++ line :: after →
      (producesInstruction line = true →
        mapFind (before.length + 1) (collectLabels
        ["# start", "L: addi x1, x0, 1", "", "M:", "add x2, x1, x1"]).sourceLineToPC =
            some (4 * before.countP producesInstruction) ∧
          (collectLabels
        ["# start", "L: addi x1, x0, 1", "", "M:", "add x2, x1, x1"]).instructionsOnly.get? (before.countP producesInstruction) =
            some ⟨instructionText line⟩) ∧
      (producesInstruction line = false →
        mapFind (before.length + 1) (collectLabels
        ["# start", "L: addi x1, x0, 1", "", "M:", "add x2, x1, x1"]).sourceLineToPC = none) ∧
      (∀ name, definesLabel line = some name →
        (collectLabels (before ++ [line])).labelSet =
            (collectLabels before).labelSet.setLabel
              ((4 * before.countP producesInstruction : Nat) : Int) name true ∧
          mapFind name (collectLabels (before ++ [line])).labelSet.labeltoAddress =
            some ((4 * before.countP producesInstruction : Nat) : Int) ∧
          (collectLabels (before ++ [line])).labelSet.getLabel
            ((4 * before.countP producesInstruction : Nat) : Int) true = name) ∧
      (definesLabel line = none →
        (collectLabels (before ++ [line])).labelSet = (collectLabels before).labelSet)) ∧
    (∀ mode a, assemble mode
      ["# start", "L: addi x1, x0, 1", "", "M:", "add x2, x1, x1"] = .ok a →
      ∀ i inst, a.instructions.get? i = some inst → inst.pc = 4 * i) :=
  collectLabels_assigns_pcs ["# start", "L: addi x1, x0, 1", "", "M:", "add x2, x1, x1"] (by decide)

/-! ## The interpreter: conversions -/

theorem wrapI32_range (x : Int) : -2147483648 ≤ wrapI32 x ∧ wrapI32 x < 2147483648 := by
  unfold wrapI32 toI32 toU32
  split <;> omega

theorem wrapI32_id (x : Int) (h : -2147483648 ≤ x ∧ x < 2147483648) : wrapI32 x = x :=
  toI32_toU32_id x h

/-! ## The interpreter: what a memory access leaves alone -/

theorem sameButMemory_refl (s : Simulator) : s.SameButMemory s :=
  ⟨rfl, rfl, rfl, rfl, rfl, rfl, rfl, rfl, rfl, rfl⟩

theorem CacheSimulator.read_enabled (c d : CacheSimulator) (addr : Nat) (size : MemSize)
    (u : Bool) (rand : Nat) (v : Nat) (h : c.read addr size u rand = .ok (v, d)) :
    d.enabled = c.enabled := by
  unfold CacheSimulator.read at h
  split at h
  · injection h with h
    injection h with _ h
    rw [← h]
  · split at h
    · exact absurd h (by simp)
    · injection h with h
      injection h with _ h
      rw [← h]

theorem CacheSimulator.write_enabled (c d : CacheSimulator) (addr : Nat) (size : MemSize)
    (val : Nat) (rand : Nat) (h : c.write addr size val rand = .ok d) :
    d.enabled = c.enabled := by
  unfold CacheSimulator.write at h
  split at h
  · injection h with h
    rw [← h]
  · split at h
    · exact absurd h (by simp)
    · injection h with h
      rw [← h]

theorem readMemory_same (s t : Simulator) (addr : Nat) (size : MemSize) (u : Bool)
    (rand : Nat) (v : Int) (h : s.readMemory addr size u rand = .ok (v, t)) :
    s.SameButMemory t := by
  unfold Simulator.readMemory at h
  split at h
  · simp only [] at h
    split at h
    · exact absurd h (by simp)
    · rename_i heq
      have he := CacheSimulator.read_enabled _ _ _ _ _ _ _ heq
      injection h with h
      injection h with _ h
      subst h
      exact ⟨rfl, rfl, rfl, rfl, rfl, rfl, rfl, rfl, rfl, he⟩
  · injection h with h
    injection h with _ h
    subst h
    exact sameButMemory_refl s

theorem writeMemory_same (s t : Simulator) (addr : Nat) (size : MemSize) (val : Nat)
    (rand : Nat) (h : s.writeMemory addr size val rand = .ok t) :
    s.SameButMemory t := by
  unfold Simulator.writeMemory at h
  split at h
  · simp only [] at h
    split at h
    · exact absurd h (by simp)
    · rename_i heq
      have he := CacheSimulator.write_enabled _ _ _ _ _ _ heq
      injection h with h
      subst h
      exact ⟨rfl, rfl, rfl, rfl, rfl, rfl, rfl, rfl, rfl, he⟩
  · injection h with h
    subst h
    exact ⟨rfl, rfl, rfl, rfl, rfl, rfl, rfl, rfl, rfl, rfl⟩

/-! ## The interpreter: what one instruction leaves alone -/

theorem setRegValue_regs (s t : Simulator) (r v : Int) (h : s.setRegValue r v = .ok t) :
    s.SameButMemory { t with regs := s.regs } ∧ t.memory = s.memory ∧
      t.cacheSim = s.cacheSim ∧
      ∀ i : Fin 32, t.regs i = s.regs i ∨ (i ≠ 0 ∧ ((i : Nat) : Int) = r ∧ t.regs i = v) := by
  unfold Simulator.setRegValue at h
  split at h
  · injection h with h
    subst h
    exact ⟨sameButMemory_refl _, rfl, rfl, fun i => Or.inl rfl⟩
  · split at h
    · rename_i h0 hr
      injection h with h
      subst h
      refine ⟨⟨rfl, rfl, rfl, rfl, rfl, rfl, rfl, rfl, rfl, rfl⟩, rfl, rfl, fun i => ?_⟩
      by_cases hi : i = ⟨r.toNat, by omega⟩
      · right
        subst hi
        refine ⟨?_, ?_, ?_⟩
        · intro h0'
          have := congrArg Fin.val h0'
          simp only [Fin.val_zero] at this
          omega
        · simp only []
          omega
        · simp
      · left
        simp [hi]
    · exact absurd h (by simp)

theorem Simulator.SameButMemory.armFrame {s t : Simulator} {r : Int} (h : s.SameButMemory t) :
    s.ArmFrame r t :=
  ⟨h.program, h.assembler, h.breakpointInfo, h.running, h.pauseRequested,
    h.resumedFromBreakpoint, h.enabled, fun i => Or.inl (by rw [h.regs])⟩

theorem armFrame_refl (r : Int) (s : Simulator) : s.ArmFrame r s :=
  ⟨rfl, rfl, rfl, rfl, rfl, rfl, rfl, fun _ => Or.inl rfl⟩

theorem armFrame_ok {s u t : Simulator} {v w r : Int}
    (h : (Except.ok (w, u) : Except Fault (Int × Simulator)) = .ok (v, t))
    (hf : s.ArmFrame r u) : s.ArmFrame r t := by
  injection h with h
  injection h with _ h
  subst h
  exact hf

set_option maxHeartbeats 4000000 in
theorem executeArm_frame (s t : Simulator) (inst : InstructionInstance) (rd rs1 rs2 : Int)
    (rand : Nat) (v : Int) (h : s.executeArm inst rd rs1 rs2 rand = .ok (v, t)) :
    s.ArmFrame inst.rd t := by
  unfold Simulator.executeArm at h
  simp only [] at h
  by_cases hn : inst.instruction.mnemonic = "add"
  · rw [if_pos hn] at h
    exact armFrame_ok h (armFrame_refl _ _)
  rw [if_neg hn] at h
  clear hn
  by_cases hn : inst.instruction.mnemonic = "sub"
  · rw [if_pos hn] at h
    exact armFrame_ok h (armFrame_refl _ _)
  rw [if_neg hn] at h
  clear hn
  by_cases hn : inst.instruction.mnemonic = "and"
  · rw [if_pos hn] at h
    exact armFrame_ok h (armFrame_refl _ _)
  rw [if_neg hn] at h
  clear hn
  by_cases hn : inst.instruction.mnemonic = "or"
  · rw [if_pos hn] at h
    exact armFrame_ok h (armFrame_refl _ _)
  rw [if_neg hn] at h
  clear hn
  by_cases hn : inst.instruction.mnemonic = "xor"
  · rw [if_pos hn] at h
    exact armFrame_ok h (armFrame_refl _ _)
  rw [if_neg hn] at h
  clear hn
  by_cases hn : inst.instruction.mnemonic = "sll"
  · rw [if_pos hn] at h
    exact armFrame_ok h (armFrame_refl _ _)
  rw [if_neg hn] at h
  clear hn
  by_cases hn : inst.instruction.mnemonic = "srl"
  · rw [if_pos hn] at h
    exact armFrame_ok h (armFrame_refl _ _)
  rw [if_neg hn] at h
  clear hn
  by_cases hn : inst.instruction.mnemonic = "sra"
  · rw [if_pos hn] at h
    exact armFrame_ok h (armFrame_refl _ _)
  rw [if_neg hn] at h
  clear hn
  by_cases hn : inst.instruction.mnemonic = "mul"
  · rw [if_pos hn] at h
    exact armFrame_ok h (armFrame_refl _ _)
  rw [if_neg hn] at h
  clear hn
  by_cases hn : inst.instruction.mnemonic = "mulh"
  · rw [if_pos hn] at h
    exact armFrame_ok h (armFrame_refl _ _)
  rw [if_neg hn] at h
  clear hn
  by_cases hn : inst.instruction.mnemonic = "mulhsu"
  · rw [if_pos hn] at h
    exact armFrame_ok h (armFrame_refl _ _)
  rw [if_neg hn] at h
  clear hn
  by_cases hn : inst.instruction.mnemonic = "mulhu"
  · rw [if_pos hn] at h
    exact armFrame_ok h (armFrame_refl _ _)
  rw [if_neg hn] at h
  clear hn
  by_cases hn : inst.instruction.mnemonic = "div"
  · rw [if_pos hn] at h
    repeat' split at h
    all_goals exact armFrame_ok h (armFrame_refl _ _)
  rw [if_neg hn] at h
  clear hn
  by_cases hn : inst.instruction.mnemonic = "divu"
  · rw [if_pos hn] at h
    repeat' split at h
    all_goals exact armFrame_ok h (armFrame_refl _ _)
  rw [if_neg hn] at h
  clear hn
  by_cases hn : inst.instruction.mnemonic = "rem"
  · rw [if_pos hn] at h
    repeat' split at h
    all_goals exact armFrame_ok h (armFrame_refl _ _)
  rw [if_neg hn] at h
  clear hn
  by_cases hn : inst.instruction.mnemonic = "remu"
  · rw [if_pos hn] at h
    repeat' split at h
    all_goals exact armFrame_ok h (armFrame_refl _ _)
  rw [if_neg hn] at h
  clear hn
  by_cases hn : inst.instruction.mnemonic = "addw"
  · rw [if_pos hn] at h
    exact armFrame_ok h (armFrame_refl _ _)
  rw [if_neg hn] at h
  clear hn
  by_cases hn : inst.instruction.mnemonic = "subw"
  · rw [if_pos hn] at h
    exact armFrame_ok h (armFrame_refl _ _)
  rw [if_neg hn] at h
  clear hn
  by_cases hn : inst.instruction.mnemonic = "sllw"
  · rw [if_pos hn] at h
    exact armFrame_ok h (armFrame_refl _ _)
  rw [if_neg hn] at h
  clear hn
  by_cases hn : inst.instruction.mnemonic = "srlw"
  · rw [if_pos hn] at h
    exact armFrame_ok h (armFrame_refl _ _)
  rw [if_neg hn] at h
  clear hn
  by_cases hn : inst.instruction.mnemonic = "sraw"
  · rw [if_pos hn] at h
    exact armFrame_ok h (armFrame_refl _ _)
  rw [if_neg hn] at h
  clear hn
  by_cases hn : inst.instruction.mnemonic = "ld"
  · rw [if_pos hn] at h
    split at h
    · exact absurd h (by simp)
    · rename_i heq
      exact armFrame_ok h (readMemory_same _ _ _ _ _ _ _ heq).armFrame
  rw [if_neg hn] at h
  clear hn
  by_cases hn : inst.instruction.mnemonic = "sd"
  · rw [if_pos hn] at h
    split at h
    · exact absurd h (by simp)
    · rename_i heq
      exact armFrame_ok h (writeMemory_same _ _ _ _ _ _ heq).armFrame
  rw [if_neg hn] at h
  clear hn
  by_cases hn : inst.instruction.mnemonic = "mulw"
  · rw [if_pos hn] at h
    exact armFrame_ok h (armFrame_refl _ _)
  rw [if_neg hn] at h
  clear hn
  by_cases hn : inst.instruction.mnemonic = "divw"
  · rw [if_pos hn] at h
    repeat' split at h
    all_goals exact armFrame_ok h (armFrame_refl _ _)
  rw [if_neg hn] at h
  clear hn
  by_cases hn : inst.instruction.mnemonic = "divuw"
  · rw [if_pos hn] at h
    repeat' split at h
    all_goals exact armFrame_ok h (armFrame_refl _ _)
  rw [if_neg hn] at h
  clear hn
  by_cases hn : inst.instruction.mnemonic = "remw"
  · rw [if_pos hn] at h
    repeat' split at h
    all_goals exact armFrame_ok h (armFrame_refl _ _)
  rw [if_neg hn] at h
  clear hn
  by_cases hn : inst.instruction.mnemonic = "remuw"
  · rw [if_pos hn] at h
    repeat' split at h
    all_goals exact armFrame_ok h (armFrame_refl _ _)
  rw [if_neg hn] at h
  clear hn
  by_cases hn : inst.instruction.mnemonic = "addi"
  · rw [if_pos hn] at h
    exact armFrame_ok h (armFrame_refl _ _)
  rw [if_neg hn] at h
  clear hn
  by_cases hn : inst.instruction.mnemonic = "andi"
  · rw [if_pos hn] at h
    exact armFrame_ok h (armFrame_refl _ _)
  rw [if_neg hn] at h
  clear hn
  by_cases hn : inst.instruction.mnemonic = "ori"
  · rw [if_pos hn] at h
    exact armFrame_ok h (armFrame_refl _ _)
  rw [if_neg hn] at h
  clear hn
  by_cases hn : inst.instruction.mnemonic = "xori"
  · rw [if_pos hn] at h
    exact armFrame_ok h (armFrame_refl _ _)
  rw [if_neg hn] at h
  clear hn
  by_cases hn : inst.instruction.mnemonic = "slli"
  · rw [if_pos hn] at h
    exact armFrame_ok h (armFrame_refl _ _)
  rw [if_neg hn] at h
  clear hn
  by_cases hn : inst.instruction.mnemonic = "srli"
  · rw [if_pos hn] at h
    exact armFrame_ok h (armFrame_refl _ _)
  rw [if_neg hn] at h
  clear hn
  by_cases hn : inst.instruction.mnemonic = "srai"
  · rw [if_pos hn] at h
    exact armFrame_ok h (armFrame_refl _ _)
  rw [if_neg hn] at h
  clear hn
  by_cases hn : inst.instruction.mnemonic = "addiw"
  · rw [if_pos hn] at h
    exact armFrame_ok h (armFrame_refl _ _)
  rw [if_neg hn] at h
  clear hn
  by_cases hn : inst.instruction.mnemonic = "slliw"
  · rw [if_pos hn] at h
    exact armFrame_ok h (armFrame_refl _ _)
  rw [if_neg hn] at h
  clear hn
  by_cases hn : inst.instruction.mnemonic = "srliw"
  · rw [if_pos hn] at h
    exact armFrame_ok h (armFrame_refl _ _)
  rw [if_neg hn] at h
  clear hn
  by_cases hn : inst.instruction.mnemonic = "sraiw"
  · rw [if_pos hn] at h
    exact armFrame_ok h (armFrame_refl _ _)
  rw [if_neg hn] at h
  clear hn
  by_cases hn : inst.instruction.mnemonic = "lw"
  · rw [if_pos hn] at h
    split at h
    · exact absurd h (by simp)
    · rename_i heq
      exact armFrame_ok h (readMemory_same _ _ _ _ _ _ _ heq).armFrame
  rw [if_neg hn] at h
  clear hn
  by_cases hn : inst.instruction.mnemonic = "lh"
  · rw [if_pos hn] at h
    split at h
    · exact absurd h (by simp)
    · rename_i heq
      exact armFrame_ok h (readMemory_same _ _ _ _ _ _ _ heq).armFrame
  rw [if_neg hn] at h
  clear hn
  by_cases hn : inst.instruction.mnemonic = "lb"
  · rw [if_pos hn] at h
    split at h
    · exact absurd h (by simp)
    · rename_i heq
      exact armFrame_ok h (readMemory_same _ _ _ _ _ _ _ heq).armFrame
  rw [if_neg hn] at h
  clear hn
  by_cases hn : inst.instruction.mnemonic = "lhu"
  · rw [if_pos hn] at h
    split at h
    · exact absurd h (by simp)
    · rename_i heq
      exact armFrame_ok h (readMemory_same _ _ _ _ _ _ _ heq).armFrame
  rw [if_neg hn] at h
  clear hn
  by_cases hn : inst.instruction.mnemonic = "lbu"
  · rw [if_pos hn] at h
    split at h
    · exact absurd h (by simp)
    · rename_i heq
      exact armFrame_ok h (readMemory_same _ _ _ _ _ _ _ heq).armFrame
  rw [if_neg hn] at h
  clear hn
  by_cases hn : inst.instruction.mnemonic = "lwu"
  · rw [if_pos hn] at h
    split at h
    · exact absurd h (by simp)
    · rename_i heq
      exact armFrame_ok h (readMemory_same _ _ _ _ _ _ _ heq).armFrame
  rw [if_neg hn] at h
  clear hn
  by_cases hn : inst.instruction.mnemonic = "sw"
  · rw [if_pos hn] at h
    split at h
    · exact absurd h (by simp)
    · rename_i heq
      exact armFrame_ok h (writeMemory_same _ _ _ _ _ _ heq).armFrame
  rw [if_neg hn] at h
  clear hn
  by_cases hn : inst.instruction.mnemonic = "sh"
  · rw [if_pos hn] at h
    split at h
    · exact absurd h (by simp)
    · rename_i heq
      exact armFrame_ok h (writeMemory_same _ _ _ _ _ _ heq).armFrame
  rw [if_neg hn] at h
  clear hn
  by_cases hn : inst.instruction.mnemonic = "sb"
  · rw [if_pos hn] at h
    split at h
    · exact absurd h (by simp)
    · rename_i heq
      exact armFrame_ok h (writeMemory_same _ _ _ _ _ _ heq).armFrame
  rw [if_neg hn] at h
  clear hn
  by_cases hn : inst.instruction.mnemonic = "beq" ∧ rs1 = rs2
  · rw [if_pos hn] at h
    exact armFrame_ok h ⟨rfl, rfl, rfl, rfl, rfl, rfl, rfl, fun i => Or.inl rfl⟩
  rw [if_neg hn] at h
  clear hn
  by_cases hn : inst.instruction.mnemonic = "bne" ∧ rs1 ≠ rs2
  · rw [if_pos hn] at h
    exact armFrame_ok h ⟨rfl, rfl, rfl, rfl, rfl, rfl, rfl, fun i => Or.inl rfl⟩
  rw [if_neg hn] at h
  clear hn
  by_cases hn : inst.instruction.mnemonic = "blt" ∧ wrapI32 rs1 < wrapI32 rs2
  · rw [if_pos hn] at h
    exact armFrame_ok h ⟨rfl, rfl, rfl, rfl, rfl, rfl, rfl, fun i => Or.inl rfl⟩
  rw [if_neg hn] at h
  clear hn
  by_cases hn : inst.instruction.mnemonic = "bge" ∧ wrapI32 rs1 ≥ wrapI32 rs2
  · rw [if_pos hn] at h
    exact armFrame_ok h ⟨rfl, rfl, rfl, rfl, rfl, rfl, rfl, fun i => Or.inl rfl⟩
  rw [if_neg hn] at h
  clear hn
  by_cases hn : inst.instruction.mnemonic = "bltu" ∧ toU32 rs1 < toU32 rs2
  · rw [if_pos hn] at h
    exact armFrame_ok h ⟨rfl, rfl, rfl, rfl, rfl, rfl, rfl, fun i => Or.inl rfl⟩
  rw [if_neg hn] at h
  clear hn
  by_cases hn : inst.instruction.mnemonic = "bgeu" ∧ toU32 rs1 ≥ toU32 rs2
  · rw [if_pos hn] at h
    exact armFrame_ok h ⟨rfl, rfl, rfl, rfl, rfl, rfl, rfl, fun i => Or.inl rfl⟩
  rw [if_neg hn] at h
  clear hn
  by_cases hn : inst.instruction.mnemonic = "jal"
  · rw [if_pos hn] at h
    split at h
    · split at h
      · exact absurd h (by simp)
      · rename_i heq
        obtain ⟨h1, _, _, h4⟩ := setRegValue_regs _ _ _ _ heq
        refine armFrame_ok h ⟨h1.program, h1.assembler, h1.breakpointInfo, h1.running,
          h1.pauseRequested, h1.resumedFromBreakpoint, h1.enabled, fun i => ?_⟩
        rcases h4 i with h4 | ⟨h5, h7, h6⟩
        · exact Or.inl h4
        · exact Or.inr ⟨h5, h7, by rw [h6]; exact wrapI32_range _⟩
    · exact armFrame_ok h ⟨rfl, rfl, rfl, rfl, rfl, rfl, rfl, fun i => Or.inl rfl⟩
  rw [if_neg hn] at h
  clear hn
  by_cases hn : inst.instruction.mnemonic = "jalr"
  · rw [if_pos hn] at h
    exact armFrame_ok h ⟨rfl, rfl, rfl, rfl, rfl, rfl, rfl, fun i => Or.inl rfl⟩
  rw [if_neg hn] at h
  clear hn
  by_cases hn : inst.instruction.mnemonic = "lui"
  · rw [if_pos hn] at h
    exact armFrame_ok h (armFrame_refl _ _)
  rw [if_neg hn] at h
  clear hn
  by_cases hn : inst.instruction.mnemonic = "auipc"
  · rw [if_pos hn] at h
    exact armFrame_ok h (armFrame_refl _ _)
  rw [if_neg hn] at h
  clear hn
  exact armFrame_ok h (armFrame_refl _ _)


theorem frame_refl (s : Simulator) : s.Frame s :=
  ⟨rfl, rfl, rfl, rfl, fun _ => Or.inl rfl⟩

theorem Simulator.Frame.trans {s t u : Simulator} (h1 : s.Frame t) (h2 : t.Frame u) :
    s.Frame u := by
  refine ⟨h2.program.trans h1.program, h2.assembler.trans h1.assembler,
    h2.breakpointInfo.trans h1.breakpointInfo, h2.enabled.trans h1.enabled, fun i => ?_⟩
  rcases h2.regs i with h | h
  · rcases h1.regs i with h' | h'
    · exact Or.inl (h.trans h')
    · exact Or.inr ⟨h'.1, by rw [h]; exact h'.2⟩
  · exact Or.inr h

theorem Simulator.ArmFrame.frame {s t : Simulator} {r : Int} (h : s.ArmFrame r t) :
    s.Frame t :=
  ⟨h.program, h.assembler, h.breakpointInfo, h.enabled, fun i => by
    rcases h.regs i with h | h
    · exact Or.inl h
    · exact Or.inr ⟨h.1, h.2.2⟩⟩

theorem setRegValue_frame (s t : Simulator) (r v : Int) (h : s.setRegValue r (wrapI32 v) = .ok t) :
    s.Frame t := by
  obtain ⟨h1, _, _, h4⟩ := setRegValue_regs _ _ _ _ h
  refine ⟨h1.program, h1.assembler, h1.breakpointInfo, h1.enabled, fun i => ?_⟩
  rcases h4 i with h4 | ⟨h5, _, h6⟩
  · exact Or.inl h4
  · exact Or.inr ⟨h5, by rw [h6]; exact wrapI32_range _⟩

/-- The registers after `execute`: each keeps its value, but for the register `rd` of the
instruction when that is not `x0`, which may have received an `int`. -/
theorem execute_regs (s t : Simulator) (inst : InstructionInstance) (rand : Nat)
    (h : s.execute inst rand = .ok t) :
    ∀ i : Fin 32, t.regs i = s.regs i ∨
      (i ≠ 0 ∧ ((i : Nat) : Int) = inst.rd ∧
        -2147483648 ≤ t.regs i ∧ t.regs i < 2147483648) := by
  unfold Simulator.execute at h
  simp only [] at h
  split at h
  · injection h with h
    subst h
    exact fun _ => Or.inl rfl
  · split at h
    · injection h with h
      subst h
      exact fun _ => Or.inl rfl
    · split at h
      · split at h
        · exact absurd h (by simp)
        · rename_i harm
          have hf := executeArm_frame _ _ _ _ _ _ _ _ harm
          split at h
          · obtain ⟨_, _, _, h4⟩ := setRegValue_regs _ _ _ _ h
            intro i
            rcases h4 i with h4 | ⟨h5, h7, h6⟩
            · rw [h4]
              exact hf.regs i
            · exact Or.inr ⟨h5, h7, by rw [h6]; exact wrapI32_range _⟩
          · injection h with h
            subst h
            exact hf.regs
      · exact absurd h (by simp)

theorem execute_frame (s t : Simulator) (inst : InstructionInstance) (rand : Nat)
    (h : s.execute inst rand = .ok t) : s.Frame t := by
  unfold Simulator.execute at h
  simp only [] at h
  split at h
  · injection h with h
    subst h
    exact ⟨rfl, rfl, rfl, rfl, fun _ => Or.inl rfl⟩
  · split at h
    · injection h with h
      subst h
      exact ⟨rfl, rfl, rfl, rfl, fun _ => Or.inl rfl⟩
    · split at h
      · split at h
        · exact absurd h (by simp)
        · rename_i harm
          have hf := (executeArm_frame _ _ _ _ _ _ _ _ harm).frame
          split at h
          · exact hf.trans (setRegValue_frame _ _ _ _ h)
          · injection h with h
            subst h
            exact hf
      · exact absurd h (by simp)

theorem step_frame (s t : Simulator) (rand : Nat) (line : Int)
    (h : s.step rand = .ok (line, t)) : s.Frame t := by
  unfold Simulator.step at h
  simp only [] at h
  split at h
  · injection h with h
    injection h with _ h
    subst h
    exact frame_refl s
  · split at h
    · exact absurd h (by simp)
    · split at h
      · exact absurd h (by simp)
      · rename_i hex
        have hf := execute_frame _ _ _ _ hex
        injection h with h
        injection h with _ h
        subst h
        exact ⟨hf.program, hf.assembler, hf.breakpointInfo, hf.enabled, hf.regs⟩

theorem runLoop_frame (fuel : Nat) : ∀ (i : Nat) (s t : Simulator) (rand : Nat → Nat),
    Simulator.runLoop fuel i s rand = .ok (some t) → s.Frame t := by
  induction fuel with
  | zero =>
    intro i s t rand h
    unfold Simulator.runLoop at h
    split at h
    · exact absurd h (by simp)
    · injection h with h
      injection h with h
      subst h
      exact frame_refl s
  | succ fuel ih =>
    intro i s t rand h
    unfold Simulator.runLoop at h
    split at h
    · simp only [] at h
      split at h
      · injection h with h
        injection h with h
        subst h
        exact ⟨rfl, rfl, rfl, rfl, fun _ => Or.inl rfl⟩
      · split at h
        · exact absurd h (by simp)
        · rename_i hstep
          have hf := step_frame _ _ _ _ hstep
          have hf2 : s.Frame _ := ⟨hf.program, hf.assembler, hf.breakpointInfo, hf.enabled, hf.regs⟩
          split at h
          · injection h with h
            injection h with h
            subst h
            exact hf2
          · exact hf2.trans (ih _ _ _ _ h)
    · injection h with h
      injection h with h
      subst h
      exact frame_refl s

theorem run_frame (s t : Simulator) (fuel : Nat) (rand : Nat → Nat)
    (h : s.run fuel rand = .ok (some t)) : s.Frame t := by
  unfold Simulator.run at h
  split at h
  · exact absurd h (by simp)
  · exact absurd h (by simp)
  · rename_i hloop
    have hf := runLoop_frame _ _ _ _ _ hloop
    injection h with h
    injection h with h
    subst h
    exact ⟨hf.program, hf.assembler, hf.breakpointInfo, hf.enabled, hf.regs⟩

/-- In every state reached from `load`, register `x0` holds 0 and every register holds an
`int`. -/
theorem reachable_regs (s : Simulator) (h : s.Reachable) :
    s.regs 0 = 0 ∧ ∀ i : Fin 32, -2147483648 ≤ s.regs i ∧ s.regs i < 2147483648 := by
  have key : ∀ a b : Simulator, a.Frame b →
      (a.regs 0 = 0 ∧ ∀ i : Fin 32, -2147483648 ≤ a.regs i ∧ a.regs i < 2147483648) →
      (b.regs 0 = 0 ∧ ∀ i : Fin 32, -2147483648 ≤ b.regs i ∧ b.regs i < 2147483648) := by
    intro a b hf ⟨h0, hr⟩
    refine ⟨?_, fun i => ?_⟩
    · rcases hf.regs 0 with h | h
      · rw [h, h0]
      · exact absurd rfl h.1
    · rcases hf.regs i with h | h
      · rw [h]
        exact hr i
      · exact h.2
  induction h with
  | load s0 instructions =>
    exact ⟨rfl, fun i => ⟨by show (-2147483648 : Int) ≤ 0; decide,
      by show (0 : Int) < 2147483648; decide⟩⟩
  | step s0 rand line next _ hstep ih => exact key _ _ (step_frame _ _ _ _ hstep) ih
  | run s0 fuel rand next _ hrun ih => exact key _ _ (run_frame _ _ _ _ hrun) ih


/-! ## The interpreter: an instruction returns -/

theorem readMemory_off (s : Simulator) (addr : Nat) (size : MemSize) (u : Bool) (rand : Nat)
    (h : s.cacheSim.enabled = false) :
    s.readMemory addr size u rand = .ok (s.memory.read addr size u, s) := by
  unfold Simulator.readMemory
  simp [h]

theorem writeMemory_off (s : Simulator) (addr : Nat) (size : MemSize) (val : Nat) (rand : Nat)
    (h : s.cacheSim.enabled = false) :
    s.writeMemory addr size val rand = .ok { s with memory := s.memory.write addr size val } := by
  unfold Simulator.writeMemory
  simp [h]

theorem setRegValue_ok (s : Simulator) (r v : Int) (h : 0 ≤ r ∧ r < 32) :
    ∃ t, s.setRegValue r v = .ok t := by
  unfold Simulator.setRegValue
  split
  · exact ⟨_, rfl⟩
  · exact ⟨_, rfl⟩

theorem reg_ok (s : Simulator) (r : Int) (h : 0 ≤ r ∧ r < 32) :
    s.reg r = .ok (s.regs ⟨r.toNat, by omega⟩) := by
  unfold Simulator.reg
  rw [dif_pos h]

set_option maxHeartbeats 4000000 in
/-- With the cache off, the chain of `execute` returns for every instruction whose `rd` is a
register number. -/
theorem executeArm_ok (s : Simulator) (inst : InstructionInstance) (rd rs1 rs2 : Int)
    (rand : Nat) (hoff : s.cacheSim.enabled = false) (hrd : 0 ≤ inst.rd ∧ inst.rd < 32) :
    ∃ r, s.executeArm inst rd rs1 rs2 rand = .ok r := by
  unfold Simulator.executeArm
  simp only []
  by_cases hn : inst.instruction.mnemonic = "add"
  · rw [if_pos hn]
    exact ⟨_, rfl⟩
  rw [if_neg hn]
  clear hn
  by_cases hn : inst.instruction.mnemonic = "sub"
  · rw [if_pos hn]
    exact ⟨_, rfl⟩
  rw [if_neg hn]
  clear hn
  by_cases hn : inst.instruction.mnemonic = "and"
  · rw [if_pos hn]
    exact ⟨_, rfl⟩
  rw [if_neg hn]
  clear hn
  by_cases hn : inst.instruction.mnemonic = "or"
  · rw [if_pos hn]
    exact ⟨_, rfl⟩
  rw [if_neg hn]
  clear hn
  by_cases hn : inst.instruction.mnemonic = "xor"
  · rw [if_pos hn]
    exact ⟨_, rfl⟩
  rw [if_neg hn]
  clear hn
  by_cases hn : inst.instruction.mnemonic = "sll"
  · rw [if_pos hn]
    exact ⟨_, rfl⟩
  rw [if_neg hn]
  clear hn
  by_cases hn : inst.instruction.mnemonic = "srl"
  · rw [if_pos hn]
    exact ⟨_, rfl⟩
  rw [if_neg hn]
  clear hn
  by_cases hn : inst.instruction.mnemonic = "sra"
  · rw [if_pos hn]
    exact ⟨_, rfl⟩
  rw [if_neg hn]
  clear hn
  by_cases hn : inst.instruction.mnemonic = "mul"
  · rw [if_pos hn]
    exact ⟨_, rfl⟩
  rw [if_neg hn]
  clear hn
  by_cases hn : inst.instruction.mnemonic = "mulh"
  · rw [if_pos hn]
    exact ⟨_, rfl⟩
  rw [if_neg hn]
  clear hn
  by_cases hn : inst.instruction.mnemonic = "mulhsu"
  · rw [if_pos hn]
    exact ⟨_, rfl⟩
  rw [if_neg hn]
  clear hn
  by_cases hn : inst.instruction.mnemonic = "mulhu"
  · rw [if_pos hn]
    exact ⟨_, rfl⟩
  rw [if_neg hn]
  clear hn
  by_cases hn : inst.instruction.mnemonic = "div"
  · rw [if_pos hn]
    repeat' split
    all_goals exact ⟨_, rfl⟩
  rw [if_neg hn]
  clear hn
  by_cases hn : inst.instruction.mnemonic = "divu"
  · rw [if_pos hn]
    repeat' split
    all_goals exact ⟨_, rfl⟩
  rw [if_neg hn]
  clear hn
  by_cases hn : inst.instruction.mnemonic = "rem"
  · rw [if_pos hn]
    repeat' split
    all_goals exact ⟨_, rfl⟩
  rw [if_neg hn]
  clear hn
  by_cases hn : inst.instruction.mnemonic = "remu"
  · rw [if_pos hn]
    repeat' split
    all_goals exact ⟨_, rfl⟩
  rw [if_neg hn]
  clear hn
  by_cases hn : inst.instruction.mnemonic = "addw"
  · rw [if_pos hn]
    exact ⟨_, rfl⟩
  rw [if_neg hn]
  clear hn
  by_cases hn : inst.instruction.mnemonic = "subw"
  · rw [if_pos hn]
    exact ⟨_, rfl⟩
  rw [if_neg hn]
  clear hn
  by_cases hn : inst.instruction.mnemonic = "sllw"
  · rw [if_pos hn]
    exact ⟨_, rfl⟩
  rw [if_neg hn]
  clear hn
  by_cases hn : inst.instruction.mnemonic = "srlw"
  · rw [if_pos hn]
    exact ⟨_, rfl⟩
  rw [if_neg hn]
  clear hn
  by_cases hn : inst.instruction.mnemonic = "sraw"
  · rw [if_pos hn]
    exact ⟨_, rfl⟩
  rw [if_neg hn]
  clear hn
  by_cases hn : inst.instruction.mnemonic = "ld"
  · rw [if_pos hn]
    rw [readMemory_off _ _ _ _ _ hoff]
    exact ⟨_, rfl⟩
  rw [if_neg hn]
  clear hn
  by_cases hn : inst.instruction.mnemonic = "sd"
  · rw [if_pos hn]
    rw [writeMemory_off _ _ _ _ _ hoff]
    exact ⟨_, rfl⟩
  rw [if_neg hn]
  clear hn
  by_cases hn : inst.instruction.mnemonic = "mulw"
  · rw [if_pos hn]
    exact ⟨_, rfl⟩
  rw [if_neg hn]
  clear hn
  by_cases hn : inst.instruction.mnemonic = "divw"
  · rw [if_pos hn]
    repeat' split
    all_goals exact ⟨_, rfl⟩
  rw [if_neg hn]
  clear hn
  by_cases hn : inst.instruction.mnemonic = "divuw"
  · rw [if_pos hn]
    repeat' split
    all_goals exact ⟨_, rfl⟩
  rw [if_neg hn]
  clear hn
  by_cases hn : inst.instruction.mnemonic = "remw"
  · rw [if_pos hn]
    repeat' split
    all_goals exact ⟨_, rfl⟩
  rw [if_neg hn]
  clear hn
  by_cases hn : inst.instruction.mnemonic = "remuw"
  · rw [if_pos hn]
    repeat' split
    all_goals exact ⟨_, rfl⟩
  rw [if_neg hn]
  clear hn
  by_cases hn : inst.instruction.mnemonic = "addi"
  · rw [if_pos hn]
    exact ⟨_, rfl⟩
  rw [if_neg hn]
  clear hn
  by_cases hn : inst.instruction.mnemonic = "andi"
  · rw [if_pos hn]
    exact ⟨_, rfl⟩
  rw [if_neg hn]
  clear hn
  by_cases hn : inst.instruction.mnemonic = "ori"
  · rw [if_pos hn]
    exact ⟨_, rfl⟩
  rw [if_neg hn]
  clear hn
  by_cases hn : inst.instruction.mnemonic = "xori"
  · rw [if_pos hn]
    exact ⟨_, rfl⟩
  rw [if_neg hn]
  clear hn
  by_cases hn : inst.instruction.mnemonic = "slli"
  · rw [if_pos hn]
    exact ⟨_, rfl⟩
  rw [if_neg hn]
  clear hn
  by_cases hn : inst.instruction.mnemonic = "srli"
  · rw [if_pos hn]
    exact ⟨_, rfl⟩
  rw [if_neg hn]
  clear hn
  by_cases hn : inst.instruction.mnemonic = "srai"
  · rw [if_pos hn]
    exact ⟨_, rfl⟩
  rw [if_neg hn]
  clear hn
  by_cases hn : inst.instruction.mnemonic = "addiw"
  · rw [if_pos hn]
    exact ⟨_, rfl⟩
  rw [if_neg hn]
  clear hn
  by_cases hn : inst.instruction.mnemonic = "slliw"
  · rw [if_pos hn]
    exact ⟨_, rfl⟩
  rw [if_neg hn]
  clear hn
  by_cases hn : inst.instruction.mnemonic = "srliw"
  · rw [if_pos hn]
    exact ⟨_, rfl⟩
  rw [if_neg hn]
  clear hn
  by_cases hn : inst.instruction.mnemonic = "sraiw"
  · rw [if_pos hn]
    exact ⟨_, rfl⟩
  rw [if_neg hn]
  clear hn
  by_cases hn : inst.instruction.mnemonic = "lw"
  · rw [if_pos hn]
    rw [readMemory_off _ _ _ _ _ hoff]
    exact ⟨_, rfl⟩
  rw [if_neg hn]
  clear hn
  by_cases hn : inst.instruction.mnemonic = "lh"
  · rw [if_pos hn]
    rw [readMemory_off _ _ _ _ _ hoff]
    exact ⟨_, rfl⟩
  rw [if_neg hn]
  clear hn
  by_cases hn : inst.instruction.mnemonic = "lb"
  · rw [if_pos hn]
    rw [readMemory_off _ _ _ _ _ hoff]
    exact ⟨_, rfl⟩
  rw [if_neg hn]
  clear hn
  by_cases hn : inst.instruction.mnemonic = "lhu"
  · rw [if_pos hn]
    rw [readMemory_off _ _ _ _ _ hoff]
    exact ⟨_, rfl⟩
  rw [if_neg hn]
  clear hn
  by_cases hn : inst.instruction.mnemonic = "lbu"
  · rw [if_pos hn]
    rw [readMemory_off _ _ _ _ _ hoff]
    exact ⟨_, rfl⟩
  rw [if_neg hn]
  clear hn
  by_cases hn : inst.instruction.mnemonic = "lwu"
  · rw [if_pos hn]
    rw [readMemory_off _ _ _ _ _ hoff]
    exact ⟨_, rfl⟩
  rw [if_neg hn]
  clear hn
  by_cases hn : inst.instruction.mnemonic = "sw"
  · rw [if_pos hn]
    rw [writeMemory_off _ _ _ _ _ hoff]
    exact ⟨_, rfl⟩
  rw [if_neg hn]
  clear hn
  by_cases hn : inst.instruction.mnemonic = "sh"
  · rw [if_pos hn]
    rw [writeMemory_off _ _ _ _ _ hoff]
    exact ⟨_, rfl⟩
  rw [if_neg hn]
  clear hn
  by_cases hn : inst.instruction.mnemonic = "sb"
  · rw [if_pos hn]
    rw [writeMemory_off _ _ _ _ _ hoff]
    exact ⟨_, rfl⟩
  rw [if_neg hn]
  clear hn
  by_cases hn : inst.instruction.mnemonic = "beq" ∧ rs1 = rs2
  · rw [if_pos hn]
    exact ⟨_, rfl⟩
  rw [if_neg hn]
  clear hn
  by_cases hn : inst.instruction.mnemonic = "bne" ∧ rs1 ≠ rs2
  · rw [if_pos hn]
    exact ⟨_, rfl⟩
  rw [if_neg hn]
  clear hn
  by_cases hn : inst.instruction.mnemonic = "blt" ∧ wrapI32 rs1 < wrapI32 rs2
  · rw [if_pos hn]
    exact ⟨_, rfl⟩
  rw [if_neg hn]
  clear hn
  by_cases hn : inst.instruction.mnemonic = "bge" ∧ wrapI32 rs1 ≥ wrapI32 rs2
  · rw [if_pos hn]
    exact ⟨_, rfl⟩
  rw [if_neg hn]
  clear hn
  by_cases hn : inst.instruction.mnemonic = "bltu" ∧ toU32 rs1 < toU32 rs2
  · rw [if_pos hn]
    exact ⟨_, rfl⟩
  rw [if_neg hn]
  clear hn
  by_cases hn : inst.instruction.mnemonic = "bgeu" ∧ toU32 rs1 ≥ toU32 rs2
  · rw [if_pos hn]
    exact ⟨_, rfl⟩
  rw [if_neg hn]
  clear hn
  by_cases hn : inst.instruction.mnemonic = "jal"
  · rw [if_pos hn]
    split
    · obtain ⟨u, hu⟩ := setRegValue_ok s inst.rd (wrapI32 (s.pc + 4)) hrd
      rw [hu]
      exact ⟨_, rfl⟩
    · exact ⟨_, rfl⟩
  rw [if_neg hn]
  clear hn
  by_cases hn : inst.instruction.mnemonic = "jalr"
  · rw [if_pos hn]
    exact ⟨_, rfl⟩
  rw [if_neg hn]
  clear hn
  by_cases hn : inst.instruction.mnemonic = "lui"
  · rw [if_pos hn]
    exact ⟨_, rfl⟩
  rw [if_neg hn]
  clear hn
  by_cases hn : inst.instruction.mnemonic = "auipc"
  · rw [if_pos hn]
    exact ⟨_, rfl⟩
  rw [if_neg hn]
  clear hn
  exact ⟨_, rfl⟩

/-- With the cache off, `execute` returns for every instruction whose register fields are
register numbers. -/
theorem execute_ok (s : Simulator) (inst : InstructionInstance) (rand : Nat)
    (hoff : s.cacheSim.enabled = false) (hrd : 0 ≤ inst.rd ∧ inst.rd < 32)
    (hrs1 : 0 ≤ inst.rs1 ∧ inst.rs1 < 32) (hrs2 : 0 ≤ inst.rs2 ∧ inst.rs2 < 32) :
    ∃ t, s.execute inst rand = .ok t := by
  unfold Simulator.execute
  simp only []
  split
  · exact ⟨_, rfl⟩
  · split
    · exact ⟨_, rfl⟩
    · rw [reg_ok s _ hrd, reg_ok s _ hrs1, reg_ok s _ hrs2]
      simp only []
      obtain ⟨⟨v, u⟩, hu⟩ := executeArm_ok s inst (s.regs ⟨inst.rd.toNat, by omega⟩)
        (s.regs ⟨inst.rs1.toNat, by omega⟩) (s.regs ⟨inst.rs2.toNat, by omega⟩) rand hoff hrd
      rw [hu]
      simp only []
      split
      · exact setRegValue_ok u inst.rd _ hrd
      · exact ⟨_, rfl⟩

/-- With the cache off, `step` returns on every program whose register fields are register
numbers. -/
theorem step_ok (s : Simulator) (rand : Nat) (hoff : s.cacheSim.enabled = false)
    (hprog : ∀ inst, inst ∈ s.program →
      (0 ≤ inst.rd ∧ inst.rd < 32) ∧ (0 ≤ inst.rs1 ∧ inst.rs1 < 32) ∧
        (0 ≤ inst.rs2 ∧ inst.rs2 < 32)) :
    ∃ r, s.step rand = .ok r := by
  unfold Simulator.step
  simp only []
  split
  · exact ⟨_, rfl⟩
  · rename_i hidx
    simp only [not_or, not_lt, ge_iff_le, not_le] at hidx
    obtain ⟨_, h0, hlt⟩ := hidx
    have hw : wrapI32 (s.program.length : Int) ≤ (s.program.length : Int) := by
      unfold wrapI32 toI32 toU32
      split <;> omega
    have hget : (Int.tdiv s.pc 4).toNat < s.program.length := by omega
    rw [List.get?_eq_get hget]
    simp only []
    obtain ⟨h1, h2, h3⟩ := hprog _ (List.get_mem _ _ hget)
    obtain ⟨t, ht⟩ := execute_ok
      { s with shadowCallStack :=
          (if s.pc = 0 then s.shadowCallStack.pushFrame s.assembler s.pc
          else s.shadowCallStack.updateTopFrameSourceLine
            (s.assembler.getCurrentSourceLine s.pc)) }
      (s.program.get ⟨(Int.tdiv s.pc 4).toNat, hget⟩) rand hoff h1 h2 h3
    rw [ht]
    exact ⟨_, rfl⟩

/-! ## The interpreter: one instruction that writes its result -/

theorem reg_eq (s : Simulator) (r a : Int) (h : s.reg r = .ok a) :
    ∃ hr : 0 ≤ r ∧ r < 32, a = s.regs ⟨r.toNat, by omega⟩ := by
  unfold Simulator.reg at h
  split at h
  · rename_i hr
    injection h with h
    exact ⟨hr, h.symm⟩
  · exact absurd h (by simp)

theorem writesToRegister_not_system (name : String) (h : writesToRegister name = true) :
    name ≠ "ecall" ∧ name ≠ "ebreak" := by
  constructor <;> (rintro rfl; exact absurd h (by decide))

/-- An instruction of the write-back list whose arm leaves the state alone: `execute`
returns, `rd` holds the `int` made of the value of the arm, and nothing else changes. -/
theorem execute_write (s : Simulator) (inst : InstructionInstance) (rand : Nat)
    (a b v : Int) (hrd : 0 < inst.rd ∧ inst.rd < 32)
    (ha : s.reg inst.rs1 = .ok a) (hb : s.reg inst.rs2 = .ok b)
    (hw : writesToRegister inst.instruction.mnemonic = true)
    (harm : ∀ d, s.executeArm inst d a b rand = .ok (v, s)) :
    ∃ t, s.execute inst rand = .ok t ∧ t.reg inst.rd = .ok (wrapI32 v) ∧
      t.pc = s.pc ∧ t.running = s.running ∧ t.pauseRequested = s.pauseRequested ∧
      t.memory = s.memory ∧ t.shadowCallStack = s.shadowCallStack ∧
      ∀ i : Fin 32, ((i : Nat) : Int) ≠ inst.rd → t.regs i = s.regs i := by
  obtain ⟨hn1, hn2⟩ := writesToRegister_not_system _ hw
  have hrd0 : inst.rd ≠ 0 := by omega
  have hrd2 : 0 ≤ inst.rd ∧ inst.rd < 32 := by omega
  refine ⟨{ s with regs := fun i => if i = ⟨inst.rd.toNat, by omega⟩ then wrapI32 v
                                     else s.regs i }, ?_, ?_, rfl, rfl, rfl, rfl, rfl, ?_⟩
  · unfold Simulator.execute
    simp only [hn1, hn2, if_false, reg_ok s _ hrd2, ha, hb, harm, hw, Bool.true_and,
      decide_eq_true_eq]
    rw [if_pos hrd0]
    unfold Simulator.setRegValue
    rw [if_neg hrd0, dif_pos hrd2]
  · unfold Simulator.reg
    rw [dif_pos hrd2]
    simp
  · intro i hi
    have : i ≠ ⟨inst.rd.toNat, by omega⟩ := by
      intro h
      apply hi
      rw [h]
      simp only []
      omega
    simp [this]

theorem executeArm_div (s : Simulator) (inst : InstructionInstance) (d a b : Int) (rand : Nat)
    (hn : inst.instruction.mnemonic = "div") :
    s.executeArm inst d a b rand =
      .ok (if b = 0 then -1
        else if a = -9223372036854775808 ∧ b = -1 then -9223372036854775808
        else Int.tdiv a b, s) := by
  unfold Simulator.executeArm
  simp only [hn]
  simp
  split
  · rfl
  · split <;> rfl

theorem executeArm_divu (s : Simulator) (inst : InstructionInstance) (d a b : Int) (rand : Nat)
    (hn : inst.instruction.mnemonic = "divu") :
    s.executeArm inst d a b rand =
      .ok (if b = 0 then toI64 18446744073709551615 else toI64 (toU64 a / toU64 b), s) := by
  unfold Simulator.executeArm
  simp only [hn]
  simp
  split <;> rfl

theorem executeArm_rem (s : Simulator) (inst : InstructionInstance) (d a b : Int) (rand : Nat)
    (hn : inst.instruction.mnemonic = "rem") :
    s.executeArm inst d a b rand =
      .ok (if b = 0 then a
        else if a = -9223372036854775808 ∧ b = -1 then 0
        else Int.tmod a b, s) := by
  unfold Simulator.executeArm
  simp only [hn]
  simp
  split
  · rfl
  · split <;> rfl

theorem executeArm_remu (s : Simulator) (inst : InstructionInstance) (d a b : Int) (rand : Nat)
    (hn : inst.instruction.mnemonic = "remu") :
    s.executeArm inst d a b rand =
      .ok (if b = 0 then a else toI64 (toU64 a % toU64 b), s) := by
  unfold Simulator.executeArm
  simp only [hn]
  simp
  split <;> rfl

theorem executeArm_add (s : Simulator) (inst : InstructionInstance) (d a b : Int) (rand : Nat)
    (hn : inst.instruction.mnemonic = "add") :
    s.executeArm inst d a b rand = .ok (wrapI64 (a + b), s) := by
  unfold Simulator.executeArm
  simp only [hn]
  simp

theorem executeArm_addi (s : Simulator) (inst : InstructionInstance) (d a b : Int) (rand : Nat)
    (hn : inst.instruction.mnemonic = "addi") :
    s.executeArm inst d a b rand = .ok (wrapI64 (a + inst.imm), s) := by
  unfold Simulator.executeArm
  simp only [hn]
  simp


theorem step_regs_of_execute (s t : Simulator) (rand : Nat) (line : Int)
    (h : s.step rand = .ok (line, t)) :
    t.regs = s.regs ∨ ∃ (inst : InstructionInstance) (u : Simulator),
      s.program.get? (Int.tdiv s.pc 4).toNat = some inst ∧
      ({ s with shadowCallStack :=
          (if s.pc = 0 then s.shadowCallStack.pushFrame s.assembler s.pc
            else s.shadowCallStack.updateTopFrameSourceLine
              (s.assembler.getCurrentSourceLine s.pc)) } : Simulator).execute inst rand = .ok u ∧
      t.regs = u.regs := by
  unfold Simulator.step at h
  simp only [] at h
  split at h
  · injection h with h
    injection h with _ h
    subst h
    exact Or.inl rfl
  · split at h
    · exact absurd h (by simp)
    · rename_i inst hget
      split at h
      · exact absurd h (by simp)
      · rename_i u hex
        injection h with h
        injection h with _ h
        subst h
        exact Or.inr ⟨inst, u, hget, hex, rfl⟩

/-! ## Claims about the registers -/

/-- C15: register `x0` reads as zero after any sequence of writes.
In every state reached from `load` by any calls of `step` and `run` (with any program,
any earlier state and any behaviour of the cache), `x0` holds 0; `setRegValue(0, v)`
returns the state as it was; `execute` of an instruction with `rd = 0` leaves every
register as it was, and so does the `step` that executes it. With the cache off, `step`
does return on every program whose register fields are in `0..31`. -/
theorem x0_reads_zero :
    (∀ s : Simulator, s.Reachable → s.regs 0 = 0) ∧
    (∀ (s : Simulator) (v : Int), s.setRegValue 0 v = .ok s) ∧
    (∀ (s t : Simulator) (inst : InstructionInstance) (rand : Nat), inst.rd = 0 →
      s.execute inst rand = .ok t → t.regs = s.regs) ∧
    (∀ (s t : Simulator) (inst : InstructionInstance) (rand : Nat) (line : Int),
      s.program.get? (Int.tdiv s.pc 4).toNat = some inst → inst.rd = 0 →
      s.step rand = .ok (line, t) → t.regs = s.regs) ∧
    (∀ (s : Simulator) (rand : Nat), s.cacheSim.enabled = false →
      (∀ inst, inst ∈ s.program →
        (0 ≤ inst.rd ∧ inst.rd < 32) ∧ (0 ≤ inst.rs1 ∧ inst.rs1 < 32) ∧
          (0 ≤ inst.rs2 ∧ inst.rs2 < 32)) →
      ∃ r, s.step rand = .ok r) := by
  have hex : ∀ (s t : Simulator) (inst : InstructionInstance) (rand : Nat), inst.rd = 0 →
      s.execute inst rand = .ok t → t.regs = s.regs := by
    intro s t inst rand hrd h
    funext i
    rcases execute_regs s t inst rand h i with h1 | ⟨h1, h2, _⟩
    · exact h1
    · exfalso
      apply h1
      apply Fin.ext
      rw [hrd] at h2
      simp only [Fin.val_zero]
      omega
  refine ⟨fun s hs => (reachable_regs s hs).1, fun s v => rfl, hex, ?_,
    fun s rand hoff hprog => step_ok s rand hoff hprog⟩
  intro s t inst rand line hget hrd hstep
  rcases step_regs_of_execute s t rand line hstep with h | ⟨inst2, u, hget2, hu, htu⟩
  · exact h
  · rw [hget] at hget2
    injection hget2 with hget2
    subst hget2
    rw [htu, hex _ u inst rand hrd hu]

/-- C16: division and remainder never trap and give the corner-case values.
In a state reached from `load`, let `div`, `divu`, `rem` or `remu` be executed with a
destination `rd` in `1..31`, `a` the value of `rs1` and `b` the value of `rs2`. Then
`execute` returns, the PC and the `running` and `pauseRequested` flags are as before (no
trap, no halt), and `rd` holds: -1 for `div` and `divu` when `b = 0`; the dividend `a` for
`rem` and `remu` when `b = 0`; -2^31 for `div` and 0 for `rem` when `a = -2^31` and
`b = -1`. -/
theorem div_rem_corner_cases (s : Simulator) (inst : InstructionInstance) (rand : Nat)
    (a b : Int) (hs : s.Reachable) (hrd : 0 < inst.rd ∧ inst.rd < 32)
    (ha : s.reg inst.rs1 = .ok a) (hb : s.reg inst.rs2 = .ok b)
    (hname : inst.instruction.mnemonic = "div" ∨ inst.instruction.mnemonic = "divu" ∨
      inst.instruction.mnemonic = "rem" ∨ inst.instruction.mnemonic = "remu") :
    ∃ t, s.execute inst rand = .ok t ∧
      t.pc = s.pc ∧ t.running = s.running ∧ t.pauseRequested = s.pauseRequested ∧
      (b = 0 → inst.instruction.mnemonic = "div" ∨ inst.instruction.mnemonic = "divu" →
        t.reg inst.rd = .ok (-1)) ∧
      (b = 0 → inst.instruction.mnemonic = "rem" ∨ inst.instruction.mnemonic = "remu" →
        t.reg inst.rd = .ok a) ∧
      (a = -2147483648 → b = -1 → inst.instruction.mnemonic = "div" →
        t.reg inst.rd = .ok (-2147483648)) ∧
      (a = -2147483648 → b = -1 → inst.instruction.mnemonic = "rem" →
        t.reg inst.rd = .ok 0) := by
  obtain ⟨hra, hae⟩ := reg_eq s _ _ ha
  have harange := (reachable_regs s hs).2 ⟨inst.rs1.toNat, by omega⟩
  rw [← hae] at harange
  have hwa : wrapI32 a = a := wrapI32_id a harange
  have hm1 : wrapI32 (-1) = -1 := by decide
  have hm2 : wrapI32 (toI64 18446744073709551615) = -1 := by decide
  have hm3 : wrapI32 0 = 0 := by decide
  rcases hname with hn | hn | hn | hn
  · obtain ⟨t, h1, h2, h3, h4, h5, _⟩ := execute_write s inst rand a b _ hrd ha hb
      (by rw [hn]; decide) (fun d => executeArm_div s inst d a b rand hn)
    refine ⟨t, h1, h3, h4, h5, ?_, ?_, ?_, ?_⟩
    · intro hb0 _
      rw [h2, if_pos hb0, hm1]
    · intro _ h
      rcases h with h | h <;> (rw [hn] at h; exact absurd h (by decide))
    · intro ha0 hb1 _
      rw [h2, if_neg (by omega), if_neg (by omega), ha0, hb1]
      decide
    · intro _ _ h
      rw [hn] at h
      exact absurd h (by decide)
  · obtain ⟨t, h1, h2, h3, h4, h5, _⟩ := execute_write s inst rand a b _ hrd ha hb
      (by rw [hn]; decide) (fun d => executeArm_divu s inst d a b rand hn)
    refine ⟨t, h1, h3, h4, h5, ?_, ?_, ?_, ?_⟩
    · intro hb0 _
      rw [h2, if_pos hb0, hm2]
    · intro _ h
      rcases h with h | h <;> (rw [hn] at h; exact absurd h (by decide))
    · intro _ _ h
      rw [hn] at h
      exact absurd h (by decide)
    · intro _ _ h
      rw [hn] at h
      exact absurd h (by decide)
  · obtain ⟨t, h1, h2, h3, h4, h5, _⟩ := execute_write s inst rand a b _ hrd ha hb
      (by rw [hn]; decide) (fun d => executeArm_rem s inst d a b rand hn)
    refine ⟨t, h1, h3, h4, h5, ?_, ?_, ?_, ?_⟩
    · intro _ h
      rcases h with h | h <;> (rw [hn] at h; exact absurd h (by decide))
    · intro hb0 _
      rw [h2, if_pos hb0, hwa]
    · intro _ _ h
      rw [hn] at h
      exact absurd h (by decide)
    · intro ha0 hb1 _
      rw [h2, if_neg (by omega), if_neg (by omega), ha0, hb1]
      decide
  · obtain ⟨t, h1, h2, h3, h4, h5, _⟩ := execute_write s inst rand a b _ hrd ha hb
      (by rw [hn]; decide) (fun d => executeArm_remu s inst d a b rand hn)
    refine ⟨t, h1, h3, h4, h5, ?_, ?_, ?_, ?_⟩
    · intro _ h
      rcases h with h | h <;> (rw [hn] at h; exact absurd h (by decide))
    · intro hb0 _
      rw [h2, if_pos hb0, hwa]
    · intro _ _ h
      rw [hn] at h
      exact absurd h (by decide)
    · intro _ _ h
      rw [hn] at h
      exact absurd h (by decide)


/-- Witness of C16: `div x1, x2, x3` in the state `load` leaves, where `x3` holds 0. -/
theorem div_rem_corner_cases_witness :
    ∃ t, (Simulator.new.load [⟨⟨"div", .R, 0b0110011, 0b100, 0b0000001⟩, 1, 2, 3, 0, "div x1, x2, x3", 0⟩]).execute
        ⟨⟨"div", .R, 0b0110011, 0b100, 0b0000001⟩, 1, 2, 3, 0, "div x1, x2, x3", 0⟩ 0 = .ok t ∧
      t.pc = (Simulator.new.load [⟨⟨"div", .R, 0b0110011, 0b100, 0b0000001⟩, 1, 2, 3, 0, "div x1, x2, x3", 0⟩]).pc ∧
      t.running = (Simulator.new.load [⟨⟨"div", .R, 0b0110011, 0b100, 0b0000001⟩, 1, 2, 3, 0, "div x1, x2, x3", 0⟩]).running ∧
      t.pauseRequested = (Simulator.new.load [⟨⟨"div", .R, 0b0110011, 0b100, 0b0000001⟩, 1, 2, 3, 0, "div x1, x2, x3", 0⟩]).pauseRequested ∧
      ((0 : Int) = 0 → (⟨⟨"div", .R, 0b0110011, 0b100, 0b0000001⟩, 1, 2, 3, 0, "div x1, x2, x3", 0⟩ : InstructionInstance).instruction.mnemonic = "div" ∨
          (⟨⟨"div", .R, 0b0110011, 0b100, 0b0000001⟩, 1, 2, 3, 0, "div x1, x2, x3", 0⟩ : InstructionInstance).instruction.mnemonic = "divu" →
        t.reg (⟨⟨"div", .R, 0b0110011, 0b100, 0b0000001⟩, 1, 2, 3, 0, "div x1, x2, x3", 0⟩ : InstructionInstance).rd = .ok (-1)) ∧
      ((0 : Int) = 0 → (⟨⟨"div", .R, 0b0110011, 0b100, 0b0000001⟩, 1, 2, 3, 0, "div x1, x2, x3", 0⟩ : InstructionInstance).instruction.mnemonic = "rem" ∨
          (⟨⟨"div", .R, 0b0110011, 0b100, 0b0000001⟩, 1, 2, 3, 0, "div x1, x2, x3", 0⟩ : InstructionInstance).instruction.mnemonic = "remu" →
        t.reg (⟨⟨"div", .R, 0b0110011, 0b100, 0b0000001⟩, 1, 2, 3, 0, "div x1, x2, x3", 0⟩ : InstructionInstance).rd = .ok 0) ∧
      ((0 : Int) = -2147483648 → (0 : Int) = -1 →
        (⟨⟨"div", .R, 0b0110011, 0b100, 0b0000001⟩, 1, 2, 3, 0, "div x1, x2, x3", 0⟩ : InstructionInstance).instruction.mnemonic = "div" →
        t.reg (⟨⟨"div", .R, 0b0110011, 0b100, 0b0000001⟩, 1, 2, 3, 0, "div x1, x2, x3", 0⟩ : InstructionInstance).rd = .ok (-2147483648)) ∧
      ((0 : Int) = -2147483648 → (0 : Int) = -1 →
        (⟨⟨"div", .R, 0b0110011, 0b100, 0b0000001⟩, 1, 2, 3, 0, "div x1, x2, x3", 0⟩ : InstructionInstance).instruction.mnemonic = "rem" →
        t.reg (⟨⟨"div", .R, 0b0110011, 0b100, 0b0000001⟩, 1, 2, 3, 0, "div x1, x2, x3", 0⟩ : InstructionInstance).rd = .ok 0) :=
  div_rem_corner_cases (Simulator.new.load [⟨⟨"div", .R, 0b0110011, 0b100, 0b0000001⟩, 1, 2, 3, 0, "div x1, x2, x3", 0⟩]) ⟨⟨"div", .R, 0b0110011, 0b100, 0b0000001⟩, 1, 2, 3, 0, "div x1, x2, x3", 0⟩ 0 0 0
    (Simulator.Reachable.load _ _) (by decide) rfl rfl (Or.inl rfl)

/-- C17 (evaluation at failing inputs): `add` and `addi` do not leave the 64-bit sum in
`rd`. After `lui x1, 0x40000` / `add x2, x1, x1`, `x1` holds 2^30 and `x2` holds -2^31, not
the sum 2^31; after `lui x1, 0x80000` / `addi x2, x1, -1`, `x1` holds -2^31 and `x2` holds
2^31 - 1, not the sum -2^31 - 1. In general the value `add` and `addi` leave in `rd` is the
64-bit sum cut to its low 32 bits and sign-extended, as for the `*w` variants: the `int`
parameter of `setRegValue` does it to every register write. -/
theorem add_result_cut_to_32_bits :
    (∀ (rand : Nat → Nat) (k : Nat),
      ((Simulator.new.loadProgramFromString .RV32I
          ["lui x1, 0x40000", "add x2, x1, x1"]).bind (fun s => s.run (k + 2) rand)).map
        (fun r => r.map (fun t => (t.regs 1, t.regs 2)))
        = .ok (some (1073741824, -2147483648))) ∧
    (∀ (rand : Nat → Nat) (k : Nat),
      ((Simulator.new.loadProgramFromString .RV32I
          ["lui x1, 0x80000", "addi x2, x1, -1"]).bind (fun s => s.run (k + 2) rand)).map
        (fun r => r.map (fun t => (t.regs 1, t.regs 2)))
        = .ok (some (-2147483648, 2147483647))) ∧
    (∀ (s : Simulator) (inst : InstructionInstance) (rand : Nat) (a b : Int),
      inst.instruction.mnemonic = "add" → 0 < inst.rd ∧ inst.rd < 32 →
      s.reg inst.rs1 = .ok a → s.reg inst.rs2 = .ok b →
      ∃ t, s.execute inst rand = .ok t ∧ t.reg inst.rd = .ok (wrapI32 (wrapI64 (a + b)))) ∧
    (∀ (s : Simulator) (inst : InstructionInstance) (rand : Nat) (a b : Int),
      inst.instruction.mnemonic = "addi" → 0 < inst.rd ∧ inst.rd < 32 →
      s.reg inst.rs1 = .ok a → s.reg inst.rs2 = .ok b →
      ∃ t, s.execute inst rand = .ok t ∧
        t.reg inst.rd = .ok (wrapI32 (wrapI64 (a + inst.imm)))) := by
  refine ⟨fun rand k => by cases k <;> rfl, fun rand k => by cases k <;> rfl, ?_, ?_⟩
  · intro s inst rand a b hn hrd ha hb
    obtain ⟨t, h1, h2, _⟩ := execute_write s inst rand a b _ hrd ha hb
      (by rw [hn]; decide) (fun d => executeArm_add s inst d a b rand hn)
    exact ⟨t, h1, h2⟩
  · intro s inst rand a b hn hrd ha hb
    obtain ⟨t, h1, h2, _⟩ := execute_write s inst rand a b _ hrd ha hb
      (by rw [hn]; decide) (fun d => executeArm_addi s inst d a b rand hn)
    exact ⟨t, h1, h2⟩

theorem executeArm_jalr (s : Simulator) (inst : InstructionInstance) (rd rs1 rs2 : Int)
    (rand : Nat) (hn : inst.instruction.mnemonic = "jalr") :
    s.executeArm inst rd rs1 rs2 rand =
      .ok (rd, { s with
        pc := wrapI32 (wrapI32 (and64 (wrapI64 (rs1 + inst.imm)) (-2)) - 4)
        shadowCallStack :=
          (if inst.rd = 0 then s.shadowCallStack.popFrameIfMatchingReturnAddress (wrapI32 rd)
          else s.shadowCallStack) }) := by
  unfold Simulator.executeArm
  simp only [hn]
  simp

/-- C19 (evaluation at a failing input): `jalr` with `rd` other than `x0` does not write
the return address. After the two steps `addi x5, x0, 8` and `jalr x1, 0(x5)` (executed at
PC 4) the PC is 8, the value `(x5 + 0) & ~1`, but `x1` still holds 0 and not 8, the return
address. In general `execute` of a `jalr` leaves every register as it was: the arm of
`jalr` has no register write of its own, and `jalr` is not in the write-back list. -/
theorem jalr_leaves_rd_unwritten :
    (∀ r1 r2 : Nat,
      (((Simulator.new.loadProgramFromString .RV32I
          ["addi x5, x0, 8", "jalr x1, 0(x5)", "ecall"]).bind (fun s => s.step r1)).bind
          (fun p => p.2.step r2)).map (fun p => (p.2.regs 1, p.2.regs 5, p.2.pc))
        = .ok (0, 8, 8)) ∧
    (∀ (s t : Simulator) (inst : InstructionInstance) (rand : Nat),
      inst.instruction.mnemonic = "jalr" → s.execute inst rand = .ok t → t.regs = s.regs) := by
  refine ⟨fun r1 r2 => rfl, ?_⟩
  intro s t inst rand hn h
  unfold Simulator.execute at h
  simp only [hn] at h
  simp only [show ("jalr" = "ecall") = False from by decide,
    show ("jalr" = "ebreak") = False from by decide, if_false] at h
  split at h
  · rw [executeArm_jalr _ _ _ _ _ _ hn] at h
    simp only [show writesToRegister "jalr" = false from by decide, Bool.false_and,
      Bool.false_eq_true, if_false] at h
    injection h with h
    subst h
    rfl
  · exact absurd h (by simp)

/-- C20: the call/return scenario `jal x1, F` / `ecall` / `F: jalr x0, 0(x1)`.
Loading leaves three instructions, PC 0 and an empty shadow stack. The first step (the
`jal`) leaves two frames: the frame `* main *` synthesized at PC 0 at the bottom and a frame
named `F` above it, with `x1 = 4` and PC 8. The second step (the `jalr`) pops the frame `F`
and leaves PC 4. `run()` ends after three rounds of its loop (with any more it gives the
same state): the stack is the one frame `* main *`, `x1 = 4`, `a0 = 0`, the simulator is
halted by the `ecall` (`running` is false) and the PC is 12, past the last instruction. -/
theorem call_return_scenario :
    (Simulator.new.loadProgramFromString .RV32I
        ["jal x1, F", "ecall", "F: jalr x0, 0(x1)"]).map
      (fun s => (s.program.length, s.pc, s.shadowCallStack.shadowCallStack))
      = .ok (3, 0, []) ∧
    (∀ r1 : Nat,
      ((Simulator.new.loadProgramFromString .RV32I
          ["jal x1, F", "ecall", "F: jalr x0, 0(x1)"]).bind (fun s => s.step r1)).map
        (fun p => (p.2.shadowCallStack.shadowCallStack, p.2.regs 1, p.2.pc))
        = .ok ([⟨"* main *", 1, 8⟩, ⟨"F", 3, 8⟩], 4, 8)) ∧
    (∀ r1 r2 : Nat,
      (((Simulator.new.loadProgramFromString .RV32I
          ["jal x1, F", "ecall", "F: jalr x0, 0(x1)"]).bind (fun s => s.step r1)).bind
          (fun p => p.2.step r2)).map
        (fun p => (p.2.shadowCallStack.shadowCallStack, p.2.regs 1, p.2.pc))
        = .ok ([⟨"* main *", 1, 4⟩], 4, 4)) ∧
    (∀ (rand : Nat → Nat) (k : Nat),
      ((Simulator.new.loadProgramFromString .RV32I
          ["jal x1, F", "ecall", "F: jalr x0, 0(x1)"]).bind (fun s => s.run (k + 3) rand)).map
        (fun r => r.map (fun t => (t.shadowCallStack.shadowCallStack, t.regs 1, t.regs 10,
          t.running, t.pc)))
        = .ok (some ([⟨"* main *", 2, 12⟩], 4, 0, false, 12))) ∧
    (∀ (rand : Nat → Nat) (k : Nat), k < 3 →
      ((Simulator.new.loadProgramFromString .RV32I
          ["jal x1, F", "ecall", "F: jalr x0, 0(x1)"]).bind (fun s => s.run k rand)).map
        (fun r => r.map (fun t => t.pc)) = .ok none) := by
  refine ⟨rfl, fun _ => rfl, fun _ _ => rfl, fun rand k => by cases k <;> rfl, ?_⟩
  intro rand k hk
  rcases k with _ | _ | _ | k
  · rfl
  · rfl
  · rfl
  · omega


/-! ## The interpreter: control transfer -/

theorem branchCondition_name (name : String) (a b : Int) (c : Bool)
    (h : branchCondition name a b = some c) :
    name = "beq" ∨ name = "bne" ∨ name = "blt" ∨ name = "bge" ∨ name = "bltu" ∨
      name = "bgeu" := by
  unfold branchCondition at h
  by_cases h1 : name = "beq"
  · exact Or.inl h1
  by_cases h2 : name = "bne"
  · exact Or.inr (Or.inl h2)
  by_cases h3 : name = "blt"
  · exact Or.inr (Or.inr (Or.inl h3))
  by_cases h4 : name = "bge"
  · exact Or.inr (Or.inr (Or.inr (Or.inl h4)))
  by_cases h5 : name = "bltu"
  · exact Or.inr (Or.inr (Or.inr (Or.inr (Or.inl h5))))
  by_cases h6 : name = "bgeu"
  · exact Or.inr (Or.inr (Or.inr (Or.inr (Or.inr h6))))
  simp [h1, h2, h3, h4, h5, h6] at h

theorem executeArm_branch_taken (s : Simulator) (inst : InstructionInstance) (d a b : Int)
    (rand : Nat) (h : branchCondition inst.instruction.mnemonic a b = some true) :
    s.executeArm inst d a b rand =
      .ok (d, { s with pc := wrapI32 (s.pc + (inst.imm - 4)) }) := by
  rcases branchCondition_name _ _ _ _ h with hn | hn | hn | hn | hn | hn
  all_goals
    rw [hn] at h
    simp [branchCondition] at h
    unfold Simulator.executeArm
    simp only [hn]
    simp [h]

theorem executeArm_branch_not_taken (s : Simulator) (inst : InstructionInstance)
    (d a b : Int) (rand : Nat)
    (h : branchCondition inst.instruction.mnemonic a b = some false) :
    s.executeArm inst d a b rand = .ok (d, s) := by
  rcases branchCondition_name _ _ _ _ h with hn | hn | hn | hn | hn | hn
  all_goals
    rw [hn] at h
    simp [branchCondition] at h
    unfold Simulator.executeArm
    simp only [hn]
    simp [h]


theorem setRegValue_eq (s : Simulator) (r v : Int) (hr : 0 < r ∧ r < 32) :
    s.setRegValue r v =
      .ok { s with regs := fun i => if i = ⟨r.toNat, by omega⟩ then v else s.regs i } := by
  unfold Simulator.setRegValue
  rw [if_neg (by omega), dif_pos (by omega)]

theorem executeArm_jal (s : Simulator) (inst : InstructionInstance) (d a b : Int)
    (rand : Nat) (hn : inst.instruction.mnemonic = "jal") :
    s.executeArm inst d a b rand =
      if inst.rd = 0 then .ok (d, { s with pc := wrapI32 (wrapI32 (s.pc + inst.imm) - 4) })
      else
        match s.setRegValue inst.rd (wrapI32 (s.pc + 4)) with
        | .error f => .error f
        | .ok u =>
          .ok (d, { u with
            pc := wrapI32 (wrapI32 (s.pc + inst.imm) - 4)
            shadowCallStack :=
              (u.shadowCallStack.updateTopFrameReturnAddress
                (wrapI32 (s.pc + inst.imm))).pushFrame u.assembler
                  (wrapI32 (s.pc + inst.imm)) }) := by
  unfold Simulator.executeArm
  simp only [hn]
  simp

/-- An instruction outside the write-back list: `execute` returns what its arm leaves. -/
theorem execute_no_write (s u : Simulator) (inst : InstructionInstance) (rand : Nat)
    (a b v : Int) (hrd : 0 ≤ inst.rd ∧ inst.rd < 32)
    (ha : s.reg inst.rs1 = .ok a) (hb : s.reg inst.rs2 = .ok b)
    (hn1 : inst.instruction.mnemonic ≠ "ecall") (hn2 : inst.instruction.mnemonic ≠ "ebreak")
    (hw : writesToRegister inst.instruction.mnemonic = false)
    (harm : s.executeArm inst (s.regs ⟨inst.rd.toNat, by omega⟩) a b rand = .ok (v, u)) :
    s.execute inst rand = .ok u := by
  unfold Simulator.execute
  simp only [hn1, hn2, if_false, reg_ok s _ hrd, ha, hb, harm, hw, Bool.false_and,
    Bool.false_eq_true]

/-- The step at a PC inside the program, from what `execute` leaves. -/
theorem step_at (s u : Simulator) (inst : InstructionInstance) (rand : Nat)
    (hlen : s.program.length < 536870912)
    (hpc : 0 ≤ s.pc ∧ s.pc < 4 * (s.program.length : Int))
    (hget : s.program.get? (s.pc / 4).toNat = some inst)
    (hex : ({ s with shadowCallStack :=
        (if s.pc = 0 then s.shadowCallStack.pushFrame s.assembler s.pc
          else s.shadowCallStack.updateTopFrameSourceLine
            (s.assembler.getCurrentSourceLine s.pc)) } : Simulator).execute inst rand = .ok u)
    (hprog : u.program = s.program) :
    ∃ line t, s.step rand = .ok (line, t) ∧ t.regs = u.regs ∧
      t.pc = (if u.pc ≤ 4 * (s.program.length : Int) - 4 then wrapI32 (u.pc + 4) else u.pc) := by
  have hdiv : Int.tdiv s.pc 4 = s.pc / 4 := Int.tdiv_eq_ediv hpc.1 (by decide)
  have hw : wrapI32 (s.program.length : Int) = (s.program.length : Int) :=
    wrapI32_id _ (by omega)
  have hend : u.programEnd = 4 * (s.program.length : Int) := by
    unfold Simulator.programEnd
    rw [hprog, hw]
    exact wrapI32_id _ (by omega)
  have hend4 : wrapI32 (u.programEnd - 4) = 4 * (s.program.length : Int) - 4 := by
    rw [hend]
    exact wrapI32_id _ (by omega)
  unfold Simulator.step
  simp only [hdiv, hw]
  rw [if_neg (by omega), hget]
  simp only [hex, hend4]
  exact ⟨_, _, rfl, rfl, rfl⟩

/-- C18: control transfer in `step()`.
Let `step()` execute, at a PC `p` inside a program of `n` instructions (fewer than 2^29),
the instruction `inst` found at index `p / 4`, its register fields being register numbers
and `a`, `b` the values of `rs1`, `rs2`. If `inst` is a conditional branch whose condition
holds and `p + imm` lies in `0..4n`, the step returns with PC `p + imm` and the registers
unchanged. If `inst` is a `jal` and `p + imm` lies in `0..4n`, the step returns with PC
`p + imm`; with `rd` other than `x0` the register `rd` then holds `p + 4` and every other
register is unchanged, with `rd = x0` no register changes. If `inst` is a conditional
branch whose condition is false and `p` is the address `4 i` of an instruction (or any PC
up to `4n - 4`), the step returns with PC `p + 4` and the registers unchanged. -/
theorem step_control_transfer (s : Simulator) (inst : InstructionInstance) (rand : Nat)
    (a b : Int) (hlen : s.program.length < 536870912)
    (hpc : 0 ≤ s.pc ∧ s.pc < 4 * (s.program.length : Int))
    (hget : s.program.get? (s.pc / 4).toNat = some inst)
    (hrd : 0 ≤ inst.rd ∧ inst.rd < 32)
    (ha : s.reg inst.rs1 = .ok a) (hb : s.reg inst.rs2 = .ok b) :
    (branchCondition inst.instruction.mnemonic a b = some true →
      0 ≤ s.pc + inst.imm ∧ s.pc + inst.imm ≤ 4 * (s.program.length : Int) →
      ∃ line t, s.step rand = .ok (line, t) ∧ t.pc = s.pc + inst.imm ∧ t.regs = s.regs) ∧
    (inst.instruction.mnemonic = "jal" →
      0 ≤ s.pc + inst.imm ∧ s.pc + inst.imm ≤ 4 * (s.program.length : Int) →
      ∃ line t, s.step rand = .ok (line, t) ∧ t.pc = s.pc + inst.imm ∧
        (inst.rd ≠ 0 → t.reg inst.rd = .ok (s.pc + 4) ∧
          ∀ i : Fin 32, ((i : Nat) : Int) ≠ inst.rd → t.regs i = s.regs i) ∧
        (inst.rd = 0 → t.regs = s.regs)) ∧
    (branchCondition inst.instruction.mnemonic a b = some false →
      s.pc % 4 = 0 ∨ s.pc ≤ 4 * (s.program.length : Int) - 4 →
      ∃ line t, s.step rand = .ok (line, t) ∧ t.pc = s.pc + 4 ∧ t.regs = s.regs) := by
  have hnames : ∀ c, branchCondition inst.instruction.mnemonic a b = some c →
      inst.instruction.mnemonic ≠ "ecall" ∧ inst.instruction.mnemonic ≠ "ebreak" ∧
        writesToRegister inst.instruction.mnemonic = false := by
    intro c hc
    rcases branchCondition_name _ _ _ _ hc with hn | hn | hn | hn | hn | hn <;>
      (rw [hn]; decide)
  refine ⟨?_, ?_, ?_⟩
  · intro hc htarget
    obtain ⟨hn1, hn2, hw⟩ := hnames _ hc
    have hex := execute_no_write
      { s with shadowCallStack :=
        (if s.pc = 0 then s.shadowCallStack.pushFrame s.assembler s.pc
          else s.shadowCallStack.updateTopFrameSourceLine
            (s.assembler.getCurrentSourceLine s.pc)) } _ inst rand a b _ hrd ha hb hn1 hn2 hw
      (executeArm_branch_taken _ inst _ a b rand hc)
    obtain ⟨line, t, h1, h2, h3⟩ := step_at s _ inst rand hlen hpc hget hex rfl
    refine ⟨line, t, h1, ?_, h2⟩
    rw [h3]
    simp only []
    have e1 : wrapI32 (s.pc + (inst.imm - 4)) = s.pc + inst.imm - 4 := by
      rw [wrapI32_id _ (by omega)]
      omega
    rw [e1, if_pos (by omega), wrapI32_id _ (by omega)]
    omega
  · intro hn htarget
    have hn1 : inst.instruction.mnemonic ≠ "ecall" := by rw [hn]; decide
    have hn2 : inst.instruction.mnemonic ≠ "ebreak" := by rw [hn]; decide
    have hw : writesToRegister inst.instruction.mnemonic = false := by rw [hn]; decide
    have e0 : wrapI32 (s.pc + inst.imm) = s.pc + inst.imm := wrapI32_id _ (by omega)
    have e1 : wrapI32 (s.pc + inst.imm - 4) = s.pc + inst.imm - 4 := wrapI32_id _ (by omega)
    have e2 : wrapI32 (s.pc + 4) = s.pc + 4 := wrapI32_id _ (by omega)
    by_cases hrd0 : inst.rd = 0
    · have harm := executeArm_jal
        { s with shadowCallStack :=
          (if s.pc = 0 then s.shadowCallStack.pushFrame s.assembler s.pc
            else s.shadowCallStack.updateTopFrameSourceLine
              (s.assembler.getCurrentSourceLine s.pc)) } inst
        (s.regs ⟨inst.rd.toNat, by omega⟩) a b rand hn
      rw [if_pos hrd0] at harm
      have hex := execute_no_write
        { s with shadowCallStack :=
          (if s.pc = 0 then s.shadowCallStack.pushFrame s.assembler s.pc
            else s.shadowCallStack.updateTopFrameSourceLine
              (s.assembler.getCurrentSourceLine s.pc)) } _ inst rand a b _ hrd ha hb hn1 hn2 hw
        harm
      obtain ⟨line, t, h1, h2, h3⟩ := step_at s _ inst rand hlen hpc hget hex rfl
      refine ⟨line, t, h1, ?_, fun h => absurd hrd0 h, fun _ => h2⟩
      rw [h3]
      simp only [e0, e1]
      rw [if_pos (by omega), wrapI32_id _ (by omega)]
      omega
    · have hrd1 : 0 < inst.rd ∧ inst.rd < 32 := by omega
      have harm := executeArm_jal
        { s with shadowCallStack :=
          (if s.pc = 0 then s.shadowCallStack.pushFrame s.assembler s.pc
            else s.shadowCallStack.updateTopFrameSourceLine
              (s.assembler.getCurrentSourceLine s.pc)) } inst
        (s.regs ⟨inst.rd.toNat, by omega⟩) a b rand hn
      rw [if_neg hrd0, setRegValue_eq _ _ _ hrd1] at harm
      simp only [] at harm
      have hex := execute_no_write
        { s with shadowCallStack :=
          (if s.pc = 0 then s.shadowCallStack.pushFrame s.assembler s.pc
            else s.shadowCallStack.updateTopFrameSourceLine
              (s.assembler.getCurrentSourceLine s.pc)) } _ inst rand a b _ hrd ha hb hn1 hn2 hw
        harm
      obtain ⟨line, t, h1, h2, h3⟩ := step_at s _ inst rand hlen hpc hget hex rfl
      refine ⟨line, t, h1, ?_, fun _ => ⟨?_, ?_⟩, fun h => absurd h hrd0⟩
      · rw [h3]
        simp only [e0, e1]
        rw [if_pos (by omega), wrapI32_id _ (by omega)]
        omega
      · unfold Simulator.reg
        rw [dif_pos hrd, h2]
        simp [e2]
      · intro i hi
        rw [h2]
        have : i ≠ ⟨inst.rd.toNat, by omega⟩ := by
          intro h
          apply hi
          rw [h]
          simp only []
          omega
        simp [this]
  · intro hc halign
    obtain ⟨hn1, hn2, hw⟩ := hnames _ hc
    have hex := execute_no_write
      { s with shadowCallStack :=
        (if s.pc = 0 then s.shadowCallStack.pushFrame s.assembler s.pc
          else s.shadowCallStack.updateTopFrameSourceLine
            (s.assembler.getCurrentSourceLine s.pc)) } _ inst rand a b _ hrd ha hb hn1 hn2 hw
      (executeArm_branch_not_taken _ inst _ a b rand hc)
    obtain ⟨line, t, h1, h2, h3⟩ := step_at s _ inst rand hlen hpc hget hex rfl
    refine ⟨line, t, h1, ?_, h2⟩
    rw [h3]
    simp only []
    rw [if_pos (by omega), wrapI32_id _ (by omega)]


/-- Witness of C18: the one-instruction program `beq x0, x0, 4`, whose branch is taken to
the end of the program. -/
theorem step_control_transfer_witness :
    ∃ line t, (Simulator.new.load [⟨⟨"beq", .B, 0b1100011, 0b000, 0⟩, 0, 0, 0, 4, "beq x0, x0, 4", 0⟩]).step 0 = .ok (line, t) ∧
      t.pc = (Simulator.new.load [⟨⟨"beq", .B, 0b1100011, 0b000, 0⟩, 0, 0, 0, 4, "beq x0, x0, 4", 0⟩]).pc +
        (⟨⟨"beq", .B, 0b1100011, 0b000, 0⟩, 0, 0, 0, 4, "beq x0, x0, 4", 0⟩ : InstructionInstance).imm ∧
      t.regs = (Simulator.new.load [⟨⟨"beq", .B, 0b1100011, 0b000, 0⟩, 0, 0, 0, 4, "beq x0, x0, 4", 0⟩]).regs :=
  (step_control_transfer (Simulator.new.load [⟨⟨"beq", .B, 0b1100011, 0b000, 0⟩, 0, 0, 0, 4, "beq x0, x0, 4", 0⟩]) ⟨⟨"beq", .B, 0b1100011, 0b000, 0⟩, 0, 0, 0, 4, "beq x0, x0, 4", 0⟩ 0 0 0
    (by decide) (by decide) rfl (by decide) rfl rfl).1 (by decide) (by decide)

/-! ## Hazards: stall cycles -/

/-- C30: for every distance from 1 up (an `int`), either kind of producer, each pipeline
depth and either forwarding setting, `calculateRAWStallCycles` returns the value of the
table of the specification, and that value is not negative. -/
theorem calculateRAWStallCycles_eq_table (self : HazardDetector) (inst1 : InstructionInstance)
    (d : Int) (h1 : 1 ≤ d) (h2 : d < 2147483648) :
    self.calculateRAWStallCycles inst1 d =
        specRAWStallCycles self.pipelineType self.forwardingEnabled
          (isLoadInstruction inst1.instruction.mnemonic) d ∧
      0 ≤ self.calculateRAWStallCycles inst1 d := by
  have e1 : wrapI32 (1 - d) = 1 - d := wrapI32_id _ (by omega)
  have e2 : wrapI32 (2 - d) = 2 - d := wrapI32_id _ (by omega)
  have e3 : wrapI32 (3 - d) = 3 - d := wrapI32_id _ (by omega)
  have e4 : wrapI32 (4 - d) = 4 - d := wrapI32_id _ (by omega)
  obtain ⟨p, f⟩ := self
  unfold HazardDetector.calculateRAWStallCycles specRAWStallCycles
  simp only [e1, e2, e3, e4]
  cases p <;> cases f <;> cases isLoadInstruction inst1.instruction.mnemonic <;>
    simp <;> (try split_ifs) <;> omega

/-- Witness of C30: a load one instruction ahead of its consumer in the 5-stage pipeline
without forwarding costs two cycles. -/
theorem calculateRAWStallCycles_eq_table_witness :
    (HazardDetector.mk .PIPELINE_5_STAGE false).calculateRAWStallCycles
        ⟨⟨"lw", .I, 0b0000011, 0b010, 0⟩, 1, 2, 0, 0, "lw x1, 0(x2)", 0⟩ 1 =
        specRAWStallCycles .PIPELINE_5_STAGE false
          (isLoadInstruction "lw") 1 ∧
      0 ≤ (HazardDetector.mk .PIPELINE_5_STAGE false).calculateRAWStallCycles
        ⟨⟨"lw", .I, 0b0000011, 0b010, 0⟩, 1, 2, 0, 0, "lw x1, 0(x2)", 0⟩ 1 :=
  calculateRAWStallCycles_eq_table (HazardDetector.mk .PIPELINE_5_STAGE false)
    ⟨⟨"lw", .I, 0b0000011, 0b010, 0⟩, 1, 2, 0, 0, "lw x1, 0(x2)", 0⟩ 1 (by decide) (by decide)

/-! ## Cache: the layout `Cache::enable` builds -/

theorem enable_eq (prior : Cache) (cfg : CacheConfig) (mem : Memory)
    (hne : ¬(cfg.blockSize = 0 ∨ cfg.cacheSize = 0)) :
    prior.enable cfg mem = .ok { prior.invalidate with
      config := cfg
      numSets := (enableShape cfg).1
      sets := (resizeList [] (prior.invalidate).sets (enableShape cfg).1).map
        (fun set => resizeList {} set (enableShape cfg).2)
      addrDecoder := ⟨cfg.getOffsetBits, cfg.getIndexBits⟩
      memory := mem } := by
  simp only [Cache.enable, if_neg hne]

/-- C23: for every valid configuration (cache size and block size powers of two, the block
no larger than the cache; associativity 0, 1, or a power of two up to 16 that divides the
number of blocks), `Cache::enable`, from any earlier state of the cache, returns a cache
that holds the configuration, whose vector of sets has `numSets` entries, each of the same
number of ways, with sets times ways times block size equal to the cache size; with
associativity 0 there is exactly one set (of all the blocks), and with associativity 1
there are cache-size/block-size sets of one way. -/
theorem enable_builds_whole_cache (prior : Cache) (cfg : CacheConfig) (mem : Memory)
    (a b : Nat) (hcs : cfg.cacheSize = 2 ^ a) (hbs : cfg.blockSize = 2 ^ b)
    (hle : cfg.blockSize ≤ cfg.cacheSize)
    (hassoc : cfg.associativity = 0 ∨ cfg.associativity = 1 ∨
      ((∃ j, cfg.associativity = 2 ^ j) ∧ cfg.associativity ≤ 16 ∧
        cfg.associativity ∣ cfg.cacheSize / cfg.blockSize)) :
    ∃ c ways, prior.enable cfg mem = .ok c ∧ c.config = cfg ∧
      c.sets.length = c.numSets ∧ (∀ set, set ∈ c.sets → set.length = ways) ∧
      c.numSets * ways * cfg.blockSize = cfg.cacheSize ∧
      (cfg.associativity = 0 → c.numSets = 1 ∧ ways = cfg.cacheSize / cfg.blockSize) ∧
      (cfg.associativity = 1 → c.numSets = cfg.cacheSize / cfg.blockSize ∧ ways = 1) := by
  have hb0 : 0 < 2 ^ b := by positivity
  have ha0 : 0 < 2 ^ a := by positivity
  have hne : ¬(cfg.blockSize = 0 ∨ cfg.cacheSize = 0) := by rw [hcs, hbs]; omega
  have hba : b ≤ a := by
    rw [hcs, hbs] at hle
    exact (Nat.pow_le_pow_iff_right (by norm_num)).1 hle
  have hdvd : cfg.cacheSize / cfg.blockSize * cfg.blockSize = cfg.cacheSize := by
    rw [hcs, hbs]
    exact Nat.div_mul_cancel (pow_dvd_pow 2 hba)
  refine ⟨_, (enableShape cfg).2, enable_eq prior cfg mem hne, rfl, ?_, ?_, ?_, ?_, ?_⟩
  · simp [resizeList_length]
  · intro set hset
    obtain ⟨set0, _, rfl⟩ := List.mem_map.1 hset
    exact resizeList_length _ _ _
  · show (enableShape cfg).1 * (enableShape cfg).2 * cfg.blockSize = cfg.cacheSize
    unfold enableShape
    rcases hassoc with h | h | ⟨_, _, h⟩
    · simp only [h, if_true, Nat.one_mul]; exact hdvd
    · simp only [h, if_true, Nat.one_ne_zero, if_false, Nat.mul_one]; exact hdvd
    · by_cases h0 : cfg.associativity = 0
      · simp only [h0, if_true, Nat.one_mul]; exact hdvd
      · by_cases h1 : cfg.associativity = 1
        · simp only [h1, if_true, Nat.one_ne_zero, if_false, Nat.mul_one]; exact hdvd
        · simp only [h0, h1, if_false]
          rw [Nat.div_mul_cancel h]; exact hdvd
  · intro h
    show (enableShape cfg).1 = 1 ∧ (enableShape cfg).2 = _
    unfold enableShape
    simp [h]
  · intro h
    show (enableShape cfg).1 = _ ∧ (enableShape cfg).2 = 1
    unfold enableShape
    simp [h]

/-- Witness of C23: 64 bytes in blocks of 16, two ways: two sets of two ways. -/
theorem enable_builds_whole_cache_witness :
    ∃ c ways, (Cache.new Memory.empty).enable ⟨64, 16, 2, .LRU, .WB⟩ Memory.empty = .ok c ∧
      c.config = ⟨64, 16, 2, .LRU, .WB⟩ ∧
      c.sets.length = c.numSets ∧ (∀ set, set ∈ c.sets → set.length = ways) ∧
      c.numSets * ways * 16 = 64 ∧
      ((2 : Nat) = 0 → c.numSets = 1 ∧ ways = 64 / 16) ∧
      ((2 : Nat) = 1 → c.numSets = 64 / 16 ∧ ways = 1) :=
  enable_builds_whole_cache (Cache.new Memory.empty) ⟨64, 16, 2, .LRU, .WB⟩ Memory.empty 6 4
    (by decide) (by decide) (by decide)
    (Or.inr (Or.inr ⟨⟨1, by decide⟩, by decide, by decide⟩))

/-! ## Cache: two scenarios -/

/-- C25: write-back eviction. A cache of 64 bytes in blocks of 16, two sets of two ways, LRU
and WB, with a log stream, is enabled over an empty memory. The addresses 0x00, 0x40 and 0x80 have set index 0
(and tags 0, 2 and 4). After the byte writes `0x00 <- 1` and `0x40 <- 2` both ways of set 0
are valid and dirty, and the memory byte at 0x00 is still 0. The third write `0x80 <- 3`
returns, whatever `std::rand()` gives: way 0 of set 0, which held the block of 0x00, now
holds the tag of 0x80, way 1 still holds the block of 0x40, the memory byte at 0x00 is 1
(the dirty victim was written back) while the byte at 0x40 is still 0, and the counters are
accesses = 3, hits = 0, misses = 3. -/
theorem write_back_eviction_scenario :
    (indexOf 4 1 0x00, indexOf 4 1 0x40, indexOf 4 1 0x80) = (0, 0, 0) ∧
    (tagOf 4 1 0x00, tagOf 4 1 0x40, tagOf 4 1 0x80) = (0, 2, 4) ∧
    ((((Cache.new Memory.empty).setLogStream.enable ⟨64, 16, 2, .LRU, .WB⟩ Memory.empty).bind
        (fun c => c.write 0x00 .Byte 1 0)).bind (fun c => c.write 0x40 .Byte 2 0)).map
      (fun c => (c.addrDecoder, c.memory.memory 0x00,
        (c.sets.getD 0 []).map (fun b => (b.valid, b.dirty, b.tag)),
        (c.sets.getD 1 []).map (fun b => (b.valid, b.dirty, b.tag))))
      = .ok (⟨4, 1⟩, 0, [(true, true, 0), (true, true, 2)],
        [(false, false, 0), (false, false, 0)]) ∧
    (∀ rand : Nat,
      (((((Cache.new Memory.empty).setLogStream.enable ⟨64, 16, 2, .LRU, .WB⟩ Memory.empty).bind
        (fun c => c.write 0x00 .Byte 1 0)).bind (fun c => c.write 0x40 .Byte 2 0)).bind
        (fun c => c.write 0x80 .Byte 3 rand)).map
      (fun c => (c.memory.memory 0x00, c.memory.memory 0x40, c.memory.memory 0x80,
        (c.sets.getD 0 []).map (fun b => (b.valid, b.dirty, b.tag, b.data.take 1)),
        c.accesses, c.hits, c.misses))
      = .ok (1, 0, 0, [(true, true, 4, [3]), (true, true, 2, [2])], 3, 0, 3)) := by
  refine ⟨by decide, by decide, rfl, fun _ => rfl⟩

/-- A write that misses under WT: `Cache::access` only counts and writes to memory. -/
theorem access_write_miss_WT (c : Cache) (address : Nat) (size : MemSize) (u : Bool)
    (value rand : Nat) (set : List CacheBlock) (hlog : c.logStream = true)
    (hwt : c.config.writePolicy = .WT)
    (hset : c.sets.get? (toU32 (c.addrDecoder.getIndex address)) = some set)
    (hmiss : findBlockInSet (toU64 (c.addrDecoder.getTag address)) set = none) :
    c.access address size u true value rand =
      .ok (address, { c with
        memory := c.memory.write address size value
        accesses := c.accesses + 1
        misses := c.misses + 1 }) := by
  rw [access_logged c hlog]
  unfold Cache.accessCore
  simp only [hset, hmiss, hwt]
  rfl

/-- C26: under WT a write that misses does not allocate. Whenever the policy is WT and no
valid block of the set of the address holds its tag, `Cache::write`, on a cache with a log
stream, returns the cache it was called on with the bytes written to memory and `accesses`
and `misses` each one higher: the sets, and with them the valid and dirty bits, tag, data
and time stamps of every block, the configuration and `hits` are as before. The example:
with 64 bytes in blocks of 16, two sets of two ways and WT (any replacement policy, any
value of `std::rand()`, a log stream set), after
`W 0x00 <- 1` no block is valid and the counters are 1, 0, 1; the read `R 0x00` that
follows returns 1 and leaves the memory byte at 0x00 equal to 1, one valid block in the
whole cache, clean and with the tag of 0x00, and accesses = 2, hits = 0, misses = 2. -/
theorem write_through_miss_no_allocate :
    (∀ (c : Cache) (address : Nat) (size : MemSize) (value rand : Nat)
      (set : List CacheBlock),
      c.logStream = true → c.config.writePolicy = .WT →
      c.sets.get? (toU32 (c.addrDecoder.getIndex address)) = some set →
      findBlockInSet (toU64 (c.addrDecoder.getTag address)) set = none →
      c.write address size value rand =
        .ok { c with
          memory := c.memory.write address size value
          accesses := c.accesses + 1
          misses := c.misses + 1 }) ∧
    (∀ (policy : ReplacementPolicy) (r1 : Nat),
      (((Cache.new Memory.empty).setLogStream.enable ⟨64, 16, 2, policy, .WT⟩ Memory.empty).bind
        (fun c => c.write 0x00 .Byte 1 r1)).map
      (fun c => (c.memory.memory 0x00, c.sets.map (fun set => set.map (fun b => b.valid)),
        c.accesses, c.hits, c.misses))
      = .ok (1, [[false, false], [false, false]], 1, 0, 1)) ∧
    (∀ (policy : ReplacementPolicy) (r1 r2 : Nat),
      ((((Cache.new Memory.empty).setLogStream.enable ⟨64, 16, 2, policy, .WT⟩ Memory.empty).bind
        (fun c => c.write 0x00 .Byte 1 r1)).bind (fun c => c.read 0x00 .Byte true r2)).map
      (fun p => (p.1, p.2.memory.memory 0x00,
        p.2.sets.map (fun set => set.map (fun b => (b.valid, b.dirty, b.tag))),
        tagOf 4 1 0x00, p.2.accesses, p.2.hits, p.2.misses))
      = .ok (1, 1, [[(true, false, 0), (false, false, 0)], [(false, false, 0), (false, false, 0)]],
        0, 2, 0, 2)) := by
  refine ⟨?_, fun policy _ => by cases policy <;> rfl, fun policy _ _ => by cases policy <;> rfl⟩
  intro c address size value rand set hlog hwt hset hmiss
  unfold Cache.write
  rw [access_write_miss_WT c address size false value rand set hlog hwt hset hmiss]

/-! ## Cache: a write followed by a read of the same bytes -/

/-- Inside one block a write through a cache with a log stream followed by an unsigned read
of the same size at the same address returns the low bytes of the value written. -/
theorem write_read_in_block (cfg : CacheConfig) (ob ib : Nat) (hbs : cfg.blockSize = 2 ^ ob)
    (hob : cfg.getOffsetBits = ob) (hib : cfg.getIndexBits = ib) (hbits : ob + ib ≤ 30)
    (c : Cache) (m : Memory) (rel : CacheRel cfg ob ib c m) (hlog : c.logStream = true)
    (hacc : c.accesses + 2 < 18446744073709551615)
    (A : Nat) (size : MemSize) (v r1 r2 : Nat)
    (hA : A < 4294967296) (hsz : size = .Byte ∨ size = .HalfWord)
    (hin : A % 2 ^ ob + size.toNat ≤ 2 ^ ob) :
    ∃ c2 c3, c.write A size v r1 = .ok c2 ∧
      c2.read A size true r2 = .ok (v % 2 ^ (8 * size.toNat), c3) := by
  have hsz2 : size ≠ .DoubleWord := by rcases hsz with h | h <;> rw [h] <;> decide
  obtain ⟨r, c2, heq, rel2, hacc2, _⟩ := access_ok cfg ob ib hbs hob hib hbits c m rel
    hlog (by omega) A size false true v r1 hA hsz2 hin
  rw [if_pos rfl] at rel2
  obtain ⟨r3, c3, heq3, _, _, hval⟩ := access_ok cfg ob ib hbs hob hib hbits c2 _ rel2
    (access_logStream c A size false true v r1 r c2 heq).2 (by omega) A size true false 0 r2
    hA hsz2 hin
  obtain ⟨hr1, hr2⟩ := hval rfl
  refine ⟨c2, c3, by simp only [Cache.write, heq], ?_⟩
  have hread : (m.write A size v).read A size true = toI32 (v % 2 ^ (8 * size.toNat)) := by
    unfold Memory.read Memory.write
    simp only [Bool.not_true, Bool.false_eq_true, if_false]
    rw [readLoop_writeLoop m A v size hsz2]
  have hlt : v % 2 ^ (8 * size.toNat) < 4294967296 := by
    rcases hsz with h | h <;> rw [h] <;> simp only [MemSize.toNat] <;> omega
  have hr : r3 = v % 2 ^ (8 * size.toNat) := by
    rw [hread] at hr1
    have := congrArg toU32 hr1
    rwa [toU32_toI32 _ hr2, toU32_toI32 _ hlt] at this
  simp only [Cache.read, heq3, hr]

/-- C28 (evaluation at failing inputs): a half-word whose two bytes lie in two blocks does
not come back. With 64 bytes in blocks of 16, two sets of two ways, over an empty memory,
`write(0x0F, 2, 0xBEEF)` followed by `read(0x0F, 2, unsigned)` returns 0 under WB, where
the store reaches neither the block (which is marked dirty all the same) nor the memory,
and 0xEF under WT, where memory holds both bytes and the read sees only the one of its
block; the value written is 0xBEEF. With blocks of one byte no half-word comes back whole.
A byte, and a half-word inside one block, at an even or odd address, do come back: in
every state of a cache with a log stream that stands for a memory, as every state reached
from `enable` by accesses inside blocks does, the write followed by the unsigned read
returns `v mod 2^(8n)`. The caches of the examples have a log stream. -/
theorem straddling_halfword_not_read_back :
    (∀ (policy : ReplacementPolicy) (r1 r2 : Nat),
      ((((Cache.new Memory.empty).setLogStream.enable ⟨64, 16, 2, policy, .WB⟩ Memory.empty).bind
        (fun c => c.write 0x0F .HalfWord 0xBEEF r1)).bind
        (fun c => c.read 0x0F .HalfWord true r2)).map
      (fun p => (p.1, p.2.memory.memory 0x0F, p.2.memory.memory 0x10,
        (p.2.sets.getD 0 []).map (fun b => (b.valid, b.dirty, b.data.drop 15))))
      = .ok (0, 0, 0, [(true, true, [0]), (false, false, [])])) ∧
    (∀ (policy : ReplacementPolicy) (r1 r2 : Nat),
      ((((Cache.new Memory.empty).setLogStream.enable ⟨64, 16, 2, policy, .WT⟩ Memory.empty).bind
        (fun c => c.write 0x0F .HalfWord 0xBEEF r1)).bind
        (fun c => c.read 0x0F .HalfWord true r2)).map
      (fun p => (p.1, p.2.memory.memory 0x0F, p.2.memory.memory 0x10))
      = .ok (0xEF, 0xEF, 0xBE)) ∧
    (∀ (policy : ReplacementPolicy) (wp : WritePolicy) (r1 r2 : Nat),
      ((((Cache.new Memory.empty).setLogStream.enable ⟨4, 1, 1, policy, wp⟩ Memory.empty).bind
        (fun c => c.write 0x02 .HalfWord 0xBEEF r1)).bind
        (fun c => c.read 0x02 .HalfWord true r2)).map
      (fun p => decide (p.1 = 0xBEEF)) = .ok false) ∧
    (∀ (cfg : CacheConfig) (ob : Nat) (c : Cache) (m : Memory) (A : Nat) (size : MemSize)
      (v r1 r2 : Nat),
      cfg.blockSize = 2 ^ ob → cfg.getOffsetBits = ob → ob + cfg.getIndexBits ≤ 30 →
      CacheRel cfg ob cfg.getIndexBits c m → c.logStream = true →
      c.accesses + 2 < 18446744073709551615 →
      A < 4294967296 → size = .Byte ∨ size = .HalfWord →
      A % 2 ^ ob + size.toNat ≤ 2 ^ ob →
      ∃ c2 c3, c.write A size v r1 = .ok c2 ∧
        c2.read A size true r2 = .ok (v % 2 ^ (8 * size.toNat), c3)) := by
  refine ⟨fun policy _ _ => by cases policy <;> rfl, fun policy _ _ => by cases policy <;> rfl,
    fun policy wp _ _ => by cases policy <;> cases wp <;> rfl, ?_⟩
  intro cfg ob c m A size v r1 r2 hbs hob hbits rel hlog hacc hA hsz hin
  exact write_read_in_block cfg ob _ hbs hob rfl hbits c m rel hlog hacc A size v r1 r2 hA hsz
    hin

/-! ## Cache: reading the configuration -/

theorem floorPowerOfTwoLoop_spec (fuel k x : Nat) (hk : 2 ^ k ≤ x) (hx : x < 2147483648)
    (hf : 31 ≤ k + fuel) :
    ∃ j, floorPowerOfTwoLoop fuel (2 ^ k) x = some (2 ^ j) ∧ 2 ^ j ≤ x ∧ x < 2 ^ (j + 1) := by
  induction fuel generalizing k with
  | zero =>
    have : (2 : Nat) ^ 31 ≤ 2 ^ k := two_pow_le_of_le _ _ (by omega)
    omega
  | succ fuel ih =>
    have hk31 : k < 31 := by
      by_contra hcon
      have : (2 : Nat) ^ 31 ≤ 2 ^ k := two_pow_le_of_le _ _ (by omega)
      omega
    have hle : (2 : Nat) ^ (k + 1) ≤ 2 ^ 31 := two_pow_le_of_le _ _ (by omega)
    have hshift : (2 ^ k <<< 1) % 4294967296 = 2 ^ (k + 1) := by
      rw [Nat.shiftLeft_eq, Nat.pow_succ]
      exact Nat.mod_eq_of_lt (by rw [Nat.pow_succ] at hle; omega)
    simp only [floorPowerOfTwoLoop, hshift]
    by_cases hc : 2 ^ (k + 1) ≤ x
    · rw [if_pos hc]
      exact ih (k + 1) hc (by omega)
    · rw [if_neg hc]
      exact ⟨k, rfl, hk, by omega⟩

/-- `floorPowerOfTwo` on a value from 1 below 2^31 returns, given 31 rounds or more, the
largest power of two that does not exceed the value. -/
theorem floorPowerOfTwo_spec (x fuel : Nat) (h1 : 1 ≤ x) (hx : x < 2147483648)
    (hf : 31 ≤ fuel) :
    ∃ j, floorPowerOfTwo x fuel = some (2 ^ j) ∧ 2 ^ j ≤ x ∧ x < 2 ^ (j + 1) := by
  unfold floorPowerOfTwo
  rw [if_neg (by omega)]
  exact floorPowerOfTwoLoop_spec fuel 0 x (by simpa using h1) hx (by omega)


theorem pow_two_of_and_pred (n : Nat) (hn : 0 < n) (h : n &&& (n - 1) = 0) :
    ∃ k, n = 2 ^ k := by
  refine ⟨Nat.log 2 n, ?_⟩
  have h1 : 2 ^ Nat.log 2 n ≤ n := Nat.pow_log_le_self 2 (by omega)
  have h2 : n < 2 ^ (Nat.log 2 n + 1) := Nat.lt_pow_succ_log_self (by norm_num) n
  by_contra hne
  have hbit : ∀ m, 2 ^ Nat.log 2 n ≤ m → m < 2 ^ (Nat.log 2 n + 1) →
      m.testBit (Nat.log 2 n) = true := by
    intro m hm1 hm2
    rw [Nat.testBit_to_div_mod]
    have hd : m / 2 ^ Nat.log 2 n = 1 := by
      apply Nat.div_eq_of_lt_le
      · simpa using hm1
      · rw [Nat.pow_succ] at hm2; omega
    simp [hd]
  have hb1 := hbit n h1 h2
  have hb2 := hbit (n - 1) (by omega) (by omega)
  have := congrArg (fun x => x.testBit (Nat.log 2 n)) h
  simp only [Nat.testBit_and, hb1, hb2, Nat.zero_testBit] at this
  exact absurd this (by simp)

theorem isPowerOfTwo_pow (x : Int) (hx : x < 2147483648)
    (h : CacheConfig.isPowerOfTwo x = true) : ∃ k : Nat, x = 2 ^ k := by
  unfold CacheConfig.isPowerOfTwo at h
  simp only [Bool.and_eq_true, decide_eq_true_eq] at h
  obtain ⟨hpos, hand⟩ := h
  have e1 : toU32 x = x.toNat := by unfold toU32; omega
  have e2 : toU32 (x - 1) = x.toNat - 1 := by unfold toU32; omega
  rw [e1, e2] at hand
  obtain ⟨k, hk⟩ := pow_two_of_and_pred x.toNat (by omega) hand
  refine ⟨k, ?_⟩
  have : (x.toNat : Int) = x := Int.toNat_of_nonneg (by omega)
  rw [← this, hk]
  push_cast
  rfl


/-- What `loadFromFile` does check: given 31 rounds or more for the rounding loop it
returns; it accepts exactly when the cache size token is positive and at most 1 MB, the
associativity is 0, 1, 2, 4, 8 or 16 and the two policies are spelled as named; and an
accepted configuration holds the block size and associativity tokens as they are and, as
cache size, the largest power of two that does not exceed the token. -/
theorem loadFromFile_checks (self : CacheConfig) (sizeOfCache : Int) (blkSz : Nat)
    (assoc : Int) (repl write : String) (fuel : Nat) (hf : 31 ≤ fuel) :
    ∃ b cfg, self.loadFromFile sizeOfCache blkSz assoc repl write fuel = some (b, cfg) ∧
      (b = true ↔ (0 < sizeOfCache ∧ sizeOfCache ≤ 1048576) ∧
        (assoc = 0 ∨ assoc = 1 ∨ assoc = 2 ∨ assoc = 4 ∨ assoc = 8 ∨ assoc = 16) ∧
        (repl = "FIFO" ∨ repl = "LRU" ∨ repl = "RANDOM") ∧ (write = "WB" ∨ write = "WT")) ∧
      (b = true → cfg.blockSize = blkSz ∧ (cfg.associativity : Int) = assoc ∧
        replacementPolicyOfString repl = some cfg.replacementPolicy ∧
        writePolicyOfString write = some cfg.writePolicy ∧
        ∃ j, cfg.cacheSize = 2 ^ j ∧ ((2 ^ j : Nat) : Int) ≤ sizeOfCache ∧
          sizeOfCache < ((2 ^ (j + 1) : Nat) : Int)) := by
  unfold CacheConfig.loadFromFile
  by_cases hsize : sizeOfCache ≤ 0 ∨ sizeOfCache > 1024 * 1024
  · rw [if_pos hsize]
    refine ⟨false, self, rfl, ⟨fun h => absurd h (by simp), fun h => ?_⟩,
      fun h => absurd h (by simp)⟩
    omega
  rw [if_neg hsize]
  have hs1 : 0 < sizeOfCache ∧ sizeOfCache ≤ 1048576 := by omega
  -- the cache size after rounding
  obtain ⟨j, hround, hj1, hj2⟩ : ∃ j : Nat,
      (if !CacheConfig.isPowerOfTwo sizeOfCache then
        (floorPowerOfTwo (toU32 sizeOfCache) fuel).map toI32
      else some sizeOfCache) = some (((2 ^ j : Nat) : Int)) ∧
      ((2 ^ j : Nat) : Int) ≤ sizeOfCache ∧ sizeOfCache < ((2 ^ (j + 1) : Nat) : Int) := by
    cases hp : CacheConfig.isPowerOfTwo sizeOfCache with
    | true =>
      obtain ⟨k, hk⟩ := isPowerOfTwo_pow sizeOfCache (by omega) hp
      refine ⟨k, ?_, ?_, ?_⟩
      · simp only [Bool.not_true, Bool.false_eq_true, if_false, hk]
        push_cast; rfl
      · rw [hk]; push_cast; exact le_refl _
      · rw [hk]; push_cast
        rw [pow_succ]
        have : (0 : Int) < 2 ^ k := by positivity
        omega
    | false =>
      have e1 : toU32 sizeOfCache = sizeOfCache.toNat := by unfold toU32; omega
      obtain ⟨k, hk, hk1, hk2⟩ := floorPowerOfTwo_spec sizeOfCache.toNat fuel (by omega)
        (by omega) hf
      have hlt : 2 ^ k < 2147483648 := by omega
      refine ⟨k, ?_, by omega, by omega⟩
      simp only [Bool.not_false, if_true, e1, hk, Option.map_some']
      rw [toI32_of_lt _ hlt]
  simp only [hround]
  by_cases hassoc : assoc < 0 ∨ assoc > 16 ∨ (assoc ≠ 0 ∧ CacheConfig.isPowerOfTwo assoc = false)
  · rw [if_pos hassoc]
    refine ⟨false, self, rfl, ⟨fun h => absurd h (by simp), fun h => ?_⟩,
      fun h => absurd h (by simp)⟩
    exfalso
    obtain ⟨_, ha, _, _⟩ := h
    rcases hassoc with h1 | h1 | ⟨h1, h2⟩
    · omega
    · omega
    · rcases ha with rfl | rfl | rfl | rfl | rfl | rfl
      · exact h1 rfl
      all_goals exact absurd h2 (by decide)
  rw [if_neg hassoc]
  have hassoc2 : assoc = 0 ∨ assoc = 1 ∨ assoc = 2 ∨ assoc = 4 ∨ assoc = 8 ∨ assoc = 16 := by
    simp only [not_or, not_and, not_lt, Bool.not_eq_false] at hassoc
    obtain ⟨h1, h2, h3⟩ := hassoc
    have h2 : assoc ≤ 16 := by omega
    by_cases h0 : assoc = 0
    · exact Or.inl h0
    · have hp := h3 h0
      interval_cases assoc
      all_goals first
        | omega
        | exact absurd hp (by decide)
  have hrepl : ∀ p, replacementPolicyOfString repl = some p →
      (repl = "FIFO" ∨ repl = "LRU" ∨ repl = "RANDOM") := by
    intro p hp
    unfold replacementPolicyOfString at hp
    by_cases h1 : repl = "FIFO"
    · exact Or.inl h1
    · by_cases h2 : repl = "LRU"
      · exact Or.inr (Or.inl h2)
      · by_cases h3 : repl = "RANDOM"
        · exact Or.inr (Or.inr h3)
        · simp [h1, h2, h3] at hp
  have hwrite : ∀ p, writePolicyOfString write = some p → (write = "WB" ∨ write = "WT") := by
    intro p hp
    unfold writePolicyOfString at hp
    by_cases h1 : write = "WB"
    · exact Or.inl h1
    · by_cases h2 : write = "WT"
      · exact Or.inr h2
      · simp [h1, h2] at hp
  cases hr : replacementPolicyOfString repl with
  | none =>
    refine ⟨false, self, rfl, ⟨fun h => absurd h (by simp), fun h => ?_⟩,
      fun h => absurd h (by simp)⟩
    exfalso
    obtain ⟨_, _, h3, _⟩ := h
    rcases h3 with rfl | rfl | rfl <;> simp [replacementPolicyOfString] at hr
  | some rp =>
    cases hw : writePolicyOfString write with
    | none =>
      refine ⟨false, _, rfl, ⟨fun h => absurd h (by simp), fun h => ?_⟩,
        fun h => absurd h (by simp)⟩
      exfalso
      obtain ⟨_, _, _, h4⟩ := h
      rcases h4 with rfl | rfl <;> simp [writePolicyOfString] at hw
    | some wp =>
      refine ⟨true, _, rfl, ⟨fun _ => ⟨hs1, hassoc2, hrepl rp hr, hwrite wp hw⟩, fun _ => rfl⟩,
        fun _ => ⟨rfl, ?_, rfl, rfl, j, ?_, hj1, hj2⟩⟩
      · show ((assoc.toNat : Nat) : Int) = assoc
        exact Int.toNat_of_nonneg (by omega)
      · show (((2 ^ j : Nat) : Int)).toNat = 2 ^ j
        exact Int.toNat_ofNat _

/-- C29 (evaluation at failing inputs): `loadFromFile` accepts configurations that are not
valid, because it never examines the block size token and never compares the
associativity with the number of blocks. It returns `true` on the tokens `64 0 1 LRU WB`
(block size 0, on which `Cache::enable` throws), on `64 3 2 LRU WB` (block size 3, no power
of two; `enable` builds 10 sets of 2 ways, 60 bytes), on `64 16 16 FIFO WT` (16 does not
divide the 4 blocks; `enable` builds no set at all, and the first access indexes an empty
vector) and on `16 64 1 LRU WB` (a block larger than the cache; no set either). The
checks it does make are these: with 31 rounds or more for the rounding loop it returns, it
accepts exactly when the cache size is positive and at most 1 MB, the associativity is 0 or
a power of two up to 16 and both policies are named; the cache size it stores is the
largest power of two not above the token, e.g. 16384 for the token 32168. -/
theorem loadFromFile_accepts_unusable_configurations :
    (∀ (self : CacheConfig) (fuel : Nat),
      self.loadFromFile 64 0 1 "LRU" "WB" fuel = some (true, ⟨64, 0, 1, .LRU, .WB⟩)) ∧
    (∀ (prior : Cache) (mem : Memory),
      (prior.enable ⟨64, 0, 1, .LRU, .WB⟩ mem).map (fun c => c.numSets)
        = .error .invalidArgument) ∧
    (∀ (self : CacheConfig) (fuel : Nat),
      self.loadFromFile 64 3 2 "LRU" "WB" fuel = some (true, ⟨64, 3, 2, .LRU, .WB⟩)) ∧
    (¬ ∃ k, (3 : Nat) = 2 ^ k) ∧
    ((Cache.new Memory.empty).enable ⟨64, 3, 2, .LRU, .WB⟩ Memory.empty).map
        (fun c => (c.numSets, c.sets.map List.length))
      = .ok (10, [2, 2, 2, 2, 2, 2, 2, 2, 2, 2]) ∧
    (∀ (self : CacheConfig) (fuel : Nat),
      self.loadFromFile 64 16 16 "FIFO" "WT" fuel = some (true, ⟨64, 16, 16, .FIFO, .WT⟩)) ∧
    (¬ (16 ∣ 64 / 16)) ∧
    ((Cache.new Memory.empty).enable ⟨64, 16, 16, .FIFO, .WT⟩ Memory.empty).map
        (fun c => (c.numSets, c.sets.length)) = .ok (0, 0) ∧
    (∀ rand : Nat,
      (((Cache.new Memory.empty).setLogStream.enable ⟨64, 16, 16, .FIFO, .WT⟩
        Memory.empty).bind (fun c => c.read 0 .Byte true rand)).map (fun p => p.1)
        = .error .undefinedBehavior) ∧
    (∀ (self : CacheConfig) (fuel : Nat),
      self.loadFromFile 16 64 1 "LRU" "WB" fuel = some (true, ⟨16, 64, 1, .LRU, .WB⟩)) ∧
    ((Cache.new Memory.empty).enable ⟨16, 64, 1, .LRU, .WB⟩ Memory.empty).map
        (fun c => (c.numSets, c.sets.length)) = .ok (0, 0) ∧
    (∀ (self : CacheConfig) (fuel : Nat),
      self.loadFromFile 32168 16 8 "LRU" "WT" (fuel + 15)
        = some (true, ⟨16384, 16, 8, .LRU, .WT⟩)) ∧
    (∀ (self : CacheConfig) (sizeOfCache : Int) (blkSz : Nat) (assoc : Int)
      (repl write : String) (fuel : Nat), 31 ≤ fuel →
      ∃ b cfg, self.loadFromFile sizeOfCache blkSz assoc repl write fuel = some (b, cfg) ∧
        (b = true ↔ (0 < sizeOfCache ∧ sizeOfCache ≤ 1048576) ∧
          (assoc = 0 ∨ assoc = 1 ∨ assoc = 2 ∨ assoc = 4 ∨ assoc = 8 ∨ assoc = 16) ∧
          (repl = "FIFO" ∨ repl = "LRU" ∨ repl = "RANDOM") ∧
          (write = "WB" ∨ write = "WT")) ∧
        (b = true → cfg.blockSize = blkSz ∧ (cfg.associativity : Int) = assoc ∧
          ∃ j, cfg.cacheSize = 2 ^ j ∧ ((2 ^ j : Nat) : Int) ≤ sizeOfCache ∧
            sizeOfCache < ((2 ^ (j + 1) : Nat) : Int))) := by
  refine ⟨fun _ _ => rfl, fun _ _ => rfl, fun _ _ => rfl, ?_, rfl, fun _ _ => rfl, by decide,
    rfl, fun _ => rfl, fun _ _ => rfl, rfl, fun _ _ => rfl, ?_⟩
  · rintro ⟨k, hk⟩
    rcases k with _ | _ | k
    · omega
    · omega
    · have : (4 : Nat) ≤ 2 ^ (k + 1 + 1) := by
        rw [pow_succ, pow_succ]
        have : 0 < 2 ^ k := by positivity
        omega
      omega
  · intro self sizeOfCache blkSz assoc repl write fuel hf
    obtain ⟨b, cfg, h1, h2, h3⟩ := loadFromFile_checks self sizeOfCache blkSz assoc repl write
      fuel hf
    exact ⟨b, cfg, h1, h2, fun hb => ⟨(h3 hb).1, (h3 hb).2.1, (h3 hb).2.2.2.2⟩⟩

/-! ## Breakpoints -/

theorem execute_resumed (s t : Simulator) (inst : InstructionInstance) (rand : Nat)
    (h : s.execute inst rand = .ok t) :
    t.resumedFromBreakpoint = s.resumedFromBreakpoint := by
  unfold Simulator.execute at h
  simp only [] at h
  split at h
  · injection h with h
    subst h
    rfl
  · split at h
    · injection h with h
      subst h
      rfl
    · split at h
      · split at h
        · exact absurd h (by simp)
        · rename_i harm
          have hf := (executeArm_frame _ _ _ _ _ _ _ _ harm).resumedFromBreakpoint
          split at h
          · have hs := (setRegValue_regs _ _ _ _ h).1.resumedFromBreakpoint
            exact hs.trans hf
          · injection h with h
            subst h
            exact hf
      · exact absurd h (by simp)

/-- `step()` leaves the flag `resumedFromBreakpoint` as it finds it. -/
theorem step_resumed (s t : Simulator) (rand : Nat) (line : Int)
    (h : s.step rand = .ok (line, t)) :
    t.resumedFromBreakpoint = s.resumedFromBreakpoint := by
  unfold Simulator.step at h
  simp only [] at h
  split at h
  · injection h with h
    injection h with _ h
    subst h
    rfl
  · split at h
    · exact absurd h (by simp)
    · split at h
      · exact absurd h (by simp)
      · rename_i hex
        have hf := execute_resumed _ _ _ _ hex
        injection h with h
        injection h with _ h
        subst h
        exact hf

/-- The traced loop returns what the loop of `run` returns. -/
theorem runLoopTraced_fst (fuel : Nat) : ∀ (i : Nat) (s : Simulator) (rand : Nat → Nat),
    (Simulator.runLoopTraced fuel i s rand).1 = Simulator.runLoop fuel i s rand := by
  induction fuel with
  | zero => intro i s rand; rfl
  | succ fuel ih =>
    intro i s rand
    unfold Simulator.runLoopTraced Simulator.runLoop
    simp only []
    by_cases hpc : s.pc < s.programEnd
    · rw [if_pos hpc, if_pos hpc]
      by_cases hstop : getBreakpointAssemblyLine s.breakpointInfo s.pc ≠ 0 ∧
          s.resumedFromBreakpoint = false
      · rw [if_pos hstop, if_pos hstop]
      · rw [if_neg hstop, if_neg hstop]
        cases hstep : ({ s with resumedFromBreakpoint := false } : Simulator).step (rand i) with
        | error f => rfl
        | ok p =>
          obtain ⟨l, t⟩ := p
          simp only []
          by_cases hp : t.pauseRequested = true
          · rw [if_pos hp, if_pos hp]
          · rw [if_neg hp, if_neg hp]
            exact ih _ _ _
    · rw [if_neg hpc, if_neg hpc]

/-- Within one call of `run()`, `step()` is called at a PC that has a breakpoint only in the
first round, and only when the flag `resumedFromBreakpoint` was set on entry. -/
theorem runLoopTraced_breakpoints (fuel : Nat) :
    ∀ (i : Nat) (s : Simulator) (rand : Nat → Nat) (j : Nat) (pc : Int),
      (Simulator.runLoopTraced fuel i s rand).2.get? j = some pc →
      getBreakpointAssemblyLine s.breakpointInfo pc ≠ 0 →
      j = 0 ∧ pc = s.pc ∧ s.resumedFromBreakpoint = true := by
  induction fuel with
  | zero =>
    intro i s rand j pc h
    simp [Simulator.runLoopTraced] at h
  | succ fuel ih =>
    intro i s rand j pc h hbp
    unfold Simulator.runLoopTraced at h
    simp only [] at h
    have hfirst : ∀ pc2, pc2 = s.pc → getBreakpointAssemblyLine s.breakpointInfo pc2 ≠ 0 →
        ¬(getBreakpointAssemblyLine s.breakpointInfo s.pc ≠ 0 ∧
          s.resumedFromBreakpoint = false) → s.resumedFromBreakpoint = true := by
      intro pc2 h1 h2 h3
      subst h1
      cases hr : s.resumedFromBreakpoint with
      | true => rfl
      | false => exact absurd ⟨h2, hr⟩ h3
    split at h
    · split at h
      · simp at h
      · rename_i hstop
        split at h
        · cases j with
          | zero =>
            simp only [List.get?_cons_zero, Option.some.injEq] at h
            exact ⟨rfl, h.symm, hfirst pc h.symm hbp hstop⟩
          | succ j => simp at h
        · rename_i l t hstep
          split at h
          · cases j with
            | zero =>
              simp only [List.get?_cons_zero, Option.some.injEq] at h
              exact ⟨rfl, h.symm, hfirst pc h.symm hbp hstop⟩
            | succ j => simp at h
          · cases j with
            | zero =>
              simp only [List.get?_cons_zero, Option.some.injEq] at h
              exact ⟨rfl, h.symm, hfirst pc h.symm hbp hstop⟩
            | succ j =>
              simp only [List.get?_cons_succ] at h
              have hframe := step_frame _ _ _ _ hstep
              have hres := step_resumed _ _ _ _ hstep
              have hbp2 : getBreakpointAssemblyLine t.breakpointInfo pc ≠ 0 := by
                rw [hframe.breakpointInfo]; exact hbp
              obtain ⟨_, _, h3⟩ := ih _ _ _ _ _ h hbp2
              rw [hres] at h3
              exact absurd h3 (by simp)
    · simp at h

/-- At a PC with a breakpoint and with the flag clear, `run()` stops at once. -/
theorem run_stops_at_breakpoint (s : Simulator) (fuel : Nat) (rand : Nat → Nat)
    (hpc : s.pc < s.programEnd)
    (hbp : getBreakpointAssemblyLine s.breakpointInfo s.pc ≠ 0)
    (hflag : s.resumedFromBreakpoint = false) :
    s.run (fuel + 1) rand = .ok (some { s with
      running := true, resumedFromBreakpoint := true, pauseRequested := false }) := by
  have hpc2 : ({ s with running := true } : Simulator).pc <
      ({ s with running := true } : Simulator).programEnd := hpc
  unfold Simulator.run Simulator.runLoop
  simp only [if_pos hpc2]
  rw [if_pos ⟨hbp, hflag⟩]

/-- C22 (evaluation at a failing input): `run()` executes the instruction at a breakpoint
that is not the one it last stopped at, when `step()` was called in between. Five `addi`
lines are loaded and breakpoints set at lines 2 and 4 (PCs 4 and 12). The first `run()`
stops at PC 4 before line 2 is executed (`x2` is still 0) and sets the flag
`resumedFromBreakpoint`. Two calls of `step()` execute lines 2 and 3 and leave PC 12, which
has the breakpoint of line 4, with the flag still set. The next `run()` does not stop
there: it executes line 4 and line 5 and ends at PC 20 with `x4 = 4` and `x5 = 5`. Without
the two steps the second `run()` does stop at PC 12 with `x4 = 0`. In general `step()`
never touches the flag; with the flag clear, `run()` at a PC with a breakpoint returns at
once and changes nothing but `running`, the flag and `pauseRequested`; and within one call
of `run()` the loop calls `step()` at a PC with a breakpoint only in its first round and
only if the flag was set on entry. -/
theorem run_skips_breakpoint_after_steps :
    (∀ (rand : Nat → Nat) (k : Nat),
      (Simulator.new.session
        [.load .RV32I ["addi x1, x0, 1", "addi x2, x0, 2", "addi x3, x0, 3",
          "addi x4, x0, 4", "addi x5, x0, 5"],
         .setBreakpoint 2, .setBreakpoint 4, .run (k + 2) rand]).map
        (fun r => r.map (fun p => (p.1, p.2.pc, p.2.regs 1, p.2.regs 2, p.2.breakpointInfo,
          p.2.resumedFromBreakpoint)))
        = .ok (some ([true, true], 4, 1, 0, [(4, 2), (12, 4)], true))) ∧
    (∀ (rand : Nat → Nat) (r1 r2 : Nat) (k : Nat),
      (Simulator.new.session
        [.load .RV32I ["addi x1, x0, 1", "addi x2, x0, 2", "addi x3, x0, 3",
          "addi x4, x0, 4", "addi x5, x0, 5"],
         .setBreakpoint 2, .setBreakpoint 4, .run (k + 2) rand, .step r1, .step r2]).map
        (fun r => r.map (fun p => (p.2.pc, p.2.regs 3, p.2.regs 4,
          getBreakpointAssemblyLine p.2.breakpointInfo p.2.pc, p.2.resumedFromBreakpoint)))
        = .ok (some (12, 3, 0, 4, true))) ∧
    (∀ (rand rand2 : Nat → Nat) (r1 r2 : Nat) (k k2 : Nat),
      (Simulator.new.session
        [.load .RV32I ["addi x1, x0, 1", "addi x2, x0, 2", "addi x3, x0, 3",
          "addi x4, x0, 4", "addi x5, x0, 5"],
         .setBreakpoint 2, .setBreakpoint 4, .run (k + 2) rand, .step r1, .step r2,
         .run (k2 + 3) rand2]).map
        (fun r => r.map (fun p => (p.2.pc, p.2.regs 4, p.2.regs 5)))
        = .ok (some (20, 4, 5))) ∧
    (∀ (rand rand2 : Nat → Nat) (k k2 : Nat),
      (Simulator.new.session
        [.load .RV32I ["addi x1, x0, 1", "addi x2, x0, 2", "addi x3, x0, 3",
          "addi x4, x0, 4", "addi x5, x0, 5"],
         .setBreakpoint 2, .setBreakpoint 4, .run (k + 2) rand, .run (k2 + 3) rand2]).map
        (fun r => r.map (fun p => (p.2.pc, p.2.regs 3, p.2.regs 4)))
        = .ok (some (12, 3, 0))) ∧
    (∀ (s t : Simulator) (rand : Nat) (line : Int), s.step rand = .ok (line, t) →
      t.resumedFromBreakpoint = s.resumedFromBreakpoint) ∧
    (∀ (s : Simulator) (fuel : Nat) (rand : Nat → Nat), s.pc < s.programEnd →
      getBreakpointAssemblyLine s.breakpointInfo s.pc ≠ 0 →
      s.resumedFromBreakpoint = false →
      s.run (fuel + 1) rand = .ok (some { s with
        running := true, resumedFromBreakpoint := true, pauseRequested := false })) ∧
    (∀ (fuel i : Nat) (s : Simulator) (rand : Nat → Nat) (j : Nat) (pc : Int),
      (Simulator.runLoopTraced fuel i s rand).1 = Simulator.runLoop fuel i s rand ∧
      ((Simulator.runLoopTraced fuel i s rand).2.get? j = some pc →
        getBreakpointAssemblyLine s.breakpointInfo pc ≠ 0 →
        j = 0 ∧ pc = s.pc ∧ s.resumedFromBreakpoint = true)) := by
  refine ⟨fun rand k => by cases k <;> rfl, fun rand r1 r2 k => by cases k <;> rfl,
    fun rand rand2 r1 r2 k k2 => by cases k <;> cases k2 <;> rfl,
    fun rand rand2 k k2 => by cases k <;> cases k2 <;> rfl,
    step_resumed, run_stops_at_breakpoint,
    fun fuel i s rand j pc => ⟨runLoopTraced_fst fuel i s rand,
      runLoopTraced_breakpoints fuel i s rand j pc⟩⟩

/-! ## Breakpoints: the table -/

theorem mapFind_mapInsert_ne {α β : Type} [DecidableEq α] (k k2 : α) (v : β)
    (l : List (α × β)) (h : k ≠ k2) : mapFind k (mapInsert k2 v l) = mapFind k l := by
  induction l with
  | nil => simp [mapInsert, mapFind, Ne.symm h]
  | cons e l ih =>
    simp only [mapInsert]
    by_cases he : e.1 = k2
    · rw [if_pos he]
      simp only [mapFind]
      rw [if_neg (Ne.symm h), if_neg (by rw [he]; exact Ne.symm h)]
    · rw [if_neg he]
      simp only [mapFind, ih]

theorem not_mem_keys_of_mapFind_none {α β : Type} [DecidableEq α] (k : α)
    (l : List (α × β)) (h : mapFind k l = none) : k ∉ l.map Prod.fst := by
  induction l with
  | nil => simp
  | cons e l ih =>
    simp only [mapFind] at h
    split at h
    · exact absurd h (by simp)
    · rename_i he
      simp only [List.map_cons, List.mem_cons, not_or]
      exact ⟨fun hk => he hk.symm, ih h⟩

theorem hasBreakpoint_iff (l : List (Int × Int)) (line : Int) :
    BreakPointInfo.hasBreakpoint l line = true ↔ ∃ pc, (pc, line) ∈ l := by
  unfold BreakPointInfo.hasBreakpoint
  rw [List.any_eq_true]
  constructor
  · rintro ⟨⟨pc, l2⟩, hmem, he⟩
    simp only [decide_eq_true_eq] at he
    subst he
    exact ⟨pc, hmem⟩
  · rintro ⟨pc, hmem⟩
    exact ⟨(pc, line), hmem, by simp⟩

theorem removeBreakpoint_absent (l : List (Int × Int)) (line : Int)
    (h : ∀ e, e ∈ l → e.2 ≠ line) : BreakPointInfo.removeBreakpoint l line = (false, l) := by
  induction l with
  | nil => rfl
  | cons e l ih =>
    have he : e.2 ≠ line := h e (List.mem_cons_self _ _)
    have hl := ih (fun e2 h2 => h e2 (List.mem_cons_of_mem _ h2))
    simp only [BreakPointInfo.removeBreakpoint, if_neg he, hl]

theorem removeBreakpoint_present (l : List (Int × Int)) (line : Int)
    (h : ∃ e, e ∈ l ∧ e.2 = line) :
    ∃ pc before after, l = before ++ (pc, line) :: after ∧ (∀ e, e ∈ before → e.2 ≠ line) ∧
      BreakPointInfo.removeBreakpoint l line = (true, before ++ after) := by
  induction l with
  | nil => obtain ⟨e, he, _⟩ := h; simp at he
  | cons e l ih =>
    by_cases he : e.2 = line
    · refine ⟨e.1, [], l, ?_, by simp, ?_⟩
      · rw [← he]; rfl
      · simp only [BreakPointInfo.removeBreakpoint, if_pos he, List.nil_append]
    · obtain ⟨e2, hmem, he2⟩ := h
      have hmem2 : e2 ∈ l := by
        rcases List.mem_cons.1 hmem with rfl | hm
        · exact absurd he2 he
        · exact hm
      obtain ⟨pc, before, after, hl, hb, hr⟩ := ih ⟨e2, hmem2, he2⟩
      refine ⟨pc, e :: before, after, by rw [hl]; rfl, ?_, ?_⟩
      · intro e3 h3
        rcases List.mem_cons.1 h3 with rfl | hm
        · exact he
        · exact hb e3 hm
      · simp only [BreakPointInfo.removeBreakpoint, if_neg he, hr, List.cons_append]

/-- In a table that belongs to the line map no two entries have the same line. -/
theorem BreakpointsOfProgram_lines (s : Simulator) (h : s.BreakpointsOfProgram)
    (pc1 pc2 line : Int) (h1 : (pc1, line) ∈ s.breakpointInfo)
    (h2 : (pc2, line) ∈ s.breakpointInfo) : pc1 = pc2 := by
  have e1 := h.mapped _ _ h1
  have e2 := h.mapped _ _ h2
  rw [e1] at e2
  exact Option.some.inj e2

/-- `Simulator::setBreakpoint` on a table that belongs to the line map. -/
theorem setBreakpoint_spec (s : Simulator) (h : s.BreakpointsOfProgram) (line : Int) :
    ((s.setBreakpoint line).1 = true ↔
      (s.assembler.pcOfLine line).isSome = true ∧
        BreakPointInfo.hasBreakpoint s.breakpointInfo line = false ∧
        s.breakpointInfo.length < 5) ∧
    ((s.setBreakpoint line).1 = true → ∃ pc, s.assembler.pcOfLine line = some pc ∧
      (s.setBreakpoint line).2 =
        { s with breakpointInfo := s.breakpointInfo ++ [(pc, line)] }) ∧
    ((s.setBreakpoint line).1 = false → (s.setBreakpoint line).2 = s) ∧
    (s.setBreakpoint line).2.BreakpointsOfProgram := by
  unfold Simulator.setBreakpoint
  cases hpc : s.assembler.pcOfLine line with
  | none =>
    simp only []
    exact ⟨⟨fun hc => absurd hc (by simp), fun hc => absurd hc.1 (by simp)⟩,
      fun hc => absurd hc (by simp), fun _ => by first | rfl | trivial, h⟩
  | some pc =>
    simp only []
    cases hhas : BreakPointInfo.hasBreakpoint s.breakpointInfo line with
    | true =>
      simp only [if_true]
      exact ⟨⟨fun hc => absurd hc (by simp), fun hc => absurd hc.2.1 (by simp)⟩,
        fun hc => absurd hc (by simp), fun _ => by first | rfl | trivial, h⟩
    | false =>
      simp only [Bool.false_eq_true, if_false]
      unfold BreakPointInfo.setBreakpoint
      by_cases hlen : s.breakpointInfo.length ≥ 5
      · rw [if_pos hlen]
        exact ⟨⟨fun hc => absurd hc (by simp), fun hc => absurd hc.2.2 (by omega)⟩,
          fun hc => absurd hc (by simp), fun _ => rfl, h⟩
      · rw [if_neg hlen]
        cases hfind : mapFind pc s.breakpointInfo with
        | some line2 =>
          exfalso
          have hmem := mapFind_mem _ _ _ hfind
          have hl := h.inj _ _ _ (h.mapped _ _ hmem) hpc
          subst hl
          have := (hasBreakpoint_iff s.breakpointInfo line2).2 ⟨pc, hmem⟩
          rw [hhas] at this
          exact absurd this (by simp)
        | none =>
          have hnot := not_mem_keys_of_mapFind_none _ _ hfind
          have happ := mapInsert_append pc line s.breakpointInfo hnot
          simp only [Option.isNone_none, if_true, happ]
          refine ⟨⟨fun _ => ⟨rfl, trivial, by omega⟩, fun _ => by first | rfl | trivial⟩,
            fun _ => ⟨pc, rfl, rfl⟩,
            fun hc => absurd hc (by simp), ?_, ?_, h.inj⟩
          · show ((s.breakpointInfo ++ [(pc, line)]).map Prod.fst).Nodup
            rw [List.map_append, List.nodup_append]
            refine ⟨h.keys, by simp, ?_⟩
            intro a ha hb
            simp only [List.map_cons, List.map_nil, List.mem_singleton] at hb
            subst hb
            exact hnot ha
          · intro pc2 line2 hmem
            show s.assembler.pcOfLine line2 = some pc2
            rcases List.mem_append.1 hmem with hm | hm
            · exact h.mapped _ _ hm
            · simp only [List.mem_singleton, Prod.mk.injEq] at hm
              rw [hm.1, hm.2]
              exact hpc

/-- `Simulator::removeBreakpoint` on a table that belongs to the line map. -/
theorem removeBreakpoint_spec (s : Simulator) (h : s.BreakpointsOfProgram) (line : Int) :
    (BreakPointInfo.hasBreakpoint s.breakpointInfo line = false →
      s.removeBreakpoint line = (false, s)) ∧
    (BreakPointInfo.hasBreakpoint s.breakpointInfo line = true →
      ∃ pc before after, s.breakpointInfo = before ++ (pc, line) :: after ∧
        (∀ e, e ∈ before ++ after → e.2 ≠ line) ∧
        s.removeBreakpoint line = (true, { s with breakpointInfo := before ++ after })) ∧
    (s.removeBreakpoint line).2.BreakpointsOfProgram := by
  have habs : BreakPointInfo.hasBreakpoint s.breakpointInfo line = false →
      BreakPointInfo.removeBreakpoint s.breakpointInfo line = (false, s.breakpointInfo) := by
    intro hhas
    apply removeBreakpoint_absent
    intro e he hcon
    have := (hasBreakpoint_iff s.breakpointInfo line).2 ⟨e.1, by rw [← hcon]; exact he⟩
    rw [hhas] at this
    exact absurd this (by simp)
  have hpres : BreakPointInfo.hasBreakpoint s.breakpointInfo line = true →
      ∃ pc before after, s.breakpointInfo = before ++ (pc, line) :: after ∧
        (∀ e, e ∈ before ++ after → e.2 ≠ line) ∧ s.assembler.pcOfLine line = some pc ∧
        BreakPointInfo.removeBreakpoint s.breakpointInfo line = (true, before ++ after) := by
    intro hhas
    obtain ⟨pc0, hmem0⟩ := (hasBreakpoint_iff _ _).1 hhas
    obtain ⟨pc, before, after, hl, hb, hr⟩ := removeBreakpoint_present s.breakpointInfo line
      ⟨(pc0, line), hmem0, rfl⟩
    have hin : (pc, line) ∈ s.breakpointInfo := by rw [hl]; simp
    refine ⟨pc, before, after, hl, ?_, h.mapped _ _ hin, hr⟩
    intro e he hcon
    rcases List.mem_append.1 he with hm | hm
    · exact hb e hm hcon
    · have hin2 : (e.1, line) ∈ s.breakpointInfo := by
        rw [hl, ← hcon]; simp [hm]
      have hpc := BreakpointsOfProgram_lines s h _ _ _ hin2 hin
      have hk := h.keys
      rw [hl, List.map_append, List.map_cons, List.nodup_append] at hk
      have hk2 := (List.nodup_cons.1 hk.2.1).1
      apply hk2
      show pc ∈ after.map Prod.fst
      rw [← hpc]
      exact List.mem_map.2 ⟨e, hm, rfl⟩
  refine ⟨?_, ?_, ?_⟩
  · intro hhas
    unfold Simulator.removeBreakpoint
    cases hpc : s.assembler.pcOfLine line with
    | none => rfl
    | some pc => simp only [habs hhas]
  · intro hhas
    obtain ⟨pc, before, after, hl, hne, hpc, hr⟩ := hpres hhas
    refine ⟨pc, before, after, hl, hne, ?_⟩
    unfold Simulator.removeBreakpoint
    simp only [hpc, hr]
  · cases hhas : BreakPointInfo.hasBreakpoint s.breakpointInfo line with
    | false =>
      have : s.removeBreakpoint line = (false, s) := by
        unfold Simulator.removeBreakpoint
        cases hpc : s.assembler.pcOfLine line with
        | none => rfl
        | some pc => simp only [habs hhas]
      rw [this]
      exact h
    | true =>
      obtain ⟨pc, before, after, hl, hne, hpc, hr⟩ := hpres hhas
      have : s.removeBreakpoint line = (true, { s with breakpointInfo := before ++ after }) := by
        unfold Simulator.removeBreakpoint
        simp only [hpc, hr]
      rw [this]
      have hsub : List.Sublist (before ++ after) s.breakpointInfo := by
        rw [hl]
        exact List.Sublist.append (List.Sublist.refl _) (List.sublist_cons_self _ _)
      refine ⟨?_, ?_, h.inj⟩
      · exact List.Nodup.sublist (List.Sublist.map _ hsub) h.keys
      · intro pc2 line2 hmem
        exact h.mapped _ _ (hsub.subset hmem)


/-! ## Breakpoints: the line map of a loaded program -/

theorem assembleLoop_sourceLineToPC (mode : ISAMode) (L : LabelSet) (lines : List String) :
    ∀ (i : Nat) (st a : Assembler), assembleLoop mode L lines i st = .ok a →
      a.sourceLineToPC = st.sourceLineToPC := by
  induction lines with
  | nil =>
    intro i st a h
    rw [assembleLoop_nil] at h
    injection h with h
    rw [h]
  | cons line rest ih =>
    intro i st a h
    cases hl : assembleLine mode L line ((0 + i * 4) % 4294967296) with
    | error f =>
      rw [assembleLoop_fault mode L line rest i st f hl] at h
      exact absurd h (by simp)
    | ok o =>
      cases o with
      | none =>
        rw [assembleLoop_stop mode L line rest i st hl] at h
        injection h with h
        rw [h]
      | some inst =>
        rw [assembleLoop_cons mode L line rest i st inst hl] at h
        have h2 := ih (i + 1) _ a h
        exact h2

/-- The first pass gives every line of its map a PC of its own, a multiple of 4 below
2^32. -/
theorem collectLabelsLoop_lines (lines : List String) :
    ∀ (st : CollectState) (n : Nat),
      st.currentInstructionIndex ≤ n → n + lines.length ≤ 1073741824 →
      (∀ l p, mapFind l st.sourceLineToPC = some p →
        l ≤ n ∧ ∃ i, i < st.currentInstructionIndex ∧ p = 4 * i) →
      (∀ l1 l2 p, mapFind l1 st.sourceLineToPC = some p →
        mapFind l2 st.sourceLineToPC = some p → l1 = l2) →
      (∀ l p, mapFind l (collectLabelsLoop st n lines).sourceLineToPC = some p →
        p < 4294967296) ∧
      (∀ l1 l2 p, mapFind l1 (collectLabelsLoop st n lines).sourceLineToPC = some p →
        mapFind l2 (collectLabelsLoop st n lines).sourceLineToPC = some p → l1 = l2) := by
  induction lines with
  | nil =>
    intro st n hidx hlen ha hb
    simp only [collectLabelsLoop]
    refine ⟨fun l p h => ?_, hb⟩
    obtain ⟨_, i, hi, rfl⟩ := ha l p h
    simp only [List.length_nil] at hlen
    omega
  | cons line rest ih =>
    intro st n hidx hlen ha hb
    simp only [List.length_cons] at hlen
    simp only [collectLabelsLoop]
    have hstep := collectLabelsStep_eq st n line
    by_cases hp : producesInstruction line = true
    · simp only [hp, if_true] at hstep
      have hpc : (0 + st.currentInstructionIndex * 4) % 4294967296 =
          4 * st.currentInstructionIndex := by omega
      rw [hpc] at hstep
      have hfind : ∀ l, mapFind l (collectLabelsStep st n line).sourceLineToPC =
          if l = n + 1 then some (4 * st.currentInstructionIndex)
          else mapFind l st.sourceLineToPC := by
        intro l
        rw [hstep]
        simp only []
        by_cases hl : l = n + 1
        · rw [if_pos hl, hl, mapFind_mapInsert_self]
        · rw [if_neg hl, mapFind_mapInsert_ne _ _ _ _ hl]
      have hcii : (collectLabelsStep st n line).currentInstructionIndex =
          st.currentInstructionIndex + 1 := by rw [hstep]
      apply ih (collectLabelsStep st n line) (n + 1) (by rw [hcii]; omega) (by omega)
      · intro l p h
        rw [hfind] at h
        rw [hcii]
        by_cases hl : l = n + 1
        · rw [if_pos hl] at h
          injection h with h
          exact ⟨by omega, st.currentInstructionIndex, by omega, h.symm⟩
        · rw [if_neg hl] at h
          obtain ⟨h1, i, hi, hpi⟩ := ha l p h
          exact ⟨by omega, i, by omega, hpi⟩
      · intro l1 l2 p h1 h2
        rw [hfind] at h1 h2
        by_cases hl1 : l1 = n + 1
        · rw [if_pos hl1] at h1
          injection h1 with h1
          by_cases hl2 : l2 = n + 1
          · rw [hl1, hl2]
          · rw [if_neg hl2] at h2
            obtain ⟨_, i, hi, hpi⟩ := ha l2 p h2
            omega
        · rw [if_neg hl1] at h1
          by_cases hl2 : l2 = n + 1
          · rw [if_pos hl2] at h2
            injection h2 with h2
            obtain ⟨_, i, hi, hpi⟩ := ha l1 p h1
            omega
          · rw [if_neg hl2] at h2
            exact hb l1 l2 p h1 h2
    · simp only [hp, Bool.false_eq_true, if_false] at hstep
      have hmap : (collectLabelsStep st n line).sourceLineToPC = st.sourceLineToPC := by
        rw [hstep]
      have hcii : (collectLabelsStep st n line).currentInstructionIndex =
          st.currentInstructionIndex := by rw [hstep]
      apply ih (collectLabelsStep st n line) (n + 1) (by rw [hcii]; omega) (by omega)
      · intro l p h
        rw [hmap] at h
        rw [hcii]
        obtain ⟨h1, i, hi, hpi⟩ := ha l p h
        exact ⟨by omega, i, hi, hpi⟩
      · intro l1 l2 p h1 h2
        rw [hmap] at h1 h2
        exact hb l1 l2 p h1 h2

/-- After `loadProgramFromString` has loaded a program (of at most 2^30 lines) the empty
breakpoint table belongs to the line map. -/
theorem loadProgramFromString_breakpoints (s0 s : Simulator) (mode : ISAMode)
    (lines : List String) (hlen : lines.length ≤ 1073741824)
    (h : s0.loadProgramFromString mode lines = .ok s)
    (hcode : s.assembler.machineCodes ≠ []) :
    s.breakpointInfo = [] ∧ s.BreakpointsOfProgram := by
  unfold Simulator.loadProgramFromString at h
  cases hasm : assemble mode lines with
  | error f => rw [hasm] at h; exact absurd h (by simp)
  | ok a =>
    rw [hasm] at h
    simp only [] at h
    have hmap : a.sourceLineToPC = (collectLabels lines).sourceLineToPC := by
      unfold assemble at hasm
      exact assembleLoop_sourceLineToPC _ _ _ _ _ _ hasm
    obtain ⟨hlt, hinj⟩ := collectLabelsLoop_lines lines
      { labelSet := {}, instructionsOnly := [], sourceLineToPC := [],
        currentInstructionIndex := 0 } 0 (le_refl _) (by omega)
      (fun l p h => by simp [mapFind] at h) (fun l1 l2 p h => by simp [mapFind] at h)
    have key : ∀ t : Simulator, t.assembler = a → t.breakpointInfo = [] →
        t.breakpointInfo = [] ∧ t.BreakpointsOfProgram := by
      intro t ha hb
      refine ⟨hb, ?_, ?_, ?_⟩
      · rw [hb]; exact List.nodup_nil
      · intro pc line hmem
        rw [hb] at hmem
        simp at hmem
      · intro l1 l2 pc h1 h2
        unfold Assembler.pcOfLine at h1 h2
        rw [ha, hmap] at h1 h2
        split at h1
        · exact absurd h1 (by simp)
        · split at h2
          · exact absurd h2 (by simp)
          · cases hf1 : mapFind l1.toNat (collectLabels lines).sourceLineToPC with
            | none => rw [hf1] at h1; exact absurd h1 (by simp)
            | some p1 =>
              cases hf2 : mapFind l2.toNat (collectLabels lines).sourceLineToPC with
              | none => rw [hf2] at h2; exact absurd h2 (by simp)
              | some p2 =>
                rw [hf1] at h1
                rw [hf2] at h2
                simp only [Option.map_some', Option.some.injEq] at h1 h2
                have hp1 := hlt _ _ hf1
                have hp2 := hlt _ _ hf2
                have hpp : p1 = p2 := by
                  have := congrArg toU32 (h1.trans h2.symm)
                  rwa [toU32_toI32 _ hp1, toU32_toI32 _ hp2] at this
                subst hpp
                have := hinj _ _ _ hf1 hf2
                omega
    split at h
    · rename_i hempty
      injection h with h
      subst h
      exact absurd (by simpa using hempty) hcode
    · injection h with h
      subst h
      exact key _ rfl rfl


theorem BreakpointsOfProgram_frame (s t : Simulator) (hf : s.Frame t)
    (h : s.BreakpointsOfProgram) : t.BreakpointsOfProgram := by
  obtain ⟨h1, h2, h3⟩ := h
  refine ⟨?_, ?_, ?_⟩
  · rw [hf.breakpointInfo]; exact h1
  · rw [hf.breakpointInfo, hf.assembler]; exact h2
  · rw [hf.assembler]; exact h3

/-- C21 (evaluation at a failing input): after a load that fails, `setBreakpoint` and
`removeBreakpoint` do not keep their contract. A program whose first instruction is on
line 2 is loaded and a breakpoint set at line 2 (PC 0). Then the text `foo x1` is loaded:
assembly yields no word, the simulator is not reset, and the table still holds the entry
`0 -> 2`, while the line map of the assembler is now the one of the new text, `1 -> 0`. In
this state line 1 maps to a PC, is not a breakpoint, and one breakpoint is set, yet
`setBreakpoint(1)` returns `false` (the PC 0 is taken); and line 2 is a breakpoint, yet
`removeBreakpoint(2)` returns `false` and removes nothing (line 2 has no PC any more).
Whenever the table belongs to the line map of the assembler, as it does after every load
that loads a program and after every later `step`, `run`, `setBreakpoint` and
`removeBreakpoint`, the contract holds: `setBreakpoint(line)` returns `true` exactly when the
line has a PC, is no breakpoint and fewer than five are set, it then appends the entry
`pc(line) -> line` and otherwise changes nothing, so that a sixth set after five fails and
keeps the five; `removeBreakpoint(line)` returns `false` and changes nothing when the line
is no breakpoint and otherwise removes the one entry of that line. -/
theorem setBreakpoint_after_failed_load :
    -- the failing session
    ((Simulator.new.session
        [.load .RV32I ["", "addi x1, x0, 1", "addi x2, x0, 2"], .setBreakpoint 2,
         .load .RV32I ["foo x1"]]).map
      (fun r => r.map (fun p => (p.1, p.2.assembler.pcOfLine 1,
        BreakPointInfo.hasBreakpoint p.2.breakpointInfo 1, p.2.breakpointInfo,
        BreakPointInfo.hasBreakpoint p.2.breakpointInfo 2, p.2.assembler.pcOfLine 2)))
      = .ok (some ([true], some 0, false, [(0, 2)], true, none))) ∧
    ((Simulator.new.session
        [.load .RV32I ["", "addi x1, x0, 1", "addi x2, x0, 2"], .setBreakpoint 2,
         .load .RV32I ["foo x1"], .setBreakpoint 1, .removeBreakpoint 2]).map
      (fun r => r.map (fun p => (p.1, p.2.breakpointInfo)))
      = .ok (some ([true, false, false], [(0, 2)]))) ∧
    -- five breakpoints and a sixth
    ((Simulator.new.session
        [.load .RV32I ["addi x1, x0, 1", "addi x2, x0, 2", "addi x3, x0, 3",
          "addi x4, x0, 4", "addi x5, x0, 5", "addi x6, x0, 6"],
         .setBreakpoint 1, .setBreakpoint 2, .setBreakpoint 3, .setBreakpoint 4,
         .setBreakpoint 5, .setBreakpoint 6, .removeBreakpoint 7, .removeBreakpoint 3,
         .removeBreakpoint 3, .setBreakpoint 6, .setBreakpoint 6]).map
      (fun r => r.map (fun p => (p.1, p.2.breakpointInfo)))
      = .ok (some ([true, true, true, true, true, false, false, true, false, true, false],
          [(0, 1), (4, 2), (12, 4), (16, 5), (20, 6)]))) ∧
    -- the table of a loaded program
    (∀ (s0 s : Simulator) (mode : ISAMode) (lines : List String),
      lines.length ≤ 1073741824 → s0.loadProgramFromString mode lines = .ok s →
      s.assembler.machineCodes ≠ [] → s.breakpointInfo = [] ∧ s.BreakpointsOfProgram) ∧
    (∀ (s t : Simulator) (rand : Nat) (line : Int), s.BreakpointsOfProgram →
      s.step rand = .ok (line, t) → t.BreakpointsOfProgram) ∧
    (∀ (s t : Simulator) (fuel : Nat) (rand : Nat → Nat), s.BreakpointsOfProgram →
      s.run fuel rand = .ok (some t) → t.BreakpointsOfProgram) ∧
    (∀ (s : Simulator) (line : Int), s.BreakpointsOfProgram →
      ((s.setBreakpoint line).1 = true ↔
        (s.assembler.pcOfLine line).isSome = true ∧
          BreakPointInfo.hasBreakpoint s.breakpointInfo line = false ∧
          s.breakpointInfo.length < 5) ∧
      ((s.setBreakpoint line).1 = true → ∃ pc, s.assembler.pcOfLine line = some pc ∧
        (s.setBreakpoint line).2 =
          { s with breakpointInfo := s.breakpointInfo ++ [(pc, line)] }) ∧
      ((s.setBreakpoint line).1 = false → (s.setBreakpoint line).2 = s) ∧
      (s.setBreakpoint line).2.BreakpointsOfProgram) ∧
    (∀ (s : Simulator) (line : Int), s.BreakpointsOfProgram →
      (BreakPointInfo.hasBreakpoint s.breakpointInfo line = false →
        s.removeBreakpoint line = (false, s)) ∧
      (BreakPointInfo.hasBreakpoint s.breakpointInfo line = true →
        ∃ pc before after, s.breakpointInfo = before ++ (pc, line) :: after ∧
          (∀ e, e ∈ before ++ after → e.2 ≠ line) ∧
          s.removeBreakpoint line = (true, { s with breakpointInfo := before ++ after })) ∧
      (s.removeBreakpoint line).2.BreakpointsOfProgram) := by
  refine ⟨rfl, rfl, rfl, ?_, ?_, ?_, ?_, ?_⟩
  · intro s0 s mode lines hlen h hcode
    exact loadProgramFromString_breakpoints s0 s mode lines hlen h hcode
  · intro s t rand line h hstep
    exact BreakpointsOfProgram_frame s t (step_frame s t rand line hstep) h
  · intro s t fuel rand h hrun
    exact BreakpointsOfProgram_frame s t (run_frame s t fuel rand hrun) h
  · intro s line h
    exact setBreakpoint_spec s h line
  · intro s line h
    exact removeBreakpoint_spec s h line

/-! ## Cache: the shape of a replacement -/

/-- What `Cache::replaceBlock` returns, apart from the log, when it returns: the victim is
the first invalid block or, when there is none, the block the policy selects; a dirty victim is written back
under WB; and the block allocated takes the victim's place. -/
theorem replaceBlock_shape (c : Cache) (set : List CacheBlock) (setIndex tag address : Nat)
    (isWrite : Bool) (rand : Nat) (c2 : Cache) (v : Nat)
    (h : c.replaceBlockCore set setIndex tag address isWrite rand = .ok (c2, v)) :
    ∃ victim mem, set.get? v = some victim ∧
      c2 = { c with
        memory := mem
        sets := c.sets.set setIndex
          (set.set v (c.allocated victim mem setIndex tag address isWrite)) } ∧
      ((findInvalidBlock set = some v ∧ mem = c.memory) ∨
        (findInvalidBlock set = none ∧ selectBlockToEvict c.config set rand = .ok (some v) ∧
          mem = if victim.dirty && decide (c.config.writePolicy = .WB)
            then c.writeBlockToMemory victim else c.memory)) := by
  unfold Cache.replaceBlockCore at h
  simp only [] at h
  cases hinv : findInvalidBlock set with
  | some w =>
    rw [hinv] at h
    simp only [] at h
    cases hget : set.get? w with
    | none => rw [hget] at h; exact absurd h (by simp)
    | some victim =>
      rw [hget] at h
      simp only [Except.ok.injEq, Prod.mk.injEq] at h
      obtain ⟨h1, h2⟩ := h
      subst h2
      exact ⟨victim, c.memory, hget, h1.symm, Or.inl ⟨rfl, rfl⟩⟩
  | none =>
    rw [hinv] at h
    simp only [] at h
    cases hsel : selectBlockToEvict c.config set rand with
    | error f => rw [hsel] at h; exact absurd h (by simp)
    | ok o =>
      rw [hsel] at h
      cases o with
      | none => exact absurd h (by simp)
      | some w =>
        simp only [] at h
        cases hget : set.get? w with
        | none => rw [hget] at h; exact absurd h (by simp)
        | some victim =>
          rw [hget] at h
          simp only [] at h
          by_cases hd : (victim.dirty && decide (c.config.writePolicy = .WB)) = true
          · rw [if_pos hd] at h
            simp only [hget, Except.ok.injEq, Prod.mk.injEq] at h
            obtain ⟨h1, h2⟩ := h
            subst h2
            exact ⟨victim, _, hget, h1.symm, Or.inr ⟨rfl, rfl, by rw [if_pos hd]⟩⟩
          · rw [if_neg hd] at h
            simp only [hget, Except.ok.injEq, Prod.mk.injEq] at h
            obtain ⟨h1, h2⟩ := h
            subst h2
            exact ⟨victim, _, hget, h1.symm, Or.inr ⟨rfl, rfl, by rw [if_neg hd]⟩⟩


/-! ## Cache: well-formed blocks -/

theorem wellFormed_set (cfg : CacheConfig) (sets : List (List CacheBlock))
    (hwf : ∀ set, set ∈ sets → ∀ b, b ∈ set → b.WellFormed cfg)
    (idx k : Nat) (set : List CacheBlock) (b : CacheBlock)
    (hset : sets.get? idx = some set) (hb : b.WellFormed cfg) :
    ∀ set2, set2 ∈ sets.set idx (set.set k b) → ∀ b2, b2 ∈ set2 → b2.WellFormed cfg := by
  intro set2 hs2 b2 hb2
  have hmem : set ∈ sets := List.mem_iff_get?.2 ⟨idx, hset⟩
  rcases List.mem_or_eq_of_mem_set hs2 with h | h
  · exact hwf set2 h b2 hb2
  · subst h
    rcases List.mem_or_eq_of_mem_set hb2 with h | h
    · exact hwf set hmem b2 h
    · subst h
      exact hb

theorem writeData_wellFormed (cfg : CacheConfig) (b : CacheBlock) (A : Nat) (size : MemSize)
    (v bs : Nat) (hb : b.WellFormed cfg) (hv : b.valid = true) (d : Bool)
    (hd : d = true → cfg.writePolicy = .WB) :
    CacheBlock.WellFormed cfg { b.writeData A size v bs with dirty := d } := by
  obtain ⟨h1, h2, h3⟩ := hb
  unfold CacheBlock.writeData
  simp only []
  split
  · exact ⟨fun _ => hv, h2, hd⟩
  · refine ⟨fun _ => rfl, fun _ => ?_, hd⟩
    show (writeDataLoop b.data _ v size.toNat).length = cfg.blockSize
    rw [writeDataLoop_length]
    exact h2 hv

/-- One access keeps the configuration and the well-formedness of every block. -/
theorem access_wellFormed (c : Cache) (hwf : c.WellFormed) (A : Nat) (size : MemSize)
    (u w : Bool) (value rand r : Nat) (c2 : Cache)
    (h : c.access A size u w value rand = .ok (r, c2)) :
    c2.config = c.config ∧ c2.WellFormed := by
  rw [access_logged c (access_returns_logged c A size u w value rand _ h)] at h
  unfold Cache.accessCore at h
  simp only [] at h
  cases hset : c.sets.get? (toU32 (c.addrDecoder.getIndex A)) with
  | none => rw [hset] at h; exact absurd h (by simp)
  | some set =>
    rw [hset] at h
    simp only [] at h
    have hmem : set ∈ c.sets := List.mem_iff_get?.2 ⟨_, hset⟩
    cases hfind : findBlockInSet (toU64 (c.addrDecoder.getTag A)) set with
    | some k =>
      rw [hfind] at h
      simp only [] at h
      obtain ⟨found, hget, hvalid, _⟩ := findBlockInSet_some _ _ _ hfind
      rw [hget] at h
      simp only [] at h
      have hfwf : found.WellFormed c.config :=
        hwf set hmem found (List.mem_iff_get?.2 ⟨k, hget⟩)
      have htouch : CacheBlock.WellFormed c.config
          { found with lastUsed := c.accesses + 1 } := hfwf
      cases w with
      | true =>
        simp only [if_true] at h
        by_cases hwp : c.config.writePolicy = .WB
        · rw [if_pos hwp] at h
          simp only [Except.ok.injEq, Prod.mk.injEq] at h
          obtain ⟨_, h2⟩ := h
          subst h2
          refine ⟨rfl, wellFormed_set c.config c.sets hwf _ k set _ hset ?_⟩
          exact writeData_wellFormed c.config _ A size value _ htouch hvalid true (fun _ => hwp)
        · rw [if_neg hwp] at h
          simp only [Except.ok.injEq, Prod.mk.injEq] at h
          obtain ⟨_, h2⟩ := h
          subst h2
          refine ⟨rfl, wellFormed_set c.config c.sets hwf _ k set _ hset ?_⟩
          exact writeData_wellFormed c.config _ A size value _ htouch hvalid false
            (fun hc => absurd hc (by simp))
      | false =>
        simp only [Bool.false_eq_true, if_false, Except.ok.injEq, Prod.mk.injEq] at h
        obtain ⟨_, h2⟩ := h
        subst h2
        exact ⟨rfl, wellFormed_set c.config c.sets hwf _ k set _ hset htouch⟩
    | none =>
      rw [hfind] at h
      simp only [] at h
      by_cases hwt : (w && decide (c.config.writePolicy = .WT)) = true
      · rw [if_pos hwt] at h
        simp only [Except.ok.injEq, Prod.mk.injEq] at h
        obtain ⟨_, h2⟩ := h
        subst h2
        exact ⟨rfl, hwf⟩
      · rw [if_neg hwt] at h
        cases hrep : ({ c with accesses := c.accesses + 1, misses := c.misses + 1 } :
          Cache).replaceBlockCore set (toU32 (c.addrDecoder.getIndex A))
            (toU64 (c.addrDecoder.getTag A)) A w rand with
        | error f => rw [hrep] at h; exact absurd h (by simp)
        | ok p =>
          obtain ⟨c3, v⟩ := p
          rw [hrep] at h
          simp only [] at h
          obtain ⟨victim, mem, hvget, hc3, _⟩ := replaceBlock_shape _ _ _ _ _ _ _ _ _ hrep
          have hvlt : v < set.length := get?_lt _ _ _ hvget
          have hwp : w = true → c.config.writePolicy = .WB := by
            intro hw
            subst hw
            cases hp : c.config.writePolicy with
            | WB => rfl
            | WT => rw [hp] at hwt; exact absurd rfl hwt
          have halloc : CacheBlock.WellFormed c.config
              (Cache.allocated { c with accesses := c.accesses + 1, misses := c.misses + 1 }
                victim mem (toU32 (c.addrDecoder.getIndex A))
                (toU64 (c.addrDecoder.getTag A)) A w) := by
            refine ⟨fun _ => rfl, fun _ => loadBlockData_length _ _ _, fun hd => ?_⟩
            simp only [Cache.allocated, Bool.and_eq_true, decide_eq_true_eq] at hd
            exact hd.2
          have hblock : (c3.sets.get? (toU32 (c.addrDecoder.getIndex A))).bind
              (fun s => s.get? v) = some (Cache.allocated
                { c with accesses := c.accesses + 1, misses := c.misses + 1 }
                victim mem (toU32 (c.addrDecoder.getIndex A))
                (toU64 (c.addrDecoder.getTag A)) A w) := by
            rw [hc3]
            simp only []
            rw [get?_set_sets _ _ _ _ hset]
            simp [List.get?_eq_getElem?, List.getElem?_set, hvlt]
          have hcfg3 : c3.config = c.config := by rw [hc3]
          have hwf3 : c3.WellFormed := by
            rw [hc3]
            exact wellFormed_set c.config c.sets hwf _ v set _ hset halloc
          rw [hblock] at h
          simp only [] at h
          cases w with
          | true =>
            simp only [if_true, Except.ok.injEq, Prod.mk.injEq] at h
            obtain ⟨_, h2⟩ := h
            subst h2
            refine ⟨hcfg3, ?_⟩
            have hset3 : c3.sets.get? (toU32 (c.addrDecoder.getIndex A)) =
                some (set.set v (Cache.allocated
                  { c with accesses := c.accesses + 1, misses := c.misses + 1 }
                  victim mem (toU32 (c.addrDecoder.getIndex A))
                  (toU64 (c.addrDecoder.getTag A)) A true)) := by
              rw [hc3]
              exact get?_set_sets _ _ _ _ hset
            show ∀ set2, set2 ∈ c3.sets.set _ ((c3.sets.getD _ []).set v _) →
              ∀ b2, b2 ∈ set2 → b2.WellFormed c3.config
            rw [getD_sets _ _ _ hset3]
            apply wellFormed_set c3.config c3.sets hwf3 _ v _ _ hset3
            rw [hcfg3]
            exact writeData_wellFormed c.config _ A size value _ halloc rfl true
              (fun _ => hwp rfl)
          | false =>
            simp only [Bool.false_eq_true, if_false, Except.ok.injEq, Prod.mk.injEq] at h
            obtain ⟨_, h2⟩ := h
            subst h2
            exact ⟨hcfg3, hwf3⟩


theorem invalidate_blocks (c : Cache) (set : List CacheBlock) (hset : set ∈ c.invalidate.sets)
    (b : CacheBlock) (hb : b ∈ set) : b.valid = false ∧ b.dirty = false := by
  simp only [Cache.invalidate, List.mem_map] at hset
  obtain ⟨set0, _, rfl⟩ := hset
  obtain ⟨b0, _, rfl⟩ := List.mem_map.1 hb
  exact ⟨rfl, rfl⟩

theorem wellFormed_of_invalid (cfg : CacheConfig) (b : CacheBlock)
    (h : b.valid = false ∧ b.dirty = false) : b.WellFormed cfg :=
  ⟨fun hd => by rw [h.2] at hd; exact absurd hd (by simp),
    fun hv => by rw [h.1] at hv; exact absurd hv (by simp),
    fun hd => by rw [h.2] at hd; exact absurd hd (by simp)⟩

/-- After `Cache::enable` no block is valid or dirty. -/
theorem enable_blocks (prior : Cache) (cfg : CacheConfig) (mem : Memory) (c : Cache)
    (h : prior.enable cfg mem = .ok c) :
    c.config = cfg ∧
      ∀ set, set ∈ c.sets → ∀ b, b ∈ set → b.valid = false ∧ b.dirty = false := by
  unfold Cache.enable at h
  simp only [] at h
  split at h
  · exact absurd h (by simp)
  · injection h with h
    subst h
    refine ⟨rfl, ?_⟩
    intro set hset b hb
    simp only [List.mem_map] at hset
    obtain ⟨set0, hset0, rfl⟩ := hset
    rcases mem_resizeList _ _ _ _ hb with h1 | h1
    · rcases mem_resizeList _ _ _ _ hset0 with h2 | h2
      · exact invalidate_blocks prior set0 h2 b h1
      · rw [h2] at h1; simp at h1
    · rw [h1]; exact ⟨rfl, rfl⟩

/-- C24: block well-formedness is an invariant. In every state of the cache reached from
`Cache::enable` (with any configuration it accepts, from any earlier state) by reads,
writes and calls of `invalidate()`, whatever happens to the memory behind it, every block
of every set satisfies: dirty implies valid, valid implies that the data array has exactly
`blockSize` bytes, and dirty implies that the write policy is WB, so that under WT no
block is dirty. -/
theorem reachable_blocks_well_formed (c : Cache) (h : c.Reachable) :
    ∀ set, set ∈ c.sets → ∀ b, b ∈ set →
      (b.dirty = true → b.valid = true) ∧
      (b.valid = true → b.data.length = c.config.blockSize) ∧
      (b.dirty = true → c.config.writePolicy = .WB) ∧
      (c.config.writePolicy = .WT → b.dirty = false) := by
  have key : c.WellFormed := by
    induction h with
    | enable prior config mem c he =>
      obtain ⟨_, hb⟩ := enable_blocks prior config mem c he
      exact fun set hset b hmem => wellFormed_of_invalid _ b (hb set hset b hmem)
    | read c address size isUnsigned rand value next _ hr ih =>
      exact (access_wellFormed c ih address size isUnsigned false 0 rand value next hr).2
    | write c address size value rand next _ hw ih =>
      unfold Cache.write at hw
      cases ha : c.access address size false true value rand with
      | error f => rw [ha] at hw; exact absurd hw (by simp)
      | ok p =>
        obtain ⟨r, c2⟩ := p
        rw [ha] at hw
        simp only [Except.ok.injEq] at hw
        subst hw
        exact (access_wellFormed c ih address size false true value rand r c2 ha).2
    | invalidate c _ _ =>
      exact fun set hset b hmem => wellFormed_of_invalid _ b (invalidate_blocks c set hset b hmem)
    | memory c mem _ ih => exact ih
  intro set hset b hb
  obtain ⟨h1, h2, h3⟩ := key set hset b hb
  refine ⟨h1, h2, h3, fun hwt => ?_⟩
  cases hd : b.dirty with
  | false => rfl
  | true => rw [h3 hd] at hwt; exact absurd hwt (by simp)

/-- Witness of C24: a write-back cache of two sets of two ways, with a log stream, after a
half-word write that allocates a block: way 0 of set 0 is valid and dirty and holds 16 bytes. -/
theorem reachable_blocks_well_formed_witness :
    ((((Cache.orNew ((Cache.orNew ((Cache.new Memory.empty).setLogStream.enable
        ⟨64, 16, 2, .LRU, .WB⟩ Memory.empty)).write 0x21 .HalfWord 0xBEEF 0)).sets.getD 0
          []).getD 0 {}).dirty = true →
      (((Cache.orNew ((Cache.orNew ((Cache.new Memory.empty).setLogStream.enable
        ⟨64, 16, 2, .LRU, .WB⟩ Memory.empty)).write 0x21 .HalfWord 0xBEEF 0)).sets.getD 0
          []).getD 0 {}).valid = true) ∧
    ((((Cache.orNew ((Cache.orNew ((Cache.new Memory.empty).setLogStream.enable
        ⟨64, 16, 2, .LRU, .WB⟩ Memory.empty)).write 0x21 .HalfWord 0xBEEF 0)).sets.getD 0
          []).getD 0 {}).valid = true →
      (((Cache.orNew ((Cache.orNew ((Cache.new Memory.empty).setLogStream.enable
        ⟨64, 16, 2, .LRU, .WB⟩ Memory.empty)).write 0x21 .HalfWord 0xBEEF 0)).sets.getD 0
          []).getD 0 {}).data.length = 16) ∧
    ((((Cache.orNew ((Cache.orNew ((Cache.new Memory.empty).setLogStream.enable
        ⟨64, 16, 2, .LRU, .WB⟩ Memory.empty)).write 0x21 .HalfWord 0xBEEF 0)).sets.getD 0
          []).getD 0 {}).dirty = true → WritePolicy.WB = .WB) ∧
    (WritePolicy.WB = .WT →
      (((Cache.orNew ((Cache.orNew ((Cache.new Memory.empty).setLogStream.enable
        ⟨64, 16, 2, .LRU, .WB⟩ Memory.empty)).write 0x21 .HalfWord 0xBEEF 0)).sets.getD 0
          []).getD 0 {}).dirty = false) :=
  reachable_blocks_well_formed
    (Cache.orNew ((Cache.orNew ((Cache.new Memory.empty).setLogStream.enable
      ⟨64, 16, 2, .LRU, .WB⟩ Memory.empty)).write 0x21 .HalfWord 0xBEEF 0))
    (.write (Cache.orNew ((Cache.new Memory.empty).setLogStream.enable
        ⟨64, 16, 2, .LRU, .WB⟩ Memory.empty)) 0x21 .HalfWord 0xBEEF 0 _
      (.enable (Cache.new Memory.empty).setLogStream ⟨64, 16, 2, .LRU, .WB⟩ Memory.empty _ rfl) rfl)
    _ (List.mem_iff_get?.2 ⟨0, rfl⟩) _ (List.mem_iff_get?.2 ⟨0, rfl⟩)

/-! ## Cache: the victim of a replacement -/

/-- Every block before the one `findInvalidBlock` returns is valid. -/
theorem findInvalidBlock_first (set : List CacheBlock) (v : Nat)
    (h : findInvalidBlock set = some v) (j : Nat) (b : CacheBlock) (hj : j < v)
    (hb : set.get? j = some b) : b.valid = true := by
  induction set generalizing v j with
  | nil => simp [findInvalidBlock] at h
  | cons block rest ih =>
    simp only [findInvalidBlock] at h
    split at h
    · simp only [Option.some.injEq] at h
      omega
    · rename_i hc
      simp only [Bool.not_eq_true', Bool.not_eq_false] at hc
      cases hr : findInvalidBlock rest with
      | none => rw [hr] at h; simp at h
      | some w =>
        rw [hr] at h
        simp only [Option.map_some', Option.some.injEq] at h
        cases j with
        | zero =>
          simp only [List.get?_cons_zero, Option.some.injEq] at hb
          subst hb
          exact hc
        | succ j =>
          simp only [List.get?_cons_succ] at hb
          exact ih w hr j (by omega) hb

/-- The loop of `selectBlockToEvict` returns the first block with the smallest key. -/
theorem selectOldestLoop_min (key : CacheBlock → Nat) (rest : List CacheBlock) :
    ∀ (pre : List CacheBlock) (oldest : Nat) (victim : Option Nat) (v : Nat),
      (∀ j b, pre.get? j = some b → oldest ≤ key b) →
      (victim = none ∨ ∃ j0 b0, victim = some j0 ∧ pre.get? j0 = some b0 ∧ key b0 = oldest ∧
        ∀ j b, j < j0 → pre.get? j = some b → oldest < key b) →
      selectOldestLoop key rest pre.length oldest victim = some v →
      ∃ bv, (pre ++ rest).get? v = some bv ∧
        (∀ j b, (pre ++ rest).get? j = some b → key bv ≤ key b) ∧
        (∀ j b, j < v → (pre ++ rest).get? j = some b → key bv < key b) := by
  induction rest with
  | nil =>
    intro pre oldest victim v hA hB h
    simp only [selectOldestLoop] at h
    rcases hB with hB | ⟨j0, b0, hv, hget, hkey, hlt⟩
    · rw [hB] at h; exact absurd h (by simp)
    · rw [hv] at h
      simp only [Option.some.injEq] at h
      subst h
      simp only [List.append_nil]
      exact ⟨b0, hget, fun j b hb => by rw [hkey]; exact hA j b hb,
        fun j b hj hb => by rw [hkey]; exact hlt j b hj hb⟩
  | cons block rest ih =>
    intro pre oldest victim v hA hB h
    simp only [selectOldestLoop] at h
    have hlen : (pre ++ [block]).length = pre.length + 1 := by simp
    have happ : pre ++ block :: rest = (pre ++ [block]) ++ rest := by simp
    have hget : ∀ j b, (pre ++ [block]).get? j = some b →
        (j < pre.length ∧ pre.get? j = some b) ∨ (j = pre.length ∧ b = block) := by
      intro j b hb
      rw [List.get?_eq_getElem?] at hb
      by_cases hj : j < pre.length
      · rw [List.getElem?_append_left hj] at hb
        exact Or.inl ⟨hj, by rw [List.get?_eq_getElem?]; exact hb⟩
      · rw [List.getElem?_append_right (by omega)] at hb
        have hj0 : j - pre.length = 0 := by
          by_contra hne
          have : [block][j - pre.length]? = none := by
            apply List.getElem?_eq_none
            simp only [List.length_singleton]
            omega
          rw [this] at hb
          exact absurd hb (by simp)
        rw [hj0] at hb
        simp only [List.getElem?_cons_zero, Option.some.injEq] at hb
        exact Or.inr ⟨by omega, hb.symm⟩
    have hself : (pre ++ [block]).get? pre.length = some block := by
      rw [List.get?_eq_getElem?, List.getElem?_append_right (le_refl _)]
      simp
    rw [happ]
    by_cases hc : key block < oldest
    · rw [if_pos hc, ← hlen] at h
      apply ih (pre ++ [block]) (key block) (some pre.length) v _ _ h
      · intro j b hb
        rcases hget j b hb with ⟨_, hb2⟩ | ⟨_, hb2⟩
        · exact le_of_lt (lt_of_lt_of_le hc (hA j b hb2))
        · rw [hb2]
      · refine Or.inr ⟨pre.length, block, rfl, hself, rfl, ?_⟩
        intro j b hj hb
        rcases hget j b hb with ⟨_, hb2⟩ | ⟨hj2, _⟩
        · exact lt_of_lt_of_le hc (hA j b hb2)
        · omega
    · rw [if_neg hc, ← hlen] at h
      apply ih (pre ++ [block]) oldest victim v _ _ h
      · intro j b hb
        rcases hget j b hb with ⟨_, hb2⟩ | ⟨_, hb2⟩
        · exact hA j b hb2
        · rw [hb2]; omega
      · rcases hB with hB | ⟨j0, b0, hv, hg0, hkey, hlt⟩
        · exact Or.inl hB
        · have hj0 : j0 < pre.length := get?_lt _ _ _ hg0
          refine Or.inr ⟨j0, b0, hv, ?_, hkey, ?_⟩
          · rw [List.get?_eq_getElem?, List.getElem?_append_left hj0, ← List.get?_eq_getElem?]
            exact hg0
          · intro j b hj hb
            rcases hget j b hb with ⟨_, hb2⟩ | ⟨hj2, _⟩
            · exact hlt j b hj hb2
            · omega

/-- The victim `selectBlockToEvict` names under LRU and FIFO is the first block with the
smallest time stamp: `lastUsed` under LRU, `insertionTime` under FIFO. -/
theorem selectBlockToEvict_oldest (config : CacheConfig) (set : List CacheBlock) (rand v : Nat)
    (h : selectBlockToEvict config set rand = .ok (some v)) :
    (config.replacementPolicy = .LRU → ∃ bv, set.get? v = some bv ∧
      (∀ j b, set.get? j = some b → bv.lastUsed ≤ b.lastUsed) ∧
      (∀ j b, j < v → set.get? j = some b → bv.lastUsed < b.lastUsed)) ∧
    (config.replacementPolicy = .FIFO → ∃ bv, set.get? v = some bv ∧
      (∀ j b, set.get? j = some b → bv.insertionTime ≤ b.insertionTime) ∧
      (∀ j b, j < v → set.get? j = some b → bv.insertionTime < b.insertionTime)) := by
  unfold selectBlockToEvict at h
  constructor
  · intro hp
    rw [hp] at h
    simp only [Except.ok.injEq] at h
    exact selectOldestLoop_min (fun b => b.lastUsed) set [] _ none v
      (fun j b hb => by simp at hb) (Or.inl rfl) h
  · intro hp
    rw [hp] at h
    simp only [Except.ok.injEq] at h
    exact selectOldestLoop_min (fun b => b.insertionTime) set [] _ none v
      (fun j b hb => by simp at hb) (Or.inl rfl) h

/-- With a non-empty set whose time stamps are below `UINT64_MAX`, `replaceBlock` apart
from the log returns. -/
theorem replaceBlock_returns (c : Cache) (set : List CacheBlock) (setIndex tag address : Nat)
    (isWrite : Bool) (rand : Nat) (hne : set ≠ [])
    (hkeys : ∀ b, b ∈ set → b.lastUsed < 18446744073709551615 ∧
      b.insertionTime < 18446744073709551615) :
    ∃ c2 v, c.replaceBlockCore set setIndex tag address isWrite rand = .ok (c2, v) := by
  unfold Cache.replaceBlockCore
  simp only []
  cases hinv : findInvalidBlock set with
  | some w =>
    obtain ⟨b, hget, _⟩ := findInvalidBlock_some set w hinv
    simp only [hget]
    exact ⟨_, _, rfl⟩
  | none =>
    obtain ⟨w, hsel, hlt⟩ := selectBlockToEvict_ok c.config set rand hne hkeys
    obtain ⟨victim, hget⟩ : ∃ victim, set.get? w = some victim := by
      rw [List.get?_eq_getElem?]
      exact ⟨set[w], List.getElem?_eq_some.2 ⟨hlt, rfl⟩⟩
    simp only [hsel, hget]
    by_cases hd : (victim.dirty && decide (c.config.writePolicy = .WB)) = true
    · rw [if_pos hd]
      simp only [hget]
      exact ⟨_, _, rfl⟩
    · rw [if_neg hd]
      simp only [hget]
      exact ⟨_, _, rfl⟩


theorem writeData_stamps (b : CacheBlock) (A : Nat) (size : MemSize) (v bs : Nat) :
    (b.writeData A size v bs).tag = b.tag ∧ (b.writeData A size v bs).lastUsed = b.lastUsed ∧
      (b.writeData A size v bs).insertionTime = b.insertionTime ∧
      (b.valid = true → (b.writeData A size v bs).valid = true) := by
  unfold CacheBlock.writeData
  simp only []
  split
  · exact ⟨rfl, rfl, rfl, fun h => h⟩
  · exact ⟨rfl, rfl, rfl, fun _ => rfl⟩

/-- A hit: the block found is touched (and written, for a write); nothing else in the
sets changes, and the block keeps its tag and its `insertionTime`. -/
theorem access_hit (c : Cache) (A : Nat) (size : MemSize) (u w : Bool) (value rand : Nat)
    (set : List CacheBlock) (k : Nat) (hlog : c.logStream = true)
    (hset : c.sets.get? (toU32 (c.addrDecoder.getIndex A)) = some set)
    (hfind : findBlockInSet (toU64 (c.addrDecoder.getTag A)) set = some k) :
    ∃ found r c2 b, set.get? k = some found ∧ c.access A size u w value rand = .ok (r, c2) ∧
      c2.sets = c.sets.set (toU32 (c.addrDecoder.getIndex A)) (set.set k b) ∧
      c2.accesses = c.accesses + 1 ∧ c2.hits = c.hits + 1 ∧ c2.misses = c.misses ∧
      b.valid = true ∧ b.tag = found.tag ∧ b.lastUsed = c.accesses + 1 ∧
      b.insertionTime = found.insertionTime := by
  obtain ⟨found, hget, hvalid, _⟩ := findBlockInSet_some _ _ _ hfind
  rw [access_logged c hlog]
  unfold Cache.accessCore
  simp only [hset, hfind, hget]
  cases w with
  | true =>
    simp only [if_true]
    have hst := writeData_stamps { found with lastUsed := c.accesses + 1 } A size value
      c.config.blockSize
    by_cases hwp : c.config.writePolicy = .WB
    · rw [if_pos hwp]
      exact ⟨found, _, _, _, rfl, rfl, rfl, rfl, rfl, rfl, hst.2.2.2 hvalid, hst.1, hst.2.1,
        hst.2.2.1⟩
    · rw [if_neg hwp]
      exact ⟨found, _, _, _, rfl, rfl, rfl, rfl, rfl, rfl, hst.2.2.2 hvalid, hst.1, hst.2.1,
        hst.2.2.1⟩
  | false =>
    simp only [Bool.false_eq_true, if_false]
    exact ⟨found, _, _, _, rfl, rfl, rfl, rfl, rfl, rfl, hvalid, rfl, rfl, rfl⟩

/-- A miss that allocates, once the replacement has returned. -/
theorem access_miss_allocate (c : Cache) (A : Nat) (size : MemSize) (u w : Bool)
    (value rand : Nat) (set : List CacheBlock) (c3 : Cache) (v : Nat)
    (hlog : c.logStream = true)
    (hset : c.sets.get? (toU32 (c.addrDecoder.getIndex A)) = some set)
    (hmiss : findBlockInSet (toU64 (c.addrDecoder.getTag A)) set = none)
    (halloc : ¬(w = true ∧ c.config.writePolicy = .WT))
    (hrep : ({ c with accesses := c.accesses + 1, misses := c.misses + 1 } :
      Cache).replaceBlockCore set (toU32 (c.addrDecoder.getIndex A))
        (toU64 (c.addrDecoder.getTag A)) A w rand = .ok (c3, v)) :
    ∃ r c2 b, c.access A size u w value rand = .ok (r, c2) ∧
      c2.sets = c.sets.set (toU32 (c.addrDecoder.getIndex A)) (set.set v b) ∧
      c2.memory = c3.memory ∧
      c2.accesses = c.accesses + 1 ∧ c2.hits = c.hits ∧ c2.misses = c.misses + 1 ∧
      b.valid = true ∧ b.tag = toU64 (c.addrDecoder.getTag A) ∧
      b.lastUsed = c.accesses + 1 ∧ b.insertionTime = c.accesses + 1 := by
  obtain ⟨victim, mem, hvget, hc3, _⟩ := replaceBlock_shape _ _ _ _ _ _ _ _ _ hrep
  have hvlt : v < set.length := get?_lt _ _ _ hvget
  have hwt : ¬((w && decide (c.config.writePolicy = .WT)) = true) := by
    simpa using halloc
  rw [access_logged c hlog]
  unfold Cache.accessCore
  simp only [hset, hmiss]
  rw [if_neg hwt, hrep]
  simp only []
  subst hc3
  have hset3 : (c.sets.set (toU32 (c.addrDecoder.getIndex A))
      (set.set v (Cache.allocated
        { c with accesses := c.accesses + 1, misses := c.misses + 1 }
        victim mem (toU32 (c.addrDecoder.getIndex A))
        (toU64 (c.addrDecoder.getTag A)) A w))).get? (toU32 (c.addrDecoder.getIndex A)) =
      some (set.set v (Cache.allocated
        { c with accesses := c.accesses + 1, misses := c.misses + 1 }
        victim mem (toU32 (c.addrDecoder.getIndex A))
        (toU64 (c.addrDecoder.getTag A)) A w)) := get?_set_sets _ _ _ _ hset
  have hblock : (set.set v (Cache.allocated
        { c with accesses := c.accesses + 1, misses := c.misses + 1 }
        victim mem (toU32 (c.addrDecoder.getIndex A))
        (toU64 (c.addrDecoder.getTag A)) A w)).get? v = some (Cache.allocated
        { c with accesses := c.accesses + 1, misses := c.misses + 1 }
        victim mem (toU32 (c.addrDecoder.getIndex A))
        (toU64 (c.addrDecoder.getTag A)) A w) := by
    simp [List.get?_eq_getElem?, List.getElem?_set, hvlt]
  simp only [hset3, Option.some_bind, hblock]
  cases w with
  | true =>
    simp only [if_true]
    have hst := writeData_stamps (Cache.allocated
        { c with accesses := c.accesses + 1, misses := c.misses + 1 }
        victim mem (toU32 (c.addrDecoder.getIndex A))
        (toU64 (c.addrDecoder.getTag A)) A true) A size value c.config.blockSize
    refine ⟨_, _, { (Cache.allocated
        { c with accesses := c.accesses + 1, misses := c.misses + 1 }
        victim mem (toU32 (c.addrDecoder.getIndex A))
        (toU64 (c.addrDecoder.getTag A)) A true).writeData A size value c.config.blockSize
          with dirty := true }, rfl, ?_, rfl, rfl, rfl, rfl, hst.2.2.2 rfl, hst.1, hst.2.1,
        hst.2.2.1⟩
    show (c.sets.set _ _).set _ (((c.sets.set _ _).getD _ []).set v _) = _
    rw [getD_sets _ _ _ hset3, List.set_set, List.set_set]
  | false =>
    simp only [Bool.false_eq_true, if_false]
    exact ⟨_, _, Cache.allocated
        { c with accesses := c.accesses + 1, misses := c.misses + 1 }
        victim mem (toU32 (c.addrDecoder.getIndex A))
        (toU64 (c.addrDecoder.getTag A)) A false, rfl, rfl, rfl, rfl, rfl, rfl, rfl, rfl, rfl,
      rfl⟩


/-- C27: victim selection. Take an access, on a cache with a log stream, that misses in the
set `set` of its address and allocates (a read, or a write under WB). If the set has an invalid block, the first one, at
way `v`, is filled: every block before it is valid, the access returns, the sets change at
that one way only, and the memory is not touched, so no valid block is evicted. If every
block of the (non-empty) set is valid, with time stamps below `UINT64_MAX`, the access
returns and replaces one way `v`, whose old block is valid; under LRU no block of the set
has a smaller `lastUsed` than that victim, under FIFO none has a smaller `insertionTime`,
and the blocks before it have a larger one. The stamps are the times of these events: a
block allocated gets `lastUsed = insertionTime =` the number of the access, and a hit sets
`lastUsed` of the block found to the number of the access and leaves its `insertionTime`
(and tag) as they were. In the one-set cache of two ways, after `R 0x00`, `R 0x20`,
`R 0x00` (a hit), the miss `R 0x40` evicts the block of 0x20 under LRU and the block of
0x00 under FIFO. -/
theorem victim_is_first_invalid_or_oldest :
    (∀ (c : Cache) (A : Nat) (size : MemSize) (u w : Bool) (value rand : Nat)
      (set : List CacheBlock) (v : Nat),
      c.logStream = true →
      c.sets.get? (toU32 (c.addrDecoder.getIndex A)) = some set →
      findBlockInSet (toU64 (c.addrDecoder.getTag A)) set = none →
      ¬(w = true ∧ c.config.writePolicy = .WT) →
      findInvalidBlock set = some v →
      (∀ j bj, j < v → set.get? j = some bj → bj.valid = true) ∧
      (∃ victim, set.get? v = some victim ∧ victim.valid = false) ∧
      ∃ r c2 b, c.access A size u w value rand = .ok (r, c2) ∧
        c2.sets = c.sets.set (toU32 (c.addrDecoder.getIndex A)) (set.set v b) ∧
        c2.memory = c.memory ∧ c2.accesses = c.accesses + 1 ∧
        b.valid = true ∧ b.tag = toU64 (c.addrDecoder.getTag A) ∧
        b.lastUsed = c.accesses + 1 ∧ b.insertionTime = c.accesses + 1) ∧
    (∀ (c : Cache) (A : Nat) (size : MemSize) (u w : Bool) (value rand : Nat)
      (set : List CacheBlock),
      c.logStream = true →
      c.sets.get? (toU32 (c.addrDecoder.getIndex A)) = some set →
      findBlockInSet (toU64 (c.addrDecoder.getTag A)) set = none →
      ¬(w = true ∧ c.config.writePolicy = .WT) →
      set ≠ [] → (∀ b, b ∈ set → b.valid = true) →
      (∀ b, b ∈ set → b.lastUsed < 18446744073709551615 ∧
        b.insertionTime < 18446744073709551615) →
      ∃ r c2 v victim b, c.access A size u w value rand = .ok (r, c2) ∧
        set.get? v = some victim ∧ victim.valid = true ∧
        c2.sets = c.sets.set (toU32 (c.addrDecoder.getIndex A)) (set.set v b) ∧
        c2.accesses = c.accesses + 1 ∧
        b.valid = true ∧ b.tag = toU64 (c.addrDecoder.getTag A) ∧
        b.lastUsed = c.accesses + 1 ∧ b.insertionTime = c.accesses + 1 ∧
        (c.config.replacementPolicy = .LRU →
          (∀ j bj, set.get? j = some bj → victim.lastUsed ≤ bj.lastUsed) ∧
          (∀ j bj, j < v → set.get? j = some bj → victim.lastUsed < bj.lastUsed)) ∧
        (c.config.replacementPolicy = .FIFO →
          (∀ j bj, set.get? j = some bj → victim.insertionTime ≤ bj.insertionTime) ∧
          (∀ j bj, j < v → set.get? j = some bj →
            victim.insertionTime < bj.insertionTime))) ∧
    (∀ (c : Cache) (A : Nat) (size : MemSize) (u w : Bool) (value rand : Nat)
      (set : List CacheBlock) (k : Nat),
      c.logStream = true →
      c.sets.get? (toU32 (c.addrDecoder.getIndex A)) = some set →
      findBlockInSet (toU64 (c.addrDecoder.getTag A)) set = some k →
      ∃ found r c2 b, set.get? k = some found ∧
        c.access A size u w value rand = .ok (r, c2) ∧
        c2.sets = c.sets.set (toU32 (c.addrDecoder.getIndex A)) (set.set k b) ∧
        c2.accesses = c.accesses + 1 ∧
        b.valid = true ∧ b.tag = found.tag ∧ b.lastUsed = c.accesses + 1 ∧
        b.insertionTime = found.insertionTime) ∧
    (∀ (wp : WritePolicy) (r1 r2 r3 r4 : Nat),
      ((((((Cache.new Memory.empty).setLogStream.enable ⟨32, 16, 2, .LRU, wp⟩ Memory.empty).bind
        (fun c => c.read 0x00 .Byte true r1)).bind (fun p => p.2.read 0x20 .Byte true r2)).bind
        (fun p => p.2.read 0x00 .Byte true r3)).bind
        (fun p => p.2.read 0x40 .Byte true r4)).map
      (fun p => (p.2.sets.map (fun set =>
        set.map (fun b => (b.valid, b.tag, b.lastUsed, b.insertionTime))),
        p.2.accesses, p.2.hits, p.2.misses))
      = .ok ([[(true, 0, 3, 1), (true, 4, 4, 4)]], 4, 1, 3)) ∧
    (∀ (wp : WritePolicy) (r1 r2 r3 r4 : Nat),
      ((((((Cache.new Memory.empty).setLogStream.enable ⟨32, 16, 2, .FIFO, wp⟩ Memory.empty).bind
        (fun c => c.read 0x00 .Byte true r1)).bind (fun p => p.2.read 0x20 .Byte true r2)).bind
        (fun p => p.2.read 0x00 .Byte true r3)).bind
        (fun p => p.2.read 0x40 .Byte true r4)).map
      (fun p => (p.2.sets.map (fun set =>
        set.map (fun b => (b.valid, b.tag, b.lastUsed, b.insertionTime))),
        p.2.accesses, p.2.hits, p.2.misses))
      = .ok ([[(true, 4, 4, 4), (true, 2, 2, 2)]], 4, 1, 3)) := by
  refine ⟨?_, ?_, ?_, fun wp _ _ _ _ => by cases wp <;> rfl,
    fun wp _ _ _ _ => by cases wp <;> rfl⟩
  · intro c A size u w value rand set v hlog hset hmiss halloc hinv
    refine ⟨fun j bj hj hb => findInvalidBlock_first set v hinv j bj hj hb,
      findInvalidBlock_some set v hinv, ?_⟩
    obtain ⟨victim, hget, _⟩ := findInvalidBlock_some set v hinv
    have hrep : ({ c with accesses := c.accesses + 1, misses := c.misses + 1 } :
        Cache).replaceBlockCore set (toU32 (c.addrDecoder.getIndex A))
          (toU64 (c.addrDecoder.getTag A)) A w rand =
        .ok ({ c with
          accesses := c.accesses + 1, misses := c.misses + 1
          sets := c.sets.set (toU32 (c.addrDecoder.getIndex A))
            (set.set v (Cache.allocated
              { c with accesses := c.accesses + 1, misses := c.misses + 1 } victim c.memory
              (toU32 (c.addrDecoder.getIndex A)) (toU64 (c.addrDecoder.getTag A)) A w)) },
          v) := by
      unfold Cache.replaceBlockCore
      simp only [hinv, hget]
      rfl
    obtain ⟨r, c2, b, h1, h2, h3, h4, _, _, h7, h8, h9, h10⟩ :=
      access_miss_allocate c A size u w value rand set _ v hlog hset hmiss halloc hrep
    exact ⟨r, c2, b, h1, h2, h3, h4, h7, h8, h9, h10⟩
  · intro c A size u w value rand set hlog hset hmiss halloc hne hvalid hkeys
    obtain ⟨c3, v, hrep⟩ := replaceBlock_returns
      { c with accesses := c.accesses + 1, misses := c.misses + 1 } set
      (toU32 (c.addrDecoder.getIndex A)) (toU64 (c.addrDecoder.getTag A)) A w rand hne hkeys
    obtain ⟨victim, mem, hvget, _, hcase⟩ := replaceBlock_shape _ _ _ _ _ _ _ _ _ hrep
    obtain ⟨r, c2, b, h1, h2, _, h4, _, _, h7, h8, h9, h10⟩ :=
      access_miss_allocate c A size u w value rand set c3 v hlog hset hmiss halloc hrep
    have hvv : victim.valid = true := hvalid victim (List.mem_iff_get?.2 ⟨v, hvget⟩)
    have hsel : selectBlockToEvict c.config set rand = .ok (some v) := by
      rcases hcase with ⟨hinv, _⟩ | ⟨_, hsel, _⟩
      · obtain ⟨b0, hb0, hb1⟩ := findInvalidBlock_some set v hinv
        rw [hvget] at hb0
        injection hb0 with hb0
        rw [← hb0, hvv] at hb1
        exact absurd hb1 (by simp)
      · exact hsel
    obtain ⟨hlru, hfifo⟩ := selectBlockToEvict_oldest c.config set rand v hsel
    refine ⟨r, c2, v, victim, b, h1, hvget, hvv, h2, h4, h7, h8, h9, h10, ?_, ?_⟩
    · intro hp
      obtain ⟨bv, hbv, h11, h12⟩ := hlru hp
      rw [hvget] at hbv
      injection hbv with hbv
      subst hbv
      exact ⟨h11, h12⟩
    · intro hp
      obtain ⟨bv, hbv, h11, h12⟩ := hfifo hp
      rw [hvget] at hbv
      injection hbv with hbv
      subst hbv
      exact ⟨h11, h12⟩
  · intro c A size u w value rand set k hlog hset hfind
    obtain ⟨found, r, c2, b, h1, h2, h3, h4, _, _, h7, h8, h9, h10⟩ :=
      access_hit c A size u w value rand set k hlog hset hfind
    exact ⟨found, r, c2, b, h1, h2, h3, h4, h7, h8, h9, h10⟩

/-! ## `floorPowerOfTwo` -/

/-- Once `result` is 0 the loop of `floorPowerOfTwo` goes on for ever. -/
theorem floorPowerOfTwoLoop_zero (fuel x : Nat) : floorPowerOfTwoLoop fuel 0 x = none := by
  induction fuel with
  | zero => rfl
  | succ fuel ih =>
    simp only [floorPowerOfTwoLoop, Nat.zero_shiftLeft, Nat.zero_mod, Nat.zero_le, if_true]
    exact ih

/-- On a value from 2^31 up the loop of `floorPowerOfTwo` never ends. -/
theorem floorPowerOfTwoLoop_diverges (fuel : Nat) :
    ∀ (k x : Nat), k ≤ 31 → 2147483648 ≤ x →
      floorPowerOfTwoLoop fuel (2 ^ k) x = none := by
  induction fuel with
  | zero => intro k x _ _; rfl
  | succ fuel ih =>
    intro k x hk hx
    simp only [floorPowerOfTwoLoop]
    by_cases h31 : k = 31
    · subst h31
      have e : (2 ^ 31 <<< 1) % 4294967296 = 0 := by decide
      rw [e, if_pos (Nat.zero_le _)]
      exact floorPowerOfTwoLoop_zero fuel x
    · have hle : (2 : Nat) ^ (k + 1) ≤ 2 ^ 31 := two_pow_le_of_le _ _ (by omega)
      have e : (2 ^ k <<< 1) % 4294967296 = 2 ^ (k + 1) := by
        rw [Nat.shiftLeft_eq, ← Nat.pow_succ]
        exact Nat.mod_eq_of_lt (by omega)
      rw [e, if_pos (by omega)]
      exact ih (k + 1) x (by omega) hx

/-- C33 (failing inputs): on a 32-bit value from 2^31 up `floorPowerOfTwo` does not
terminate: `result` reaches 2^31, `result << 1` wraps to 0, which is not above `x`, and from
then on `result` stays 0 and the loop condition stays true; however many rounds are
allowed, the loop has not ended (for example for `x = 0x80000000`, whose largest power of
two is `x` itself, and for `x = 0xFFFFFFFF`). On every value below 2^31 the function does
return, within 31 rounds, the largest power of two that does not exceed `x`, and it returns
0 for 0. -/
theorem floorPowerOfTwo_diverges_from_two_pow_31 :
    (∀ x fuel : Nat, 2147483648 ≤ x → x < 4294967296 → floorPowerOfTwo x fuel = none) ∧
    (∀ fuel : Nat, floorPowerOfTwo 0x80000000 fuel = none ∧
      floorPowerOfTwo 0xFFFFFFFF fuel = none) ∧
    (∀ x fuel : Nat, 1 ≤ x → x < 2147483648 → 31 ≤ fuel →
      ∃ j, floorPowerOfTwo x fuel = some (2 ^ j) ∧ 2 ^ j ≤ x ∧ x < 2 ^ (j + 1)) ∧
    (∀ fuel : Nat, floorPowerOfTwo 0 fuel = some 0) ∧
    (∀ fuel : Nat, floorPowerOfTwo 1000 (fuel + 10) = some 512 ∧
      floorPowerOfTwo 0x7FFFFFFF (fuel + 31) = some 0x40000000) := by
  have hdiv : ∀ x fuel : Nat, 2147483648 ≤ x → floorPowerOfTwo x fuel = none := by
    intro x fuel hx
    unfold floorPowerOfTwo
    rw [if_neg (by omega)]
    exact floorPowerOfTwoLoop_diverges fuel 0 x (by omega) hx
  refine ⟨fun x fuel hx _ => hdiv x fuel hx,
    fun fuel => ⟨hdiv _ fuel (by norm_num), hdiv _ fuel (by norm_num)⟩,
    fun x fuel h1 hx hf => floorPowerOfTwo_spec x fuel h1 hx hf, fun _ => rfl,
    fun fuel => ⟨rfl, rfl⟩⟩

/-! ## The right shifts -/

theorem executeArm_srl (s : Simulator) (inst : InstructionInstance) (d a b : Int) (rand : Nat)
    (hn : inst.instruction.mnemonic = "srl") :
    s.executeArm inst d a b rand = .ok (a >>> (toU64 b % 32), s) := by
  unfold Simulator.executeArm
  simp only [hn]
  simp

theorem executeArm_srli (s : Simulator) (inst : InstructionInstance) (d a b : Int) (rand : Nat)
    (hn : inst.instruction.mnemonic = "srli") :
    s.executeArm inst d a b rand
      = .ok (((toU32 a >>> (toU64 inst.imm % 32) : Nat) : Int), s) := by
  unfold Simulator.executeArm
  simp only [hn]
  simp

/-- On an `int` the register values left by the shift of `srl` and by the shift of `srli`
agree exactly when the value is not negative or the amount is 0. -/
theorem srl_srli_agree_iff (a : Int) (k : Nat) (ha : -2147483648 ≤ a ∧ a < 2147483648)
    (hk : k < 32) :
    wrapI32 (a >>> k) = wrapI32 (((toU32 a >>> k : Nat) : Int)) ↔ (0 ≤ a ∨ k = 0) := by
  have hp : (0 : Int) < 2 ^ k := by positivity
  have hp1 : (1 : Int) ≤ 2 ^ k := by omega
  rw [Int.shiftRight_eq_div_pow, Nat.shiftRight_eq_div_pow]
  push_cast
  have hl : -2147483648 ≤ a / 2 ^ k := by
    rw [Int.le_ediv_iff_mul_le hp]
    nlinarith
  have hu : a / 2 ^ k < 2147483648 := by
    rw [Int.ediv_lt_iff_lt_mul hp]
    nlinarith
  rw [wrapI32_id _ ⟨hl, hu⟩]
  by_cases h0 : 0 ≤ a
  · have e : toU32 a = a.toNat := by
      unfold toU32
      rw [Int.emod_eq_of_lt h0 (by omega)]
    have hn : ((a.toNat : Nat) : Int) = a := Int.toNat_of_nonneg h0
    rw [e, hn, wrapI32_id _ ⟨hl, hu⟩]
    simp [h0]
  · have e : ((toU32 a : Nat) : Int) = a + 4294967296 := by
      unfold toU32
      rw [Int.toNat_of_nonneg (Int.emod_nonneg _ (by decide))]
      omega
    rw [e]
    by_cases hk0 : k = 0
    · subst hk0
      simp only [pow_zero, Int.ediv_one, or_true, iff_true]
      unfold wrapI32 toU32 toI32
      omega
    · have hneg : a / 2 ^ k < 0 := by
        rw [Int.ediv_lt_iff_lt_mul hp]
        omega
      have h2 : (2 : Int) ≤ 2 ^ k := by
        obtain ⟨j, rfl⟩ := Nat.exists_eq_succ_of_ne_zero hk0
        have : (0 : Int) < 2 ^ j := by positivity
        rw [pow_succ]
        omega
      have hl2 : 0 ≤ (a + 4294967296) / 2 ^ k := Int.ediv_nonneg (by omega) (by omega)
      have hu2 : (a + 4294967296) / 2 ^ k < 2147483648 := by
        rw [Int.ediv_lt_iff_lt_mul hp]
        nlinarith
      rw [wrapI32_id _ ⟨by omega, hu2⟩]
      constructor
      · intro h
        omega
      · intro h
        omega

/-- C35 (evaluation at a failing input): `srl` shifts the 64-bit register arithmetically.
With `x1 = -8` and `x2 = 1`, `srl x3, x1, x2` leaves `x3 = -4` (all vacated high bits
are ones) and `srli x4, x1, 1` leaves `x4 = 0x7FFFFFFC`. The arm of `srl` returns
`rs1 >> (rs2 & 31)` on the signed 64-bit local, the arm of `srli` shifts the 32-bit
unsigned conversion of `rs1`; on a register holding an `int` the values written by the two
agree exactly when `rs1` is not negative or the amount is 0. -/
theorem srl_shifts_arithmetically :
    (∀ (rand : Nat → Nat) (k : Nat),
      (Simulator.new.session
        [.load .RV32I ["addi x1, x0, -8", "addi x2, x0, 1", "srl x3, x1, x2",
          "srli x4, x1, 1"], .run (k + 5) rand]).map
        (fun r => r.map (fun p => (p.2.pc, p.2.regs 1, p.2.regs 2, p.2.regs 3, p.2.regs 4)))
        = .ok (some (16, -8, 1, -4, 0x7FFFFFFC))) ∧
    (∀ (rand : Nat → Nat) (k : Nat),
      (Simulator.new.session
        [.load .RV64I ["addi x1, x0, -8", "addi x2, x0, 1", "srl x3, x1, x2",
          "srli x4, x1, 1"], .run (k + 5) rand]).map
        (fun r => r.map (fun p => (p.2.pc, p.2.regs 1, p.2.regs 2, p.2.regs 3, p.2.regs 4)))
        = .ok (some (16, -8, 1, -4, 0x7FFFFFFC))) ∧
    (∀ (s : Simulator) (inst : InstructionInstance) (d a b : Int) (rand : Nat),
      inst.instruction.mnemonic = "srl" →
      s.executeArm inst d a b rand = .ok (a >>> (toU64 b % 32), s)) ∧
    (∀ (s : Simulator) (inst : InstructionInstance) (d a b : Int) (rand : Nat),
      inst.instruction.mnemonic = "srli" →
      s.executeArm inst d a b rand
        = .ok (((toU32 a >>> (toU64 inst.imm % 32) : Nat) : Int), s)) ∧
    (∀ (a : Int) (k : Nat), -2147483648 ≤ a ∧ a < 2147483648 → k < 32 →
      (wrapI32 (a >>> k) = wrapI32 (((toU32 a >>> k : Nat) : Int)) ↔ (0 ≤ a ∨ k = 0))) := by
  refine ⟨fun rand k => by cases k <;> rfl, fun rand k => by cases k <;> rfl,
    executeArm_srl, executeArm_srli, srl_srli_agree_iff⟩

/-! ## Comments -/

theorem findChar_none_of_not_mem (c : Char) (l : List Char) (h : c ∉ l) :
    findChar c l = none := by
  induction l with
  | nil => rfl
  | cons x xs ih =>
    simp only [List.mem_cons, not_or] at h
    simp only [findChar]
    rw [if_neg (fun e => h.1 e.symm), ih h.2]
    rfl

/-- On a line without `#`, `cleanLine` only trims: nothing is cut at a `;`. -/
theorem cleanLine_without_hash (line : String) (h : '#' ∉ line.data) :
    Parser.cleanLine line = Parser.trim line := by
  unfold Parser.cleanLine Parser.trim cleanLineChars
  rw [findChar_none_of_not_mem _ _ h]

/-- C36 (evaluation at the failing input): a trailing `;` comment is not stripped.
`cleanLine` cuts a line at the first `#` only, and on a line without `#` it only trims.
A line that begins with `;` is skipped by the first pass of `assemble`, but the line
`add x1, x2, x3 ; note` keeps its comment: the third operand is read as the register
`x3 ; note`, which is no register, the instance gets `rs2 = -1` and the emitted word is
0x01F100B3, which decodes to `rs2 = 31`. The line without the comment and the line with
the trailing `#` comment both give 0x003100B3 with `rs2 = 3`. -/
theorem semicolon_comment_not_stripped :
    Parser.cleanLine "add x1, x2, x3 ; note" = "add x1, x2, x3 ; note" ∧
    Parser.cleanLine "add x1, x2, x3 # note" = "add x1, x2, x3" ∧
    (∀ line : String, '#' ∉ line.data → Parser.cleanLine line = Parser.trim line) ∧
    (assemble .RV32I ["add x1, x2, x3 ; note"]).map
        (fun a => (a.machineCodes, a.instructions.map (fun i => (i.rd, i.rs1, i.rs2, i.imm)),
          a.instructions.zipWith
            (fun i w => i.instruction.decodeRegistersAndImmediate w) a.machineCodes))
      = .ok ([0x01F100B3], [(1, 2, -1, 0)], [{ rd := 1, rs1 := 2, rs2 := 31, imm := 0 }]) ∧
    (assemble .RV32I ["add x1, x2, x3"]).map
        (fun a => (a.machineCodes, a.instructions.map (fun i => (i.rd, i.rs1, i.rs2, i.imm)),
          a.instructions.zipWith
            (fun i w => i.instruction.decodeRegistersAndImmediate w) a.machineCodes))
      = .ok ([0x003100B3], [(1, 2, 3, 0)], [{ rd := 1, rs1 := 2, rs2 := 3, imm := 0 }]) ∧
    (assemble .RV32I ["add x1, x2, x3 # note"]).map
        (fun a => (a.machineCodes, a.instructions.map (fun i => (i.rd, i.rs1, i.rs2, i.imm)),
          a.instructions.zipWith
            (fun i w => i.instruction.decodeRegistersAndImmediate w) a.machineCodes))
      = .ok ([0x003100B3], [(1, 2, 3, 0)], [{ rd := 1, rs1 := 2, rs2 := 3, imm := 0 }]) ∧
    (assemble .RV32I ["; note", "add x1, x2, x3"]).map (fun a => a.machineCodes)
      = .ok [0x003100B3] :=
  ⟨by decide, by decide, cleanLine_without_hash, by rfl, by rfl, by rfl, by decide⟩

/-! ## The two outputs of the assembler -/

/-- C40 (evaluation at failing inputs): the word `assemble` emits need not decode to the
fields of the instance it emits with it. For `lh x1, 100(x2)` the instance holds
`imm = 100` and the word 0x06411083 decodes, with the record of `lh`, to `imm = 4`: the
decoder takes every I-format word with funct3 001 or 101 for a shift and reads five bits
of immediate. For `lhu x1, -4(x2)` the instance holds -4 and the word decodes to 28. The
immediate of `addi x1, x0, 5000` is stored in the instance as 5000 and encoded in twelve
bits, which decode to 904. On the program `lw` / `sw` / `add` / `lui` / `slli` / `beq` /
`jal` the decoded fields are those of the instances. In general an I-format word decodes
to the encoded fields when the registers are in `0..31` and either funct3 is neither 001
nor 101 and the immediate is in `-2048..2047`, or funct3 is one of the two and the
immediate is in `0..31`. -/
theorem emitted_word_decodes_differently :
    (assemble .RV32I ["lh x1, 100(x2)"]).map
        (fun a => (a.machineCodes, a.instructions.map (fun i => (i.rd, i.rs1, i.rs2, i.imm)),
          a.instructions.zipWith
            (fun i w => i.instruction.decodeRegistersAndImmediate w) a.machineCodes))
      = .ok ([0x06411083], [(1, 2, 0, 100)], [{ rd := 1, rs1 := 2, rs2 := 0, imm := 4 }]) ∧
    (assemble .RV32I ["lhu x1, -4(x2)"]).map
        (fun a => (a.instructions.map (fun i => (i.rd, i.rs1, i.rs2, i.imm)),
          a.instructions.zipWith
            (fun i w => i.instruction.decodeRegistersAndImmediate w) a.machineCodes))
      = .ok ([(1, 2, 0, -4)], [{ rd := 1, rs1 := 2, rs2 := 0, imm := 28 }]) ∧
    (assemble .RV32I ["addi x1, x0, 5000"]).map
        (fun a => (a.instructions.map (fun i => (i.rd, i.rs1, i.rs2, i.imm)),
          a.instructions.zipWith
            (fun i w => i.instruction.decodeRegistersAndImmediate w) a.machineCodes))
      = .ok ([(1, 0, 0, 5000)], [{ rd := 1, rs1 := 0, rs2 := 0, imm := 904 }]) ∧
    (assemble .RV32I ["L: lw x1, 8(x2)", "sw x1, -4(x2)", "add x3, x1, x2", "lui x5, 16",
        "slli x1, x1, 3", "beq x1, x2, L", "jal x1, L"]).map
        (fun a => (a.instructions.map
            (fun i => ({ rd := i.rd, rs1 := i.rs1, rs2 := i.rs2, imm := i.imm } : Operands)),
          a.instructions.zipWith
            (fun i w => i.instruction.decodeRegistersAndImmediate w) a.machineCodes))
      = .ok ([{ rd := 1, rs1 := 2, rs2 := 0, imm := 8 }, { rd := 0, rs1 := 2, rs2 := 1, imm := -4 },
              { rd := 3, rs1 := 1, rs2 := 2, imm := 0 }, { rd := 5, rs1 := 0, rs2 := 0, imm := 16 },
              { rd := 1, rs1 := 1, rs2 := 0, imm := 3 }, { rd := 0, rs1 := 1, rs2 := 2, imm := -20 },
              { rd := 1, rs1 := 0, rs2 := 0, imm := -24 }],
             [{ rd := 1, rs1 := 2, rs2 := 0, imm := 8 }, { rd := 0, rs1 := 2, rs2 := 1, imm := -4 },
              { rd := 3, rs1 := 1, rs2 := 2, imm := 0 }, { rd := 5, rs1 := 0, rs2 := 0, imm := 16 },
              { rd := 1, rs1 := 1, rs2 := 0, imm := 3 }, { rd := 0, rs1 := 1, rs2 := 2, imm := -20 },
              { rd := 1, rs1 := 0, rs2 := 0, imm := -24 }]) ∧
    (∀ (i : Instruction) (rd rs1 rs2 imm : Int), i.format = .I →
      isShiftInstruction i.mnemonic = false → i.fieldsFit → i.funct3 ≠ 1 ∧ i.funct3 ≠ 5 →
      0 ≤ rd ∧ rd < 32 → 0 ≤ rs1 ∧ rs1 < 32 → -2048 ≤ imm ∧ imm ≤ 2047 →
      i.decodeRegistersAndImmediate (i.getMachineCode rd rs1 rs2 imm) =
        { rd := rd, rs1 := rs1, rs2 := 0, imm := imm }) ∧
    (∀ (i : Instruction) (rd rs1 rs2 imm : Int), i.format = .I → i.fieldsFit →
      i.funct3 = 1 ∨ i.funct3 = 5 →
      0 ≤ rd ∧ rd < 32 → 0 ≤ rs1 ∧ rs1 < 32 → 0 ≤ imm ∧ imm < 32 →
      i.decodeRegistersAndImmediate (i.getMachineCode rd rs1 rs2 imm) =
        { rd := rd, rs1 := rs1, rs2 := 0, imm := imm }) := by
  refine ⟨by rfl, by rfl, by rfl, by rfl, ?_, ?_⟩
  · intro i rd rs1 rs2 imm hf hs hfit h3 hrd hrs1 himm
    exact decode_encode_I i hf hs hfit h3 rd rs1 rs2 imm hrd hrs1 himm
  · intro i rd rs1 rs2 imm hf hfit h3 hrd hrs1 himm
    exact decode_encode_I_low i hf hfit h3 rd rs1 rs2 imm hrd hrs1 himm

/-! ## The address decoder on all 32-bit addresses -/

theorem mask_eq (l : Nat) (hl : l ≤ 30) :
    toU32 (toI32 ((1 <<< l) % 4294967296) - 1) = 2 ^ l - 1 := by
  have h30 : (2 : Nat) ^ l ≤ 2 ^ 30 := two_pow_le_of_le _ _ hl
  have h30' : (2 : Nat) ^ 30 = 1073741824 := by norm_num
  have hpos : 0 < (2 : Nat) ^ l := by positivity
  rw [one_shl_mod l (by omega), toI32_of_lt _ (by omega)]
  unfold toU32
  generalize 2 ^ l = P at *
  omega

theorem getIndex_val (ob ib a : Nat) (h : ob + ib ≤ 30) (ha : a < 4294967296) :
    (AddressDecoder.mk ob ib).getIndex a = ((a / 2 ^ ob % 2 ^ ib : Nat) : Int) := by
  have h30 : (2 : Nat) ^ ib ≤ 2 ^ 30 := two_pow_le_of_le _ _ (by omega)
  have h30' : (2 : Nat) ^ 30 = 1073741824 := by norm_num
  have hpos : 0 < (2 : Nat) ^ ib := by positivity
  have hu := getIndex_eq ob ib a h ha
  have hm : a / 2 ^ ob % 2 ^ ib < 2 ^ ib := Nat.mod_lt _ hpos
  unfold AddressDecoder.getIndex at hu ⊢
  simp only [] at hu ⊢
  rw [mask_eq ib (by omega), Nat.and_pow_two_sub_one_eq_mod] at hu ⊢
  have hN : toU32 (toI32 a >>> ob) % 2 ^ ib < 2 ^ ib := Nat.mod_lt _ hpos
  rw [toU32_toI32 _ (by omega)] at hu
  rw [hu]
  exact toI32_of_lt _ (by omega)

theorem getOffset_val (ob ib a : Nat) (h : ob ≤ 30) (ha : a < 4294967296) :
    (AddressDecoder.mk ob ib).getOffset a = ((a % 2 ^ ob : Nat) : Int) := by
  have h30 : (2 : Nat) ^ ob ≤ 2 ^ 30 := two_pow_le_of_le _ _ (by omega)
  have h30' : (2 : Nat) ^ 30 = 1073741824 := by norm_num
  have hpos : 0 < (2 : Nat) ^ ob := by positivity
  have hm : a % 2 ^ ob < 2 ^ ob := Nat.mod_lt _ hpos
  unfold AddressDecoder.getOffset
  simp only []
  rw [mask_eq ob h, Nat.and_pow_two_sub_one_eq_mod, toU32_toI32 _ ha]
  exact toI32_of_lt _ (by omega)

theorem getTag_low (ob ib a : Nat) (ha : a < 2147483648) :
    (AddressDecoder.mk ob ib).getTag a = ((a / 2 ^ (ib + ob) : Nat) : Int) := by
  unfold AddressDecoder.getTag
  simp only []
  rw [toI32_of_lt _ ha, Int.shiftRight_eq_div_pow]
  push_cast
  rfl

theorem getTag_high (ob ib a : Nat) (h : ob + ib ≤ 32) (ha : 2147483648 ≤ a)
    (ha2 : a < 4294967296) :
    (AddressDecoder.mk ob ib).getTag a
      = ((a / 2 ^ (ib + ob) : Nat) : Int) - 2 ^ (32 - (ib + ob)) := by
  unfold AddressDecoder.getTag
  simp only []
  have e : toI32 a = (a : Int) - 4294967296 := by
    unfold toI32
    rw [Nat.mod_eq_of_lt ha2, if_neg (by omega)]
  have hP : (4294967296 : Int) = 2 ^ (32 - (ib + ob)) * 2 ^ (ib + ob) := by
    rw [← pow_add]
    have : 32 - (ib + ob) + (ib + ob) = 32 := by omega
    rw [this]
    norm_num
  have hne : ((2 : Int) ^ (ib + ob)) ≠ 0 := by positivity
  rw [e, Int.shiftRight_eq_div_pow, hP, sub_eq_add_neg, ← neg_mul]
  push_cast
  rw [Int.add_mul_ediv_right _ _ hne]
  ring

/-- The fields the decoder returns put together give the address as an `int`. -/
theorem decoder_recomposes (ob ib a : Nat) (h : ob + ib ≤ 30) (ha : a < 4294967296) :
    (AddressDecoder.mk ob ib).getTag a * 2 ^ (ib + ob)
      + (AddressDecoder.mk ob ib).getIndex a * 2 ^ ob
      + (AddressDecoder.mk ob ib).getOffset a = toI32 a := by
  rw [getIndex_val ob ib a h ha, getOffset_val ob ib a (by omega) ha]
  have hdm : 2 ^ (ib + ob) * (a / 2 ^ (ib + ob)) + a % 2 ^ (ib + ob) = a := Nat.div_add_mod _ _
  have hmm : a % (2 ^ ob * 2 ^ ib) = a % 2 ^ ob + 2 ^ ob * (a / 2 ^ ob % 2 ^ ib) := Nat.mod_mul
  have hpw : (2 : Nat) ^ (ib + ob) = 2 ^ ob * 2 ^ ib := by rw [Nat.add_comm, Nat.pow_add]
  rw [← hpw] at hmm
  have hz : ((2 ^ (ib + ob) * (a / 2 ^ (ib + ob)) + (a % 2 ^ ob + 2 ^ ob * (a / 2 ^ ob % 2 ^ ib))
      : Nat) : Int) = (a : Int) := by rw [← hmm, hdm]
  push_cast at hz
  by_cases hlow : a < 2147483648
  · rw [getTag_low ob ib a hlow, toI32_of_lt _ hlow]
    push_cast
    linarith
  · rw [getTag_high ob ib a (by omega) (by omega) ha]
    have e : toI32 a = (a : Int) - 4294967296 := by
      unfold toI32
      rw [Nat.mod_eq_of_lt ha, if_neg (by omega)]
    have hP : (4294967296 : Int) = 2 ^ (32 - (ib + ob)) * 2 ^ (ib + ob) := by
      rw [← pow_add]
      have : 32 - (ib + ob) + (ib + ob) = 32 := by omega
      rw [this]
      norm_num
    rw [e]
    push_cast
    linarith

theorem getTag_high_neg (ob ib a : Nat) (h : ob + ib ≤ 32) (ha : 2147483648 ≤ a)
    (ha2 : a < 4294967296) : (AddressDecoder.mk ob ib).getTag a < 0 := by
  rw [getTag_high ob ib a h ha ha2]
  have hpos : 0 < (2 : Nat) ^ (ib + ob) := by positivity
  have hP : (2 : Nat) ^ 32 = 2 ^ (32 - (ib + ob)) * 2 ^ (ib + ob) :=
    two_pow_split 32 (ib + ob) (by omega)
  have h32 : (2 : Nat) ^ 32 = 4294967296 := by norm_num
  have hq : a / 2 ^ (ib + ob) < 2 ^ (32 - (ib + ob)) := by
    rw [Nat.div_lt_iff_lt_mul hpos]
    omega
  have h2 : ((a / 2 ^ (ib + ob) : Nat) : Int) < 2 ^ (32 - (ib + ob)) := by
    exact_mod_cast hq
  linarith

/-- C34 (evaluation at failing inputs): the tag of an address from 2^31 up is negative.
The decoder takes the address as an `int` and shifts it arithmetically. For the cache of
64 bytes with blocks of 16 bytes and 2 ways (4 offset bits, 1 index bit) the address
0x80000000 gets the tag -67108864 where `a >> 5` is 67108864, and 0xFFFFFFF5 gets the tag
-1, index 1 and offset 5, which put together give -11 and not the address. In general, for
`o + i ≤ 30`, index and offset are `(a >> o) & (2^i - 1)` and `a & (2^o - 1)` on every
address, the tag is `a >> (i + o)` on the addresses below 2^31 and
`(a >> (i + o)) - 2^(32 - o - i)`, a negative number, on the others, and the three fields
put together give the address as an `int`. -/
theorem getTag_negative_from_two_pow_31 :
    (let cfg : CacheConfig := CacheConfig.mk 64 16 2 .LRU .WT
     let d : AddressDecoder := AddressDecoder.mk cfg.getOffsetBits cfg.getIndexBits
     d = AddressDecoder.mk 4 1 ∧
     d.getTag 0x80000000 = -67108864 ∧ 0x80000000 >>> (1 + 4) = 67108864 ∧
     d.getIndex 0x80000000 = 0 ∧ d.getOffset 0x80000000 = 0 ∧
     d.getTag 0xFFFFFFF5 = -1 ∧ d.getIndex 0xFFFFFFF5 = 1 ∧ d.getOffset 0xFFFFFFF5 = 5 ∧
     d.getTag 0xFFFFFFF5 * 2 ^ (1 + 4) + d.getIndex 0xFFFFFFF5 * 2 ^ 4 + d.getOffset 0xFFFFFFF5
       = -11 ∧
     d.getTag 0x7FFFFFF5 = 67108863 ∧ d.getIndex 0x7FFFFFF5 = 1 ∧
     d.getOffset 0x7FFFFFF5 = 5) ∧
    (∀ ob ib a : Nat, ob + ib ≤ 30 → a < 4294967296 →
      (AddressDecoder.mk ob ib).getIndex a = ((a / 2 ^ ob % 2 ^ ib : Nat) : Int) ∧
      (AddressDecoder.mk ob ib).getOffset a = ((a % 2 ^ ob : Nat) : Int) ∧
      (AddressDecoder.mk ob ib).getTag a * 2 ^ (ib + ob)
        + (AddressDecoder.mk ob ib).getIndex a * 2 ^ ob
        + (AddressDecoder.mk ob ib).getOffset a = toI32 a) ∧
    (∀ ob ib a : Nat, a < 2147483648 →
      (AddressDecoder.mk ob ib).getTag a = ((a / 2 ^ (ib + ob) : Nat) : Int)) ∧
    (∀ ob ib a : Nat, ob + ib ≤ 32 → 2147483648 ≤ a → a < 4294967296 →
      (AddressDecoder.mk ob ib).getTag a
        = ((a / 2 ^ (ib + ob) : Nat) : Int) - 2 ^ (32 - (ib + ob)) ∧
      (AddressDecoder.mk ob ib).getTag a < 0) := by
  refine ⟨by decide, fun ob ib a h ha => ⟨getIndex_val ob ib a h ha,
    getOffset_val ob ib a (by omega) ha, decoder_recomposes ob ib a h ha⟩,
    getTag_low, fun ob ib a h ha ha2 => ⟨getTag_high ob ib a h ha ha2,
      getTag_high_neg ob ib a h ha ha2⟩⟩

/-! ## The registers hold 32-bit values -/

/-- The conversion to `int` keeps the low 32 bits. -/
theorem toU32_wrapI32 (v : Int) : toU32 (wrapI32 v) = toU32 v := by
  unfold wrapI32
  apply toU32_toI32
  unfold toU32
  omega

/-- C37: in every state reached from `load` by any calls of `step` and `run`, every
register holds a value in `-2^31..2^31-1`. The write of `execute` hands the result `v` of
the instruction to `setRegValue` as an `int`: the register then holds `wrapI32 v`, which is
in the range of `int` and has the low 32 bits of `v`, and `setRegValue` stores the `int` it
is given as it is. On RV64I the program `addi x1, x0, -1` / `srli x2, x1, 1` /
`add x3, x2, x2` / `lui x4, 0x80000` leaves -1, 2^31 - 1, -2 (not 2^32 - 2) and -2^31. -/
theorem registers_hold_32_bit_values :
    (∀ s : Simulator, s.Reachable →
      ∀ i : Fin 32, -2147483648 ≤ s.regs i ∧ s.regs i < 2147483648) ∧
    (∀ (s : Simulator) (inst : InstructionInstance) (rand : Nat) (a b v : Int),
      0 < inst.rd ∧ inst.rd < 32 → s.reg inst.rs1 = .ok a → s.reg inst.rs2 = .ok b →
      writesToRegister inst.instruction.mnemonic = true →
      (∀ d, s.executeArm inst d a b rand = .ok (v, s)) →
      ∃ t, s.execute inst rand = .ok t ∧ t.reg inst.rd = .ok (wrapI32 v)) ∧
    (∀ v : Int, -2147483648 ≤ wrapI32 v ∧ wrapI32 v < 2147483648 ∧
      toU32 (wrapI32 v) = toU32 v) ∧
    (∀ (s t : Simulator) (regNum value : Int), s.setRegValue regNum value = .ok t →
      regNum ≠ 0 → t.reg regNum = .ok value) ∧
    (∀ (rand : Nat → Nat) (k : Nat),
      (Simulator.new.session
        [.load .RV64I ["addi x1, x0, -1", "srli x2, x1, 1", "add x3, x2, x2",
          "lui x4, 0x80000"], .run (k + 5) rand]).map
        (fun r => r.map (fun p => (p.2.regs 1, p.2.regs 2, p.2.regs 3, p.2.regs 4)))
        = .ok (some (-1, 2147483647, -2, -2147483648))) := by
  refine ⟨fun s h => (reachable_regs s h).2, ?_,
    fun v => ⟨(wrapI32_range v).1, (wrapI32_range v).2, toU32_wrapI32 v⟩, ?_,
    fun rand k => by cases k <;> rfl⟩
  · intro s inst rand a b v hrd ha hb hw harm
    obtain ⟨t, h1, h2, _⟩ := execute_write s inst rand a b v hrd ha hb hw harm
    exact ⟨t, h1, h2⟩
  · intro s t regNum value h hne
    unfold Simulator.setRegValue at h
    rw [if_neg hne] at h
    split at h
    · rename_i hr
      injection h with h
      subst h
      unfold Simulator.reg
      rw [dif_pos hr]
      simp
    · exact absurd h (by simp)

/-! ## Hazards: the counters of the analysis -/

theorem wrapI32_add_wrapI32 (a b : Int) : wrapI32 (wrapI32 a + b) = wrapI32 (a + b) := by
  unfold wrapI32 toI32 toU32
  split <;> split <;> omega

theorem stallSum_append (l : List Hazard) (h : Hazard) :
    stallSum (l ++ [h]) = stallSum l + h.stallCycles := by
  simp [stallSum]

theorem stallSumOf_append (t : HazardType) (l : List Hazard) (h : Hazard) :
    stallSumOf t (l ++ [h]) = stallSumOf t l + (if h.type = t then h.stallCycles else 0) := by
  unfold stallSumOf
  rw [List.filter_append]
  by_cases e : h.type = t
  · simp [e]
  · simp [e]

/-- Recording a hazard of type `t` with `0 ≤ stallCycles ≤ c` keeps the counters in step
with the list. -/
theorem bump_inv (hz : List Hazard) (st : PipelineStats) (B c : Int) (h : Hazard)
    (t : HazardType) (inv : StatsInv hz st B) (ht : h.type = t) (h0 : 0 ≤ h.stallCycles)
    (hc : h.stallCycles ≤ c) : StatsInv (hz ++ [h]) (st.bump t h.stallCycles) (B + c) := by
  have hb := inv.bound
  have e0 : ∀ x : Int, wrapI32 x = wrapI32 (x + 0) := fun x => by rw [Int.add_zero]
  subst ht
  cases hty : h.type <;>
  · refine ⟨?_, ?_, ?_, ?_, ?_, ?_, ?_, ?_, ?_⟩
    all_goals first
      | (simp only [PipelineStats.bump, stallSum_append, stallSumOf_append, hty, if_true,
          inv.total, inv.raw, inv.waw, inv.war, inv.control, inv.structural, inv.cache,
          wrapI32_add_wrapI32, reduceCtorEq, if_false, Int.add_zero]; done)
      | (intro x hx
         rcases List.mem_append.1 hx with hx | hx
         · exact inv.nonneg x hx
         · rw [List.mem_singleton.1 hx]; exact h0)
      | (rw [stallSum_append]; omega)

theorem StatsInv.weaken {hz : List Hazard} {st : PipelineStats} {B C : Int}
    (inv : StatsInv hz st B) (h : B ≤ C) : StatsInv hz st C :=
  ⟨inv.total, inv.raw, inv.waw, inv.war, inv.control, inv.structural, inv.cache, inv.nonneg,
    le_trans inv.bound h⟩

theorem calculateControlStallCycles_bounds (self : HazardDetector) (dh : List Hazard)
    (inst : InstructionInstance) :
    0 ≤ self.calculateControlStallCycles dh inst ∧
      self.calculateControlStallCycles dh inst ≤ 3 := by
  have hp : 0 ≤ self.controlPenalty ∧ self.controlPenalty ≤ 3 := by
    unfold HazardDetector.controlPenalty
    cases self.pipelineType <;> simp
  unfold HazardDetector.calculateControlStallCycles
  simp only []
  split_ifs <;> omega

theorem calculateCacheStallCycles_bounds (self : HazardDetector) :
    0 ≤ self.calculateCacheStallCycles ∧ self.calculateCacheStallCycles ≤ 12 := by
  unfold HazardDetector.calculateCacheStallCycles
  cases self.pipelineType <;> simp

theorem calculateRAWStallCycles_bounds (self : HazardDetector) (inst1 : InstructionInstance)
    (d : Int) (h1 : 1 ≤ d) (h2 : d < 2147483648) :
    0 ≤ self.calculateRAWStallCycles inst1 d ∧
      self.calculateRAWStallCycles inst1 d ≤ (if d ≤ 3 then 3 else 0) := by
  have e1 : wrapI32 (1 - d) = 1 - d := wrapI32_id _ (by omega)
  have e2 : wrapI32 (2 - d) = 2 - d := wrapI32_id _ (by omega)
  have e3 : wrapI32 (3 - d) = 3 - d := wrapI32_id _ (by omega)
  have e4 : wrapI32 (4 - d) = 4 - d := wrapI32_id _ (by omega)
  obtain ⟨p, f⟩ := self
  unfold HazardDetector.calculateRAWStallCycles
  simp only [e1, e2, e3, e4]
  cases p <;> cases f <;> cases isLoadInstruction inst1.instruction.mnemonic <;>
    simp <;> (try split_ifs) <;> omega

theorem calculateStructuralStallCycles_bounds (self : HazardDetector)
    (inst1 inst2 : InstructionInstance) (d : Int) (h1 : 1 ≤ d) :
    self.calculateStructuralStallCycles inst1 inst2 d ≤ (if d ≤ 3 then 2 else 0) := by
  unfold HazardDetector.calculateStructuralStallCycles
  simp only [Bool.and_eq_true, decide_eq_true_eq]
  split_ifs <;> omega

theorem detectControl_inv (self : HazardDetector) (dh : List Hazard)
    (inst1 : InstructionInstance) (acc : List Hazard × PipelineStats) (B : Int)
    (inv : StatsInv acc.1 acc.2 B) :
    StatsInv (self.detectControl dh inst1 acc).1 (self.detectControl dh inst1 acc).2 (B + 3) := by
  unfold HazardDetector.detectControl
  simp only []
  split
  · exact bump_inv acc.1 acc.2 B 3 _ .CONTROL inv rfl
      (calculateControlStallCycles_bounds self dh inst1).1
      (calculateControlStallCycles_bounds self dh inst1).2
  · exact inv.weaken (by omega)

theorem detectCache_inv (self : HazardDetector) (ce : Bool)
    (inst1 : InstructionInstance) (acc : List Hazard × PipelineStats) (B : Int)
    (inv : StatsInv acc.1 acc.2 B) :
    StatsInv (self.detectCache ce inst1 acc).1 (self.detectCache ce inst1 acc).2 (B + 12) := by
  unfold HazardDetector.detectCache
  simp only []
  split
  · exact bump_inv acc.1 acc.2 B 12 _ .CACHE_MISS inv rfl
      (calculateCacheStallCycles_bounds self).1 (calculateCacheStallCycles_bounds self).2
  · exact inv.weaken (by omega)

theorem detectRAW_inv (self : HazardDetector) (inst1 inst2 : InstructionInstance) (d : Int)
    (acc : List Hazard × PipelineStats) (B : Int) (h1 : 1 ≤ d) (h2 : d < 2147483648)
    (inv : StatsInv acc.1 acc.2 B) :
    StatsInv (self.detectRAW inst1 inst2 d acc).1 (self.detectRAW inst1 inst2 d acc).2
      (B + (if d ≤ 3 then 3 else 0)) := by
  have hb := calculateRAWStallCycles_bounds self inst1 d h1 h2
  unfold HazardDetector.detectRAW
  simp only []
  split
  · split
    · exact bump_inv acc.1 acc.2 B _ _ .RAW inv rfl hb.1 hb.2
    · exact inv.weaken (by split <;> omega)
  · exact inv.weaken (by split <;> omega)

theorem detectWAW_inv (self : HazardDetector) (inst1 inst2 : InstructionInstance)
    (acc : List Hazard × PipelineStats) (B : Int) (inv : StatsInv acc.1 acc.2 B) :
    StatsInv (self.detectWAW inst1 inst2 acc).1 (self.detectWAW inst1 inst2 acc).2 B := by
  unfold HazardDetector.detectWAW
  simp only []
  split
  · exact (bump_inv acc.1 acc.2 B 0 _ .WAW inv rfl (le_refl _) (le_refl _)).weaken (by omega)
  · exact inv

theorem detectWAR_inv (self : HazardDetector) (inst1 inst2 : InstructionInstance)
    (acc : List Hazard × PipelineStats) (B : Int) (inv : StatsInv acc.1 acc.2 B) :
    StatsInv (self.detectWAR inst1 inst2 acc).1 (self.detectWAR inst1 inst2 acc).2 B := by
  unfold HazardDetector.detectWAR
  simp only []
  split
  · split
    · exact (bump_inv acc.1 acc.2 B 0 _ .WAR inv rfl (le_refl _) (le_refl _)).weaken (by omega)
    · exact inv
  · exact inv

theorem detectStructural_inv (self : HazardDetector) (inst1 inst2 : InstructionInstance)
    (d : Int) (acc : List Hazard × PipelineStats) (B : Int) (h1 : 1 ≤ d)
    (inv : StatsInv acc.1 acc.2 B) :
    StatsInv (self.detectStructural inst1 inst2 d acc).1
      (self.detectStructural inst1 inst2 d acc).2 (B + (if d ≤ 3 then 2 else 0)) := by
  have hb := calculateStructuralStallCycles_bounds self inst1 inst2 d h1
  unfold HazardDetector.detectStructural
  simp only []
  split
  · rename_i hpos
    exact bump_inv acc.1 acc.2 B _ _ .STRUCTURAL inv rfl (le_of_lt hpos) hb
  · exact inv.weaken (by split <;> omega)

theorem detectPair_inv (self : HazardDetector) (inst1 inst2 : InstructionInstance) (d : Int)
    (acc : List Hazard × PipelineStats) (B : Int) (h1 : 1 ≤ d) (h2 : d < 2147483648)
    (inv : StatsInv acc.1 acc.2 B) :
    StatsInv (self.detectPair inst1 inst2 d acc).1 (self.detectPair inst1 inst2 d acc).2
      (B + (if d ≤ 3 then 5 else 0)) := by
  unfold HazardDetector.detectPair
  have i1 := detectRAW_inv self inst1 inst2 d acc B h1 h2 inv
  have i2 := detectWAW_inv self inst1 inst2 _ _ i1
  have i3 := detectWAR_inv self inst1 inst2 _ _ i2
  have i4 := detectStructural_inv self inst1 inst2 d _ _ h1 i3
  exact i4.weaken (by split <;> omega)

theorem detectInner_inv (self : HazardDetector) (inst1 : InstructionInstance) :
    ∀ (rest : List InstructionInstance) (d : Int) (acc : List Hazard × PipelineStats)
      (B : Int), 1 ≤ d → d + rest.length ≤ 2147483648 → StatsInv acc.1 acc.2 B →
      StatsInv (self.detectInner inst1 d rest acc).1 (self.detectInner inst1 d rest acc).2
        (B + (if d ≤ 3 then 5 * (4 - d) else 0)) := by
  intro rest
  induction rest with
  | nil =>
    intro d acc B h1 _ inv
    exact inv.weaken (by split <;> omega)
  | cons inst2 rest ih =>
    intro d acc B h1 h2 inv
    simp only [List.length_cons, Nat.cast_add, Nat.cast_one] at h2
    have ip := detectPair_inv self inst1 inst2 d acc B h1 (by omega) inv
    have := ih (d + 1) _ _ (by omega) (by omega) ip
    simp only [HazardDetector.detectInner]
    exact this.weaken (by split_ifs <;> omega)

theorem detectOuter_inv (self : HazardDetector) (dh : List Hazard) (ce : Bool) :
    ∀ (l : List InstructionInstance) (acc : List Hazard × PipelineStats) (B : Int),
      l.length ≤ 2147483647 → StatsInv acc.1 acc.2 B →
      StatsInv (self.detectOuter dh ce l acc).1 (self.detectOuter dh ce l acc).2
        (B + 30 * l.length) := by
  intro l
  induction l with
  | nil =>
    intro acc B _ inv
    exact inv.weaken (by simp)
  | cons inst1 rest ih =>
    intro acc B hl inv
    simp only [List.length_cons] at hl
    have i1 := detectControl_inv self dh inst1 acc B inv
    have i2 := detectCache_inv self ce inst1 _ _ i1
    have i3 := detectInner_inv self inst1 rest 1 _ _ (le_refl _) (by omega) i2
    have := ih _ _ (by omega) i3
    simp only [HazardDetector.detectOuter]
    exact this.weaken
      (by simp only [List.length_cons, Nat.cast_add, Nat.cast_one]; split_ifs <;> omega)

theorem stallSum_cons (h : Hazard) (l : List Hazard) :
    stallSum (h :: l) = h.stallCycles + stallSum l := by
  simp [stallSum]

theorem stallSumOf_cons (t : HazardType) (h : Hazard) (l : List Hazard) :
    stallSumOf t (h :: l) = (if h.type = t then h.stallCycles else 0) + stallSumOf t l := by
  unfold stallSumOf
  by_cases e : h.type = t
  · simp [e]
  · simp [e]

/-- The sum over a hazard list is the sum of the sums over the six types. -/
theorem stallSum_split (l : List Hazard) :
    stallSum l = stallSumOf .RAW l + stallSumOf .WAW l + stallSumOf .WAR l
      + stallSumOf .CONTROL l + stallSumOf .STRUCTURAL l + stallSumOf .CACHE_MISS l := by
  induction l with
  | nil => rfl
  | cons h l ih =>
    simp only [stallSum_cons, stallSumOf_cons, ih]
    cases h.type <;> simp <;> omega

theorem stallSumOf_bounds (t : HazardType) (l : List Hazard)
    (h0 : ∀ h ∈ l, 0 ≤ h.stallCycles) :
    0 ≤ stallSumOf t l ∧ stallSumOf t l ≤ stallSum l := by
  induction l with
  | nil => exact ⟨le_refl _, le_refl _⟩
  | cons h l ih =>
    have hh := h0 h (List.mem_cons_self _ _)
    have := ih (fun x hx => h0 x (List.mem_cons_of_mem _ hx))
    rw [stallSum_cons, stallSumOf_cons]
    split <;> omega

theorem statsInv_reset (st : PipelineStats) : StatsInv [] st.reset 0 :=
  ⟨rfl, rfl, rfl, rfl, rfl, rfl, rfl, fun _ h => absurd h (List.not_mem_nil _), le_refl _⟩

/-- After `detectHazards` from the counters just reset, the counters are in step with the
list returned and the sum of stall cycles is at most 30 for each instruction. -/
theorem detectHazards_inv (self : HazardDetector) (dh : List Hazard) (st : PipelineStats)
    (program : List InstructionInstance) (currentPC : Nat) (ce : Bool)
    (hn : program.length ≤ 2147483647) :
    StatsInv (self.detectHazards dh st.reset program currentPC ce).1
      (self.detectHazards dh st.reset program currentPC ce).2 (30 * program.length) := by
  unfold HazardDetector.detectHazards
  have hlen : ((program.take (toI32 program.length).toNat).drop currentPC).length
      ≤ program.length := by
    rw [List.length_drop, List.length_take]
    omega
  have := detectOuter_inv self dh ce
    ((program.take (toI32 program.length).toNat).drop currentPC) ([], st.reset) 0
    (by omega) (statsInv_reset st)
  exact this.weaken (by omega)

/-- C32: after `performanceAnalysis` on a program of `n` instructions (up to 60 000 000,
so that no `int` counter can wrap), whatever the counters and the hazard list held before:
`totalStalls` is the sum of the six counters by category and the sum of `stallCycles` over
the hazard list stored, each counter is the sum over the hazards of its type,
`totalInstructions = n` and `totalCycles = n + totalStalls`; and the analysis run again on
the same program with the same settings, from the state the first run left or from any
other, gives the same hazard list and the same statistics. -/
theorem performanceAnalysis_totals (self : HazardDetector) (hazards : List Hazard)
    (stats : PipelineStats) (program : List InstructionInstance) (cacheOn : Bool)
    (hn : program.length ≤ 60000000) :
    (self.performanceAnalysis hazards stats program cacheOn).2.totalStalls
      = (self.performanceAnalysis hazards stats program cacheOn).2.rawStalls
        + (self.performanceAnalysis hazards stats program cacheOn).2.wawStalls
        + (self.performanceAnalysis hazards stats program cacheOn).2.warStalls
        + (self.performanceAnalysis hazards stats program cacheOn).2.controlStalls
        + (self.performanceAnalysis hazards stats program cacheOn).2.structuralStalls
        + (self.performanceAnalysis hazards stats program cacheOn).2.cacheStalls ∧
    (self.performanceAnalysis hazards stats program cacheOn).2.totalStalls
      = ((self.performanceAnalysis hazards stats program cacheOn).1.map
          (fun h => h.stallCycles)).sum ∧
    (∀ h ∈ (self.performanceAnalysis hazards stats program cacheOn).1,
      0 ≤ h.stallCycles) ∧
    (self.performanceAnalysis hazards stats program cacheOn).2.rawStalls
      = stallSumOf .RAW (self.performanceAnalysis hazards stats program cacheOn).1 ∧
    (self.performanceAnalysis hazards stats program cacheOn).2.wawStalls
      = stallSumOf .WAW (self.performanceAnalysis hazards stats program cacheOn).1 ∧
    (self.performanceAnalysis hazards stats program cacheOn).2.warStalls
      = stallSumOf .WAR (self.performanceAnalysis hazards stats program cacheOn).1 ∧
    (self.performanceAnalysis hazards stats program cacheOn).2.controlStalls
      = stallSumOf .CONTROL
          (self.performanceAnalysis hazards stats program cacheOn).1 ∧
    (self.performanceAnalysis hazards stats program cacheOn).2.structuralStalls
      = stallSumOf .STRUCTURAL
          (self.performanceAnalysis hazards stats program cacheOn).1 ∧
    (self.performanceAnalysis hazards stats program cacheOn).2.cacheStalls
      = stallSumOf .CACHE_MISS
          (self.performanceAnalysis hazards stats program cacheOn).1 ∧
    (self.performanceAnalysis hazards stats program cacheOn).2.totalInstructions
      = program.length ∧
    (self.performanceAnalysis hazards stats program cacheOn).2.totalCycles
      = program.length
        + (self.performanceAnalysis hazards stats program cacheOn).2.totalStalls ∧
    self.performanceAnalysis
        (self.performanceAnalysis hazards stats program cacheOn).1
        (self.performanceAnalysis hazards stats program cacheOn).2
        program cacheOn
      = self.performanceAnalysis hazards stats program cacheOn ∧
    (∀ (hazards2 : List Hazard) (stats2 : PipelineStats),
      self.performanceAnalysis hazards2 stats2 program cacheOn
        = self.performanceAnalysis hazards stats program cacheOn) := by
  have inv := detectHazards_inv self [] stats program 0 cacheOn (by omega)
  have hsplit := stallSum_split (self.detectHazards [] stats.reset program 0 cacheOn).1
  have b1 := stallSumOf_bounds .RAW _ inv.nonneg
  have b2 := stallSumOf_bounds .WAW _ inv.nonneg
  have b3 := stallSumOf_bounds .WAR _ inv.nonneg
  have b4 := stallSumOf_bounds .CONTROL _ inv.nonneg
  have b5 := stallSumOf_bounds .STRUCTURAL _ inv.nonneg
  have b6 := stallSumOf_bounds .CACHE_MISS _ inv.nonneg
  have hB := inv.bound
  have hlen : ((program.length : Nat) : Int) ≤ 60000000 := by exact_mod_cast hn
  have e0 := inv.total
  have e1 := inv.raw
  have e2 := inv.waw
  have e3 := inv.war
  have e4 := inv.control
  have e5 := inv.structural
  have e6 := inv.cache
  rw [wrapI32_id _ (by omega)] at e0 e1 e2 e3 e4 e5 e6
  have hti : toI32 program.length = (program.length : Int) := toI32_of_lt _ (by omega)
  have hrun : self.performanceAnalysis
      (self.performanceAnalysis hazards stats program cacheOn).1
      (self.performanceAnalysis hazards stats program cacheOn).2
      program cacheOn
      = self.performanceAnalysis hazards stats program cacheOn := rfl
  refine ⟨?_, ?_, inv.nonneg, e1, e2, e3, e4, e5, e6, hti, ?_, hrun, fun _ _ => rfl⟩
  · show (self.detectHazards [] stats.reset program 0 cacheOn).2.totalStalls = _
    rw [e0, hsplit, ← e1, ← e2, ← e3, ← e4, ← e5, ← e6]
    rfl
  · exact e0
  · show wrapI32 (toI32 program.length
      + (self.detectHazards [] stats.reset program 0 cacheOn).2.totalStalls)
      = (program.length : Int)
        + (self.detectHazards [] stats.reset program 0 cacheOn).2.totalStalls
    rw [hti, e0]
    exact wrapI32_id _ (by omega)

/-- Witness of C32: a load followed by its consumer, analysed on the 5-stage pipeline
without forwarding and with the cache flag on. -/
theorem performanceAnalysis_totals_witness :
    ([⟨⟨"lw", .I, 0b0000011, 0b010, 0⟩, 1, 2, 0, 0, "lw x1, 0(x2)", 0⟩,
          ⟨⟨"addi", .I, 0b0010011, 0b000, 0⟩, 3, 1, 0, 1, "addi x3, x1, 1", 4⟩] :
        List InstructionInstance).length ≤ 60000000 ∧
    ((HazardDetector.mk .PIPELINE_5_STAGE false).performanceAnalysis [] {}
        [⟨⟨"lw", .I, 0b0000011, 0b010, 0⟩, 1, 2, 0, 0, "lw x1, 0(x2)", 0⟩,
          ⟨⟨"addi", .I, 0b0010011, 0b000, 0⟩, 3, 1, 0, 1, "addi x3, x1, 1", 4⟩]
        true).2.totalStalls
      = ((HazardDetector.mk .PIPELINE_5_STAGE false).performanceAnalysis [] {}
        [⟨⟨"lw", .I, 0b0000011, 0b010, 0⟩, 1, 2, 0, 0, "lw x1, 0(x2)", 0⟩,
          ⟨⟨"addi", .I, 0b0010011, 0b000, 0⟩, 3, 1, 0, 1, "addi x3, x1, 1", 4⟩]
        true).2.rawStalls
      + ((HazardDetector.mk .PIPELINE_5_STAGE false).performanceAnalysis [] {}
        [⟨⟨"lw", .I, 0b0000011, 0b010, 0⟩, 1, 2, 0, 0, "lw x1, 0(x2)", 0⟩,
          ⟨⟨"addi", .I, 0b0010011, 0b000, 0⟩, 3, 1, 0, 1, "addi x3, x1, 1", 4⟩]
        true).2.wawStalls
      + ((HazardDetector.mk .PIPELINE_5_STAGE false).performanceAnalysis [] {}
        [⟨⟨"lw", .I, 0b0000011, 0b010, 0⟩, 1, 2, 0, 0, "lw x1, 0(x2)", 0⟩,
          ⟨⟨"addi", .I, 0b0010011, 0b000, 0⟩, 3, 1, 0, 1, "addi x3, x1, 1", 4⟩]
        true).2.warStalls
      + ((HazardDetector.mk .PIPELINE_5_STAGE false).performanceAnalysis [] {}
        [⟨⟨"lw", .I, 0b0000011, 0b010, 0⟩, 1, 2, 0, 0, "lw x1, 0(x2)", 0⟩,
          ⟨⟨"addi", .I, 0b0010011, 0b000, 0⟩, 3, 1, 0, 1, "addi x3, x1, 1", 4⟩]
        true).2.controlStalls
      + ((HazardDetector.mk .PIPELINE_5_STAGE false).performanceAnalysis [] {}
        [⟨⟨"lw", .I, 0b0000011, 0b010, 0⟩, 1, 2, 0, 0, "lw x1, 0(x2)", 0⟩,
          ⟨⟨"addi", .I, 0b0010011, 0b000, 0⟩, 3, 1, 0, 1, "addi x3, x1, 1", 4⟩]
        true).2.structuralStalls
      + ((HazardDetector.mk .PIPELINE_5_STAGE false).performanceAnalysis [] {}
        [⟨⟨"lw", .I, 0b0000011, 0b010, 0⟩, 1, 2, 0, 0, "lw x1, 0(x2)", 0⟩,
          ⟨⟨"addi", .I, 0b0010011, 0b000, 0⟩, 3, 1, 0, 1, "addi x3, x1, 1", 4⟩]
        true).2.cacheStalls ∧
    ((HazardDetector.mk .PIPELINE_5_STAGE false).performanceAnalysis [] {}
        [⟨⟨"lw", .I, 0b0000011, 0b010, 0⟩, 1, 2, 0, 0, "lw x1, 0(x2)", 0⟩,
          ⟨⟨"addi", .I, 0b0010011, 0b000, 0⟩, 3, 1, 0, 1, "addi x3, x1, 1", 4⟩]
        true).2.totalStalls
      = (((HazardDetector.mk .PIPELINE_5_STAGE false).performanceAnalysis [] {}
        [⟨⟨"lw", .I, 0b0000011, 0b010, 0⟩, 1, 2, 0, 0, "lw x1, 0(x2)", 0⟩,
          ⟨⟨"addi", .I, 0b0010011, 0b000, 0⟩, 3, 1, 0, 1, "addi x3, x1, 1", 4⟩]
        true).1.map (fun h => h.stallCycles)).sum ∧
    ((HazardDetector.mk .PIPELINE_5_STAGE false).performanceAnalysis [] {}
        [⟨⟨"lw", .I, 0b0000011, 0b010, 0⟩, 1, 2, 0, 0, "lw x1, 0(x2)", 0⟩,
          ⟨⟨"addi", .I, 0b0010011, 0b000, 0⟩, 3, 1, 0, 1, "addi x3, x1, 1", 4⟩]
        true).2.totalInstructions
      = ([⟨⟨"lw", .I, 0b0000011, 0b010, 0⟩, 1, 2, 0, 0, "lw x1, 0(x2)", 0⟩,
          ⟨⟨"addi", .I, 0b0010011, 0b000, 0⟩, 3, 1, 0, 1, "addi x3, x1, 1", 4⟩] :
        List InstructionInstance).length ∧
    ((HazardDetector.mk .PIPELINE_5_STAGE false).performanceAnalysis [] {}
        [⟨⟨"lw", .I, 0b0000011, 0b010, 0⟩, 1, 2, 0, 0, "lw x1, 0(x2)", 0⟩,
          ⟨⟨"addi", .I, 0b0010011, 0b000, 0⟩, 3, 1, 0, 1, "addi x3, x1, 1", 4⟩]
        true).2.totalCycles
      = ([⟨⟨"lw", .I, 0b0000011, 0b010, 0⟩, 1, 2, 0, 0, "lw x1, 0(x2)", 0⟩,
          ⟨⟨"addi", .I, 0b0010011, 0b000, 0⟩, 3, 1, 0, 1, "addi x3, x1, 1", 4⟩] :
        List InstructionInstance).length
      + ((HazardDetector.mk .PIPELINE_5_STAGE false).performanceAnalysis [] {}
        [⟨⟨"lw", .I, 0b0000011, 0b010, 0⟩, 1, 2, 0, 0, "lw x1, 0(x2)", 0⟩,
          ⟨⟨"addi", .I, 0b0010011, 0b000, 0⟩, 3, 1, 0, 1, "addi x3, x1, 1", 4⟩]
        true).2.totalStalls :=
  have h := performanceAnalysis_totals (HazardDetector.mk .PIPELINE_5_STAGE false) [] {}
    [⟨⟨"lw", .I, 0b0000011, 0b010, 0⟩, 1, 2, 0, 0, "lw x1, 0(x2)", 0⟩,
          ⟨⟨"addi", .I, 0b0010011, 0b000, 0⟩, 3, 1, 0, 1, "addi x3, x1, 1", 4⟩]
        true (by decide)
  ⟨by decide, h.1, h.2.1, h.2.2.2.2.2.2.2.2.2.1, h.2.2.2.2.2.2.2.2.2.2.1⟩

/-! ## Hazards: a scenario -/

/-- C31: the program `addi x1, x0, 5` / `addi x2, x1, 1` / `addi x3, x2, 1`, analysed on
the 5-stage pipeline with forwarding and with the cache flag off, whatever the detector
held before. The hazard list has exactly two records: a RAW hazard on `x1` between the
instructions 0 and 1 and a RAW hazard on `x2` between the instructions 1 and 2, each with
0 stall cycles (a record is shown as its type, the indices `pc / 4` of its two
instructions, its register and its stall cycles). All stall counters are 0,
`totalInstructions = 3`, `totalCycles = 3` and the quotient reported as CPI is 1. -/
theorem three_addi_hazard_scenario :
    ∀ (detectedHazards : List Hazard) (stats : PipelineStats),
      ∃ r : List Hazard × PipelineStats,
        (assemble .RV32I ["addi x1, x0, 5", "addi x2, x1, 1", "addi x3, x2, 1"]).map
          (fun a => (HazardDetector.mk .PIPELINE_5_STAGE true).performanceAnalysis
            detectedHazards stats a.instructions false) = .ok r ∧
        r.1.map (fun h => (h.type, h.instruction1.map (fun i => i.pc / 4),
            h.instruction2.map (fun i => i.pc / 4), h.registerNum, h.stallCycles))
          = [(.RAW, some 0, some 1, 1, 0), (.RAW, some 1, some 2, 2, 0)] ∧
        r.1.map (fun h => (h.description, h.solution))
          = [("RAW Hazard: Read-after-Write on x1", "No stall needed (forwarding available)"),
             ("RAW Hazard: Read-after-Write on x2", "No stall needed (forwarding available)")] ∧
        r.2 = { totalStalls := 0, rawStalls := 0, wawStalls := 0, warStalls := 0,
                controlStalls := 0, structuralStalls := 0, cacheStalls := 0,
                totalInstructions := 3, totalCycles := 3 } ∧
        r.2.estimatedCPI = some 1 := by
  intro detectedHazards stats
  refine ⟨_, rfl, rfl, rfl, rfl, ?_⟩
  show PipelineStats.estimatedCPI (PipelineStats.mk 0 0 0 0 0 0 0 3 3) = some 1
  norm_num [PipelineStats.estimatedCPI]

/-! ## Cache: one valid block for each tag -/

theorem tagsUnique_of_invalid (set : List CacheBlock) (h : ∀ b, b ∈ set → b.valid = false) :
    TagsUnique set := by
  intro i j bi bj hi _ hvi _ _
  rw [h bi (List.mem_iff_get?.2 ⟨i, hi⟩)] at hvi
  exact absurd hvi (by simp)

/-- Putting a valid block in place `k` keeps the tags apart when it takes over the tag of
the valid block that was there, or a tag that no valid block of the set has. -/
theorem tagsUnique_set (set : List CacheBlock) (k : Nat) (b found : CacheBlock)
    (hu : TagsUnique set) (hk : set.get? k = some found)
    (hb : (found.valid = true ∧ b.tag = found.tag) ∨ findBlockInSet b.tag set = none) :
    TagsUnique (set.set k b) := by
  have hklt : k < set.length := get?_lt _ _ _ hk
  have other : ∀ j bj, j ≠ k → set.get? j = some bj → bj.valid = true →
      bj.tag ≠ b.tag := by
    intro j bj hjk hj hvj ht
    rcases hb with ⟨hfv, hbt⟩ | hnone
    · exact hjk (hu j k bj found hj hk hvj hfv (by rw [ht, hbt]))
    · exact findBlockInSet_none _ _ hnone j bj hj hvj ht
  intro i j bi bj hi hj hvi hvj ht
  rw [List.get?_eq_getElem?, List.getElem?_set] at hi hj
  by_cases hik : k = i
  · by_cases hjk : k = j
    · omega
    · rw [if_neg hjk, ← List.get?_eq_getElem?] at hj
      rw [if_pos hik] at hi
      simp only [hklt, if_true, Option.some.injEq] at hi
      subst hi
      exact absurd ht.symm (other j bj (fun e => hjk e.symm) hj hvj)
  · rw [if_neg hik, ← List.get?_eq_getElem?] at hi
    by_cases hjk : k = j
    · rw [if_pos hjk] at hj
      simp only [hklt, if_true, Option.some.injEq] at hj
      subst hj
      exact absurd ht (other i bi (fun e => hik e.symm) hi hvi)
    · rw [if_neg hjk, ← List.get?_eq_getElem?] at hj
      exact hu i j bi bj hi hj hvi hvj ht

/-- The sets after an access that returns: unchanged, or one block of the set of the
address replaced by a valid block, which keeps the tag of the valid block found or gets the
tag of the address where no valid block had it. -/
theorem access_sets (c : Cache) (A : Nat) (size : MemSize) (u w : Bool) (value rand r : Nat)
    (c2 : Cache) (h : c.access A size u w value rand = .ok (r, c2)) :
    c2.sets = c.sets ∨
      ∃ set k b found, c.sets.get? (toU32 (c.addrDecoder.getIndex A)) = some set ∧
        set.get? k = some found ∧
        c2.sets = c.sets.set (toU32 (c.addrDecoder.getIndex A)) (set.set k b) ∧
        b.valid = true ∧
        ((found.valid = true ∧ b.tag = found.tag) ∨ findBlockInSet b.tag set = none) := by
  have hlog : c.logStream = true := access_returns_logged c A size u w value rand _ h
  cases hset : c.sets.get? (toU32 (c.addrDecoder.getIndex A)) with
  | none =>
    rw [access_logged c hlog] at h
    unfold Cache.accessCore at h
    simp only [] at h
    rw [hset] at h
    exact absurd h (by simp)
  | some set =>
    cases hfind : findBlockInSet (toU64 (c.addrDecoder.getTag A)) set with
    | some k =>
      obtain ⟨found, r2, c3, b, hget, hacc, hsets, _, _, _, hbv, hbt, _⟩ :=
        access_hit c A size u w value rand set k hlog hset hfind
      obtain ⟨found2, hget2, hfv, _⟩ := findBlockInSet_some _ _ _ hfind
      rw [hget] at hget2
      injection hget2 with hget2
      subst hget2
      rw [hacc] at h
      simp only [Except.ok.injEq, Prod.mk.injEq] at h
      obtain ⟨_, h2⟩ := h
      subst h2
      exact Or.inr ⟨set, k, b, found, rfl, hget, hsets, hbv, Or.inl ⟨hfv, hbt⟩⟩
    | none =>
      by_cases hwt : w = true ∧ c.config.writePolicy = .WT
      · obtain ⟨hw, hp⟩ := hwt
        subst hw
        rw [access_write_miss_WT c A size u value rand set hlog hp hset hfind] at h
        simp only [Except.ok.injEq, Prod.mk.injEq] at h
        obtain ⟨_, h2⟩ := h
        subst h2
        exact Or.inl rfl
      · cases hrep : ({ c with accesses := c.accesses + 1, misses := c.misses + 1 } :
          Cache).replaceBlockCore set (toU32 (c.addrDecoder.getIndex A))
            (toU64 (c.addrDecoder.getTag A)) A w rand with
        | error f =>
          rw [access_logged c hlog] at h
          unfold Cache.accessCore at h
          simp only [] at h
          rw [hset] at h
          simp only [] at h
          rw [hfind] at h
          simp only [] at h
          rw [if_neg (by simpa using hwt), hrep] at h
          exact absurd h (by simp)
        | ok p =>
          obtain ⟨c3, v⟩ := p
          obtain ⟨r2, c4, b, hacc, hsets, _, _, _, _, hbv, hbt, _⟩ :=
            access_miss_allocate c A size u w value rand set c3 v hlog hset hfind hwt hrep
          obtain ⟨victim, _, hvget, _, _⟩ := replaceBlock_shape _ _ _ _ _ _ _ _ _ hrep
          rw [hacc] at h
          simp only [Except.ok.injEq, Prod.mk.injEq] at h
          obtain ⟨_, h2⟩ := h
          subst h2
          refine Or.inr ⟨set, v, b, victim, rfl, hvget, hsets, hbv, Or.inr ?_⟩
          rw [hbt]
          exact hfind

theorem access_tagsUnique (c : Cache) (A : Nat) (size : MemSize) (u w : Bool)
    (value rand r : Nat) (c2 : Cache) (h : c.access A size u w value rand = .ok (r, c2))
    (hu : ∀ set, set ∈ c.sets → TagsUnique set) :
    ∀ set, set ∈ c2.sets → TagsUnique set := by
  rcases access_sets c A size u w value rand r c2 h with hs | ⟨set, k, b, found, hset, hk,
    hs, _, hb⟩
  · rw [hs]
    exact hu
  · rw [hs]
    intro set2 hmem
    rcases List.mem_or_eq_of_mem_set hmem with hm | hm
    · exact hu set2 hm
    · rw [hm]
      exact tagsUnique_set set k b found (hu set (List.mem_iff_get?.2 ⟨_, hset⟩)) hk hb

theorem reachable_tagsUnique (c : Cache) (h : c.Reachable) :
    ∀ set, set ∈ c.sets → TagsUnique set := by
  induction h with
  | enable prior config mem c he =>
    obtain ⟨_, hb⟩ := enable_blocks prior config mem c he
    exact fun set hset => tagsUnique_of_invalid set (fun b hmem => (hb set hset b hmem).1)
  | read c address size isUnsigned rand value next _ hr ih =>
    exact access_tagsUnique c address size isUnsigned false 0 rand value next hr ih
  | write c address size value rand next _ hw ih =>
    unfold Cache.write at hw
    cases ha : c.access address size false true value rand with
    | error f => rw [ha] at hw; exact absurd hw (by simp)
    | ok p =>
      obtain ⟨r, c2⟩ := p
      rw [ha] at hw
      simp only [Except.ok.injEq] at hw
      subst hw
      exact access_tagsUnique c address size false true value rand r c2 ha ih
  | invalidate c _ _ =>
    exact fun set hset => tagsUnique_of_invalid set
      (fun b hmem => (invalidate_blocks c set hset b hmem).1)
  | memory c mem _ ih => exact ih

/-- C38: in every state of the cache reached from `Cache::enable` (with any configuration
it accepts, from any earlier state) by reads, writes and calls of `invalidate()`, whatever
happens to the memory behind it, no set holds two valid blocks with the same tag. Hence
the block `findBlockInSet` finds for a tag is the only valid block of the set with that
tag, and the tag of an address is held by at most one way of the set of that address. -/
theorem reachable_tags_unique (c : Cache) (h : c.Reachable) :
    (∀ set, set ∈ c.sets → ∀ i j bi bj, set.get? i = some bi → set.get? j = some bj →
      bi.valid = true → bj.valid = true → bi.tag = bj.tag → i = j) ∧
    (∀ set, set ∈ c.sets → ∀ tag k, findBlockInSet tag set = some k →
      ∀ j b, set.get? j = some b → b.valid = true → b.tag = tag → j = k) ∧
    (∀ (address : Nat) (set : List CacheBlock),
      c.sets.get? (toU32 (c.addrDecoder.getIndex address)) = some set →
      ∀ i j bi bj, set.get? i = some bi → set.get? j = some bj →
        bi.valid = true → bi.tag = toU64 (c.addrDecoder.getTag address) →
        bj.valid = true → bj.tag = toU64 (c.addrDecoder.getTag address) → i = j) := by
  have key := reachable_tagsUnique c h
  refine ⟨key, ?_, ?_⟩
  · intro set hset tag k hfind j b hj hv ht
    obtain ⟨found, hget, hfv, hft⟩ := findBlockInSet_some _ _ _ hfind
    exact key set hset j k b found hj hget hv hfv (by rw [ht, hft])
  · intro address set hset i j bi bj hi hj hvi hti hvj htj
    exact key set (List.mem_iff_get?.2 ⟨_, hset⟩) i j bi bj hi hj hvi hvj (by rw [hti, htj])

/-- Witness of C38: a write-back cache of two sets of two ways, with a log stream, after a
write at 0x00 and a read at 0x20, which fall into set 0 with the tags 0 and 1: the search
for tag 1 returns way 1, and no other way of the set holds a valid block with tag 1. -/
theorem reachable_tags_unique_witness :
    findBlockInSet 1 ((Cache.orNew (((Cache.orNew ((Cache.orNew ((Cache.new
        Memory.empty).setLogStream.enable
        ⟨64, 16, 2, .LRU, .WB⟩ Memory.empty)).write 0x00 .Word 7 0)).read 0x20 .Word false
          0).map Prod.snd)).sets.getD 0 []) = some 1 ∧
    (∀ j b, ((Cache.orNew (((Cache.orNew ((Cache.orNew ((Cache.new Memory.empty).setLogStream.enable
        ⟨64, 16, 2, .LRU, .WB⟩ Memory.empty)).write 0x00 .Word 7 0)).read 0x20 .Word false
          0).map Prod.snd)).sets.getD 0 []).get? j = some b →
      b.valid = true → b.tag = 1 → j = 1) :=
  ⟨rfl, (reachable_tags_unique
    (Cache.orNew (((Cache.orNew ((Cache.orNew ((Cache.new Memory.empty).setLogStream.enable
        ⟨64, 16, 2, .LRU, .WB⟩ Memory.empty)).write 0x00 .Word 7 0)).read 0x20 .Word false
          0).map Prod.snd))
    (.read (Cache.orNew ((Cache.orNew ((Cache.new Memory.empty).setLogStream.enable
        ⟨64, 16, 2, .LRU, .WB⟩ Memory.empty)).write 0x00 .Word 7 0)) 0x20 .Word false 0 _ _
      (.write (Cache.orNew ((Cache.new Memory.empty).setLogStream.enable
          ⟨64, 16, 2, .LRU, .WB⟩ Memory.empty)) 0x00 .Word 7 0 _
        (.enable (Cache.new Memory.empty).setLogStream ⟨64, 16, 2, .LRU, .WB⟩ Memory.empty _ rfl)
            rfl)
      rfl)).2.1 _ (List.mem_iff_get?.2 ⟨0, rfl⟩) 1 1 rfl⟩

/-! ## Cache: write-through blocks and the memory -/

/-- A state reached by `n` accesses within blocks stands for a reference memory, and its
access counter is at most `n`. -/
theorem reachedInBlock_rel (cfg : CacheConfig) (k : Nat) (hbs : cfg.blockSize = 2 ^ k)
    (hsize : cfg.cacheSize < 2147483648) (hsets : 1 ≤ (enableShape cfg).1)
    (hways : 1 ≤ (enableShape cfg).2) (n : Nat) (c : Cache)
    (h : Cache.ReachedInBlock cfg n c) (hn : n < 18446744073709551615) :
    ∃ m, CacheRel cfg k cfg.getIndexBits c m ∧ c.accesses ≤ n := by
  obtain ⟨hob, hbits, _, _⟩ := enable_bits cfg k hbs hsize hsets hways
  induction h with
  | enable prior mem c he =>
    obtain ⟨c2, he2, rel, hacc, _⟩ := enable_ok prior cfg mem k hbs hsize hsets hways
    rw [he] at he2
    injection he2 with he2
    subst he2
    exact ⟨mem, rel, by omega⟩
  | read n c address size isUnsigned rand value next _ hin hr ih =>
    obtain ⟨m, rel, hacc⟩ := ih (by omega)
    obtain ⟨hA, hsz, hblk⟩ := hin
    simp only [MemOp.address, MemOp.size, hbs] at hA hsz hblk
    obtain ⟨r, c2, heq, rel2, hacc2, _⟩ := access_ok cfg k cfg.getIndexBits hbs hob rfl hbits
      c m rel (read_logStream c address size isUnsigned rand value next hr).1 (by omega)
      address size isUnsigned false 0 rand hA hsz hblk
    unfold Cache.read at hr
    rw [heq] at hr
    simp only [Except.ok.injEq, Prod.mk.injEq] at hr
    obtain ⟨_, h2⟩ := hr
    subst h2
    rw [if_neg (by simp)] at rel2
    exact ⟨m, rel2, by omega⟩
  | write n c address size value rand next _ hin hw ih =>
    obtain ⟨m, rel, hacc⟩ := ih (by omega)
    obtain ⟨hA, hsz, hblk⟩ := hin
    simp only [MemOp.address, MemOp.size, hbs] at hA hsz hblk
    obtain ⟨r, c2, heq, rel2, hacc2, _⟩ := access_ok cfg k cfg.getIndexBits hbs hob rfl hbits
      c m rel (write_logStream c address size value rand next hw).1 (by omega)
      address size false true value rand hA hsz hblk
    unfold Cache.write at hw
    rw [heq] at hw
    simp only [Except.ok.injEq] at hw
    subst hw
    rw [if_pos rfl] at rel2
    exact ⟨_, rel2, by omega⟩

/-- Under write-through a valid block of a cache that stands for a reference memory holds
the bytes the memory behind the cache has over the address range of the block. -/
theorem cacheRel_WT_block (cfg : CacheConfig) (ob ib : Nat) (hbs : cfg.blockSize = 2 ^ ob)
    (hob : cfg.getOffsetBits = ob) (hib : cfg.getIndexBits = ib) (hbits : ob + ib ≤ 30)
    (hwt : cfg.writePolicy = .WT) (c : Cache) (m : Memory) (rel : CacheRel cfg ob ib c m)
    (s j : Nat) (b : CacheBlock) (hb : blockAt c.sets s j = some b) (hv : b.valid = true) :
    b.data.length = cfg.blockSize ∧
      ∀ i, i < cfg.blockSize →
        b.getBlockAddress c.config + i < 4294967296 ∧
        b.data.get? i = some (c.memory.memory (b.getBlockAddress c.config + i)) := by
  obtain ⟨hcfg, _, _, _, inv⟩ := rel
  obtain ⟨hidx, hlen, _, _, a, ha, hia, hta⟩ := inv.wf s j b hb hv
  refine ⟨by rw [hlen, hbs], ?_⟩
  intro i hi
  rw [hbs] at hi
  have hP : 0 < 2 ^ ob := by positivity
  have haddr : b.getBlockAddress c.config = a / 2 ^ ob * 2 ^ ob := by
    rw [hcfg]
    exact getBlockAddress_eq b cfg ob ib a hob hib hbits ha (by rw [hidx, ← hia]; rfl)
      (by rw [← hta]; rfl)
  have h32 : (4294967296 : Nat) = 2 ^ (32 - ob) * 2 ^ ob := by
    rw [← Nat.pow_add]
    have : 32 - ob + ob = 32 := by omega
    rw [this]
  have hq : a / 2 ^ ob < 2 ^ (32 - ob) := by
    rw [Nat.div_lt_iff_lt_mul hP]
    omega
  have hlt : a / 2 ^ ob * 2 ^ ob + i < 4294967296 := by
    have : (a / 2 ^ ob + 1) * 2 ^ ob ≤ 2 ^ (32 - ob) * 2 ^ ob :=
      Nat.mul_le_mul_right _ (by omega)
    rw [Nat.add_mul] at this
    omega
  have hdiv : (a / 2 ^ ob * 2 ^ ob + i) / 2 ^ ob = a / 2 ^ ob := by
    rw [Nat.mul_comm, Nat.mul_add_div hP, Nat.div_eq_of_lt hi, Nat.add_zero]
  have hmod : (a / 2 ^ ob * 2 ^ ob + i) % 2 ^ ob = i := by
    rw [Nat.mul_comm, Nat.mul_add_mod, Nat.mod_eq_of_lt hi]
  obtain ⟨hsi, hst⟩ := (same_block ob ib (a / 2 ^ ob * 2 ^ ob + i) a hbits hlt ha).2 hdiv
  rw [haddr]
  refine ⟨hlt, ?_⟩
  obtain ⟨hdata, hmem⟩ := inv.hit (a / 2 ^ ob * 2 ^ ob + i) j b hlt
    (by rw [hsi, hia]; exact hb) hv (by rw [hst, hta])
  rw [hmod] at hdata
  rw [hdata, hmem (Or.inr hwt)]

/-- C39: under WT the blocks of the cache agree with the memory. Take a configuration with
the write policy WT whose block size is a power of two, whose cache size is an `int`, and
for which `Cache::enable` lays out at least one set and one way. In every state reached
from `Cache::enable` (over any memory, from any earlier state) by fewer than 2^64 - 1 reads
and writes of size 1, 2 or 4 at `uint32_t` addresses, none crossing a block boundary, with
any replacement policy, every valid block holds `blockSize` bytes, and byte `i` of its data
is the byte the memory behind the cache has at the address of the block plus `i`. -/
theorem write_through_blocks_match_memory (cfg : CacheConfig) (k : Nat)
    (hbs : cfg.blockSize = 2 ^ k) (hsize : cfg.cacheSize < 2147483648)
    (hsets : 1 ≤ (enableShape cfg).1) (hways : 1 ≤ (enableShape cfg).2)
    (hwt : cfg.writePolicy = .WT) (n : Nat) (hn : n < 18446744073709551615) (c : Cache)
    (h : Cache.ReachedInBlock cfg n c) :
    ∀ set, set ∈ c.sets → ∀ b, b ∈ set → b.valid = true →
      b.data.length = cfg.blockSize ∧
      ∀ i, i < cfg.blockSize →
        b.getBlockAddress c.config + i < 4294967296 ∧
        b.data.get? i = some (c.memory.memory (b.getBlockAddress c.config + i)) := by
  obtain ⟨hob, hbits, _, _⟩ := enable_bits cfg k hbs hsize hsets hways
  obtain ⟨m, rel, _⟩ := reachedInBlock_rel cfg k hbs hsize hsets hways n c h hn
  intro set hset b hb hv
  obtain ⟨s, hs⟩ := List.mem_iff_get?.1 hset
  obtain ⟨j, hj⟩ := List.mem_iff_get?.1 hb
  exact cacheRel_WT_block cfg k cfg.getIndexBits hbs hob rfl hbits hwt c m rel s j b
    (by rw [blockAt_eq _ _ _ _ hs]; exact hj) hv

/-- Witness of C39: a write-through cache of two sets of two ways, with a log stream, after
a word written at 0x00 (a miss that allocates nothing), a word read at 0x00 (which loads
the block) and a half-word written at 0x04 (a hit): way 0 of set 0 is valid and holds the
16 bytes the memory has from the address of the block on. -/
theorem write_through_blocks_match_memory_witness :
    (((Cache.orNew ((Cache.orNew (((Cache.orNew ((Cache.orNew ((Cache.new
        Memory.empty).setLogStream.enable
      ⟨64, 16, 2, .LRU, .WT⟩ Memory.empty)).write 0x00 .Word 0x11223344 0)).read 0x00 .Word false
      0).map Prod.snd)).write 0x04 .HalfWord 0xBEEF 0)).sets.getD 0 []).getD 0 {}).valid = true ∧
    (((Cache.orNew ((Cache.orNew (((Cache.orNew ((Cache.orNew ((Cache.new
        Memory.empty).setLogStream.enable
      ⟨64, 16, 2, .LRU, .WT⟩ Memory.empty)).write 0x00 .Word 0x11223344 0)).read 0x00 .Word false
      0).map Prod.snd)).write 0x04 .HalfWord 0xBEEF 0)).sets.getD 0 []).getD 0 {}).data.length =
      (⟨64, 16, 2, .LRU, .WT⟩ : CacheConfig).blockSize ∧
    (∀ i, i < (⟨64, 16, 2, .LRU, .WT⟩ : CacheConfig).blockSize →
      (((Cache.orNew ((Cache.orNew (((Cache.orNew ((Cache.orNew ((Cache.new
          Memory.empty).setLogStream.enable
        ⟨64, 16, 2, .LRU, .WT⟩ Memory.empty)).write 0x00 .Word 0x11223344 0)).read 0x00 .Word
        false 0).map Prod.snd)).write 0x04 .HalfWord 0xBEEF 0)).sets.getD 0 []).getD 0
        {}).getBlockAddress (Cache.orNew ((Cache.orNew (((Cache.orNew ((Cache.orNew ((Cache.new
        Memory.empty).setLogStream.enable ⟨64, 16, 2, .LRU, .WT⟩ Memory.empty)).write 0x00 .Word
            0x11223344
        0)).read 0x00 .Word false 0).map Prod.snd)).write 0x04 .HalfWord 0xBEEF 0)).config + i <
        4294967296 ∧
      (((Cache.orNew ((Cache.orNew (((Cache.orNew ((Cache.orNew ((Cache.new
          Memory.empty).setLogStream.enable
        ⟨64, 16, 2, .LRU, .WT⟩ Memory.empty)).write 0x00 .Word 0x11223344 0)).read 0x00 .Word
        false 0).map Prod.snd)).write 0x04 .HalfWord 0xBEEF 0)).sets.getD 0 []).getD 0
        {}).data.get? i = some ((Cache.orNew ((Cache.orNew (((Cache.orNew ((Cache.orNew
        ((Cache.new Memory.empty).setLogStream.enable ⟨64, 16, 2, .LRU, .WT⟩ Memory.empty)).write
            0x00 .Word
        0x11223344 0)).read 0x00 .Word false 0).map Prod.snd)).write 0x04 .HalfWord 0xBEEF
        0)).memory.memory ((((Cache.orNew ((Cache.orNew (((Cache.orNew ((Cache.orNew ((Cache.new
        Memory.empty).setLogStream.enable ⟨64, 16, 2, .LRU, .WT⟩ Memory.empty)).write 0x00 .Word
            0x11223344
        0)).read 0x00 .Word false 0).map Prod.snd)).write 0x04 .HalfWord 0xBEEF 0)).sets.getD 0
        []).getD 0 {}).getBlockAddress (Cache.orNew ((Cache.orNew (((Cache.orNew ((Cache.orNew
        ((Cache.new Memory.empty).setLogStream.enable ⟨64, 16, 2, .LRU, .WT⟩ Memory.empty)).write
            0x00 .Word
        0x11223344 0)).read 0x00 .Word false 0).map Prod.snd)).write 0x04 .HalfWord 0xBEEF
        0)).config + i))) :=
  ⟨rfl, write_through_blocks_match_memory ⟨64, 16, 2, .LRU, .WT⟩ 4 rfl (by decide) (by decide)
    (by decide) rfl 3
    (by decide) _
    (.write 2 (Cache.orNew (((Cache.orNew ((Cache.orNew ((Cache.new
        Memory.empty).setLogStream.enable ⟨64, 16,
      2, .LRU, .WT⟩ Memory.empty)).write 0x00 .Word 0x11223344 0)).read 0x00 .Word false 0).map
      Prod.snd)) 0x04 .HalfWord 0xBEEF 0 _ (.read 1 (Cache.orNew ((Cache.orNew ((Cache.new
      Memory.empty).setLogStream.enable ⟨64, 16, 2, .LRU, .WT⟩ Memory.empty)).write 0x00 .Word
          0x11223344 0))
      0x00 .Word false 0 _ _ (.write 0 (Cache.orNew ((Cache.new Memory.empty).setLogStream.enable
          ⟨64, 16, 2,
      .LRU, .WT⟩ Memory.empty)) 0x00 .Word 0x11223344 0 _ (.enable (Cache.new
          Memory.empty).setLogStream
      Memory.empty _ rfl) (by decide) rfl) (by decide) rfl) (by decide) rfl)
    _ (List.mem_iff_get?.2 ⟨0, rfl⟩) _ (List.mem_iff_get?.2 ⟨0, rfl⟩) rfl⟩

end RiscvSim
